import Mathlib

/-!
# Lattice Hash Forest: a shallow embedding of `lhf.hpp`

The development embeds `lhf::LatticeHashForest` (file
`src/vfspta/include/lhf/lhf.hpp`) in the configuration that the graph adapters
of `src/template.hpp` require: `BaseGraphAPI::get_points_to_set` hands a
`std::vector<NodeIdT>` to `register_set`, so `PropertySet` is `std::vector`
(`LHF_USE_SORTED_VECTOR_FOR_PROPERTY_SETS`) and the cursor based branches
guarded by `LHF_USE_ORDERED_CONTAINER_FOR_PROPERTY_SETS` are the ones compiled
(the other branches insert into and erase from a hash set and do not apply to
a vector).
The build modelled has `LHF_ENABLE_DEBUG` and `LHF_ENABLE_PERFORMANCE_METRICS`
defined: index checks raise `AssertError` and the counters are maintained.

* a `PropertySet` is a `List α`, exactly the element sequence of the vector;
* the element type `α` carries a linear order: `less` is `std::less`, `equal`
  is `std::equal_to`;
* every `std::unordered_map` is an association list with the map's own key
  equality; `insert` keeps an existing entry;
* a member function is a function from the state before the call to the pair
  of what the call produced (a value or the `AssertError` thrown) and the state
  after the call, so that the state left behind by a throwing call is visible.
-/

set_option linter.unusedSectionVars false

namespace lhf

/-- Index of a set in the property set storage (`using Index = std::size_t`). -/
abbrev Index := Nat

/-- The index of the empty set (`EMPTY_SET = 0`). -/
def EMPTY_SET : Index := 0

/-- Operands of a binary operation (`struct OperationNode`). -/
structure OperationNode where
  left : Index
  right : Index
deriving DecidableEq, Repr

/-- The comparison `OperationNode::operator<`. -/
def OperationNode.lt (p op : OperationNode) : Bool :=
  decide (p.left < op.left) || decide (p.right < op.right)

/-- The comparison `OperationNode::operator==`. -/
def OperationNode.eq (p op : OperationNode) : Bool :=
  decide (p.left = op.left) && decide (p.right = op.right)

/-- The enum `SubsetRelation`. -/
inductive SubsetRelation where
  | UNKNOWN
  | SUBSET
  | SUPERSET
deriving DecidableEq, Repr

/-- What `EXCEPT(...)` throws: the two messages used by the debug checks. -/
inductive AssertError where
  /-- "Invalid index supplied" -/
  | invalidIndex
  /-- "Equal set condition not handled by caller" -/
  | equalSet
deriving DecidableEq, Repr

deriving instance DecidableEq for Except

/-! ## Hash maps as association lists -/

/-- The lookup `std::unordered_map::find` with key equality `eq`: the value
stored under a key equal to `k`, if there is one. -/
def mapFind {κ ν : Type} (eq : κ → κ → Bool) : List (κ × ν) → κ → Option ν
  | [], _ => none
  | (k1, v) :: m, k => if eq k1 k then some v else mapFind eq m k

/-- The insertion `std::unordered_map::insert`: nothing happens when an equal
key is already present. -/
def mapInsert {κ ν : Type} (eq : κ → κ → Bool) (m : List (κ × ν)) (k : κ) (v : ν) :
    List (κ × ν) :=
  match mapFind eq m k with
  | some _ => m
  | none => (k, v) :: m

/-! ## Element comparisons and the set comparator -/

section Elements

variable {α : Type} [LinearOrder α]

/-- The comparator `LatticeHashForest::less` (`PropertyLess = std::less`). -/
def less (a b : α) : Bool := decide (a < b)

/-- The comparator `LatticeHashForest::equal` (`PropertyEqual = std::equal_to`). -/
def equal (a b : α) : Bool := decide (a = b)

/-- The cursor loop of `SetEqual::operator()`: walks both sequences in step and
stops at the first position whose elements are not `equal`. The second sequence
is as long as the first when the loop is entered. -/
def SetEqual.loop : List α → List α → Bool
  | [], _ => true
  | _ :: _, [] => false
  | x :: xs, y :: ys => if !(equal x y) then false else SetEqual.loop xs ys

/-- The key equality `SetEqual::operator()` of the property set map, ordered
container branch: equal sizes, then position by position. -/
def SetEqual (a b : List α) : Bool :=
  if a.length ≠ b.length then false
  else if a.length = 0 then true
  else SetEqual.loop a b

/-! ## The three cursor merges -/

/-- Inner loop of the union merge while `cursor_1` rests on `x` (followed by
`xs`) and `cursor_2` advances; `k` continues once `cursor_1` has moved on. -/
def unionAux (x : α) (xs : List α) (k : List α → List α) : List α → List α
  | [] => x :: xs
  | y :: ys =>
    if less y x then y :: unionAux x xs k ys
    else x :: (if !(less x y) then k ys else k (y :: ys))

/-- The merge of `set_union` (lines 839-855): the sequence pushed into
`new_set` for operands `first` and `second`. -/
def unionMerge : List α → List α → List α
  | [], second => second
  | x :: xs, second => unionAux x xs (fun zs => unionMerge xs zs) second

/-- Inner loop of the intersection merge while `cursor_1` rests on `x`. -/
def interAux (x : α) (k : List α → List α) : List α → List α
  | [] => []
  | y :: ys =>
    if less x y then k (y :: ys)
    else if !(less y x) then x :: k ys
    else interAux x k ys

/-- The merge of `set_intersection` (lines 1073-1084). -/
def interMerge : List α → List α → List α
  | [], _ => []
  | x :: xs, second => interAux x (fun zs => interMerge xs zs) second

/-- Inner loop of the difference merge while `cursor_1` rests on `x`. -/
def diffAux (x : α) (xs : List α) (k : List α → List α) : List α → List α
  | [] => x :: xs
  | y :: ys =>
    if less x y then x :: k (y :: ys)
    else if !(less y x) then k ys
    else diffAux x xs k ys

/-- The merge of `set_difference` (lines 962-976). -/
def diffMerge : List α → List α → List α
  | [], _ => []
  | x :: xs, second => diffAux x xs (fun zs => diffMerge xs zs) second

end Elements

/-! ## Performance counters -/

/-- The counters of one operation (`struct OperationPerf`), all zero when the
entry is created. The counters are `size_t`; they are counted in `Nat`, a
wrap-around after `2^64` increments is not modelled. -/
structure OperationPerf where
  hits : Nat := 0
  equal_hits : Nat := 0
  subset_hits : Nat := 0
  empty_hits : Nat := 0
  cold_misses : Nat := 0
  edge_misses : Nat := 0
deriving DecidableEq, Repr

/-- The counter named by the second argument of `LHF_PERF_INC`. -/
inductive PerfCategory where
  | hits
  | equal_hits
  | subset_hits
  | empty_hits
  | cold_misses
  | edge_misses
deriving DecidableEq, Repr

/-- The increment `counter ++` of the named counter. -/
def OperationPerf.incr (p : OperationPerf) : PerfCategory → OperationPerf
  | .hits => { p with hits := p.hits + 1 }
  | .equal_hits => { p with equal_hits := p.equal_hits + 1 }
  | .subset_hits => { p with subset_hits := p.subset_hits + 1 }
  | .empty_hits => { p with empty_hits := p.empty_hits + 1 }
  | .cold_misses => { p with cold_misses := p.cold_misses + 1 }
  | .edge_misses => { p with edge_misses := p.edge_misses + 1 }

/-- The statement `perf[key].category ++` on `HashMap<String, OperationPerf>`:
`operator[]` creates a zeroed entry for a key that is not there yet. -/
def perfIncr : List (String × OperationPerf) → String → PerfCategory →
    List (String × OperationPerf)
  | [], key, c => [(key, OperationPerf.incr {} c)]
  | (k, p) :: m, key, c =>
    if k = key then (k, p.incr c) :: m else (k, p) :: perfIncr m key c

/-- Reading `perf[key]`: the entry, or zeros when there is none. -/
def perfGet (m : List (String × OperationPerf)) (key : String) : OperationPerf :=
  (mapFind (fun a b => decide (a = b)) m key).getD {}

/-! ## The forest -/

/-- The data members of `struct LatticeHashForest`. A key of
`property_set_map` is a pointer to a stored set compared by `SetEqual`; it is
represented by the set pointed to, which never changes once stored. -/
structure LatticeHashForest (α : Type) where
  perf : List (String × OperationPerf) := []
  property_sets : List (List α) := []
  property_set_map : List (List α × Index) := []
  unions : List (OperationNode × Index) := []
  intersections : List (OperationNode × Index) := []
  differences : List (OperationNode × Index) := []
  subsets : List (OperationNode × SubsetRelation) := []

section Forest

variable {α : Type} [LinearOrder α]

/-- The statement `LHF_PERF_INC(oper, category)`. -/
def LHF_PERF_INC (s : LatticeHashForest α) (oper : String) (category : PerfCategory) :
    LatticeHashForest α :=
  { s with perf := perfIncr s.perf oper category }

/-- The value `property_sets.size() - 1` in `std::size_t` arithmetic; a vector
never holds `2^64` sets, so the subtraction wraps for the empty vector only. -/
def lastIndex (s : LatticeHashForest α) : Nat :=
  if s.property_sets.length = 0 then 2 ^ 64 - 1 else s.property_sets.length - 1

/-- The condition under which `LHF_PROPERTY_SET_INDEX_VALID(index)` throws:
`index < 0 || index > property_sets.size() - 1` (the first disjunct is never
true of an unsigned index). -/
def indexInvalid (s : LatticeHashForest α) (index : Index) : Bool :=
  decide (index > lastIndex s)

/-- The condition under which `LHF_PROPERTY_SET_PAIR_VALID(a, b)` throws. -/
def pairInvalid (s : LatticeHashForest α) (a b : Index) : Bool :=
  indexInvalid s a || indexInvalid s b

/-- The member `is_empty`. -/
def is_empty (i : Index) : Bool := decide (i = EMPTY_SET)

/-- The member `is_subset`: the relation stored under the key `{a, b}` as
given. -/
def is_subset (s : LatticeHashForest α) (a b : Index) : Except AssertError SubsetRelation :=
  if pairInvalid s a b then .error .invalidIndex
  else
    match mapFind OperationNode.eq s.subsets ⟨a, b⟩ with
    | none => .ok .UNKNOWN
    | some r => .ok r

/-- The member `store_subset`: records `a` as a subset of `b` under the key in
index order. -/
def store_subset (s : LatticeHashForest α) (a b : Index) :
    Except AssertError Unit × LatticeHashForest α :=
  if pairInvalid s a b then (.error .invalidIndex, s)
  else if a = b then (.error .equalSet, s)
  else if a > b then
    (.ok (), { s with subsets := mapInsert OperationNode.eq s.subsets ⟨b, a⟩ .SUPERSET })
  else
    (.ok (), { s with subsets := mapInsert OperationNode.eq s.subsets ⟨a, b⟩ .SUBSET })

/-- The member `register_set(PropertySet &c, bool &cold)`: the returned index,
the value left in `cold`, and the state after the call. The other three
overloads run the same statements and differ only in not reporting `cold`. -/
def register_set (s : LatticeHashForest α) (c : List α) :
    Index × Bool × LatticeHashForest α :=
  match mapFind SetEqual s.property_set_map c with
  | none =>
    let s1 := LHF_PERF_INC s "property_sets" .cold_misses
    let s2 := { s1 with property_sets := s1.property_sets ++ [c] }
    let ret := s2.property_sets.length - 1
    (ret, true,
      { s2 with property_set_map := mapInsert SetEqual s2.property_set_map c ret })
  | some i => (i, false, LHF_PERF_INC s "property_sets" .hits)

/-- The member `register_set_single(const PropertyT &c, bool &cold)`: the same
statements as `register_set`, run on the freshly allocated `PropertySet{c}`. -/
def register_set_single (s : LatticeHashForest α) (c : α) :
    Index × Bool × LatticeHashForest α :=
  match mapFind SetEqual s.property_set_map [c] with
  | none =>
    let s1 := LHF_PERF_INC s "property_sets" .cold_misses
    let s2 := { s1 with property_sets := s1.property_sets ++ [[c]] }
    let ret := s2.property_sets.length - 1
    (ret, true,
      { s2 with property_set_map := mapInsert SetEqual s2.property_set_map [c] ret })
  | some i => (i, false, LHF_PERF_INC s "property_sets" .hits)

/-- The member `get_value`. Reading `property_sets[index]` after the check is
in range whenever a set is stored; the empty list stands for the read that
the check lets through on an empty vector. -/
def get_value (s : LatticeHashForest α) (index : Index) : Except AssertError (List α) :=
  if indexInvalid s index then .error .invalidIndex
  else .ok (s.property_sets.getD index [])

/-- The member `size_of`. -/
def size_of (s : LatticeHashForest α) (index : Index) : Except AssertError Nat :=
  if index = EMPTY_SET then .ok 0
  else
    match get_value s index with
    | .ok v => .ok v.length
    | .error e => .error e

/-- What a call of `contains` comes to. Besides returning or throwing, the
binary search can read `s[pos]` at a position past the end of the vector,
which is undefined behaviour; `unfinished` says that the loop was still
running when the iteration budget of the model was used up. -/
inductive ContainsResult where
  | returned (b : Bool)
  | threw (e : AssertError)
  | readOutside (pos : Nat)
  | unfinished
deriving DecidableEq, Repr

/-- The linear scan of `contains` (lines 755-759): `true` at the first element
`equal` to `prop`, `false` when the range is exhausted. -/
def linearScan (prop : α) : List α → Bool
  | [] => false
  | i :: rest => if equal i prop then true else linearScan prop rest

/-- The binary search loop of `contains` (lines 765-775) on `std::size_t`
cursors, run for at most `fuel` iterations. `mid + 1` cannot overflow, `mid`
being a position of the vector; `mid - 1` wraps to `2^64 - 1` at `mid = 0`. -/
def binarySearch (s : List α) (prop : α) : Nat → Nat → Nat → ContainsResult
  | 0, _, _ => .unfinished
  | fuel + 1, low, high =>
    if low ≤ high then
      let mid := low + (high - low) / 2
      match s[mid]? with
      | none => .readOutside mid
      | some v =>
        if equal v prop then .returned true
        else if less v prop then binarySearch s prop fuel (mid + 1) high
        else binarySearch s prop fuel low ((mid + 2 ^ 64 - 1) % 2 ^ 64)
    else .returned false

/-- The member `contains`, sorted vector branch. The macro
`LHF_SORTED_VECTOR_BINARY_SEARCH_THRESHOLD` comes from `lhf_config.hpp`, which
is not among the sources, and is taken as the parameter `threshold`. The search
is given one iteration more than the vector has elements. -/
def contains (threshold : Nat) (s : LatticeHashForest α) (index : Index) (prop : α) :
    ContainsResult :=
  if index = EMPTY_SET then .returned false
  else
    match get_value s index with
    | .error e => .threw e
    | .ok v =>
      if v.length ≤ threshold then .returned (linearScan prop v)
      else binarySearch v prop (v.length + 1) 0 (v.length - 1)

/-- The statements of `set_union` after both caches have missed (lines
826-885): merge, register, cache the result, record the subset facts, count. -/
def set_union_miss (s : LatticeHashForest α) (a b : Index) :
    Except AssertError Index × LatticeHashForest α :=
  match get_value s a, get_value s b with
  | .ok first, .ok second =>
    let (ret, cold, s1) := register_set s (unionMerge first second)
    let s2 := { s1 with unions := mapInsert OperationNode.eq s1.unions ⟨a, b⟩ ret }
    let stored :=
      if ret = a then store_subset s2 b ret
      else if ret = b then store_subset s2 a ret
      else
        match store_subset s2 a ret with
        | (.ok _, s3) => store_subset s3 b ret
        | (.error e, s3) => (.error e, s3)
    match stored with
    | (.ok _, s4) =>
      (.ok ret, LHF_PERF_INC s4 "unions" (if cold then .cold_misses else .edge_misses))
    | (.error e, s4) => (.error e, s4)
  | .error e, _ => (.error e, s)
  | _, .error e => (.error e, s)

/-- The member `set_union`. -/
def set_union (s : LatticeHashForest α) (_a _b : Index) :
    Except AssertError Index × LatticeHashForest α :=
  if pairInvalid s _a _b then (.error .invalidIndex, s)
  else if _a = _b then (.ok _a, LHF_PERF_INC s "unions" .equal_hits)
  else if is_empty _a then (.ok _b, LHF_PERF_INC s "unions" .empty_hits)
  else if is_empty _b then (.ok _a, LHF_PERF_INC s "unions" .empty_hits)
  else
    let a := min _a _b
    let b := max _a _b
    match is_subset s a b with
    | .error e => (.error e, s)
    | .ok .SUBSET => (.ok b, LHF_PERF_INC s "unions" .subset_hits)
    | .ok .SUPERSET => (.ok a, LHF_PERF_INC s "unions" .subset_hits)
    | .ok .UNKNOWN =>
      match mapFind OperationNode.eq s.unions ⟨a, b⟩ with
      | none => set_union_miss s a b
      | some r => (.ok r, LHF_PERF_INC s "unions" .hits)

/-- The statements of `set_difference` after the cache has missed (lines
949-1003). -/
def set_difference_miss (s : LatticeHashForest α) (a b : Index) :
    Except AssertError Index × LatticeHashForest α :=
  match get_value s a, get_value s b with
  | .ok first, .ok second =>
    let (ret, cold, s1) := register_set s (diffMerge first second)
    let s2 := { s1 with differences := mapInsert OperationNode.eq s1.differences ⟨a, b⟩ ret }
    let stored :=
      if ret ≠ a then store_subset s2 ret a
      else
        let primed := mapInsert OperationNode.eq s2.intersections ⟨min a b, max a b⟩ EMPTY_SET
        (.ok (), { s2 with intersections := primed })
    match stored with
    | (.ok _, s4) =>
      (.ok ret, LHF_PERF_INC s4 "differences" (if cold then .cold_misses else .edge_misses))
    | (.error e, s4) => (.error e, s4)
  | .error e, _ => (.error e, s)
  | _, .error e => (.error e, s)

/-- The member `set_difference`. -/
def set_difference (s : LatticeHashForest α) (a b : Index) :
    Except AssertError Index × LatticeHashForest α :=
  if pairInvalid s a b then (.error .invalidIndex, s)
  else if a = b then (.ok EMPTY_SET, LHF_PERF_INC s "differences" .equal_hits)
  else if is_empty a then (.ok EMPTY_SET, LHF_PERF_INC s "differences" .empty_hits)
  else if is_empty b then (.ok a, LHF_PERF_INC s "differences" .empty_hits)
  else
    match mapFind OperationNode.eq s.differences ⟨a, b⟩ with
    | none => set_difference_miss s a b
    | some r => (.ok r, LHF_PERF_INC s "differences" .hits)

/-- The statements of `set_intersection` after both caches have missed (lines
1049-1104). -/
def set_intersection_miss (s : LatticeHashForest α) (a b : Index) :
    Except AssertError Index × LatticeHashForest α :=
  match get_value s a, get_value s b with
  | .ok first, .ok second =>
    let (ret, cold, s1) := register_set s (interMerge first second)
    let s2 :=
      { s1 with intersections := mapInsert OperationNode.eq s1.intersections ⟨a, b⟩ ret }
    let stored :=
      if ret ≠ a then store_subset s2 ret a
      else if ret ≠ b then store_subset s2 ret b
      else
        match store_subset s2 ret a with
        | (.ok _, s3) => store_subset s3 ret b
        | (.error e, s3) => (.error e, s3)
    match stored with
    | (.ok _, s4) =>
      (.ok ret, LHF_PERF_INC s4 "intersections" (if cold then .cold_misses else .edge_misses))
    | (.error e, s4) => (.error e, s4)
  | .error e, _ => (.error e, s)
  | _, .error e => (.error e, s)

/-- The member `set_intersection`. -/
def set_intersection (s : LatticeHashForest α) (_a _b : Index) :
    Except AssertError Index × LatticeHashForest α :=
  if pairInvalid s _a _b then (.error .invalidIndex, s)
  else if _a = _b then (.ok _a, LHF_PERF_INC s "intersections" .equal_hits)
  else if is_empty _a || is_empty _b then
    (.ok EMPTY_SET, LHF_PERF_INC s "intersections" .empty_hits)
  else
    let a := min _a _b
    let b := max _a _b
    match is_subset s a b with
    | .error e => (.error e, s)
    | .ok .SUBSET => (.ok a, LHF_PERF_INC s "intersections" .subset_hits)
    | .ok .SUPERSET => (.ok b, LHF_PERF_INC s "intersections" .subset_hits)
    | .ok .UNKNOWN =>
      match mapFind OperationNode.eq s.intersections ⟨a, b⟩ with
      | none => set_intersection_miss s a b
      | some r => (.ok r, LHF_PERF_INC s "intersections" .hits)

/-- The member `set_insert_single`: the argument `register_set_single(b)` is
evaluated first, then `set_union` runs on the state it leaves. -/
def set_insert_single (s : LatticeHashForest α) (a : Index) (b : α) :
    Except AssertError Index × LatticeHashForest α :=
  let (i, _, s1) := register_set_single s b
  set_union s1 a i

/-- The member `set_remove_single`. -/
def set_remove_single (s : LatticeHashForest α) (a : Index) (b : α) :
    Except AssertError Index × LatticeHashForest α :=
  let (i, _, s1) := register_set_single s b
  set_difference s1 a i

/-- The member `set_filter`; the caller's cache is passed in and handed back
as the third component. -/
def set_filter (s : LatticeHashForest α) (i : Index) (filter_func : α → Bool)
    (cache : List (Index × Index)) :
    Except AssertError Index × LatticeHashForest α × List (Index × Index) :=
  if indexInvalid s i then (.error .invalidIndex, s, cache)
  else if is_empty i then (.ok i, s, cache)
  else
    match mapFind (fun x y => decide (x = y)) cache i with
    | none =>
      match get_value s i with
      | .ok v =>
        let (new_index, cold, s1) := register_set s (v.filter filter_func)
        (.ok new_index,
          LHF_PERF_INC s1 "filter" (if cold then .cold_misses else .edge_misses),
          mapInsert (fun x y => decide (x = y)) cache i new_index)
      | .error e => (.error e, s, cache)
    | some r => (.ok r, LHF_PERF_INC s "filter" .hits, cache)

/-- The constructor `LatticeHashForest()`: the members take their default
initialisers and the empty set is registered. -/
def LatticeHashForest.new : LatticeHashForest α :=
  (register_set ({} : LatticeHashForest α) []).2.2

/-- The states a client can bring a forest into: construction followed by any
calls of the registering and set-algebra members, with arbitrary arguments. -/
inductive Reachable : LatticeHashForest α → Prop where
  | new : Reachable LatticeHashForest.new
  | register_set {s : LatticeHashForest α} (c : List α) :
      Reachable s → Reachable (register_set s c).2.2
  | register_set_single {s : LatticeHashForest α} (c : α) :
      Reachable s → Reachable (register_set_single s c).2.2
  | set_union {s : LatticeHashForest α} (a b : Index) :
      Reachable s → Reachable (set_union s a b).2
  | set_intersection {s : LatticeHashForest α} (a b : Index) :
      Reachable s → Reachable (set_intersection s a b).2
  | set_difference {s : LatticeHashForest α} (a b : Index) :
      Reachable s → Reachable (set_difference s a b).2
  | set_insert_single {s : LatticeHashForest α} (a : Index) (e : α) :
      Reachable s → Reachable (set_insert_single s a e).2
  | set_remove_single {s : LatticeHashForest α} (a : Index) (e : α) :
      Reachable s → Reachable (set_remove_single s a e).2
  | set_filter {s : LatticeHashForest α} (i : Index) (f : α → Bool)
      (cache : List (Index × Index)) :
      Reachable s → Reachable (set_filter s i f cache).2.1

/-! ## The invariant of reachable states -/

/-- An operation cache is exact for the merge `f`: an entry `(a, b) -> r` names
three stored sets, the third being the sequence `f` produces from the first
two. -/
def ExactCache (f : List α → List α → List α) (sets : List (List α))
    (m : List (OperationNode × Index)) : Prop :=
  ∀ a b r, mapFind OperationNode.eq m ⟨a, b⟩ = some r →
    ∃ A B, sets[a]? = some A ∧ sets[b]? = some B ∧ sets[r]? = some (f A B)

/-- The subset cache is sound: an entry `(x, y) -> SUBSET` names two stored sets
with every element of the first in the second, `SUPERSET` the other way, and
`UNKNOWN` is never stored. -/
def SoundSubsets (sets : List (List α)) (m : List (OperationNode × SubsetRelation)) : Prop :=
  ∀ x y rel, mapFind OperationNode.eq m ⟨x, y⟩ = some rel →
    rel ≠ .UNKNOWN ∧ ∃ X Y, sets[x]? = some X ∧ sets[y]? = some Y ∧
      (rel = .SUBSET → X ⊆ Y) ∧ (rel = .SUPERSET → Y ⊆ X)

/-- What `store_subset(a, b)` leaves in the subset cache `m` once its checks
have passed. -/
def recordSubset (m : List (OperationNode × SubsetRelation)) (a b : Index) :
    List (OperationNode × SubsetRelation) :=
  if a > b then mapInsert OperationNode.eq m ⟨b, a⟩ .SUPERSET
  else mapInsert OperationNode.eq m ⟨a, b⟩ .SUBSET

/-- The subset cache after the recording step of `set_union` (lines 871-878)
for operands `a`, `b` and registered result `ret`. -/
def unionRecord (m : List (OperationNode × SubsetRelation)) (a b ret : Index) :
    List (OperationNode × SubsetRelation) :=
  if ret = a then recordSubset m b ret
  else if ret = b then recordSubset m a ret
  else recordSubset (recordSubset m a ret) b ret

/-- The subset cache after the recording step of `set_intersection` (lines
1090-1097) for distinct operands: the third branch needs `ret = a = b`. -/
def interRecord (m : List (OperationNode × SubsetRelation)) (a b ret : Index) :
    List (OperationNode × SubsetRelation) :=
  if ret ≠ a then recordSubset m ret a else recordSubset m ret b

/-- The property set map lists exactly the stored sets with their indices. -/
def MapMatches (sets : List (List α)) (m : List (List α × Index)) : Prop :=
  ∀ c i, (c, i) ∈ m ↔ sets[i]? = some c

/-- The invariant kept by every member function. -/
structure Inv (s : LatticeHashForest α) : Prop where
  empty_first : s.property_sets[0]? = some []
  nodup : s.property_sets.Nodup
  map_matches : MapMatches s.property_sets s.property_set_map
  unions_exact : ExactCache unionMerge s.property_sets s.unions
  intersections_exact : ExactCache interMerge s.property_sets s.intersections
  differences_exact : ExactCache diffMerge s.property_sets s.differences
  subsets_sound : SoundSubsets s.property_sets s.subsets

/-- The forest part of two states agrees: store, property set map, the three
operation caches and the subset cache; only the counters may differ. -/
def SameForest (s t : LatticeHashForest α) : Prop :=
  t.property_sets = s.property_sets ∧ t.property_set_map = s.property_set_map ∧
    t.unions = s.unions ∧ t.intersections = s.intersections ∧
    t.differences = s.differences ∧ t.subsets = s.subsets

/-- The later state only has sets appended to the store of the earlier one. -/
def Extends (s t : LatticeHashForest α) : Prop :=
  ∃ added, t.property_sets = s.property_sets ++ added

/-- The store and the property set map are the same in both states. -/
def SameStore (s t : LatticeHashForest α) : Prop :=
  t.property_sets = s.property_sets ∧ t.property_set_map = s.property_set_map

/-- Between the two states the store and the property set map did not change,
or one set that the map did not list was appended with the next index. -/
def StoreStep (s t : LatticeHashForest α) : Prop :=
  SameStore s t ∨
    ∃ c, mapFind SetEqual s.property_set_map c = none ∧
      t.property_sets = s.property_sets ++ [c] ∧
      t.property_set_map = (c, s.property_sets.length) :: s.property_set_map

/-- Every set stored in the earlier state is stored under the same index in the
later one, and `get_value` reads it there. -/
def Stable (s t : LatticeHashForest α) : Prop :=
  Extends s t ∧
    ∀ i, i < s.property_sets.length →
      t.property_sets[i]? = s.property_sets[i]? ∧ get_value t i = get_value s i

/-- Every key of the subset cache is an ordered pair. -/
def OrderedSubsets (m : List (OperationNode × SubsetRelation)) : Prop :=
  ∀ x y rel, mapFind OperationNode.eq m ⟨x, y⟩ = some rel → x < y

/-- The subset cache is tight: an entry `(x, y) -> SUBSET` names two stored
sets, the first a subsequence of the second, `SUPERSET` the other way. -/
def SublistSubsets (sets : List (List α)) (m : List (OperationNode × SubsetRelation)) : Prop :=
  ∀ x y rel, mapFind OperationNode.eq m ⟨x, y⟩ = some rel →
    ∃ X Y, sets[x]? = some X ∧ sets[y]? = some Y ∧
      (rel = .SUBSET → X.Sublist Y) ∧ (rel = .SUPERSET → Y.Sublist X)

/-- The tag under which `store_subset(x, y)` files the containment of the set
`x` in the set `y`, the key being the pair in index order. -/
def subsetTag (x y : Index) : SubsetRelation :=
  if x > y then .SUPERSET else .SUBSET

/-- Every stored set is strictly ascending. -/
def AscendingStore (s : LatticeHashForest α) : Prop :=
  ∀ c ∈ s.property_sets, c.Pairwise (· < ·)

instance AscendingStore.decidable (s : LatticeHashForest α) : Decidable (AscendingStore s) :=
  inferInstanceAs (Decidable (∀ c ∈ s.property_sets, c.Pairwise (· < ·)))

/-- Every key of a cache is an ordered pair: its left index is below its right
index. -/
def OrderedKeys {ν : Type} (m : List (OperationNode × ν)) : Prop :=
  ∀ e ∈ m, e.1.left < e.1.right

instance decidableOrderedKeys {ν : Type} (m : List (OperationNode × ν)) :
    Decidable (OrderedKeys m) :=
  inferInstanceAs (Decidable (∀ e ∈ m, e.1.left < e.1.right))

/-- Every key of a cache pairs two different indices, neither of them the
index of the empty set. -/
def DistinctKeys {ν : Type} (m : List (OperationNode × ν)) : Prop :=
  ∀ e ∈ m, e.1.left ≠ e.1.right ∧ e.1.left ≠ EMPTY_SET ∧ e.1.right ≠ EMPTY_SET

instance decidableDistinctKeys {ν : Type} (m : List (OperationNode × ν)) :
    Decidable (DistinctKeys m) :=
  inferInstanceAs
    (Decidable (∀ e ∈ m, e.1.left ≠ e.1.right ∧ e.1.left ≠ EMPTY_SET ∧ e.1.right ≠ EMPTY_SET))

/-- The keys of the four caches of a state: ordered pairs in the union,
intersection and subset caches, pairs of different non-empty indices in the
difference cache. -/
def CacheKeys (s : LatticeHashForest α) : Prop :=
  OrderedKeys s.unions ∧ OrderedKeys s.intersections ∧ OrderedKeys s.subsets ∧
    DistinctKeys s.differences

instance decidableCacheKeys (s : LatticeHashForest α) : Decidable (CacheKeys s) :=
  inferInstanceAs (Decidable (OrderedKeys s.unions ∧ OrderedKeys s.intersections ∧
    OrderedKeys s.subsets ∧ DistinctKeys s.differences))

/-- Every entry of the map `m` is an entry of the map `m2`, with the same
value. -/
def MapKept {κ ν : Type} (eq : κ → κ → Bool) (m m2 : List (κ × ν)) : Prop :=
  ∀ k v, mapFind eq m k = some v → mapFind eq m2 k = some v

/-- Every entry of the union, intersection, difference and subset caches of
the state `s` is an entry of the same cache of the state `t`, with the same
value. -/
def CachesKept (s t : LatticeHashForest α) : Prop :=
  MapKept OperationNode.eq s.unions t.unions ∧
    MapKept OperationNode.eq s.intersections t.intersections ∧
    MapKept OperationNode.eq s.differences t.differences ∧
    MapKept OperationNode.eq s.subsets t.subsets

/-- A run of `register_set` calls, one per candidate: the index and the `cold`
flag of each call in order, and the state after the last call. -/
def registerAll (s : LatticeHashForest α) :
    List (List α) → List (Index × Bool) × LatticeHashForest α
  | [] => ([], s)
  | c :: cs =>
    (((register_set s c).1, (register_set s c).2.1) ::
        (registerAll (register_set s c).2.2 cs).1,
      (registerAll (register_set s c).2.2 cs).2)

/-- The indices handed out by the calls of a run that missed. -/
def coldIndices (results : List (Index × Bool)) : List Index :=
  (results.filter (fun r => r.2)).map (fun r => r.1)

end Forest

/-! ## The edge packing of the graph adapters (`template.hpp`) -/

/-- The type `NodeIdT` (`unsigned int`): a value below `2^32`. -/
abbrev NodeIdT := Nat

/-- The type `EdgeT` (`std::pair<NodeIdT, NodeIdT>`). -/
abbrev EdgeT := NodeIdT × NodeIdT

/-- The type `EdgePropertyT` (`long long`), held as its 64-bit two's complement
bit pattern, a value below `2^64`. -/
abbrev EdgePropertyT := Nat

/-- What `getEdgeProperty` throws: `std::out_of_range("Invalid Edge")`. -/
inductive GraphError where
  | invalidEdge
deriving DecidableEq, Repr

/-- The number a `long long` bit pattern stands for; the default comparator of
`LatticeHashForest<EdgePropertyT>` compares these. -/
def signedValue (p : EdgePropertyT) : Int :=
  if p < 2 ^ 63 then (p : Int) else (p : Int) - 2 ^ 64

/-- The shift `x >> 32` of a `long long`: the sign bit fills the upper half. -/
def shiftRightArith32 (p : EdgePropertyT) : EdgePropertyT :=
  if p < 2 ^ 63 then p >>> 32 else (p >>> 32) ||| 0xFFFFFFFF00000000

/-- The member `BaseGraphAPI::getEdgeProperty`. The cast
`static_cast<EdgePropertyT>` of a node id keeps its value; the shifted value is
taken modulo `2^64`. -/
def getEdgeProperty (graph : List EdgeT) (edge : EdgeT) : Except GraphError EdgePropertyT :=
  if edge ∉ graph then .error .invalidEdge
  else .ok (((edge.1 <<< 32) % 2 ^ 64) ||| edge.2)

/-- The member `BaseGraphAPI::getEdge`. The cast `static_cast<NodeIdT>` keeps
the low 32 bits. -/
def getEdge (edge_property : EdgePropertyT) : EdgeT :=
  (shiftRightArith32 edge_property % 2 ^ 32, (edge_property &&& 0xFFFFFFFF) % 2 ^ 32)

/-! ## The points-to queries of the graph adapters (`template.hpp`) -/

/-- The type `NodeHashForest` (`lhf::LatticeHashForest<unsigned int>`). -/
abbrev NodeHashForest := LatticeHashForest Nat

/-- The type `EdgeHashForest` (`lhf::LatticeHashForest<long long>`). Its
elements are `long long` numbers, which the default comparator `std::less`
compares as numbers. -/
abbrev EdgeHashForest := LatticeHashForest Int

/-- The 64-bit two's complement bit pattern of a `long long` number. -/
def toPattern (v : Int) : EdgePropertyT := (v % 2 ^ 64).toNat

/-- The data members of `class BaseGraphAPI`. -/
structure BaseGraphAPI where
  edgeForest : EdgeHashForest
  nodeForest : NodeHashForest

/-- The loop of `get_points_to_set(lhf::Index, NodeIdT)` (lines 190-195): the
targets of the edges that leave `node_id`, in the order of the edge set. -/
def pointsToLoop (node_id : NodeIdT) : List Int → List NodeIdT
  | [] => []
  | property :: rest =>
    if (getEdge (toPattern property)).1 = node_id then
      (getEdge (toPattern property)).2 :: pointsToLoop node_id rest
    else pointsToLoop node_id rest

/-- The member `get_points_to_set(lhf::Index a, NodeIdT node_id)`. -/
def get_points_to_set (g : BaseGraphAPI) (a : Index) (node_id : NodeIdT) :
    Except AssertError Index × BaseGraphAPI :=
  match get_value g.edgeForest a with
  | .error e => (.error e, g)
  | .ok property_set =>
    (.ok (register_set g.nodeForest (pointsToLoop node_id property_set)).1,
      { g with
        nodeForest := (register_set g.nodeForest (pointsToLoop node_id property_set)).2.2 })

/-- The loop of `get_points_to_set(lhf::Index a, const std::vector<NodeIdT>&)`
(lines 201-204) over the node ids still to come, from the value of `result`. -/
def pointsToUnion (a : Index) : List NodeIdT → Index → BaseGraphAPI →
    Except AssertError Index × BaseGraphAPI
  | [], result, g => (.ok result, g)
  | node_id :: rest, result, g =>
    match get_points_to_set g a node_id with
    | (.error e, g1) => (.error e, g1)
    | (.ok index, g1) =>
      match set_union g1.nodeForest result index with
      | (.error e, nf) => (.error e, { g1 with nodeForest := nf })
      | (.ok r, nf) => pointsToUnion a rest r { g1 with nodeForest := nf }

/-- The member `get_points_to_set(lhf::Index a, const std::vector<NodeIdT>&)`. -/
def get_points_to_set_ids (g : BaseGraphAPI) (a : Index) (node_ids : List NodeIdT) :
    Except AssertError Index × BaseGraphAPI :=
  pointsToUnion a node_ids EMPTY_SET g

/-- The member `get_points_to_set(lhf::Index a, lhf::Index idx)`. The vector it
iterates is the stored set of `idx`, which no later registration changes. -/
def get_points_to_set_index (g : BaseGraphAPI) (a idx : Index) :
    Except AssertError Index × BaseGraphAPI :=
  match get_value g.nodeForest idx with
  | .error e => (.error e, g)
  | .ok node_ids => get_points_to_set_ids g a node_ids

/-- What a call of `get_points_to_set` with a recursion depth comes to. The
counter of its loop is an `int`; `intOverflow` says that `i++` was run at
`i = 2^31 - 1`, which is undefined behaviour. `unfinished` says that the loop
was still running when the iteration budget of the model was used up. -/
inductive DepthResult where
  | returned (index : Index)
  | threw (e : AssertError)
  | intOverflow
  | unfinished
deriving DecidableEq, Repr

/-- The loop `for (int i = 1; i < recursion_depth; i++)` of
`get_points_to_set(lhf::Index, NodeIdT, unsigned int)` (lines 215-218), from
the values of `i` and `result`, run for at most `fuel` tests of its condition.
The counter is positive, so that its conversion to `unsigned int` for the
comparison keeps its value. -/
def depthLoop (a : Index) (recursion_depth : Nat) :
    Nat → Nat → Index → BaseGraphAPI → DepthResult × BaseGraphAPI
  | 0, _, _, g => (.unfinished, g)
  | fuel + 1, i, result, g =>
    if i < recursion_depth then
      match get_points_to_set_index g a result with
      | (.error e, g1) => (.threw e, g1)
      | (.ok r, g1) =>
        if is_empty r then (.returned r, g1)
        else if i + 1 < 2 ^ 31 then depthLoop a recursion_depth fuel (i + 1) r g1
        else (.intOverflow, g1)
    else (.returned result, g)

/-- The member `get_points_to_set(lhf::Index a, NodeIdT node_id, unsigned int
recursion_depth)`. The loop is given as many tests of its condition as the
depth counts. -/
def get_points_to_set_depth (g : BaseGraphAPI) (a : Index) (node_id : NodeIdT)
    (recursion_depth : Nat) : DepthResult × BaseGraphAPI :=
  if recursion_depth = 0 then (.returned 0, g)
  else
    match get_points_to_set g a node_id with
    | (.error e, g1) => (.threw e, g1)
    | (.ok result, g1) => depthLoop a recursion_depth recursion_depth 1 result g1

/-- The edge from `x` to `y` is in the edge set `E`: both are 32-bit node ids
and the packed value `(x << 32) | y`, as a `long long` number, is an element. -/
def hasEdge (E : List Int) (x y : NodeIdT) : Prop :=
  x < 2 ^ 32 ∧ y < 2 ^ 32 ∧ signedValue (x * 2 ^ 32 + y) ∈ E

instance decidableHasEdge (E : List Int) (x y : NodeIdT) : Decidable (hasEdge E x y) :=
  inferInstanceAs (Decidable (x < 2 ^ 32 ∧ y < 2 ^ 32 ∧ signedValue (x * 2 ^ 32 + y) ∈ E))

/-- The node `d` is reached from the node `n` by a path of exactly `k` edges
of the edge set `E`. -/
def reachExactly (E : List Int) (n : NodeIdT) : Nat → NodeIdT → Prop
  | 0, d => d = n
  | k + 1, d => ∃ m, reachExactly E n k m ∧ hasEdge E m d

/-! ## Concrete forests used as examples -/

/-- A fresh forest of numbers. -/
def fresh : LatticeHashForest Nat := LatticeHashForest.new

/-- The forest after `register_set({1,2,3})`, `register_set({2})`. -/
def sortedForest : LatticeHashForest Nat :=
  (register_set (register_set fresh [1, 2, 3]).2.2 [2]).2.2

/-- The forest after `register_set` was handed the unsorted vector `3, 1` and
then the vector `1`. -/
def unsortedForest : LatticeHashForest Nat :=
  (register_set (register_set fresh [3, 1]).2.2 [1]).2.2

/-- The forest `sortedForest` after `set_intersection(1, 2)`. -/
def intersectedForest : LatticeHashForest Nat :=
  (set_intersection sortedForest 1 2).2

/-- The forest after `register_set` of the seventeen numbers `1, ..., 17`. -/
def seventeenForest : LatticeHashForest Nat :=
  (register_set fresh [1, 2, 3, 4, 5, 6, 7, 8, 9, 10, 11, 12, 13, 14, 15, 16, 17]).2.2

/-- The forest after `register_set({1,2,3})`, `register_set({2,3,4})`. -/
def overlapForest : LatticeHashForest Nat :=
  (register_set (register_set fresh [1, 2, 3]).2.2 [2, 3, 4]).2.2

/-- The forest after `register_set({1,2,3})`, `register_set({4,5})`. -/
def disjointForest : LatticeHashForest Nat :=
  (register_set (register_set fresh [1, 2, 3]).2.2 [4, 5]).2.2

/-- The forest after `register_set` was handed the unsorted vector `2, 1` and
then the vector `2`, and `set_difference(1, 2)` was called. -/
def tangledForest : LatticeHashForest Nat :=
  (set_difference (register_set (register_set fresh [2, 1]).2.2 [2]).2.2 1 2).2

/-- The forest after `register_set` was handed the unsorted vector `3, 1` and
then the vector `1, 3`. -/
def swappedForest : LatticeHashForest Nat :=
  (register_set (register_set fresh [3, 1]).2.2 [1, 3]).2.2

/-- A graph adapter with two fresh forests after `set_insert_single` has put
the packed edges `(1, 2)`, `(2, 3)` and `(2, 4)` into the edge forest one by
one; the set of the three edges is at index `5` of the edge forest. -/
def chainGraph : BaseGraphAPI :=
  { edgeForest :=
      (set_insert_single
        (set_insert_single
          (set_insert_single (LatticeHashForest.new : EdgeHashForest) 0 4294967298).2
          1 8589934595).2
        3 8589934596).2
    nodeForest := LatticeHashForest.new }

/-- A graph adapter with two fresh forests after `getEdgeIndex` has registered
the packed edge `(1, 1)`, a loop at node `1`, at index `1` of the edge
forest. -/
def loopGraph : BaseGraphAPI :=
  { edgeForest := (register_set_single (LatticeHashForest.new : EdgeHashForest) 4294967297).2.2
    nodeForest := LatticeHashForest.new }

/-! ## Facts about the association lists and the comparators -/

section MapFacts

variable {κ ν : Type}

theorem mapFind_some_mem (eq : κ → κ → Bool) :
    ∀ (m : List (κ × ν)) (k : κ) (v : ν), mapFind eq m k = some v →
      ∃ k1, eq k1 k = true ∧ (k1, v) ∈ m
  | [], _, _, h => by simp [mapFind] at h
  | (k1, v1) :: m, k, v, h => by
    unfold mapFind at h
    by_cases hk : eq k1 k = true
    · rw [if_pos hk] at h
      cases h
      exact ⟨k1, hk, List.mem_cons_self _ _⟩
    · rw [if_neg hk] at h
      obtain ⟨k2, h2, hmem⟩ := mapFind_some_mem eq m k v h
      exact ⟨k2, h2, List.mem_cons_of_mem _ hmem⟩

theorem mapFind_none_mem (eq : κ → κ → Bool) :
    ∀ (m : List (κ × ν)) (k : κ), mapFind eq m k = none →
      ∀ k1 v, (k1, v) ∈ m → eq k1 k = false
  | [], _, _, _, _, h => by simp at h
  | (k0, v0) :: m, k, h, k1, v, hmem => by
    unfold mapFind at h
    by_cases hk : eq k0 k = true
    · rw [if_pos hk] at h
      cases h
    · rw [if_neg hk] at h
      rcases List.mem_cons.mp hmem with heq | hmem
      · cases heq
        simpa using hk
      · exact mapFind_none_mem eq m k h k1 v hmem

theorem mapFind_insert_iff (eq : κ → κ → Bool) (heq : ∀ a b, eq a b = true ↔ a = b)
    (m : List (κ × ν)) (k : κ) (v : ν) (k2 : κ) (w : ν) :
    mapFind eq (mapInsert eq m k v) k2 = some w ↔
      mapFind eq m k2 = some w ∨ (mapFind eq m k2 = none ∧ k = k2 ∧ w = v) := by
  unfold mapInsert
  cases hk : mapFind eq m k with
  | some u =>
    simp only
    constructor
    · intro h
      exact Or.inl h
    · rintro (h | ⟨h, rfl, _⟩)
      · exact h
      · rw [hk] at h
        cases h
  | none =>
    simp only [mapFind]
    by_cases hkk : eq k k2 = true
    · have hk2 := (heq k k2).mp hkk
      subst hk2
      rw [if_pos hkk, hk]
      constructor
      · intro h
        cases h
        exact Or.inr ⟨rfl, rfl, rfl⟩
      · rintro (h | ⟨_, _, rfl⟩)
        · cases h
        · rfl
    · rw [if_neg hkk]
      constructor
      · intro h
        exact Or.inl h
      · rintro (h | ⟨_, h2, _⟩)
        · exact h
        · exact absurd ((heq k k2).mpr h2) hkk

theorem mapFind_insert_of_some (eq : κ → κ → Bool) (heq : ∀ a b, eq a b = true ↔ a = b)
    (m : List (κ × ν)) (k : κ) (v : ν) (k2 : κ) (w : ν) (h : mapFind eq m k2 = some w) :
    mapFind eq (mapInsert eq m k v) k2 = some w :=
  (mapFind_insert_iff eq heq m k v k2 w).mpr (Or.inl h)

theorem mapFind_insert_of_none (eq : κ → κ → Bool) (heq : ∀ a b, eq a b = true ↔ a = b)
    (m : List (κ × ν)) (k : κ) (v : ν) (h : mapFind eq m k = none) :
    mapFind eq (mapInsert eq m k v) k = some v :=
  (mapFind_insert_iff eq heq m k v k v).mpr (Or.inr ⟨h, rfl, rfl⟩)

theorem OperationNode.eq_iff (p q : OperationNode) : OperationNode.eq p q = true ↔ p = q := by
  cases p
  cases q
  simp [OperationNode.eq]

theorem natEq_iff (a b : Nat) : (fun x y : Nat => decide (x = y)) a b = true ↔ a = b := by
  simp

end MapFacts

section ElementFacts

variable {α : Type} [LinearOrder α]

@[simp] theorem less_iff (a b : α) : less a b = true ↔ a < b := by
  simp [less]

@[simp] theorem equal_iff (a b : α) : equal a b = true ↔ a = b := by
  simp [equal]

theorem SetEqual.loop_iff : ∀ (a b : List α), a.length = b.length →
    (SetEqual.loop a b = true ↔ a = b)
  | [], [], _ => by simp [SetEqual.loop]
  | [], _ :: _, h => by simp at h
  | _ :: _, [], h => by simp at h
  | x :: xs, y :: ys, h => by
    have hlen : xs.length = ys.length := by simpa using h
    have ih := SetEqual.loop_iff xs ys hlen
    by_cases hxy : x = y
    · simp [SetEqual.loop, hxy, ih]
    · simp [SetEqual.loop, hxy]

theorem SetEqual_iff (a b : List α) : SetEqual a b = true ↔ a = b := by
  unfold SetEqual
  by_cases hlen : a.length = b.length
  · by_cases h0 : a.length = 0
    · have ha : a = [] := List.length_eq_zero.mp h0
      have hb : b = [] := List.length_eq_zero.mp (hlen ▸ h0)
      simp [ha, hb]
    · rw [if_neg (by simpa using hlen), if_neg h0]
      exact SetEqual.loop_iff a b hlen
  · have hne : a ≠ b := fun h => hlen (h ▸ rfl)
    simp [hlen, hne]

/-! ### The merge loops, one step at a time -/

theorem unionAux_cons (a : α) (as : List α) (k : List α → List α) (y : α) (ys : List α) :
    unionAux a as k (y :: ys) =
      if y < a then y :: unionAux a as k ys
      else if a < y then a :: k (y :: ys) else a :: k ys := by
  by_cases h1 : y < a
  · simp [unionAux, h1]
  · by_cases h2 : a < y <;> simp [unionAux, h1, h2]

theorem interAux_cons (a : α) (k : List α → List α) (y : α) (ys : List α) :
    interAux a k (y :: ys) =
      if a < y then k (y :: ys)
      else if y < a then interAux a k ys else a :: k ys := by
  by_cases h1 : a < y
  · simp [interAux, h1]
  · by_cases h2 : y < a <;> simp [interAux, h1, h2]

theorem diffAux_cons (a : α) (as : List α) (k : List α → List α) (y : α) (ys : List α) :
    diffAux a as k (y :: ys) =
      if a < y then a :: k (y :: ys)
      else if y < a then diffAux a as k ys else k ys := by
  by_cases h1 : a < y
  · simp [diffAux, h1]
  · by_cases h2 : y < a <;> simp [diffAux, h1, h2]

/-! ### The merges as sets -/

theorem mem_unionAux (a : α) (as : List α) (k : List α → List α)
    (hk : ∀ zs x, x ∈ k zs ↔ x ∈ as ∨ x ∈ zs) :
    ∀ (B : List α) (x : α), x ∈ unionAux a as k B ↔ x ∈ a :: as ∨ x ∈ B
  | [], x => by simp [unionAux]
  | y :: ys, x => by
    have ih := mem_unionAux a as k hk ys x
    rw [unionAux_cons]
    split_ifs with h1 h2
    · simp only [List.mem_cons, ih]
      tauto
    · simp only [List.mem_cons, hk]
      tauto
    · have hay : a = y := le_antisymm (not_lt.mp h1) (not_lt.mp h2)
      subst hay
      simp only [List.mem_cons, hk]
      tauto

theorem mem_unionMerge : ∀ (A B : List α) (x : α), x ∈ unionMerge A B ↔ x ∈ A ∨ x ∈ B
  | [], B, x => by simp [unionMerge]
  | a :: as, B, x => by
    unfold unionMerge
    exact mem_unionAux a as _ (fun zs x => mem_unionMerge as zs x) B x

/-- Every element the intersection merge emits is in both operands, sorted or
not. -/
theorem mem_interAux_imp (a : α) (as : List α) (k : List α → List α)
    (hk : ∀ zs x, x ∈ k zs → x ∈ as ∧ x ∈ zs) :
    ∀ (B : List α) (x : α), x ∈ interAux a k B → x ∈ a :: as ∧ x ∈ B
  | [], x => by simp [interAux]
  | y :: ys, x => by
    have ih := mem_interAux_imp a as k hk ys x
    rw [interAux_cons]
    split_ifs with h1 h2
    · intro h
      have := hk _ _ h
      exact ⟨List.mem_cons_of_mem _ this.1, this.2⟩
    · intro h
      have := ih h
      exact ⟨this.1, List.mem_cons_of_mem _ this.2⟩
    · have hay : a = y := le_antisymm (not_lt.mp h2) (not_lt.mp h1)
      subst hay
      intro h
      rcases List.mem_cons.mp h with h | h
      · subst h
        exact ⟨List.mem_cons_self _ _, List.mem_cons_self _ _⟩
      · have := hk _ _ h
        exact ⟨List.mem_cons_of_mem _ this.1, List.mem_cons_of_mem _ this.2⟩

theorem mem_interMerge_imp : ∀ (A B : List α) (x : α),
    x ∈ interMerge A B → x ∈ A ∧ x ∈ B
  | [], B, x => by simp [interMerge]
  | a :: as, B, x => by
    unfold interMerge
    exact mem_interAux_imp a as _ (fun zs x => mem_interMerge_imp as zs x) B x

/-- Every element the difference merge emits comes from the first operand,
sorted or not. -/
theorem mem_diffAux_imp (a : α) (as : List α) (k : List α → List α)
    (hk : ∀ zs x, x ∈ k zs → x ∈ as) :
    ∀ (B : List α) (x : α), x ∈ diffAux a as k B → x ∈ a :: as
  | [], x => by simp [diffAux]
  | y :: ys, x => by
    have ih := mem_diffAux_imp a as k hk ys x
    rw [diffAux_cons]
    split_ifs with h1 h2
    · intro h
      rcases List.mem_cons.mp h with h | h
      · subst h
        exact List.mem_cons_self _ _
      · exact List.mem_cons_of_mem _ (hk _ _ h)
    · exact ih
    · intro h
      exact List.mem_cons_of_mem _ (hk _ _ h)

theorem mem_diffMerge_imp : ∀ (A B : List α) (x : α), x ∈ diffMerge A B → x ∈ A
  | [], B, x => by simp [diffMerge]
  | a :: as, B, x => by
    unfold diffMerge
    exact mem_diffAux_imp a as _ (fun zs x => mem_diffMerge_imp as zs x) B x

/-- The two merges walk the operands alike: what the difference drops is what
the intersection emits. -/
theorem length_diffAux_add_interAux (a : α) (as : List α) (kd ki : List α → List α)
    (hk : ∀ zs, (kd zs).length + (ki zs).length = as.length) :
    ∀ (B : List α), (diffAux a as kd B).length + (interAux a ki B).length = as.length + 1
  | [] => by simp [diffAux, interAux]
  | y :: ys => by
    have ih := length_diffAux_add_interAux a as kd ki hk ys
    rw [diffAux_cons, interAux_cons]
    split_ifs with h1 h2
    · have := hk (y :: ys)
      simp only [List.length_cons]
      omega
    · exact ih
    · have := hk ys
      simp only [List.length_cons]
      omega

theorem length_diffMerge_add_interMerge : ∀ (A B : List α),
    (diffMerge A B).length + (interMerge A B).length = A.length
  | [], B => by simp [diffMerge, interMerge]
  | a :: as, B => by
    unfold diffMerge interMerge
    exact length_diffAux_add_interAux a as _ _
      (fun zs => length_diffMerge_add_interMerge as zs) B

theorem interMerge_nil_of_diffMerge_eq (A B : List α) (h : diffMerge A B = A) :
    interMerge A B = [] := by
  have := length_diffMerge_add_interMerge A B
  rw [h] at this
  exact List.length_eq_zero.mp (by omega)

/-! ### The merges on strictly ascending operands -/

theorem mem_interAux_iff (a : α) (as : List α) (k : List α → List α)
    (ha : ∀ z ∈ as, a < z)
    (hk : ∀ zs, zs.Pairwise (· < ·) → ∀ x, x ∈ k zs ↔ x ∈ as ∧ x ∈ zs) :
    ∀ (B : List α), B.Pairwise (· < ·) → ∀ x, x ∈ interAux a k B ↔ x ∈ a :: as ∧ x ∈ B
  | [], _, x => by simp [interAux]
  | y :: ys, hB, x => by
    have hy : ∀ z ∈ ys, y < z := (List.pairwise_cons.mp hB).1
    have hys : ys.Pairwise (· < ·) := (List.pairwise_cons.mp hB).2
    have ih := mem_interAux_iff a as k ha hk ys hys x
    rw [interAux_cons]
    split_ifs with h1 h2
    · rw [hk _ hB]
      constructor
      · rintro ⟨hx1, hx2⟩
        exact ⟨List.mem_cons_of_mem _ hx1, hx2⟩
      · rintro ⟨hx1, hx2⟩
        refine ⟨?_, hx2⟩
        rcases List.mem_cons.mp hx1 with hxa | hxa
        · exfalso
          subst hxa
          rcases List.mem_cons.mp hx2 with hxy | hxy
          · exact absurd hxy (ne_of_lt h1)
          · exact absurd (lt_trans h1 (hy _ hxy)) (lt_irrefl _)
        · exact hxa
    · rw [ih]
      constructor
      · rintro ⟨hx1, hx2⟩
        exact ⟨hx1, List.mem_cons_of_mem _ hx2⟩
      · rintro ⟨hx1, hx2⟩
        refine ⟨hx1, ?_⟩
        rcases List.mem_cons.mp hx2 with hxy | hxy
        · exfalso
          subst hxy
          rcases List.mem_cons.mp hx1 with hxa | hxa
          · exact absurd hxa (ne_of_lt h2)
          · exact absurd (lt_trans h2 (ha _ hxa)) (lt_irrefl _)
        · exact hxy
    · have hay : a = y := le_antisymm (not_lt.mp h2) (not_lt.mp h1)
      subst hay
      simp only [List.mem_cons, hk _ hys]
      constructor
      · rintro (hx | ⟨hx1, hx2⟩)
        · exact ⟨Or.inl hx, Or.inl hx⟩
        · exact ⟨Or.inr hx1, Or.inr hx2⟩
      · rintro ⟨hx1 | hx1, hx2 | hx2⟩
        · exact Or.inl hx1
        · exact Or.inl hx1
        · exact Or.inl hx2
        · exact Or.inr ⟨hx1, hx2⟩

theorem mem_interMerge_iff : ∀ (A B : List α), A.Pairwise (· < ·) → B.Pairwise (· < ·) →
    ∀ x, x ∈ interMerge A B ↔ x ∈ A ∧ x ∈ B
  | [], B, _, _, x => by simp [interMerge]
  | a :: as, B, hA, hB, x => by
    unfold interMerge
    exact mem_interAux_iff a as _ (List.pairwise_cons.mp hA).1
      (fun zs hzs x => mem_interMerge_iff as zs (List.pairwise_cons.mp hA).2 hzs x) B hB x

theorem mem_diffAux_iff (a : α) (as : List α) (k : List α → List α)
    (ha : ∀ z ∈ as, a < z)
    (hk : ∀ zs, zs.Pairwise (· < ·) → ∀ x, x ∈ k zs ↔ x ∈ as ∧ x ∉ zs) :
    ∀ (B : List α), B.Pairwise (· < ·) → ∀ x, x ∈ diffAux a as k B ↔ x ∈ a :: as ∧ x ∉ B
  | [], _, x => by simp [diffAux]
  | y :: ys, hB, x => by
    have hy : ∀ z ∈ ys, y < z := (List.pairwise_cons.mp hB).1
    have hys : ys.Pairwise (· < ·) := (List.pairwise_cons.mp hB).2
    have ih := mem_diffAux_iff a as k ha hk ys hys x
    rw [diffAux_cons]
    split_ifs with h1 h2
    · simp only [List.mem_cons, hk _ hB, not_or]
      constructor
      · rintro (hx | ⟨hx1, hx2, hx3⟩)
        · subst hx
          refine ⟨Or.inl rfl, ne_of_lt h1, ?_⟩
          intro hmem
          exact absurd (lt_trans h1 (hy _ hmem)) (lt_irrefl _)
        · exact ⟨Or.inr hx1, hx2, hx3⟩
      · rintro ⟨hx1 | hx1, hx2, hx3⟩
        · exact Or.inl hx1
        · exact Or.inr ⟨hx1, hx2, hx3⟩
    · rw [ih]
      simp only [List.mem_cons, not_or]
      constructor
      · rintro ⟨hx1, hx2⟩
        refine ⟨hx1, ?_, hx2⟩
        intro hxy
        subst hxy
        rcases hx1 with hxa | hxa
        · exact absurd hxa (ne_of_lt h2)
        · exact absurd (lt_trans h2 (ha _ hxa)) (lt_irrefl _)
      · rintro ⟨hx1, _, hx3⟩
        exact ⟨hx1, hx3⟩
    · have hay : a = y := le_antisymm (not_lt.mp h2) (not_lt.mp h1)
      subst hay
      simp only [List.mem_cons, hk _ hys, not_or]
      constructor
      · rintro ⟨hx1, hx2⟩
        exact ⟨Or.inr hx1, ne_of_gt (ha _ hx1), hx2⟩
      · rintro ⟨hx1 | hx1, hx2, hx3⟩
        · exact absurd hx1 hx2
        · exact ⟨hx1, hx3⟩

theorem mem_diffMerge_iff : ∀ (A B : List α), A.Pairwise (· < ·) → B.Pairwise (· < ·) →
    ∀ x, x ∈ diffMerge A B ↔ x ∈ A ∧ x ∉ B
  | [], B, _, _, x => by simp [diffMerge]
  | a :: as, B, hA, hB, x => by
    unfold diffMerge
    exact mem_diffAux_iff a as _ (List.pairwise_cons.mp hA).1
      (fun zs hzs x => mem_diffMerge_iff as zs (List.pairwise_cons.mp hA).2 hzs x) B hB x

/-! ### Inserting one absent element and taking it out again -/

theorem unionMerge_nil_right : ∀ (A : List α), unionMerge A [] = A
  | [] => rfl
  | _ :: _ => rfl

theorem diffMerge_nil_right : ∀ (A : List α), diffMerge A [] = A
  | [] => rfl
  | _ :: _ => rfl

theorem unionMerge_cons_cons (a : α) (as : List α) (b : α) (bs : List α) :
    unionMerge (a :: as) (b :: bs) =
      if b < a then b :: unionMerge (a :: as) bs
      else if a < b then a :: unionMerge as (b :: bs) else a :: unionMerge as bs := by
  show unionAux a as (fun zs => unionMerge as zs) (b :: bs) = _
  rw [unionAux_cons]
  rfl

/-- The union merge does not depend on the order of its operands. -/
theorem unionMerge_comm : ∀ (A B : List α), unionMerge A B = unionMerge B A
  | [], B => by
    rw [unionMerge_nil_right]
    rfl
  | a :: as, [] => rfl
  | a :: as, b :: bs => by
    have ih1 := unionMerge_comm as (b :: bs)
    have ih2 := unionMerge_comm (a :: as) bs
    have ih3 := unionMerge_comm as bs
    rw [unionMerge_cons_cons, unionMerge_cons_cons]
    rcases lt_trichotomy a b with h | h | h
    · rw [if_neg (not_lt_of_lt h), if_pos h, if_pos h, ih1]
    · subst h
      rw [if_neg (lt_irrefl a), if_neg (lt_irrefl a), if_neg (lt_irrefl a),
        if_neg (lt_irrefl a), ih3]
    · rw [if_pos h, if_neg (not_lt_of_lt h), if_pos h, ih2]
termination_by A B => A.length + B.length

theorem diffMerge_self : ∀ (A : List α), diffMerge A A = []
  | [] => rfl
  | a :: as => by
    show diffAux a as (fun zs => diffMerge as zs) (a :: as) = []
    rw [diffAux_cons, if_neg (lt_irrefl a), if_neg (lt_irrefl a)]
    exact diffMerge_self as

theorem diffMerge_unionMerge_single : ∀ (A : List α) (e : α), e ∉ A →
    diffMerge (unionMerge A [e]) [e] = A
  | [], e, _ => by
    show diffAux e [] (fun zs => diffMerge [] zs) [e] = []
    rw [diffAux_cons, if_neg (lt_irrefl e), if_neg (lt_irrefl e)]
    rfl
  | a :: as, e, he => by
    have hea : e ≠ a := fun h => he (h ▸ List.mem_cons_self _ _)
    have heas : e ∉ as := fun h => he (List.mem_cons_of_mem _ h)
    have ih := diffMerge_unionMerge_single as e heas
    have hu : unionMerge (a :: as) [e] =
        unionAux a as (fun zs => unionMerge as zs) [e] := rfl
    rw [hu, unionAux_cons]
    rcases lt_trichotomy a e with h | h | h
    · rw [if_neg (not_lt_of_lt h), if_pos h]
      show diffAux a (unionMerge as [e]) (fun zs => diffMerge (unionMerge as [e]) zs) [e] = _
      rw [diffAux_cons, if_pos h, ih]
    · exact absurd h.symm hea
    · rw [if_pos h]
      show diffAux e (unionAux a as (fun zs => unionMerge as zs) [])
        (fun zs => diffMerge (unionAux a as (fun zs => unionMerge as zs) []) zs) [e] = _
      rw [diffAux_cons, if_neg (lt_irrefl e), if_neg (lt_irrefl e)]
      exact diffMerge_nil_right _

/-! ### The intersection merge does not depend on the order of its operands -/

theorem interMerge_nil_right : ∀ (A : List α), interMerge A [] = []
  | [] => rfl
  | _ :: _ => rfl

theorem interMerge_cons_cons (a : α) (as : List α) (b : α) (bs : List α) :
    interMerge (a :: as) (b :: bs) =
      if a < b then interMerge as (b :: bs)
      else if b < a then interMerge (a :: as) bs else a :: interMerge as bs := by
  show interAux a (fun zs => interMerge as zs) (b :: bs) = _
  rw [interAux_cons]
  rfl

theorem interMerge_comm : ∀ (A B : List α), interMerge A B = interMerge B A
  | [], B => by
    rw [interMerge_nil_right]
    rfl
  | a :: as, [] => rfl
  | a :: as, b :: bs => by
    have ih1 := interMerge_comm as (b :: bs)
    have ih2 := interMerge_comm (a :: as) bs
    have ih3 := interMerge_comm as bs
    rw [interMerge_cons_cons, interMerge_cons_cons]
    rcases lt_trichotomy a b with h | h | h
    · rw [if_pos h, if_neg (not_lt_of_lt h), if_pos h, ih1]
    · subst h
      rw [if_neg (lt_irrefl a), if_neg (lt_irrefl a), if_neg (lt_irrefl a),
        if_neg (lt_irrefl a), ih3]
    · rw [if_neg (not_lt_of_lt h), if_pos h, if_pos h, ih2]
termination_by A B => A.length + B.length

/-! ### The merges and subsequences -/

theorem diffMerge_cons_cons (a : α) (as : List α) (b : α) (bs : List α) :
    diffMerge (a :: as) (b :: bs) =
      if a < b then a :: diffMerge as (b :: bs)
      else if b < a then diffMerge (a :: as) bs else diffMerge as bs := by
  show diffAux a as (fun zs => diffMerge as zs) (b :: bs) = _
  rw [diffAux_cons]
  rfl

/-- The union merge emits the first operand in order, among other elements. -/
theorem sublist_unionMerge_left : ∀ (A B : List α), A.Sublist (unionMerge A B)
  | [], B => List.nil_sublist _
  | a :: as, [] => List.Sublist.refl _
  | a :: as, b :: bs => by
    have ih1 := sublist_unionMerge_left as (b :: bs)
    have ih2 := sublist_unionMerge_left (a :: as) bs
    have ih3 := sublist_unionMerge_left as bs
    rw [unionMerge_cons_cons]
    split_ifs
    · exact ih2.cons b
    · exact ih1.cons₂ a
    · exact ih3.cons₂ a
termination_by A B => A.length + B.length

theorem sublist_unionMerge_right (A B : List α) : B.Sublist (unionMerge A B) := by
  rw [unionMerge_comm]
  exact sublist_unionMerge_left B A

/-- The intersection merge emits a subsequence of its first operand. -/
theorem interMerge_sublist_left : ∀ (A B : List α), (interMerge A B).Sublist A
  | [], B => List.Sublist.refl _
  | a :: as, [] => List.nil_sublist _
  | a :: as, b :: bs => by
    have ih1 := interMerge_sublist_left as (b :: bs)
    have ih2 := interMerge_sublist_left (a :: as) bs
    have ih3 := interMerge_sublist_left as bs
    rw [interMerge_cons_cons]
    split_ifs
    · exact ih1.cons a
    · exact ih2
    · exact ih3.cons₂ a
termination_by A B => A.length + B.length

theorem interMerge_sublist_right (A B : List α) : (interMerge A B).Sublist B := by
  rw [interMerge_comm]
  exact interMerge_sublist_left B A

/-- The difference merge emits a subsequence of its first operand. -/
theorem diffMerge_sublist : ∀ (A B : List α), (diffMerge A B).Sublist A
  | [], B => List.Sublist.refl _
  | a :: as, [] => List.Sublist.refl _
  | a :: as, b :: bs => by
    have ih1 := diffMerge_sublist as (b :: bs)
    have ih2 := diffMerge_sublist (a :: as) bs
    have ih3 := diffMerge_sublist as bs
    rw [diffMerge_cons_cons]
    split_ifs
    · exact ih1.cons₂ a
    · exact ih2
    · exact ih3.cons a
termination_by A B => A.length + B.length

/-- On strictly ascending operands the union merge is strictly ascending. -/
theorem unionMerge_pairwise : ∀ (A B : List α), A.Pairwise (· < ·) → B.Pairwise (· < ·) →
    (unionMerge A B).Pairwise (· < ·)
  | [], B, _, hB => hB
  | a :: as, [], hA, _ => hA
  | a :: as, b :: bs, hA, hB => by
    have ha := (List.pairwise_cons.mp hA).1
    have has := (List.pairwise_cons.mp hA).2
    have hb := (List.pairwise_cons.mp hB).1
    have hbs := (List.pairwise_cons.mp hB).2
    have ih1 := unionMerge_pairwise as (b :: bs) has hB
    have ih2 := unionMerge_pairwise (a :: as) bs hA hbs
    have ih3 := unionMerge_pairwise as bs has hbs
    rw [unionMerge_cons_cons]
    split_ifs with h1 h2
    · refine List.pairwise_cons.mpr ⟨?_, ih2⟩
      intro x hx
      rcases (mem_unionMerge _ _ x).mp hx with h | h
      · rcases List.mem_cons.mp h with h | h
        · rw [h]
          exact h1
        · exact lt_trans h1 (ha x h)
      · exact hb x h
    · refine List.pairwise_cons.mpr ⟨?_, ih1⟩
      intro x hx
      rcases (mem_unionMerge _ _ x).mp hx with h | h
      · exact ha x h
      · rcases List.mem_cons.mp h with h | h
        · rw [h]
          exact h2
        · exact lt_trans h2 (hb x h)
    · have hab : a = b := le_antisymm (not_lt.mp h1) (not_lt.mp h2)
      refine List.pairwise_cons.mpr ⟨?_, ih3⟩
      intro x hx
      rcases (mem_unionMerge _ _ x).mp hx with h | h
      · exact ha x h
      · rw [hab]
        exact hb x h
termination_by A B => A.length + B.length

end ElementFacts

/-! ## The store and the property set map -/

section StoreFacts

variable {α : Type} [LinearOrder α]

theorem getElem?_append_some {β : Type} (l t : List β) (i : Nat) (c : β)
    (h : l[i]? = some c) : (l ++ t)[i]? = some c := by
  have hi : i < l.length := by
    by_contra hn
    rw [List.getElem?_eq_none (not_lt.mp hn)] at h
    cases h
  rw [List.getElem?_append_left hi]
  exact h

theorem lt_length_of_getElem? {β : Type} (l : List β) (i : Nat) (c : β)
    (h : l[i]? = some c) : i < l.length := by
  by_contra hn
  rw [List.getElem?_eq_none (not_lt.mp hn)] at h
  cases h

theorem getElem?_inj_of_nodup {β : Type} (l : List β) (hl : l.Nodup) (i j : Nat) (c : β)
    (hi : l[i]? = some c) (hj : l[j]? = some c) : i = j := by
  have hi1 := lt_length_of_getElem? l i c hi
  have hj1 := lt_length_of_getElem? l j c hj
  rw [List.getElem?_eq_getElem hi1] at hi
  rw [List.getElem?_eq_getElem hj1] at hj
  have : l[i] = l[j] := by
    rw [Option.some.inj hi, Option.some.inj hj]
  exact (List.Nodup.getElem_inj_iff hl).mp this

theorem ExactCache.append {f : List α → List α → List α} {sets : List (List α)}
    {m : List (OperationNode × Index)} (h : ExactCache f sets m) (t : List (List α)) :
    ExactCache f (sets ++ t) m := by
  intro a b r hr
  obtain ⟨A, B, hA, hB, hR⟩ := h a b r hr
  exact ⟨A, B, getElem?_append_some _ _ _ _ hA, getElem?_append_some _ _ _ _ hB,
    getElem?_append_some _ _ _ _ hR⟩

theorem ExactCache.insert {f : List α → List α → List α} {sets : List (List α)}
    {m : List (OperationNode × Index)} (h : ExactCache f sets m) (a b r : Index)
    (A B : List α) (hA : sets[a]? = some A) (hB : sets[b]? = some B)
    (hR : sets[r]? = some (f A B)) :
    ExactCache f sets (mapInsert OperationNode.eq m ⟨a, b⟩ r) := by
  intro a2 b2 r2 hr
  rcases (mapFind_insert_iff _ OperationNode.eq_iff m _ _ _ _).mp hr with h1 | ⟨_, h2, h3⟩
  · exact h a2 b2 r2 h1
  · cases h2
    subst h3
    exact ⟨A, B, hA, hB, hR⟩

theorem SoundSubsets.appendSets {sets : List (List α)}
    {m : List (OperationNode × SubsetRelation)} (h : SoundSubsets sets m)
    (t : List (List α)) : SoundSubsets (sets ++ t) m := by
  intro x y rel hr
  obtain ⟨hu, X, Y, hX, hY, h1, h2⟩ := h x y rel hr
  exact ⟨hu, X, Y, getElem?_append_some _ _ _ _ hX, getElem?_append_some _ _ _ _ hY, h1, h2⟩

theorem SoundSubsets.insertRel {sets : List (List α)}
    {m : List (OperationNode × SubsetRelation)} (h : SoundSubsets sets m) (x y : Index)
    (rel : SubsetRelation) (X Y : List α) (hX : sets[x]? = some X) (hY : sets[y]? = some Y)
    (hu : rel ≠ .UNKNOWN) (h1 : rel = .SUBSET → X ⊆ Y) (h2 : rel = .SUPERSET → Y ⊆ X) :
    SoundSubsets sets (mapInsert OperationNode.eq m ⟨x, y⟩ rel) := by
  intro x2 y2 rel2 hr
  rcases (mapFind_insert_iff _ OperationNode.eq_iff m _ _ _ _).mp hr with h3 | ⟨_, h4, h5⟩
  · exact h x2 y2 rel2 h3
  · cases h4
    subst h5
    exact ⟨hu, X, Y, hX, hY, h1, h2⟩

/-- Recording a true containment keeps the subset cache sound. -/
theorem SoundSubsets.record {sets : List (List α)}
    {m : List (OperationNode × SubsetRelation)} (h : SoundSubsets sets m) (a b : Index)
    (X Y : List α) (hX : sets[a]? = some X) (hY : sets[b]? = some Y) (hsub : X ⊆ Y) :
    SoundSubsets sets (recordSubset m a b) := by
  unfold recordSubset
  split_ifs with hab
  · exact h.insertRel b a .SUPERSET Y X hY hX (by simp) (by simp) (fun _ => hsub)
  · exact h.insertRel a b .SUBSET X Y hX hY (by simp) (fun _ => hsub) (by simp)

/-- With a consistent map, `find` on the property set map returns the index
under which the candidate is stored. -/
theorem find_eq_some_iff {sets : List (List α)} {m : List (List α × Index)}
    (hn : sets.Nodup) (hm : MapMatches sets m) (c : List α) (i : Index) :
    mapFind SetEqual m c = some i ↔ sets[i]? = some c := by
  constructor
  · intro h
    obtain ⟨c1, h1, hmem⟩ := mapFind_some_mem SetEqual m c i h
    have := (SetEqual_iff c1 c).mp h1
    subst this
    exact (hm c1 i).mp hmem
  · intro h
    have hmem := (hm c i).mpr h
    cases hf : mapFind SetEqual m c with
    | none =>
      have := mapFind_none_mem SetEqual m c hf c i hmem
      rw [(SetEqual_iff c c).mpr rfl] at this
      cases this
    | some j =>
      obtain ⟨c1, h1, hmem1⟩ := mapFind_some_mem SetEqual m c j hf
      have := (SetEqual_iff c1 c).mp h1
      subst this
      have hj := (hm c1 j).mp hmem1
      rw [getElem?_inj_of_nodup sets hn i j c1 h hj]

theorem find_eq_none_iff {sets : List (List α)} {m : List (List α × Index)}
    (hn : sets.Nodup) (hm : MapMatches sets m) (c : List α) :
    mapFind SetEqual m c = none ↔ c ∉ sets := by
  constructor
  · intro h hc
    obtain ⟨i, hi⟩ := List.mem_iff_getElem?.mp hc
    rw [(find_eq_some_iff hn hm c i).mpr hi] at h
    cases h
  · intro h
    cases hf : mapFind SetEqual m c with
    | none => rfl
    | some j =>
      exact absurd (List.mem_iff_getElem?.mpr ⟨j, (find_eq_some_iff hn hm c j).mp hf⟩) h

/-! ## Index checks and reads -/

theorem Inv.sets_ne_nil {s : LatticeHashForest α} (hs : Inv s) : s.property_sets ≠ [] := by
  intro h
  have := hs.empty_first
  rw [h] at this
  cases this

theorem Inv.length_pos {s : LatticeHashForest α} (hs : Inv s) : 0 < s.property_sets.length :=
  List.length_pos.mpr hs.sets_ne_nil

theorem le_pred_iff_lt (i n : Nat) (hn : 0 < n) : i ≤ n - 1 ↔ i < n := by
  omega

theorem indexInvalid_eq_false_iff {s : LatticeHashForest α} (hs : Inv s) (i : Index) :
    indexInvalid s i = false ↔ i < s.property_sets.length := by
  have hpos := hs.length_pos
  have hne : ¬ s.property_sets.length = 0 := by omega
  unfold indexInvalid lastIndex
  rw [if_neg hne]
  simp only [gt_iff_lt, decide_eq_false_iff_not, not_lt]
  exact le_pred_iff_lt i _ hpos

theorem indexInvalid_of_getElem? {s : LatticeHashForest α} (i : Index) (c : List α)
    (h : s.property_sets[i]? = some c) : indexInvalid s i = false := by
  have hi : i < s.property_sets.length := lt_length_of_getElem? _ _ _ h
  have hpos : 0 < s.property_sets.length := Nat.lt_of_le_of_lt (Nat.zero_le _) hi
  have hne : ¬ s.property_sets.length = 0 := by omega
  unfold indexInvalid lastIndex
  rw [if_neg hne]
  simp only [gt_iff_lt, decide_eq_false_iff_not, not_lt]
  exact (le_pred_iff_lt i _ hpos).mpr hi

theorem exists_getElem?_of_valid {s : LatticeHashForest α} (hs : Inv s) (i : Index)
    (h : indexInvalid s i = false) : ∃ c, s.property_sets[i]? = some c := by
  have hi := (indexInvalid_eq_false_iff hs i).mp h
  exact ⟨s.property_sets[i], List.getElem?_eq_getElem hi⟩

theorem get_value_of_getElem? {s : LatticeHashForest α} (i : Index) (c : List α)
    (h : s.property_sets[i]? = some c) : get_value s i = .ok c := by
  unfold get_value
  rw [indexInvalid_of_getElem? i c h, List.getD_eq_getElem?_getD, h]
  rfl

theorem getElem?_of_get_value {s : LatticeHashForest α} (hs : Inv s) (i : Index) (c : List α)
    (h : get_value s i = .ok c) : s.property_sets[i]? = some c := by
  unfold get_value at h
  by_cases hv : indexInvalid s i = true
  · rw [if_pos hv] at h
    cases h
  · obtain ⟨d, hd⟩ := exists_getElem?_of_valid hs i (by simpa using hv)
    rw [if_neg hv, List.getD_eq_getElem?_getD, hd] at h
    cases h
    exact hd

/-- Only index `0` holds the empty sequence. -/
theorem Inv.eq_zero_of_nil {s : LatticeHashForest α} (hs : Inv s) (i : Index)
    (h : s.property_sets[i]? = some []) : i = 0 :=
  getElem?_inj_of_nodup _ hs.nodup i 0 [] h hs.empty_first

/-! ## Counting does not touch the forest -/

@[simp] theorem LHF_PERF_INC_property_sets (s : LatticeHashForest α) (k : String)
    (c : PerfCategory) : (LHF_PERF_INC s k c).property_sets = s.property_sets := rfl

@[simp] theorem LHF_PERF_INC_property_set_map (s : LatticeHashForest α) (k : String)
    (c : PerfCategory) : (LHF_PERF_INC s k c).property_set_map = s.property_set_map := rfl

@[simp] theorem LHF_PERF_INC_unions (s : LatticeHashForest α) (k : String)
    (c : PerfCategory) : (LHF_PERF_INC s k c).unions = s.unions := rfl

@[simp] theorem LHF_PERF_INC_intersections (s : LatticeHashForest α) (k : String)
    (c : PerfCategory) : (LHF_PERF_INC s k c).intersections = s.intersections := rfl

@[simp] theorem LHF_PERF_INC_differences (s : LatticeHashForest α) (k : String)
    (c : PerfCategory) : (LHF_PERF_INC s k c).differences = s.differences := rfl

@[simp] theorem LHF_PERF_INC_subsets (s : LatticeHashForest α) (k : String)
    (c : PerfCategory) : (LHF_PERF_INC s k c).subsets = s.subsets := rfl

theorem Inv.perf_inc {s : LatticeHashForest α} (hs : Inv s) (k : String) (c : PerfCategory) :
    Inv (LHF_PERF_INC s k c) :=
  ⟨hs.empty_first, hs.nodup, hs.map_matches, hs.unions_exact, hs.intersections_exact,
    hs.differences_exact, hs.subsets_sound⟩

theorem Inv.of_fields {s t : LatticeHashForest α} (hs : Inv s)
    (h1 : t.property_sets = s.property_sets) (h2 : t.property_set_map = s.property_set_map)
    (h3 : t.unions = s.unions) (h4 : t.intersections = s.intersections)
    (h5 : t.differences = s.differences) (h6 : t.subsets = s.subsets) : Inv t := by
  refine ⟨?_, ?_, ?_, ?_, ?_, ?_, ?_⟩
  · rw [h1]; exact hs.empty_first
  · rw [h1]; exact hs.nodup
  · rw [h1, h2]; exact hs.map_matches
  · rw [h1, h3]; exact hs.unions_exact
  · rw [h1, h4]; exact hs.intersections_exact
  · rw [h1, h5]; exact hs.differences_exact
  · rw [h1, h6]; exact hs.subsets_sound

@[simp] theorem indexInvalid_perf_inc (s : LatticeHashForest α) (k : String) (c : PerfCategory)
    (i : Index) : indexInvalid (LHF_PERF_INC s k c) i = indexInvalid s i := rfl

@[simp] theorem get_value_perf_inc (s : LatticeHashForest α) (k : String) (c : PerfCategory)
    (i : Index) : get_value (LHF_PERF_INC s k c) i = get_value s i := rfl

/-! ## Registration -/

theorem register_set_of_some (s : LatticeHashForest α) (c : List α) (i : Index)
    (h : mapFind SetEqual s.property_set_map c = some i) :
    register_set s c = (i, false, LHF_PERF_INC s "property_sets" .hits) := by
  unfold register_set
  rw [h]

theorem register_set_of_none (s : LatticeHashForest α) (c : List α)
    (h : mapFind SetEqual s.property_set_map c = none) :
    register_set s c = (s.property_sets.length, true,
      { LHF_PERF_INC s "property_sets" .cold_misses with
        property_sets := s.property_sets ++ [c]
        property_set_map := (c, s.property_sets.length) :: s.property_set_map }) := by
  unfold register_set
  rw [h]
  simp only [LHF_PERF_INC_property_sets, LHF_PERF_INC_property_set_map, List.length_append,
    List.length_singleton, Nat.add_sub_cancel, mapInsert, h]

theorem register_set_single_eq (s : LatticeHashForest α) (c : α) :
    register_set_single s c = register_set s [c] := rfl

@[simp] theorem register_set_unions (s : LatticeHashForest α) (c : List α) :
    (register_set s c).2.2.unions = s.unions := by
  unfold register_set
  split <;> rfl

@[simp] theorem register_set_intersections (s : LatticeHashForest α) (c : List α) :
    (register_set s c).2.2.intersections = s.intersections := by
  unfold register_set
  split <;> rfl

@[simp] theorem register_set_differences (s : LatticeHashForest α) (c : List α) :
    (register_set s c).2.2.differences = s.differences := by
  unfold register_set
  split <;> rfl

@[simp] theorem register_set_subsets (s : LatticeHashForest α) (c : List α) :
    (register_set s c).2.2.subsets = s.subsets := by
  unfold register_set
  split <;> rfl

/-- Registration keeps the invariant, only appends to the store, and returns an
index under which the candidate is stored. -/
theorem register_set_spec {s : LatticeHashForest α} (hs : Inv s) (c : List α) :
    Inv (register_set s c).2.2 ∧
    (register_set s c).2.2.property_sets[(register_set s c).1]? = some c ∧
    ∃ t, (register_set s c).2.2.property_sets = s.property_sets ++ t := by
  cases hf : mapFind SetEqual s.property_set_map c with
  | some i =>
    rw [register_set_of_some s c i hf]
    refine ⟨hs.perf_inc _ _, ?_, [], by simp⟩
    exact (find_eq_some_iff hs.nodup hs.map_matches c i).mp hf
  | none =>
    rw [register_set_of_none s c hf]
    have hc : c ∉ s.property_sets := (find_eq_none_iff hs.nodup hs.map_matches c).mp hf
    refine ⟨⟨?_, ?_, ?_, ?_, ?_, ?_, ?_⟩, ?_, [c], rfl⟩
    · exact getElem?_append_some _ _ _ _ hs.empty_first
    · show (s.property_sets ++ [c]).Nodup
      rw [List.nodup_append]
      refine ⟨hs.nodup, List.nodup_singleton c, ?_⟩
      intro x hx hx2
      rw [List.mem_singleton] at hx2
      exact hc (hx2 ▸ hx)
    · intro d i
      show (d, i) ∈ (c, s.property_sets.length) :: s.property_set_map ↔
        (s.property_sets ++ [c])[i]? = some d
      rw [List.mem_cons]
      constructor
      · rintro (h | h)
        · cases h
          simp
        · exact getElem?_append_some _ _ _ _ ((hs.map_matches d i).mp h)
      · intro h
        by_cases hi : i < s.property_sets.length
        · rw [List.getElem?_append_left hi] at h
          exact Or.inr ((hs.map_matches d i).mpr h)
        · have hi2 : s.property_sets.length ≤ i := not_lt.mp hi
          rw [List.getElem?_append_right hi2] at h
          have hlt := lt_length_of_getElem? _ _ _ h
          simp only [List.length_singleton] at hlt
          have hi3 : i = s.property_sets.length :=
            Nat.le_antisymm (Nat.le_of_sub_eq_zero (Nat.lt_one_iff.mp hlt)) hi2
          rw [hi3] at h ⊢
          simp only [Nat.sub_self, List.getElem?_cons_zero, Option.some.injEq] at h
          rw [h]
          exact Or.inl rfl
    · exact hs.unions_exact.append [c]
    · exact hs.intersections_exact.append [c]
    · exact hs.differences_exact.append [c]
    · exact hs.subsets_sound.appendSets [c]
    · show (s.property_sets ++ [c])[s.property_sets.length]? = some c
      simp

/-! ## The cache misses of the three binary operations -/

theorem pairInvalid_of_getElem? {s : LatticeHashForest α} (a b : Index) (A B : List α)
    (hA : s.property_sets[a]? = some A) (hB : s.property_sets[b]? = some B) :
    pairInvalid s a b = false := by
  unfold pairInvalid
  rw [indexInvalid_of_getElem? a A hA, indexInvalid_of_getElem? b B hB]
  rfl

theorem store_subset_ok (s : LatticeHashForest α) (a b : Index)
    (hv : pairInvalid s a b = false) (hab : a ≠ b) :
    store_subset s a b = (.ok (), { s with subsets := recordSubset s.subsets a b }) := by
  unfold store_subset recordSubset
  rw [hv]
  simp only [Bool.false_eq_true, if_false, hab]
  split_ifs <;> rfl

/-- The state `set_union` leaves after a miss, in terms of what registering
the merged sequence returned. -/
theorem set_union_miss_eq {s : LatticeHashForest α} (hs : Inv s) (a b : Index)
    (A B : List α) (hA : s.property_sets[a]? = some A) (hB : s.property_sets[b]? = some B)
    (hab : a ≠ b) (ret : Index) (cold : Bool) (s1 : LatticeHashForest α)
    (hreg : register_set s (unionMerge A B) = (ret, cold, s1)) :
    set_union_miss s a b =
      (.ok ret, LHF_PERF_INC
        { s1 with
          unions := mapInsert OperationNode.eq s1.unions ⟨a, b⟩ ret
          subsets := unionRecord s1.subsets a b ret }
        "unions" (if cold then .cold_misses else .edge_misses)) := by
  have hspec := register_set_spec hs (unionMerge A B)
  rw [hreg] at hspec
  obtain ⟨_, hret, t, ht⟩ := hspec
  simp only at hret ht
  have hA1 : s1.property_sets[a]? = some A := by
    rw [ht]; exact getElem?_append_some _ _ _ _ hA
  have hB1 : s1.property_sets[b]? = some B := by
    rw [ht]; exact getElem?_append_some _ _ _ _ hB
  have hva : pairInvalid s1 a ret = false := pairInvalid_of_getElem? a ret _ _ hA1 hret
  have hvb : pairInvalid s1 b ret = false := pairInvalid_of_getElem? b ret _ _ hB1 hret
  unfold set_union_miss
  rw [get_value_of_getElem? a A hA, get_value_of_getElem? b B hB]
  simp only [hreg]
  unfold unionRecord
  by_cases h1 : ret = a
  · have hne : b ≠ ret := fun h => hab (h.trans h1).symm
    rw [if_pos h1, if_pos h1, store_subset_ok]
    · exact hvb
    · exact hne
  · have hne1 : a ≠ ret := fun h => h1 h.symm
    rw [if_neg h1, if_neg h1]
    by_cases h2 : ret = b
    · rw [if_pos h2, if_pos h2, store_subset_ok]
      · exact hva
      · exact hne1
    · have hne2 : b ≠ ret := fun h => h2 h.symm
      rw [if_neg h2, if_neg h2, store_subset_ok]
      · simp only
        rw [store_subset_ok]
        · exact hvb
        · exact hne2
      · exact hva
      · exact hne1

/-- The state `set_intersection` leaves after a miss. -/
theorem set_intersection_miss_eq {s : LatticeHashForest α} (hs : Inv s) (a b : Index)
    (A B : List α) (hA : s.property_sets[a]? = some A) (hB : s.property_sets[b]? = some B)
    (hab : a ≠ b) (ret : Index) (cold : Bool) (s1 : LatticeHashForest α)
    (hreg : register_set s (interMerge A B) = (ret, cold, s1)) :
    set_intersection_miss s a b =
      (.ok ret, LHF_PERF_INC
        { s1 with
          intersections := mapInsert OperationNode.eq s1.intersections ⟨a, b⟩ ret
          subsets := interRecord s1.subsets a b ret }
        "intersections" (if cold then .cold_misses else .edge_misses)) := by
  have hspec := register_set_spec hs (interMerge A B)
  rw [hreg] at hspec
  obtain ⟨_, hret, t, ht⟩ := hspec
  simp only at hret ht
  have hA1 : s1.property_sets[a]? = some A := by
    rw [ht]; exact getElem?_append_some _ _ _ _ hA
  have hB1 : s1.property_sets[b]? = some B := by
    rw [ht]; exact getElem?_append_some _ _ _ _ hB
  have hva : pairInvalid s1 ret a = false := pairInvalid_of_getElem? ret a _ _ hret hA1
  have hvb : pairInvalid s1 ret b = false := pairInvalid_of_getElem? ret b _ _ hret hB1
  unfold set_intersection_miss
  rw [get_value_of_getElem? a A hA, get_value_of_getElem? b B hB]
  simp only [hreg]
  unfold interRecord
  by_cases h1 : ret = a
  · have hne : ret ≠ b := fun h => hab (h1.symm.trans h)
    rw [if_neg (not_not.mpr h1), if_neg (not_not.mpr h1), if_pos hne, store_subset_ok]
    · exact hvb
    · exact hne
  · rw [if_pos h1, if_pos h1, store_subset_ok]
    · exact hva
    · exact h1

/-- The state `set_difference` leaves after a miss. -/
theorem set_difference_miss_eq {s : LatticeHashForest α} (hs : Inv s) (a b : Index)
    (A B : List α) (hA : s.property_sets[a]? = some A) (hB : s.property_sets[b]? = some B)
    (ret : Index) (cold : Bool) (s1 : LatticeHashForest α)
    (hreg : register_set s (diffMerge A B) = (ret, cold, s1)) :
    set_difference_miss s a b =
      (.ok ret, LHF_PERF_INC
        { s1 with
          differences := mapInsert OperationNode.eq s1.differences ⟨a, b⟩ ret
          intersections :=
            if ret ≠ a then s1.intersections
            else mapInsert OperationNode.eq s1.intersections ⟨min a b, max a b⟩ EMPTY_SET
          subsets := if ret ≠ a then recordSubset s1.subsets ret a else s1.subsets }
        "differences" (if cold then .cold_misses else .edge_misses)) := by
  have hspec := register_set_spec hs (diffMerge A B)
  rw [hreg] at hspec
  obtain ⟨_, hret, t, ht⟩ := hspec
  simp only at hret ht
  have hA1 : s1.property_sets[a]? = some A := by
    rw [ht]; exact getElem?_append_some _ _ _ _ hA
  have hva : pairInvalid s1 ret a = false := pairInvalid_of_getElem? ret a _ _ hret hA1
  unfold set_difference_miss
  rw [get_value_of_getElem? a A hA, get_value_of_getElem? b B hB]
  simp only [hreg]
  by_cases h1 : ret = a
  · rw [if_neg (not_not.mpr h1), if_neg (not_not.mpr h1), if_neg (not_not.mpr h1)]
  · rw [if_pos h1, if_pos h1, if_pos h1, store_subset_ok]
    · exact hva
    · exact h1

/-! ## The misses keep the invariant -/

theorem register_set_fields (s : LatticeHashForest α) (c : List α) (ret : Index) (cold : Bool)
    (s1 : LatticeHashForest α) (hreg : register_set s c = (ret, cold, s1)) :
    s1.unions = s.unions ∧ s1.intersections = s.intersections ∧
      s1.differences = s.differences ∧ s1.subsets = s.subsets := by
  have h1 := register_set_unions s c
  have h2 := register_set_intersections s c
  have h3 := register_set_differences s c
  have h4 := register_set_subsets s c
  rw [hreg] at h1 h2 h3 h4
  exact ⟨h1, h2, h3, h4⟩

theorem set_union_miss_spec {s : LatticeHashForest α} (hs : Inv s) (a b : Index)
    (A B : List α) (hA : s.property_sets[a]? = some A) (hB : s.property_sets[b]? = some B)
    (hab : a ≠ b) :
    ∃ ret s1, set_union_miss s a b = (.ok ret, s1) ∧ Inv s1 ∧
      s1.property_sets[ret]? = some (unionMerge A B) ∧
      (∃ t, s1.property_sets = s.property_sets ++ t) ∧
      s1.unions = mapInsert OperationNode.eq s.unions ⟨a, b⟩ ret ∧
      s1.intersections = s.intersections ∧ s1.differences = s.differences ∧
      s1.subsets = unionRecord s.subsets a b ret := by
  rcases hreg : register_set s (unionMerge A B) with ⟨ret, cold, s1⟩
  have heq := set_union_miss_eq hs a b A B hA hB hab ret cold s1 hreg
  have hspec := register_set_spec hs (unionMerge A B)
  rw [hreg] at hspec
  obtain ⟨hs1, hret, t, ht⟩ := hspec
  simp only at hs1 hret ht
  obtain ⟨hf1, hf2, hf3, hf4⟩ := register_set_fields s _ ret cold s1 hreg
  have hA1 : s1.property_sets[a]? = some A := by
    rw [ht]; exact getElem?_append_some _ _ _ _ hA
  have hB1 : s1.property_sets[b]? = some B := by
    rw [ht]; exact getElem?_append_some _ _ _ _ hB
  have hAU : A ⊆ unionMerge A B := fun x hx => (mem_unionMerge A B x).mpr (Or.inl hx)
  have hBU : B ⊆ unionMerge A B := fun x hx => (mem_unionMerge A B x).mpr (Or.inr hx)
  refine ⟨ret, _, heq, ?_, hret, ⟨t, ht⟩, ?_, hf2, hf3, ?_⟩
  · apply Inv.perf_inc
    refine ⟨hs1.empty_first, hs1.nodup, hs1.map_matches, ?_, hs1.intersections_exact,
      hs1.differences_exact, ?_⟩
    · exact hs1.unions_exact.insert a b ret A B hA1 hB1 hret
    · show SoundSubsets s1.property_sets (unionRecord s1.subsets a b ret)
      unfold unionRecord
      split_ifs with h1 h2
      · exact hs1.subsets_sound.record b ret B _ hB1 hret hBU
      · exact hs1.subsets_sound.record a ret A _ hA1 hret hAU
      · exact (hs1.subsets_sound.record a ret A _ hA1 hret hAU).record b ret B _ hB1 hret hBU
  · show mapInsert OperationNode.eq s1.unions ⟨a, b⟩ ret = _
    rw [hf1]
  · show unionRecord s1.subsets a b ret = _
    rw [hf4]

theorem set_intersection_miss_spec {s : LatticeHashForest α} (hs : Inv s) (a b : Index)
    (A B : List α) (hA : s.property_sets[a]? = some A) (hB : s.property_sets[b]? = some B)
    (hab : a ≠ b) :
    ∃ ret s1, set_intersection_miss s a b = (.ok ret, s1) ∧ Inv s1 ∧
      s1.property_sets[ret]? = some (interMerge A B) ∧
      (∃ t, s1.property_sets = s.property_sets ++ t) ∧
      s1.unions = s.unions ∧
      s1.intersections = mapInsert OperationNode.eq s.intersections ⟨a, b⟩ ret ∧
      s1.differences = s.differences ∧
      s1.subsets = interRecord s.subsets a b ret := by
  rcases hreg : register_set s (interMerge A B) with ⟨ret, cold, s1⟩
  have heq := set_intersection_miss_eq hs a b A B hA hB hab ret cold s1 hreg
  have hspec := register_set_spec hs (interMerge A B)
  rw [hreg] at hspec
  obtain ⟨hs1, hret, t, ht⟩ := hspec
  simp only at hs1 hret ht
  obtain ⟨hf1, hf2, hf3, hf4⟩ := register_set_fields s _ ret cold s1 hreg
  have hA1 : s1.property_sets[a]? = some A := by
    rw [ht]; exact getElem?_append_some _ _ _ _ hA
  have hB1 : s1.property_sets[b]? = some B := by
    rw [ht]; exact getElem?_append_some _ _ _ _ hB
  have hIA : interMerge A B ⊆ A := fun x hx => (mem_interMerge_imp A B x hx).1
  have hIB : interMerge A B ⊆ B := fun x hx => (mem_interMerge_imp A B x hx).2
  refine ⟨ret, _, heq, ?_, hret, ⟨t, ht⟩, hf1, ?_, hf3, ?_⟩
  · apply Inv.perf_inc
    refine ⟨hs1.empty_first, hs1.nodup, hs1.map_matches, hs1.unions_exact, ?_,
      hs1.differences_exact, ?_⟩
    · exact hs1.intersections_exact.insert a b ret A B hA1 hB1 hret
    · show SoundSubsets s1.property_sets (interRecord s1.subsets a b ret)
      unfold interRecord
      split_ifs with h1
      · exact hs1.subsets_sound.record ret a _ A hret hA1 hIA
      · exact hs1.subsets_sound.record ret b _ B hret hB1 hIB
  · show mapInsert OperationNode.eq s1.intersections ⟨a, b⟩ ret = _
    rw [hf2]
  · show interRecord s1.subsets a b ret = _
    rw [hf4]

theorem set_difference_miss_spec {s : LatticeHashForest α} (hs : Inv s) (a b : Index)
    (A B : List α) (hA : s.property_sets[a]? = some A) (hB : s.property_sets[b]? = some B) :
    ∃ ret s1, set_difference_miss s a b = (.ok ret, s1) ∧ Inv s1 ∧
      s1.property_sets[ret]? = some (diffMerge A B) ∧
      (∃ t, s1.property_sets = s.property_sets ++ t) ∧
      s1.unions = s.unions ∧
      s1.intersections =
        (if ret ≠ a then s.intersections
          else mapInsert OperationNode.eq s.intersections ⟨min a b, max a b⟩ EMPTY_SET) ∧
      s1.differences = mapInsert OperationNode.eq s.differences ⟨a, b⟩ ret ∧
      s1.subsets = (if ret ≠ a then recordSubset s.subsets ret a else s.subsets) := by
  rcases hreg : register_set s (diffMerge A B) with ⟨ret, cold, s1⟩
  have heq := set_difference_miss_eq hs a b A B hA hB ret cold s1 hreg
  have hspec := register_set_spec hs (diffMerge A B)
  rw [hreg] at hspec
  obtain ⟨hs1, hret, t, ht⟩ := hspec
  simp only at hs1 hret ht
  obtain ⟨hf1, hf2, hf3, hf4⟩ := register_set_fields s _ ret cold s1 hreg
  have hA1 : s1.property_sets[a]? = some A := by
    rw [ht]; exact getElem?_append_some _ _ _ _ hA
  have hB1 : s1.property_sets[b]? = some B := by
    rw [ht]; exact getElem?_append_some _ _ _ _ hB
  have hDA : diffMerge A B ⊆ A := fun x hx => mem_diffMerge_imp A B x hx
  refine ⟨ret, _, heq, ?_, hret, ⟨t, ht⟩, hf1, ?_, ?_, ?_⟩
  · apply Inv.perf_inc
    refine ⟨hs1.empty_first, hs1.nodup, hs1.map_matches, hs1.unions_exact, ?_, ?_, ?_⟩
    · show ExactCache interMerge s1.property_sets
        (if ret ≠ a then s1.intersections
          else mapInsert OperationNode.eq s1.intersections ⟨min a b, max a b⟩ EMPTY_SET)
      split_ifs with h1
      · exact hs1.intersections_exact
      · have hra : ret = a := not_not.mp h1
        have hD : diffMerge A B = A := by
          rw [hra, hA1] at hret
          exact (Option.some.inj hret).symm
        have hI : interMerge A B = [] := interMerge_nil_of_diffMerge_eq A B hD
        rcases Nat.le_total a b with hle | hle
        · rw [min_eq_left hle, max_eq_right hle]
          refine hs1.intersections_exact.insert a b EMPTY_SET A B hA1 hB1 ?_
          rw [hI]
          exact hs1.empty_first
        · rw [min_eq_right hle, max_eq_left hle]
          refine hs1.intersections_exact.insert b a EMPTY_SET B A hB1 hA1 ?_
          rw [interMerge_comm, hI]
          exact hs1.empty_first
    · exact hs1.differences_exact.insert a b ret A B hA1 hB1 hret
    · show SoundSubsets s1.property_sets
        (if ret ≠ a then recordSubset s1.subsets ret a else s1.subsets)
      split_ifs with h1
      · exact hs1.subsets_sound.record ret a _ A hret hA1 hDA
      · exact hs1.subsets_sound
  · show (if ret ≠ a then s1.intersections
        else mapInsert OperationNode.eq s1.intersections ⟨min a b, max a b⟩ EMPTY_SET) = _
    rw [hf2]
  · show mapInsert OperationNode.eq s1.differences ⟨a, b⟩ ret = _
    rw [hf3]
  · show (if ret ≠ a then recordSubset s1.subsets ret a else s1.subsets) = _
    rw [hf4]

/-! ## The binary operations past their short-circuits -/

theorem pairInvalid_comm (s : LatticeHashForest α) (a b : Index) :
    pairInvalid s a b = pairInvalid s b a := by
  unfold pairInvalid
  exact Bool.or_comm _ _

theorem pairInvalid_min_max (s : LatticeHashForest α) (a b : Index)
    (hv : pairInvalid s a b = false) : pairInvalid s (min a b) (max a b) = false := by
  rcases Nat.le_total a b with hle | hle
  · rw [min_eq_left hle, max_eq_right hle]
    exact hv
  · rw [min_eq_right hle, max_eq_left hle, pairInvalid_comm]
    exact hv

theorem is_empty_eq_false (i : Index) (h : i ≠ 0) : is_empty i = false := by
  unfold is_empty EMPTY_SET
  exact decide_eq_false h

/-- The member `set_union` on distinct non-empty operands, in terms of the
ordered key. -/
theorem set_union_normal (s : LatticeHashForest α) (a b : Index)
    (hv : pairInvalid s a b = false) (hab : a ≠ b) (ha : a ≠ 0) (hb : b ≠ 0) :
    set_union s a b =
      match mapFind OperationNode.eq s.subsets ⟨min a b, max a b⟩ with
      | some .SUBSET => (.ok (max a b), LHF_PERF_INC s "unions" .subset_hits)
      | some .SUPERSET => (.ok (min a b), LHF_PERF_INC s "unions" .subset_hits)
      | _ =>
        match mapFind OperationNode.eq s.unions ⟨min a b, max a b⟩ with
        | none => set_union_miss s (min a b) (max a b)
        | some r => (.ok r, LHF_PERF_INC s "unions" .hits) := by
  unfold set_union is_subset
  simp only [hv, pairInvalid_min_max s a b hv, is_empty_eq_false a ha,
    is_empty_eq_false b hb, Bool.false_eq_true, if_false, hab]
  cases mapFind OperationNode.eq s.subsets ⟨min a b, max a b⟩ with
  | none => rfl
  | some rel => cases rel <;> rfl

/-- The member `set_intersection` on distinct non-empty operands. -/
theorem set_intersection_normal (s : LatticeHashForest α) (a b : Index)
    (hv : pairInvalid s a b = false) (hab : a ≠ b) (ha : a ≠ 0) (hb : b ≠ 0) :
    set_intersection s a b =
      match mapFind OperationNode.eq s.subsets ⟨min a b, max a b⟩ with
      | some .SUBSET => (.ok (min a b), LHF_PERF_INC s "intersections" .subset_hits)
      | some .SUPERSET => (.ok (max a b), LHF_PERF_INC s "intersections" .subset_hits)
      | _ =>
        match mapFind OperationNode.eq s.intersections ⟨min a b, max a b⟩ with
        | none => set_intersection_miss s (min a b) (max a b)
        | some r => (.ok r, LHF_PERF_INC s "intersections" .hits) := by
  unfold set_intersection is_subset
  simp only [hv, pairInvalid_min_max s a b hv, is_empty_eq_false a ha,
    is_empty_eq_false b hb, Bool.false_eq_true, if_false, hab, Bool.or_self]
  cases mapFind OperationNode.eq s.subsets ⟨min a b, max a b⟩ with
  | none => rfl
  | some rel => cases rel <;> rfl

/-- The member `set_difference` on distinct non-empty operands. -/
theorem set_difference_normal (s : LatticeHashForest α) (a b : Index)
    (hv : pairInvalid s a b = false) (hab : a ≠ b) (ha : a ≠ 0) (hb : b ≠ 0) :
    set_difference s a b =
      match mapFind OperationNode.eq s.differences ⟨a, b⟩ with
      | none => set_difference_miss s a b
      | some r => (.ok r, LHF_PERF_INC s "differences" .hits) := by
  unfold set_difference
  rw [hv, is_empty_eq_false a ha, is_empty_eq_false b hb]
  simp only [Bool.false_eq_true, if_false, hab]

/-- Swapping the operands of `set_union` changes neither the result nor the
state left behind. -/
theorem set_union_swap (s : LatticeHashForest α) (a b : Index) :
    set_union s a b = set_union s b a := by
  by_cases hv : pairInvalid s a b = true
  · have hv2 : pairInvalid s b a = true := by rw [pairInvalid_comm]; exact hv
    unfold set_union
    rw [if_pos hv, if_pos hv2]
  · have hv1 : pairInvalid s a b = false := by simpa using hv
    have hv2 : pairInvalid s b a = false := by rw [pairInvalid_comm]; exact hv1
    by_cases hab : a = b
    · rw [hab]
    · by_cases ha : a = 0
      · subst ha
        unfold set_union
        rw [hv1, hv2]
        simp [hab, Ne.symm hab, is_empty, EMPTY_SET]
      · by_cases hb : b = 0
        · subst hb
          unfold set_union
          rw [hv1, hv2]
          simp [hab, Ne.symm hab, is_empty, EMPTY_SET]
        · rw [set_union_normal s a b hv1 hab ha hb,
            set_union_normal s b a hv2 (Ne.symm hab) hb ha, min_comm a b, max_comm a b]

/-- Swapping the operands of `set_intersection` changes neither the result nor
the state left behind. -/
theorem set_intersection_swap (s : LatticeHashForest α) (a b : Index) :
    set_intersection s a b = set_intersection s b a := by
  by_cases hv : pairInvalid s a b = true
  · have hv2 : pairInvalid s b a = true := by rw [pairInvalid_comm]; exact hv
    unfold set_intersection
    rw [if_pos hv, if_pos hv2]
  · have hv1 : pairInvalid s a b = false := by simpa using hv
    have hv2 : pairInvalid s b a = false := by rw [pairInvalid_comm]; exact hv1
    by_cases hab : a = b
    · rw [hab]
    · by_cases ha : a = 0
      · subst ha
        unfold set_intersection
        rw [hv1, hv2]
        simp [hab, Ne.symm hab, is_empty, EMPTY_SET]
      · by_cases hb : b = 0
        · subst hb
          unfold set_intersection
          rw [hv1, hv2]
          simp [hab, Ne.symm hab, is_empty, EMPTY_SET]
        · rw [set_intersection_normal s a b hv1 hab ha hb,
            set_intersection_normal s b a hv2 (Ne.symm hab) hb ha, min_comm a b, max_comm a b]

/-! ## What the binary operations return -/

theorem set_union_struct_lt {s : LatticeHashForest α} (hs : Inv s) (a b : Index)
    (A B : List α) (hA : s.property_sets[a]? = some A) (hB : s.property_sets[b]? = some B)
    (hab : a < b) (ha : a ≠ 0) :
    ∃ r s1 R, set_union s a b = (.ok r, s1) ∧ Inv s1 ∧
      (∃ t, s1.property_sets = s.property_sets ++ t) ∧
      s1.property_sets[r]? = some R ∧
      (R = unionMerge A B ∨ (R = A ∧ B ⊆ A) ∨ (R = B ∧ A ⊆ B)) := by
  have hv := pairInvalid_of_getElem? a b A B hA hB
  have hb : b ≠ 0 := Nat.pos_iff_ne_zero.mp (Nat.lt_of_le_of_lt (Nat.zero_le a) hab)
  rw [set_union_normal s a b hv (Nat.ne_of_lt hab) ha hb, min_eq_left (Nat.le_of_lt hab),
    max_eq_right (Nat.le_of_lt hab)]
  cases hsub : mapFind OperationNode.eq s.subsets ⟨a, b⟩ with
  | some rel =>
    obtain ⟨hu, X, Y, hX, hY, h1, h2⟩ := hs.subsets_sound a b rel hsub
    have hXA : X = A := Option.some.inj (hX.symm.trans hA)
    have hYB : Y = B := Option.some.inj (hY.symm.trans hB)
    subst hXA hYB
    cases rel with
    | UNKNOWN => exact absurd rfl hu
    | SUBSET =>
      exact ⟨b, _, Y, rfl, hs.perf_inc _ _, ⟨[], by simp⟩, hB, Or.inr (Or.inr ⟨rfl, h1 rfl⟩)⟩
    | SUPERSET =>
      exact ⟨a, _, X, rfl, hs.perf_inc _ _, ⟨[], by simp⟩, hA, Or.inr (Or.inl ⟨rfl, h2 rfl⟩)⟩
  | none =>
    cases hun : mapFind OperationNode.eq s.unions ⟨a, b⟩ with
    | some r =>
      obtain ⟨X, Y, hX, hY, hR⟩ := hs.unions_exact a b r hun
      have hXA : X = A := Option.some.inj (hX.symm.trans hA)
      have hYB : Y = B := Option.some.inj (hY.symm.trans hB)
      subst hXA hYB
      exact ⟨r, _, _, rfl, hs.perf_inc _ _, ⟨[], by simp⟩, hR, Or.inl rfl⟩
    | none =>
      obtain ⟨ret, s1, heq, hs1, hret, ht, _⟩ :=
        set_union_miss_spec hs a b A B hA hB (Nat.ne_of_lt hab)
      exact ⟨ret, s1, _, heq, hs1, ht, hret, Or.inl rfl⟩

/-- The member `set_union` on valid operands: it succeeds, keeps the invariant,
only appends to the store, and the set it returns is the merge of the operands
or, on a short-circuit, the operand that contains the other. -/
theorem set_union_struct {s : LatticeHashForest α} (hs : Inv s) (a b : Index)
    (A B : List α) (hA : s.property_sets[a]? = some A) (hB : s.property_sets[b]? = some B) :
    ∃ r s1 R, set_union s a b = (.ok r, s1) ∧ Inv s1 ∧
      (∃ t, s1.property_sets = s.property_sets ++ t) ∧
      s1.property_sets[r]? = some R ∧
      (R = unionMerge A B ∨ (R = A ∧ B ⊆ A) ∨ (R = B ∧ A ⊆ B)) := by
  have hv := pairInvalid_of_getElem? a b A B hA hB
  by_cases hab : a = b
  · subst hab
    have hBA : B = A := Option.some.inj (hB.symm.trans hA)
    subst hBA
    have heq : set_union s a a = (.ok a, LHF_PERF_INC s "unions" .equal_hits) := by
      unfold set_union
      rw [hv]
      simp
    exact ⟨a, _, B, heq, hs.perf_inc _ _, ⟨[], by simp⟩, hA,
      Or.inr (Or.inl ⟨rfl, fun _ h => h⟩)⟩
  · by_cases ha : a = 0
    · subst ha
      have hA0 : A = [] := Option.some.inj (hA.symm.trans hs.empty_first)
      subst hA0
      have heq : set_union s 0 b = (.ok b, LHF_PERF_INC s "unions" .empty_hits) := by
        unfold set_union
        rw [hv]
        simp [hab, is_empty, EMPTY_SET]
      exact ⟨b, _, B, heq, hs.perf_inc _ _, ⟨[], by simp⟩, hB,
        Or.inr (Or.inr ⟨rfl, by simp⟩)⟩
    · by_cases hb : b = 0
      · subst hb
        have hB0 : B = [] := Option.some.inj (hB.symm.trans hs.empty_first)
        subst hB0
        have heq : set_union s a 0 = (.ok a, LHF_PERF_INC s "unions" .empty_hits) := by
          unfold set_union
          rw [hv]
          simp [hab, ha, is_empty, EMPTY_SET]
        exact ⟨a, _, A, heq, hs.perf_inc _ _, ⟨[], by simp⟩, hA,
          Or.inr (Or.inl ⟨rfl, by simp⟩)⟩
      · rcases Nat.lt_or_gt_of_ne hab with hlt | hgt
        · exact set_union_struct_lt hs a b A B hA hB hlt ha
        · obtain ⟨r, s1, R, heq, hs1, ht, hR, hcase⟩ :=
            set_union_struct_lt hs b a B A hB hA hgt hb
          rw [set_union_swap]
          refine ⟨r, s1, R, heq, hs1, ht, hR, ?_⟩
          rcases hcase with h | h | h
          · exact Or.inl (h.trans (unionMerge_comm B A))
          · exact Or.inr (Or.inr h)
          · exact Or.inr (Or.inl h)

theorem set_intersection_struct_lt {s : LatticeHashForest α} (hs : Inv s) (a b : Index)
    (A B : List α) (hA : s.property_sets[a]? = some A) (hB : s.property_sets[b]? = some B)
    (hab : a < b) (ha : a ≠ 0) :
    ∃ r s1 R, set_intersection s a b = (.ok r, s1) ∧ Inv s1 ∧
      (∃ t, s1.property_sets = s.property_sets ++ t) ∧
      s1.property_sets[r]? = some R ∧
      (R = interMerge A B ∨ (R = A ∧ A ⊆ B) ∨ (R = B ∧ B ⊆ A)) := by
  have hv := pairInvalid_of_getElem? a b A B hA hB
  have hb : b ≠ 0 := Nat.pos_iff_ne_zero.mp (Nat.lt_of_le_of_lt (Nat.zero_le a) hab)
  rw [set_intersection_normal s a b hv (Nat.ne_of_lt hab) ha hb,
    min_eq_left (Nat.le_of_lt hab), max_eq_right (Nat.le_of_lt hab)]
  cases hsub : mapFind OperationNode.eq s.subsets ⟨a, b⟩ with
  | some rel =>
    obtain ⟨hu, X, Y, hX, hY, h1, h2⟩ := hs.subsets_sound a b rel hsub
    have hXA : X = A := Option.some.inj (hX.symm.trans hA)
    have hYB : Y = B := Option.some.inj (hY.symm.trans hB)
    subst hXA hYB
    cases rel with
    | UNKNOWN => exact absurd rfl hu
    | SUBSET =>
      exact ⟨a, _, X, rfl, hs.perf_inc _ _, ⟨[], by simp⟩, hA, Or.inr (Or.inl ⟨rfl, h1 rfl⟩)⟩
    | SUPERSET =>
      exact ⟨b, _, Y, rfl, hs.perf_inc _ _, ⟨[], by simp⟩, hB, Or.inr (Or.inr ⟨rfl, h2 rfl⟩)⟩
  | none =>
    cases hun : mapFind OperationNode.eq s.intersections ⟨a, b⟩ with
    | some r =>
      obtain ⟨X, Y, hX, hY, hR⟩ := hs.intersections_exact a b r hun
      have hXA : X = A := Option.some.inj (hX.symm.trans hA)
      have hYB : Y = B := Option.some.inj (hY.symm.trans hB)
      subst hXA hYB
      exact ⟨r, _, _, rfl, hs.perf_inc _ _, ⟨[], by simp⟩, hR, Or.inl rfl⟩
    | none =>
      obtain ⟨ret, s1, heq, hs1, hret, ht, _⟩ :=
        set_intersection_miss_spec hs a b A B hA hB (Nat.ne_of_lt hab)
      exact ⟨ret, s1, _, heq, hs1, ht, hret, Or.inl rfl⟩

/-- The member `set_intersection` on valid operands: it succeeds, keeps the
invariant, only appends to the store, and the set it returns is the merge of
the operands or, on a short-circuit, the operand contained in the other. -/
theorem set_intersection_struct {s : LatticeHashForest α} (hs : Inv s) (a b : Index)
    (A B : List α) (hA : s.property_sets[a]? = some A) (hB : s.property_sets[b]? = some B) :
    ∃ r s1 R, set_intersection s a b = (.ok r, s1) ∧ Inv s1 ∧
      (∃ t, s1.property_sets = s.property_sets ++ t) ∧
      s1.property_sets[r]? = some R ∧
      (R = interMerge A B ∨ (R = A ∧ A ⊆ B) ∨ (R = B ∧ B ⊆ A)) := by
  have hv := pairInvalid_of_getElem? a b A B hA hB
  by_cases hab : a = b
  · subst hab
    have hBA : B = A := Option.some.inj (hB.symm.trans hA)
    subst hBA
    have heq : set_intersection s a a =
        (.ok a, LHF_PERF_INC s "intersections" .equal_hits) := by
      unfold set_intersection
      rw [hv]
      simp
    exact ⟨a, _, B, heq, hs.perf_inc _ _, ⟨[], by simp⟩, hA,
      Or.inr (Or.inl ⟨rfl, fun _ h => h⟩)⟩
  · by_cases ha : a = 0
    · subst ha
      have hA0 : A = [] := Option.some.inj (hA.symm.trans hs.empty_first)
      subst hA0
      have heq : set_intersection s 0 b =
          (.ok EMPTY_SET, LHF_PERF_INC s "intersections" .empty_hits) := by
        unfold set_intersection
        rw [hv]
        simp [hab, is_empty, EMPTY_SET]
      exact ⟨EMPTY_SET, _, [], heq, hs.perf_inc _ _, ⟨[], by simp⟩, hs.empty_first,
        Or.inr (Or.inl ⟨rfl, by simp⟩)⟩
    · by_cases hb : b = 0
      · subst hb
        have hB0 : B = [] := Option.some.inj (hB.symm.trans hs.empty_first)
        subst hB0
        have heq : set_intersection s a 0 =
            (.ok EMPTY_SET, LHF_PERF_INC s "intersections" .empty_hits) := by
          unfold set_intersection
          rw [hv]
          simp [hab, ha, is_empty, EMPTY_SET]
        exact ⟨EMPTY_SET, _, [], heq, hs.perf_inc _ _, ⟨[], by simp⟩, hs.empty_first,
          Or.inr (Or.inr ⟨rfl, by simp⟩)⟩
      · rcases Nat.lt_or_gt_of_ne hab with hlt | hgt
        · exact set_intersection_struct_lt hs a b A B hA hB hlt ha
        · obtain ⟨r, s1, R, heq, hs1, ht, hR, hcase⟩ :=
            set_intersection_struct_lt hs b a B A hB hA hgt hb
          rw [set_intersection_swap]
          refine ⟨r, s1, R, heq, hs1, ht, hR, ?_⟩
          rcases hcase with h | h | h
          · exact Or.inl (h.trans (interMerge_comm B A))
          · exact Or.inr (Or.inr h)
          · exact Or.inr (Or.inl h)

/-- The member `set_difference` on valid operands: it succeeds, keeps the
invariant, only appends to the store, and the set it returns is the sequence
the difference merge produces from the operands, on every path. -/
theorem set_difference_struct {s : LatticeHashForest α} (hs : Inv s) (a b : Index)
    (A B : List α) (hA : s.property_sets[a]? = some A) (hB : s.property_sets[b]? = some B) :
    ∃ r s1, set_difference s a b = (.ok r, s1) ∧ Inv s1 ∧
      (∃ t, s1.property_sets = s.property_sets ++ t) ∧
      s1.property_sets[r]? = some (diffMerge A B) := by
  have hv := pairInvalid_of_getElem? a b A B hA hB
  by_cases hab : a = b
  · subst hab
    have hBA : B = A := Option.some.inj (hB.symm.trans hA)
    subst hBA
    have heq : set_difference s a a =
        (.ok EMPTY_SET, LHF_PERF_INC s "differences" .equal_hits) := by
      unfold set_difference
      rw [hv]
      simp
    refine ⟨EMPTY_SET, _, heq, hs.perf_inc _ _, ⟨[], by simp⟩, ?_⟩
    rw [diffMerge_self]
    exact hs.empty_first
  · by_cases ha : a = 0
    · subst ha
      have hA0 : A = [] := Option.some.inj (hA.symm.trans hs.empty_first)
      subst hA0
      have heq : set_difference s 0 b =
          (.ok EMPTY_SET, LHF_PERF_INC s "differences" .empty_hits) := by
        unfold set_difference
        rw [hv]
        simp [hab, is_empty, EMPTY_SET]
      exact ⟨EMPTY_SET, _, heq, hs.perf_inc _ _, ⟨[], by simp⟩, hs.empty_first⟩
    · by_cases hb : b = 0
      · subst hb
        have hB0 : B = [] := Option.some.inj (hB.symm.trans hs.empty_first)
        subst hB0
        have heq : set_difference s a 0 =
            (.ok a, LHF_PERF_INC s "differences" .empty_hits) := by
          unfold set_difference
          rw [hv]
          simp [hab, ha, is_empty, EMPTY_SET]
        refine ⟨a, _, heq, hs.perf_inc _ _, ⟨[], by simp⟩, ?_⟩
        rw [diffMerge_nil_right]
        exact hA
      · rw [set_difference_normal s a b hv hab ha hb]
        cases hun : mapFind OperationNode.eq s.differences ⟨a, b⟩ with
        | some r =>
          obtain ⟨X, Y, hX, hY, hR⟩ := hs.differences_exact a b r hun
          have hXA : X = A := Option.some.inj (hX.symm.trans hA)
          have hYB : Y = B := Option.some.inj (hY.symm.trans hB)
          subst hXA hYB
          exact ⟨r, _, rfl, hs.perf_inc _ _, ⟨[], by simp⟩, hR⟩
        | none =>
          obtain ⟨ret, s1, heq, hs1, hret, ht, _⟩ :=
            set_difference_miss_spec hs a b A B hA hB
          exact ⟨ret, s1, heq, hs1, ht, hret⟩

/-! ## Every reachable state satisfies the invariant -/

theorem pairInvalid_eq_false_iff (s : LatticeHashForest α) (a b : Index) :
    pairInvalid s a b = false ↔ indexInvalid s a = false ∧ indexInvalid s b = false := by
  unfold pairInvalid
  exact Bool.or_eq_false_iff

theorem Inv.new : Inv (LatticeHashForest.new : LatticeHashForest α) := by
  have h : (LatticeHashForest.new : LatticeHashForest α) =
      { perf := perfIncr [] "property_sets" .cold_misses
        property_sets := [[]]
        property_set_map := [([], 0)] } := rfl
  rw [h]
  refine ⟨rfl, List.nodup_singleton _, ?_, ?_, ?_, ?_, ?_⟩
  · intro c i
    show (c, i) ∈ [(([] : List α), 0)] ↔ [([] : List α)][i]? = some c
    rw [List.mem_singleton]
    constructor
    · intro h
      cases h
      rfl
    · intro h
      have hi := lt_length_of_getElem? _ _ _ h
      simp only [List.length_singleton, Nat.lt_one_iff] at hi
      subst hi
      simp only [List.getElem?_cons_zero, Option.some.injEq] at h
      rw [h]
  · intro a b r h
    cases h
  · intro a b r h
    cases h
  · intro a b r h
    cases h
  · intro a b r h
    cases h

theorem set_union_inv {s : LatticeHashForest α} (hs : Inv s) (a b : Index) :
    Inv (set_union s a b).2 := by
  by_cases hv : pairInvalid s a b = true
  · unfold set_union
    rw [if_pos hv]
    exact hs
  · have hv1 : pairInvalid s a b = false := by simpa using hv
    obtain ⟨h1, h2⟩ := (pairInvalid_eq_false_iff s a b).mp hv1
    obtain ⟨A, hA⟩ := exists_getElem?_of_valid hs a h1
    obtain ⟨B, hB⟩ := exists_getElem?_of_valid hs b h2
    obtain ⟨r, s1, R, heq, hs1, _⟩ := set_union_struct hs a b A B hA hB
    rw [heq]
    exact hs1

theorem set_intersection_inv {s : LatticeHashForest α} (hs : Inv s) (a b : Index) :
    Inv (set_intersection s a b).2 := by
  by_cases hv : pairInvalid s a b = true
  · unfold set_intersection
    rw [if_pos hv]
    exact hs
  · have hv1 : pairInvalid s a b = false := by simpa using hv
    obtain ⟨h1, h2⟩ := (pairInvalid_eq_false_iff s a b).mp hv1
    obtain ⟨A, hA⟩ := exists_getElem?_of_valid hs a h1
    obtain ⟨B, hB⟩ := exists_getElem?_of_valid hs b h2
    obtain ⟨r, s1, R, heq, hs1, _⟩ := set_intersection_struct hs a b A B hA hB
    rw [heq]
    exact hs1

theorem set_difference_inv {s : LatticeHashForest α} (hs : Inv s) (a b : Index) :
    Inv (set_difference s a b).2 := by
  by_cases hv : pairInvalid s a b = true
  · unfold set_difference
    rw [if_pos hv]
    exact hs
  · have hv1 : pairInvalid s a b = false := by simpa using hv
    obtain ⟨h1, h2⟩ := (pairInvalid_eq_false_iff s a b).mp hv1
    obtain ⟨A, hA⟩ := exists_getElem?_of_valid hs a h1
    obtain ⟨B, hB⟩ := exists_getElem?_of_valid hs b h2
    obtain ⟨r, s1, heq, hs1, _⟩ := set_difference_struct hs a b A B hA hB
    rw [heq]
    exact hs1

theorem set_filter_inv {s : LatticeHashForest α} (hs : Inv s) (i : Index) (f : α → Bool)
    (cache : List (Index × Index)) : Inv (set_filter s i f cache).2.1 := by
  unfold set_filter
  split_ifs with h1 h2
  · exact hs
  · exact hs
  · cases hc : mapFind (fun x y => decide (x = y)) cache i with
    | some r => exact hs.perf_inc _ _
    | none =>
      simp only
      cases hg : get_value s i with
      | error e => exact hs
      | ok v =>
        simp only
        exact (register_set_spec hs (v.filter f)).1.perf_inc _ _

/-- The invariant holds in every reachable state. -/
theorem Reachable.inv {s : LatticeHashForest α} (h : Reachable s) : Inv s := by
  induction h with
  | new => exact Inv.new
  | register_set c _ ih => exact (register_set_spec ih c).1
  | register_set_single c _ ih => exact (register_set_spec ih [c]).1
  | set_union a b _ ih => exact set_union_inv ih a b
  | set_intersection a b _ ih => exact set_intersection_inv ih a b
  | set_difference a b _ ih => exact set_difference_inv ih a b
  | set_insert_single a e _ ih => exact set_union_inv (register_set_spec ih [e]).1 a _
  | set_remove_single a e _ ih => exact set_difference_inv (register_set_spec ih [e]).1 a _
  | set_filter i f cache _ ih => exact set_filter_inv ih i f cache

theorem Extends.getElem? {s t : LatticeHashForest α} (h : Extends s t) (i : Index)
    (c : List α) (hc : s.property_sets[i]? = some c) : t.property_sets[i]? = some c := by
  obtain ⟨added, ht⟩ := h
  rw [ht]
  exact getElem?_append_some _ _ _ _ hc

theorem Extends.trans {s t u : LatticeHashForest α} (h1 : Extends s t) (h2 : Extends t u) :
    Extends s u := by
  obtain ⟨x, hx⟩ := h1
  obtain ⟨y, hy⟩ := h2
  exact ⟨x ++ y, by rw [hy, hx, List.append_assoc]⟩

theorem strictAsc_ext {S T : List α} (hS : S.Pairwise (· < ·)) (hT : T.Pairwise (· < ·))
    (hST : ∀ x, x ∈ S ↔ x ∈ T) : S = T := by
  have hSn : S.Nodup := hS.imp (fun h => ne_of_lt h)
  have hTn : T.Nodup := hT.imp (fun h => ne_of_lt h)
  exact List.eq_of_perm_of_sorted ((List.perm_ext_iff_of_nodup hSn hTn).mpr hST) hS hT

theorem fresh_reachable : Reachable fresh := Reachable.new

theorem sortedForest_reachable : Reachable sortedForest :=
  Reachable.register_set _ (Reachable.register_set _ Reachable.new)

theorem unsortedForest_reachable : Reachable unsortedForest :=
  Reachable.register_set _ (Reachable.register_set _ Reachable.new)

theorem intersectedForest_reachable : Reachable intersectedForest :=
  Reachable.set_intersection 1 2 sortedForest_reachable

/-! ## The short-circuits, in any state -/

theorem SameForest.of_perf_inc (s : LatticeHashForest α) (k : String) (c : PerfCategory) :
    SameForest s (LHF_PERF_INC s k c) :=
  ⟨rfl, rfl, rfl, rfl, rfl, rfl⟩

theorem indexInvalid_zero (s : LatticeHashForest α) : indexInvalid s 0 = false := by
  unfold indexInvalid
  exact decide_eq_false (Nat.not_lt_zero _)

theorem pairInvalid_self (s : LatticeHashForest α) (a : Index)
    (ha : indexInvalid s a = false) : pairInvalid s a a = false := by
  unfold pairInvalid
  rw [ha]
  rfl

theorem pairInvalid_zero_right (s : LatticeHashForest α) (a : Index)
    (ha : indexInvalid s a = false) : pairInvalid s a 0 = false := by
  unfold pairInvalid
  rw [ha, indexInvalid_zero]
  rfl

theorem pairInvalid_zero_left (s : LatticeHashForest α) (a : Index)
    (ha : indexInvalid s a = false) : pairInvalid s 0 a = false := by
  unfold pairInvalid
  rw [ha, indexInvalid_zero]
  rfl

theorem set_union_self (s : LatticeHashForest α) (a : Index)
    (ha : indexInvalid s a = false) :
    set_union s a a = (.ok a, LHF_PERF_INC s "unions" .equal_hits) := by
  unfold set_union
  rw [pairInvalid_self s a ha]
  simp

theorem set_intersection_self (s : LatticeHashForest α) (a : Index)
    (ha : indexInvalid s a = false) :
    set_intersection s a a = (.ok a, LHF_PERF_INC s "intersections" .equal_hits) := by
  unfold set_intersection
  rw [pairInvalid_self s a ha]
  simp

theorem set_difference_self (s : LatticeHashForest α) (a : Index)
    (ha : indexInvalid s a = false) :
    set_difference s a a = (.ok EMPTY_SET, LHF_PERF_INC s "differences" .equal_hits) := by
  unfold set_difference
  rw [pairInvalid_self s a ha]
  simp

theorem set_union_zero_right (s : LatticeHashForest α) (a : Index)
    (ha : indexInvalid s a = false) :
    ∃ c, set_union s a 0 = (.ok a, LHF_PERF_INC s "unions" c) := by
  unfold set_union
  rw [pairInvalid_zero_right s a ha]
  by_cases h0 : a = 0
  · exact ⟨.equal_hits, by simp [h0]⟩
  · exact ⟨.empty_hits, by simp [h0, is_empty, EMPTY_SET]⟩

theorem set_union_zero_left (s : LatticeHashForest α) (a : Index)
    (ha : indexInvalid s a = false) :
    ∃ c, set_union s 0 a = (.ok a, LHF_PERF_INC s "unions" c) := by
  rw [set_union_swap]
  exact set_union_zero_right s a ha

theorem set_intersection_zero_right (s : LatticeHashForest α) (a : Index)
    (ha : indexInvalid s a = false) :
    ∃ c, set_intersection s a 0 = (.ok EMPTY_SET, LHF_PERF_INC s "intersections" c) := by
  unfold set_intersection
  rw [pairInvalid_zero_right s a ha]
  by_cases h0 : a = 0
  · exact ⟨.equal_hits, by simp [h0, EMPTY_SET]⟩
  · exact ⟨.empty_hits, by simp [h0, is_empty, EMPTY_SET]⟩

theorem set_intersection_zero_left (s : LatticeHashForest α) (a : Index)
    (ha : indexInvalid s a = false) :
    ∃ c, set_intersection s 0 a = (.ok EMPTY_SET, LHF_PERF_INC s "intersections" c) := by
  rw [set_intersection_swap]
  exact set_intersection_zero_right s a ha

theorem set_difference_zero_right (s : LatticeHashForest α) (a : Index)
    (ha : indexInvalid s a = false) :
    ∃ c, set_difference s a 0 = (.ok a, LHF_PERF_INC s "differences" c) := by
  unfold set_difference
  rw [pairInvalid_zero_right s a ha]
  by_cases h0 : a = 0
  · exact ⟨.equal_hits, by simp [h0, EMPTY_SET]⟩
  · exact ⟨.empty_hits, by simp [h0, is_empty, EMPTY_SET]⟩

theorem set_difference_zero_left (s : LatticeHashForest α) (a : Index)
    (ha : indexInvalid s a = false) :
    ∃ c, set_difference s 0 a = (.ok EMPTY_SET, LHF_PERF_INC s "differences" c) := by
  unfold set_difference
  rw [pairInvalid_zero_left s a ha]
  by_cases h0 : a = 0
  · exact ⟨.equal_hits, by simp [h0, EMPTY_SET]⟩
  · exact ⟨.empty_hits, by simp [Ne.symm h0, is_empty, EMPTY_SET]⟩

/-! ## Asking again -/

theorem mapFind_insert_ne {κ ν : Type} (eq : κ → κ → Bool)
    (heq : ∀ a b, eq a b = true ↔ a = b) (m : List (κ × ν)) (k : κ) (v : ν) (k2 : κ)
    (h : k ≠ k2) : mapFind eq (mapInsert eq m k v) k2 = mapFind eq m k2 := by
  unfold mapInsert
  cases mapFind eq m k with
  | some w => rfl
  | none =>
    have hf : ¬ eq k k2 = true := fun hk => h ((heq k k2).mp hk)
    simp only [mapFind, if_neg hf]

/-- Recording a containment between `x` and `y` leaves the entries of other
pairs alone. -/
theorem mapFind_recordSubset_ne (m : List (OperationNode × SubsetRelation)) (x y a b : Nat)
    (h : ¬ (min x y = a ∧ max x y = b)) :
    mapFind OperationNode.eq (recordSubset m x y) ⟨a, b⟩ =
      mapFind OperationNode.eq m ⟨a, b⟩ := by
  unfold recordSubset
  split_ifs with hxy
  · apply mapFind_insert_ne _ OperationNode.eq_iff
    intro hk
    cases hk
    apply h
    have : y < x := hxy
    exact ⟨min_eq_right (Nat.le_of_lt this), max_eq_left (Nat.le_of_lt this)⟩
  · apply mapFind_insert_ne _ OperationNode.eq_iff
    intro hk
    cases hk
    apply h
    have : x ≤ y := Nat.le_of_not_lt hxy
    exact ⟨min_eq_left this, max_eq_right this⟩

/-- After the recording step of `set_union` on a pair without an entry, the
pair has an entry exactly when the result is one of the operands. -/
theorem mapFind_unionRecord (m : List (OperationNode × SubsetRelation)) (a b ret : Nat)
    (hab : a < b) (hm : mapFind OperationNode.eq m ⟨a, b⟩ = none) :
    mapFind OperationNode.eq (unionRecord m a b ret) ⟨a, b⟩ =
      if ret = a then some .SUPERSET else if ret = b then some .SUBSET else none := by
  unfold unionRecord
  by_cases h1 : ret = a
  · rw [if_pos h1, if_pos h1, h1]
    unfold recordSubset
    rw [if_pos (show b > a from hab)]
    exact mapFind_insert_of_none _ OperationNode.eq_iff m _ _ hm
  · rw [if_neg h1, if_neg h1]
    by_cases h2 : ret = b
    · rw [if_pos h2, if_pos h2, h2]
      unfold recordSubset
      rw [if_neg (show ¬ a > b from Nat.not_lt.mpr (Nat.le_of_lt hab))]
      exact mapFind_insert_of_none _ OperationNode.eq_iff m _ _ hm
    · rw [if_neg h2, if_neg h2, mapFind_recordSubset_ne, mapFind_recordSubset_ne, hm]
      · rintro ⟨h3, h4⟩
        rcases Nat.le_total a ret with hle | hle
        · rw [max_eq_right hle] at h4
          exact h2 h4
        · rw [max_eq_left hle] at h4
          omega
      · rintro ⟨h3, h4⟩
        rcases Nat.le_total b ret with hle | hle
        · rw [min_eq_left hle] at h3
          omega
        · rw [min_eq_right hle] at h3
          exact h1 h3

/-- After the recording step of `set_intersection` on a pair without an
entry, the pair has an entry exactly when the result is one of the operands. -/
theorem mapFind_interRecord (m : List (OperationNode × SubsetRelation)) (a b ret : Nat)
    (hab : a < b) (hm : mapFind OperationNode.eq m ⟨a, b⟩ = none) :
    mapFind OperationNode.eq (interRecord m a b ret) ⟨a, b⟩ =
      if ret = a then some .SUBSET else if ret = b then some .SUPERSET else none := by
  unfold interRecord
  by_cases h1 : ret = a
  · rw [if_neg (not_not.mpr h1), if_pos h1, h1]
    unfold recordSubset
    rw [if_neg (show ¬ a > b from Nat.not_lt.mpr (Nat.le_of_lt hab))]
    exact mapFind_insert_of_none _ OperationNode.eq_iff m _ _ hm
  · rw [if_pos h1, if_neg h1]
    by_cases h2 : ret = b
    · rw [if_pos h2, h2]
      unfold recordSubset
      rw [if_pos (show b > a from hab)]
      exact mapFind_insert_of_none _ OperationNode.eq_iff m _ _ hm
    · rw [if_neg h2, mapFind_recordSubset_ne, hm]
      rintro ⟨h3, h4⟩
      rcases Nat.le_total ret a with hle | hle
      · rw [min_eq_left hle] at h3
        exact h1 h3
      · rw [max_eq_left hle] at h4
        exact h2 h4

theorem set_union_repeat_lt {s : LatticeHashForest α} (hs : Inv s) (a b : Nat)
    (A B : List α) (hA : s.property_sets[a]? = some A) (hB : s.property_sets[b]? = some B)
    (hab : a < b) (ha : a ≠ 0) :
    ∃ r s1, set_union s a b = (.ok r, s1) ∧ (set_union s1 a b).1 = .ok r := by
  have hv := pairInvalid_of_getElem? a b A B hA hB
  have hb : b ≠ 0 := by omega
  have hne : a ≠ b := Nat.ne_of_lt hab
  have hmin : min a b = a := min_eq_left (Nat.le_of_lt hab)
  have hmax : max a b = b := max_eq_right (Nat.le_of_lt hab)
  rw [set_union_normal s a b hv hne ha hb, hmin, hmax]
  cases hsub : mapFind OperationNode.eq s.subsets ⟨a, b⟩ with
  | some rel =>
    obtain ⟨hu, _⟩ := hs.subsets_sound a b rel hsub
    cases rel with
    | UNKNOWN => exact absurd rfl hu
    | SUBSET =>
      refine ⟨b, _, rfl, ?_⟩
      rw [set_union_normal (LHF_PERF_INC s "unions" .subset_hits) a b hv hne ha hb, hmin,
        hmax, LHF_PERF_INC_subsets, hsub]
    | SUPERSET =>
      refine ⟨a, _, rfl, ?_⟩
      rw [set_union_normal (LHF_PERF_INC s "unions" .subset_hits) a b hv hne ha hb, hmin,
        hmax, LHF_PERF_INC_subsets, hsub]
  | none =>
    cases hun : mapFind OperationNode.eq s.unions ⟨a, b⟩ with
    | some r =>
      refine ⟨r, _, rfl, ?_⟩
      rw [set_union_normal (LHF_PERF_INC s "unions" .hits) a b hv hne ha hb, hmin, hmax,
        LHF_PERF_INC_subsets, hsub, LHF_PERF_INC_unions, hun]
    | none =>
      obtain ⟨ret, s1, heq, hs1, hret, ht, hu1, _, _, hsub1⟩ :=
        set_union_miss_spec hs a b A B hA hB hne
      have hext : Extends s s1 := ht
      have hv1 := pairInvalid_of_getElem? a b A B (hext.getElem? a A hA) (hext.getElem? b B hB)
      refine ⟨ret, s1, heq, ?_⟩
      rw [set_union_normal s1 a b hv1 hne ha hb, hmin, hmax, hsub1,
        mapFind_unionRecord s.subsets a b ret hab hsub]
      by_cases h1 : ret = a
      · rw [if_pos h1, h1]
      · rw [if_neg h1]
        by_cases h2 : ret = b
        · rw [if_pos h2, h2]
        · rw [if_neg h2, hu1, mapFind_insert_of_none _ OperationNode.eq_iff _ _ _ hun]

theorem set_intersection_repeat_lt {s : LatticeHashForest α} (hs : Inv s) (a b : Nat)
    (A B : List α) (hA : s.property_sets[a]? = some A) (hB : s.property_sets[b]? = some B)
    (hab : a < b) (ha : a ≠ 0) :
    ∃ r s1, set_intersection s a b = (.ok r, s1) ∧ (set_intersection s1 a b).1 = .ok r := by
  have hv := pairInvalid_of_getElem? a b A B hA hB
  have hb : b ≠ 0 := by omega
  have hne : a ≠ b := Nat.ne_of_lt hab
  have hmin : min a b = a := min_eq_left (Nat.le_of_lt hab)
  have hmax : max a b = b := max_eq_right (Nat.le_of_lt hab)
  rw [set_intersection_normal s a b hv hne ha hb, hmin, hmax]
  cases hsub : mapFind OperationNode.eq s.subsets ⟨a, b⟩ with
  | some rel =>
    obtain ⟨hu, _⟩ := hs.subsets_sound a b rel hsub
    cases rel with
    | UNKNOWN => exact absurd rfl hu
    | SUBSET =>
      refine ⟨a, _, rfl, ?_⟩
      rw [set_intersection_normal (LHF_PERF_INC s "intersections" .subset_hits) a b hv hne
        ha hb, hmin, hmax, LHF_PERF_INC_subsets, hsub]
    | SUPERSET =>
      refine ⟨b, _, rfl, ?_⟩
      rw [set_intersection_normal (LHF_PERF_INC s "intersections" .subset_hits) a b hv hne
        ha hb, hmin, hmax, LHF_PERF_INC_subsets, hsub]
  | none =>
    cases hun : mapFind OperationNode.eq s.intersections ⟨a, b⟩ with
    | some r =>
      refine ⟨r, _, rfl, ?_⟩
      rw [set_intersection_normal (LHF_PERF_INC s "intersections" .hits) a b hv hne ha hb,
        hmin, hmax, LHF_PERF_INC_subsets, hsub, LHF_PERF_INC_intersections, hun]
    | none =>
      obtain ⟨ret, s1, heq, hs1, hret, ht, _, hi1, _, hsub1⟩ :=
        set_intersection_miss_spec hs a b A B hA hB hne
      have hext : Extends s s1 := ht
      have hv1 := pairInvalid_of_getElem? a b A B (hext.getElem? a A hA) (hext.getElem? b B hB)
      refine ⟨ret, s1, heq, ?_⟩
      rw [set_intersection_normal s1 a b hv1 hne ha hb, hmin, hmax, hsub1,
        mapFind_interRecord s.subsets a b ret hab hsub]
      by_cases h1 : ret = a
      · rw [if_pos h1, h1]
      · rw [if_neg h1]
        by_cases h2 : ret = b
        · rw [if_pos h2, h2]
        · rw [if_neg h2, hi1, mapFind_insert_of_none _ OperationNode.eq_iff _ _ _ hun]

/-- Asking `set_union` again right after a call returns the same index. -/
theorem set_union_repeat {s : LatticeHashForest α} (hs : Inv s) (a b : Nat)
    (ha : indexInvalid s a = false) (hb : indexInvalid s b = false) :
    ∃ r s1, set_union s a b = (.ok r, s1) ∧ (set_union s1 a b).1 = .ok r := by
  obtain ⟨A, hA⟩ := exists_getElem?_of_valid hs a ha
  obtain ⟨B, hB⟩ := exists_getElem?_of_valid hs b hb
  by_cases hab : a = b
  · subst hab
    refine ⟨a, _, set_union_self s a ha, ?_⟩
    rw [set_union_self _ a (by rw [indexInvalid_perf_inc]; exact ha)]
  · by_cases ha0 : a = 0
    · subst ha0
      obtain ⟨c, hc⟩ := set_union_zero_left s b hb
      obtain ⟨c2, hc2⟩ := set_union_zero_left (LHF_PERF_INC s "unions" c) b
        (by rw [indexInvalid_perf_inc]; exact hb)
      exact ⟨b, _, hc, by rw [hc2]⟩
    · by_cases hb0 : b = 0
      · subst hb0
        obtain ⟨c, hc⟩ := set_union_zero_right s a ha
        obtain ⟨c2, hc2⟩ := set_union_zero_right (LHF_PERF_INC s "unions" c) a
          (by rw [indexInvalid_perf_inc]; exact ha)
        exact ⟨a, _, hc, by rw [hc2]⟩
      · rcases Nat.lt_or_gt_of_ne hab with hlt | hgt
        · exact set_union_repeat_lt hs a b A B hA hB hlt ha0
        · obtain ⟨r, s1, h1, h2⟩ := set_union_repeat_lt hs b a B A hB hA hgt hb0
          exact ⟨r, s1, by rw [set_union_swap]; exact h1, by rw [set_union_swap]; exact h2⟩

/-- Asking `set_intersection` again right after a call returns the same
index. -/
theorem set_intersection_repeat {s : LatticeHashForest α} (hs : Inv s) (a b : Nat)
    (ha : indexInvalid s a = false) (hb : indexInvalid s b = false) :
    ∃ r s1, set_intersection s a b = (.ok r, s1) ∧ (set_intersection s1 a b).1 = .ok r := by
  obtain ⟨A, hA⟩ := exists_getElem?_of_valid hs a ha
  obtain ⟨B, hB⟩ := exists_getElem?_of_valid hs b hb
  by_cases hab : a = b
  · subst hab
    refine ⟨a, _, set_intersection_self s a ha, ?_⟩
    rw [set_intersection_self _ a (by rw [indexInvalid_perf_inc]; exact ha)]
  · by_cases ha0 : a = 0
    · subst ha0
      obtain ⟨c, hc⟩ := set_intersection_zero_left s b hb
      obtain ⟨c2, hc2⟩ := set_intersection_zero_left (LHF_PERF_INC s "intersections" c) b
        (by rw [indexInvalid_perf_inc]; exact hb)
      exact ⟨EMPTY_SET, _, hc, by rw [hc2]⟩
    · by_cases hb0 : b = 0
      · subst hb0
        obtain ⟨c, hc⟩ := set_intersection_zero_right s a ha
        obtain ⟨c2, hc2⟩ := set_intersection_zero_right (LHF_PERF_INC s "intersections" c) a
          (by rw [indexInvalid_perf_inc]; exact ha)
        exact ⟨EMPTY_SET, _, hc, by rw [hc2]⟩
      · rcases Nat.lt_or_gt_of_ne hab with hlt | hgt
        · exact set_intersection_repeat_lt hs a b A B hA hB hlt ha0
        · obtain ⟨r, s1, h1, h2⟩ := set_intersection_repeat_lt hs b a B A hB hA hgt hb0
          exact ⟨r, s1, by rw [set_intersection_swap]; exact h1,
            by rw [set_intersection_swap]; exact h2⟩

/-! ## The single-element wrappers -/

theorem set_insert_single_eq (s : LatticeHashForest α) (a : Index) (e : α) :
    set_insert_single s a e = set_union (register_set s [e]).2.2 a (register_set s [e]).1 :=
  rfl

theorem set_remove_single_eq (s : LatticeHashForest α) (a : Index) (e : α) :
    set_remove_single s a e =
      set_difference (register_set s [e]).2.2 a (register_set s [e]).1 :=
  rfl

/-- Inserting an element that is not in the set: the call succeeds and the set
returned is the union merge of the set with the singleton. -/
theorem set_insert_single_struct {s : LatticeHashForest α} (hs : Inv s) (a : Index) (e : α)
    (A : List α) (hA : s.property_sets[a]? = some A) (he : e ∉ A) :
    ∃ r s1, set_insert_single s a e = (.ok r, s1) ∧ Inv s1 ∧ Extends s s1 ∧
      s1.property_sets[r]? = some (unionMerge A [e]) := by
  obtain ⟨h1, h2, h3⟩ := register_set_spec hs [e]
  have hext1 : Extends s (register_set s [e]).2.2 := h3
  obtain ⟨r, s1, R, heq, hs1, hext, hR, hcase⟩ :=
    set_union_struct h1 a _ A [e] (hext1.getElem? a A hA) h2
  rw [set_insert_single_eq, heq]
  refine ⟨r, s1, rfl, hs1, hext1.trans hext, ?_⟩
  rcases hcase with h | ⟨_, hsub⟩ | ⟨h, hsub⟩
  · rw [← h]
    exact hR
  · exact absurd (hsub (List.mem_singleton_self e)) he
  · have hnil : A = [] := by
      cases A with
      | nil => rfl
      | cons x xs =>
        have hx : x ∈ [e] := hsub (List.mem_cons_self x xs)
        rw [List.mem_singleton] at hx
        exact absurd (hx ▸ List.mem_cons_self x xs) he
    rw [hnil]
    rw [h] at hR
    exact hR

/-- Removing an element: the call succeeds and the set returned is the
difference merge of the set with the singleton. -/
theorem set_remove_single_struct {s : LatticeHashForest α} (hs : Inv s) (a : Index) (e : α)
    (A : List α) (hA : s.property_sets[a]? = some A) :
    ∃ r s1, set_remove_single s a e = (.ok r, s1) ∧ Inv s1 ∧ Extends s s1 ∧
      s1.property_sets[r]? = some (diffMerge A [e]) := by
  obtain ⟨h1, h2, h3⟩ := register_set_spec hs [e]
  have hext1 : Extends s (register_set s [e]).2.2 := h3
  obtain ⟨r, s1, heq, hs1, hext, hR⟩ :=
    set_difference_struct h1 a _ A [e] (hext1.getElem? a A hA) h2
  rw [set_remove_single_eq, heq]
  exact ⟨r, s1, rfl, hs1, hext1.trans hext, hR⟩

/-! ## The store in any state: one registration at a time -/

theorem sameStore_refl (s : LatticeHashForest α) : SameStore s s := ⟨rfl, rfl⟩

theorem sameStore_trans {s t u : LatticeHashForest α} (h1 : SameStore s t)
    (h2 : SameStore t u) : SameStore s u :=
  ⟨h2.1.trans h1.1, h2.2.trans h1.2⟩

theorem storeStep_then_same {s t u : LatticeHashForest α} (h1 : StoreStep s t)
    (h2 : SameStore t u) : StoreStep s u := by
  rcases h1 with h | ⟨c, hc, hsets, hmap⟩
  · exact Or.inl (sameStore_trans h h2)
  · exact Or.inr ⟨c, hc, h2.1.trans hsets, h2.2.trans hmap⟩

theorem storeStep_extends {s t : LatticeHashForest α} (h : StoreStep s t) : Extends s t := by
  rcases h with h | ⟨c, _, hsets, _⟩
  · exact ⟨[], by rw [h.1, List.append_nil]⟩
  · exact ⟨[c], hsets⟩

theorem register_set_storeStep (s : LatticeHashForest α) (c : List α) :
    StoreStep s (register_set s c).2.2 := by
  cases hf : mapFind SetEqual s.property_set_map c with
  | some i =>
    rw [register_set_of_some s c i hf]
    exact Or.inl ⟨rfl, rfl⟩
  | none =>
    rw [register_set_of_none s c hf]
    exact Or.inr ⟨c, hf, rfl, rfl⟩

theorem store_subset_sameStore (s : LatticeHashForest α) (a b : Index) :
    SameStore s (store_subset s a b).2 := by
  unfold store_subset
  split_ifs <;> exact ⟨rfl, rfl⟩

theorem store_subset_eq_sameStore {s t : LatticeHashForest α} {a b : Index}
    {r : Except AssertError Unit} (h : store_subset s a b = (r, t)) : SameStore s t := by
  have := store_subset_sameStore s a b
  rw [h] at this
  exact this

theorem set_union_miss_storeStep (s : LatticeHashForest α) (a b : Index) :
    StoreStep s (set_union_miss s a b).2 := by
  unfold set_union_miss
  cases get_value s a with
  | error e => cases get_value s b <;> exact Or.inl ⟨rfl, rfl⟩
  | ok first =>
    cases get_value s b with
    | error e => exact Or.inl ⟨rfl, rfl⟩
    | ok second =>
      simp only
      rcases hreg : register_set s (unionMerge first second) with ⟨ret, cold, s1⟩
      have h1 : StoreStep s s1 := by
        have := register_set_storeStep s (unionMerge first second)
        rw [hreg] at this
        exact this
      simp only
      have key : ∀ (r : Except AssertError Unit) (s4 : LatticeHashForest α),
          (if ret = a then
              store_subset { s1 with
                unions := mapInsert OperationNode.eq s1.unions ⟨a, b⟩ ret } b ret
            else if ret = b then
              store_subset { s1 with
                unions := mapInsert OperationNode.eq s1.unions ⟨a, b⟩ ret } a ret
            else
              match store_subset { s1 with
                unions := mapInsert OperationNode.eq s1.unions ⟨a, b⟩ ret } a ret with
              | (.ok _, s3) => store_subset s3 b ret
              | (.error e, s3) => (.error e, s3)) = (r, s4) → SameStore s1 s4 := by
        intro r s4 heq
        split at heq
        · have h := store_subset_eq_sameStore heq
          exact h
        · split at heq
          · have h := store_subset_eq_sameStore heq
            exact h
          · split at heq
            · rename_i y s3 heq2
              have h2 := store_subset_eq_sameStore heq2
              have h3 := store_subset_eq_sameStore heq
              exact sameStore_trans h2 h3
            · rename_i e2 s3 heq2
              have h2 := store_subset_eq_sameStore heq2
              cases heq
              exact h2
      split
      · rename_i x s4 heq
        have h := key _ s4 heq
        exact storeStep_then_same h1 ⟨h.1, h.2⟩
      · rename_i e s4 heq
        have h := key _ s4 heq
        exact storeStep_then_same h1 ⟨h.1, h.2⟩

theorem set_intersection_miss_storeStep (s : LatticeHashForest α) (a b : Index) :
    StoreStep s (set_intersection_miss s a b).2 := by
  unfold set_intersection_miss
  cases get_value s a with
  | error e => cases get_value s b <;> exact Or.inl ⟨rfl, rfl⟩
  | ok first =>
    cases get_value s b with
    | error e => exact Or.inl ⟨rfl, rfl⟩
    | ok second =>
      simp only
      rcases hreg : register_set s (interMerge first second) with ⟨ret, cold, s1⟩
      have h1 : StoreStep s s1 := by
        have := register_set_storeStep s (interMerge first second)
        rw [hreg] at this
        exact this
      simp only
      have key : ∀ (r : Except AssertError Unit) (s4 : LatticeHashForest α),
          (if ret ≠ a then
              store_subset { s1 with
                intersections := mapInsert OperationNode.eq s1.intersections ⟨a, b⟩ ret } ret a
            else if ret ≠ b then
              store_subset { s1 with
                intersections := mapInsert OperationNode.eq s1.intersections ⟨a, b⟩ ret } ret b
            else
              match store_subset { s1 with
                intersections :=
                  mapInsert OperationNode.eq s1.intersections ⟨a, b⟩ ret } ret a with
              | (.ok _, s3) => store_subset s3 ret b
              | (.error e, s3) => (.error e, s3)) = (r, s4) → SameStore s1 s4 := by
        intro r s4 heq
        split at heq
        · have h := store_subset_eq_sameStore heq
          exact h
        · split at heq
          · have h := store_subset_eq_sameStore heq
            exact h
          · split at heq
            · rename_i y s3 heq2
              have h2 := store_subset_eq_sameStore heq2
              have h3 := store_subset_eq_sameStore heq
              exact sameStore_trans h2 h3
            · rename_i e2 s3 heq2
              have h2 := store_subset_eq_sameStore heq2
              cases heq
              exact h2
      split
      · rename_i x s4 heq
        have h := key _ s4 heq
        exact storeStep_then_same h1 ⟨h.1, h.2⟩
      · rename_i e s4 heq
        have h := key _ s4 heq
        exact storeStep_then_same h1 ⟨h.1, h.2⟩

theorem set_difference_miss_storeStep (s : LatticeHashForest α) (a b : Index) :
    StoreStep s (set_difference_miss s a b).2 := by
  unfold set_difference_miss
  cases get_value s a with
  | error e => cases get_value s b <;> exact Or.inl ⟨rfl, rfl⟩
  | ok first =>
    cases get_value s b with
    | error e => exact Or.inl ⟨rfl, rfl⟩
    | ok second =>
      simp only
      rcases hreg : register_set s (diffMerge first second) with ⟨ret, cold, s1⟩
      have h1 : StoreStep s s1 := by
        have := register_set_storeStep s (diffMerge first second)
        rw [hreg] at this
        exact this
      simp only
      by_cases hra : ret = a
      · rw [if_neg (not_not.mpr hra)]
        exact storeStep_then_same h1 ⟨rfl, rfl⟩
      · rw [if_pos hra]
        split
        · rename_i x s4 heq
          have h := store_subset_eq_sameStore heq
          exact storeStep_then_same h1 ⟨h.1, h.2⟩
        · rename_i e s4 heq
          have h := store_subset_eq_sameStore heq
          exact storeStep_then_same h1 ⟨h.1, h.2⟩

/-- In any state `set_union` registers at most one set and does nothing else to
the store and the property set map. -/
theorem set_union_storeStep (s : LatticeHashForest α) (a b : Index) :
    StoreStep s (set_union s a b).2 := by
  unfold set_union
  split_ifs
  · exact Or.inl ⟨rfl, rfl⟩
  · exact Or.inl ⟨rfl, rfl⟩
  · exact Or.inl ⟨rfl, rfl⟩
  · exact Or.inl ⟨rfl, rfl⟩
  · simp only
    split
    · exact Or.inl ⟨rfl, rfl⟩
    · exact Or.inl ⟨rfl, rfl⟩
    · exact Or.inl ⟨rfl, rfl⟩
    · split
      · exact set_union_miss_storeStep s _ _
      · exact Or.inl ⟨rfl, rfl⟩

/-- In any state `set_intersection` registers at most one set and does nothing
else to the store and the property set map. -/
theorem set_intersection_storeStep (s : LatticeHashForest α) (a b : Index) :
    StoreStep s (set_intersection s a b).2 := by
  unfold set_intersection
  split_ifs
  · exact Or.inl ⟨rfl, rfl⟩
  · exact Or.inl ⟨rfl, rfl⟩
  · exact Or.inl ⟨rfl, rfl⟩
  · simp only
    split
    · exact Or.inl ⟨rfl, rfl⟩
    · exact Or.inl ⟨rfl, rfl⟩
    · exact Or.inl ⟨rfl, rfl⟩
    · split
      · exact set_intersection_miss_storeStep s _ _
      · exact Or.inl ⟨rfl, rfl⟩

/-- In any state `set_difference` registers at most one set and does nothing
else to the store and the property set map. -/
theorem set_difference_storeStep (s : LatticeHashForest α) (a b : Index) :
    StoreStep s (set_difference s a b).2 := by
  unfold set_difference
  split_ifs
  · exact Or.inl ⟨rfl, rfl⟩
  · exact Or.inl ⟨rfl, rfl⟩
  · exact Or.inl ⟨rfl, rfl⟩
  · exact Or.inl ⟨rfl, rfl⟩
  · split
    · exact set_difference_miss_storeStep s _ _
    · exact Or.inl ⟨rfl, rfl⟩

/-- In any state `set_filter` registers at most one set and does nothing else
to the store and the property set map. -/
theorem set_filter_storeStep (s : LatticeHashForest α) (i : Index) (f : α → Bool)
    (cache : List (Index × Index)) : StoreStep s (set_filter s i f cache).2.1 := by
  unfold set_filter
  split_ifs
  · exact Or.inl ⟨rfl, rfl⟩
  · exact Or.inl ⟨rfl, rfl⟩
  · split
    · split
      · rename_i v hv
        exact storeStep_then_same (register_set_storeStep s (v.filter f)) ⟨rfl, rfl⟩
      · exact Or.inl ⟨rfl, rfl⟩
    · exact Or.inl ⟨rfl, rfl⟩

theorem extends_stable {s t : LatticeHashForest α} (h : Extends s t) : Stable s t := by
  refine ⟨h, ?_⟩
  intro i hi
  obtain ⟨added, ht⟩ := h
  have h1 : t.property_sets[i]? = s.property_sets[i]? := by
    rw [ht, List.getElem?_append_left hi]
  refine ⟨h1, ?_⟩
  have hs : s.property_sets[i]? = some s.property_sets[i] := List.getElem?_eq_getElem hi
  rw [get_value_of_getElem? i _ hs, get_value_of_getElem? i _ (h1.trans hs)]

/-! ## Properties kept by every step of an operation -/

/-- A property of states that holds when `set_union` starts a miss, after the
registration and the cache entry, and is kept by `store_subset` and by counting,
holds when the miss is over, however it ends. -/
theorem set_union_miss_post (Q : LatticeHashForest α → Prop) (s : LatticeHashForest α)
    (a b : Index) (h0 : Q s)
    (hreg : ∀ c, Q { (register_set s c).2.2 with
      unions := mapInsert OperationNode.eq (register_set s c).2.2.unions ⟨a, b⟩
        (register_set s c).1 })
    (hsub : ∀ t x y, Q t → Q (store_subset t x y).2)
    (hperf : ∀ t k c, Q t → Q (LHF_PERF_INC t k c)) :
    Q (set_union_miss s a b).2 := by
  unfold set_union_miss
  cases get_value s a with
  | error e => cases get_value s b <;> exact h0
  | ok first =>
    cases get_value s b with
    | error e => exact h0
    | ok second =>
      simp only
      have h2 := hreg (unionMerge first second)
      rcases hreg2 : register_set s (unionMerge first second) with ⟨ret, cold, s1⟩
      rw [hreg2] at h2
      simp only at h2 ⊢
      have key : ∀ (r : Except AssertError Unit) (s4 : LatticeHashForest α),
          (if ret = a then
              store_subset { s1 with
                unions := mapInsert OperationNode.eq s1.unions ⟨a, b⟩ ret } b ret
            else if ret = b then
              store_subset { s1 with
                unions := mapInsert OperationNode.eq s1.unions ⟨a, b⟩ ret } a ret
            else
              match store_subset { s1 with
                unions := mapInsert OperationNode.eq s1.unions ⟨a, b⟩ ret } a ret with
              | (.ok _, s3) => store_subset s3 b ret
              | (.error e, s3) => (.error e, s3)) = (r, s4) → Q s4 := by
        intro r s4 heq
        split at heq
        · have h := hsub _ b ret h2
          rw [heq] at h
          exact h
        · split at heq
          · have h := hsub _ a ret h2
            rw [heq] at h
            exact h
          · split at heq
            · rename_i y s3 heq2
              have h3 := hsub _ a ret h2
              rw [heq2] at h3
              have h4 := hsub _ b ret h3
              rw [heq] at h4
              exact h4
            · rename_i e2 s3 heq2
              have h3 := hsub _ a ret h2
              rw [heq2] at h3
              cases heq
              exact h3
      split
      · rename_i x s4 heq
        exact hperf _ _ _ (key _ s4 heq)
      · rename_i e s4 heq
        exact key _ s4 heq

/-- The same for a miss of `set_intersection`. -/
theorem set_intersection_miss_post (Q : LatticeHashForest α → Prop)
    (s : LatticeHashForest α) (a b : Index) (h0 : Q s)
    (hreg : ∀ c, Q { (register_set s c).2.2 with
      intersections := mapInsert OperationNode.eq (register_set s c).2.2.intersections ⟨a, b⟩
        (register_set s c).1 })
    (hsub : ∀ t x y, Q t → Q (store_subset t x y).2)
    (hperf : ∀ t k c, Q t → Q (LHF_PERF_INC t k c)) :
    Q (set_intersection_miss s a b).2 := by
  unfold set_intersection_miss
  cases get_value s a with
  | error e => cases get_value s b <;> exact h0
  | ok first =>
    cases get_value s b with
    | error e => exact h0
    | ok second =>
      simp only
      have h2 := hreg (interMerge first second)
      rcases hreg2 : register_set s (interMerge first second) with ⟨ret, cold, s1⟩
      rw [hreg2] at h2
      simp only at h2 ⊢
      have key : ∀ (r : Except AssertError Unit) (s4 : LatticeHashForest α),
          (if ret ≠ a then
              store_subset { s1 with
                intersections := mapInsert OperationNode.eq s1.intersections ⟨a, b⟩ ret } ret a
            else if ret ≠ b then
              store_subset { s1 with
                intersections := mapInsert OperationNode.eq s1.intersections ⟨a, b⟩ ret } ret b
            else
              match store_subset { s1 with
                intersections :=
                  mapInsert OperationNode.eq s1.intersections ⟨a, b⟩ ret } ret a with
              | (.ok _, s3) => store_subset s3 ret b
              | (.error e, s3) => (.error e, s3)) = (r, s4) → Q s4 := by
        intro r s4 heq
        split at heq
        · have h := hsub _ ret a h2
          rw [heq] at h
          exact h
        · split at heq
          · have h := hsub _ ret b h2
            rw [heq] at h
            exact h
          · split at heq
            · rename_i y s3 heq2
              have h3 := hsub _ ret a h2
              rw [heq2] at h3
              have h4 := hsub _ ret b h3
              rw [heq] at h4
              exact h4
            · rename_i e2 s3 heq2
              have h3 := hsub _ ret a h2
              rw [heq2] at h3
              cases heq
              exact h3
      split
      · rename_i x s4 heq
        exact hperf _ _ _ (key _ s4 heq)
      · rename_i e s4 heq
        exact key _ s4 heq

/-- The same for a miss of `set_difference`, which either calls `store_subset`
or primes the intersection cache. -/
theorem set_difference_miss_post (Q : LatticeHashForest α → Prop)
    (s : LatticeHashForest α) (a b : Index) (h0 : Q s)
    (hreg : ∀ c, Q { (register_set s c).2.2 with
      differences := mapInsert OperationNode.eq (register_set s c).2.2.differences ⟨a, b⟩
        (register_set s c).1 })
    (hsub : ∀ t x y, Q t → Q (store_subset t x y).2)
    (hprime : ∀ t : LatticeHashForest α, Q t → Q { t with
      intersections :=
        mapInsert OperationNode.eq t.intersections ⟨min a b, max a b⟩ EMPTY_SET })
    (hperf : ∀ t k c, Q t → Q (LHF_PERF_INC t k c)) :
    Q (set_difference_miss s a b).2 := by
  unfold set_difference_miss
  cases get_value s a with
  | error e => cases get_value s b <;> exact h0
  | ok first =>
    cases get_value s b with
    | error e => exact h0
    | ok second =>
      simp only
      have h2 := hreg (diffMerge first second)
      rcases hreg2 : register_set s (diffMerge first second) with ⟨ret, cold, s1⟩
      rw [hreg2] at h2
      simp only at h2 ⊢
      by_cases hra : ret = a
      · rw [if_neg (not_not.mpr hra)]
        exact hperf _ _ _ (hprime _ h2)
      · rw [if_pos hra]
        split
        · rename_i x s4 heq
          have h := hsub _ ret a h2
          rw [heq] at h
          exact hperf _ _ _ h
        · rename_i e s4 heq
          have h := hsub _ ret a h2
          rw [heq] at h
          exact h

/-- A property kept by counting that holds in the state before `set_union` and
after any miss holds after the call. -/
theorem set_union_post (Q : LatticeHashForest α → Prop) (s : LatticeHashForest α)
    (a b : Index) (h0 : Q s) (hperf : ∀ t k c, Q t → Q (LHF_PERF_INC t k c))
    (hmiss : ∀ x y, x < y → Q (set_union_miss s x y).2) :
    Q (set_union s a b).2 := by
  unfold set_union
  split_ifs with h1 h2 h3 h4
  · exact h0
  · exact hperf _ _ _ h0
  · exact hperf _ _ _ h0
  · exact hperf _ _ _ h0
  · simp only
    split
    · exact h0
    · exact hperf _ _ _ h0
    · exact hperf _ _ _ h0
    · split
      · apply hmiss
        rcases Nat.lt_or_gt_of_ne h2 with hlt | hgt
        · rw [min_eq_left (Nat.le_of_lt hlt), max_eq_right (Nat.le_of_lt hlt)]
          exact hlt
        · rw [min_eq_right (Nat.le_of_lt hgt), max_eq_left (Nat.le_of_lt hgt)]
          exact hgt
      · exact hperf _ _ _ h0

/-- The same for `set_intersection`. -/
theorem set_intersection_post (Q : LatticeHashForest α → Prop) (s : LatticeHashForest α)
    (a b : Index) (h0 : Q s) (hperf : ∀ t k c, Q t → Q (LHF_PERF_INC t k c))
    (hmiss : ∀ x y, x < y → Q (set_intersection_miss s x y).2) :
    Q (set_intersection s a b).2 := by
  unfold set_intersection
  split_ifs with h1 h2 h3
  · exact h0
  · exact hperf _ _ _ h0
  · exact hperf _ _ _ h0
  · simp only
    split
    · exact h0
    · exact hperf _ _ _ h0
    · exact hperf _ _ _ h0
    · split
      · apply hmiss
        rcases Nat.lt_or_gt_of_ne h2 with hlt | hgt
        · rw [min_eq_left (Nat.le_of_lt hlt), max_eq_right (Nat.le_of_lt hlt)]
          exact hlt
        · rw [min_eq_right (Nat.le_of_lt hgt), max_eq_left (Nat.le_of_lt hgt)]
          exact hgt
      · exact hperf _ _ _ h0

/-- The same for `set_difference`. -/
theorem set_difference_post (Q : LatticeHashForest α → Prop) (s : LatticeHashForest α)
    (a b : Index) (h0 : Q s) (hperf : ∀ t k c, Q t → Q (LHF_PERF_INC t k c))
    (hmiss : a ≠ b → a ≠ 0 → b ≠ 0 → Q (set_difference_miss s a b).2) :
    Q (set_difference s a b).2 := by
  unfold set_difference
  split_ifs with h1 h2 h3 h4
  · exact h0
  · exact hperf _ _ _ h0
  · exact hperf _ _ _ h0
  · exact hperf _ _ _ h0
  · split
    · apply hmiss h2
      · intro h
        apply h3
        rw [h]
        rfl
      · intro h
        apply h4
        rw [h]
        rfl
    · exact hperf _ _ _ h0

/-- The same for `set_filter`. -/
theorem set_filter_post (Q : LatticeHashForest α → Prop) (s : LatticeHashForest α)
    (i : Index) (f : α → Bool) (cache : List (Index × Index)) (h0 : Q s)
    (hperf : ∀ t k c, Q t → Q (LHF_PERF_INC t k c))
    (hreg : ∀ c, Q (register_set s c).2.2) :
    Q (set_filter s i f cache).2.1 := by
  unfold set_filter
  split_ifs
  · exact h0
  · exact h0
  · split
    · split
      · exact hperf _ _ _ (hreg _)
      · exact h0
    · exact hperf _ _ _ h0

/-! ## Ordered keys of the subset cache, size of the property set map -/

theorem store_subset_ordered (t : LatticeHashForest α) (x y : Nat)
    (h : OrderedSubsets t.subsets) : OrderedSubsets (store_subset t x y).2.subsets := by
  unfold store_subset
  split_ifs with h1 h2 h3
  · exact h
  · exact h
  · intro u v rel hf
    rcases (mapFind_insert_iff _ OperationNode.eq_iff t.subsets _ _ _ _).mp hf with
      h4 | ⟨_, h5, _⟩
    · exact h u v rel h4
    · cases h5
      exact h3
  · intro u v rel hf
    rcases (mapFind_insert_iff _ OperationNode.eq_iff t.subsets _ _ _ _).mp hf with
      h4 | ⟨_, h5, _⟩
    · exact h u v rel h4
    · cases h5
      exact Nat.lt_of_le_of_ne (Nat.le_of_not_lt h3) h2

/-- In every reachable state the keys of the subset cache are ordered pairs. -/
theorem reachable_orderedSubsets {s : LatticeHashForest α} (h : Reachable s) :
    OrderedSubsets s.subsets := by
  have hperf : ∀ (t : LatticeHashForest α) (k : String) (c : PerfCategory),
      OrderedSubsets t.subsets → OrderedSubsets (LHF_PERF_INC t k c).subsets :=
    fun _ _ _ ht => ht
  have hsub : ∀ (t : LatticeHashForest α) (x y : Index),
      OrderedSubsets t.subsets → OrderedSubsets (store_subset t x y).2.subsets :=
    fun t x y ht => store_subset_ordered t x y ht
  have hreg : ∀ (t : LatticeHashForest α) (c : List α),
      OrderedSubsets t.subsets → OrderedSubsets (register_set t c).2.2.subsets := by
    intro t c ht
    rw [register_set_subsets]
    exact ht
  have hunion : ∀ (t : LatticeHashForest α) (a b : Index),
      OrderedSubsets t.subsets → OrderedSubsets (set_union t a b).2.subsets := by
    intro t a b ht
    apply set_union_post (fun u => OrderedSubsets u.subsets) t a b ht hperf
    intro x y _
    exact set_union_miss_post (fun u => OrderedSubsets u.subsets) t x y ht
      (fun c => hreg t c ht) hsub hperf
  have hdiff : ∀ (t : LatticeHashForest α) (a b : Index),
      OrderedSubsets t.subsets → OrderedSubsets (set_difference t a b).2.subsets := by
    intro t a b ht
    apply set_difference_post (fun u => OrderedSubsets u.subsets) t a b ht hperf
    intro _ _ _
    exact set_difference_miss_post (fun u => OrderedSubsets u.subsets) t a b ht
      (fun c => hreg t c ht) hsub (fun _ hu => hu) hperf
  induction h with
  | new =>
    intro x y rel hf
    cases hf
  | register_set c _ ih => exact hreg _ c ih
  | register_set_single c _ ih => exact hreg _ [c] ih
  | set_union a b _ ih => exact hunion _ a b ih
  | set_intersection a b _ ih =>
    apply set_intersection_post (fun u => OrderedSubsets u.subsets) _ a b ih hperf
    intro x y _
    exact set_intersection_miss_post (fun u => OrderedSubsets u.subsets) _ x y ih
      (fun c => hreg _ c ih) hsub hperf
  | set_difference a b _ ih => exact hdiff _ a b ih
  | set_insert_single a e _ ih => exact hunion _ a _ (hreg _ [e] ih)
  | set_remove_single a e _ ih => exact hdiff _ a _ (hreg _ [e] ih)
  | set_filter i f cache _ ih =>
    exact set_filter_post (fun u => OrderedSubsets u.subsets) _ i f cache ih hperf
      (fun c => hreg _ c ih)

theorem storeStep_map_length {s t : LatticeHashForest α} (h : StoreStep s t)
    (hs : s.property_set_map.length = s.property_sets.length) :
    t.property_set_map.length = t.property_sets.length := by
  rcases h with h | ⟨c, _, hsets, hmap⟩
  · rw [h.1, h.2]
    exact hs
  · rw [hsets, hmap, List.length_cons, List.length_append, List.length_singleton, hs]

/-- In every reachable state the property set map has one entry per stored
set. -/
theorem reachable_map_length {s : LatticeHashForest α} (h : Reachable s) :
    s.property_set_map.length = s.property_sets.length := by
  induction h with
  | new => rfl
  | register_set c _ ih => exact storeStep_map_length (register_set_storeStep _ c) ih
  | register_set_single c _ ih => exact storeStep_map_length (register_set_storeStep _ [c]) ih
  | set_union a b _ ih => exact storeStep_map_length (set_union_storeStep _ a b) ih
  | set_intersection a b _ ih =>
    exact storeStep_map_length (set_intersection_storeStep _ a b) ih
  | set_difference a b _ ih => exact storeStep_map_length (set_difference_storeStep _ a b) ih
  | set_insert_single a e _ ih =>
    exact storeStep_map_length (set_union_storeStep _ a _)
      (storeStep_map_length (register_set_storeStep _ [e]) ih)
  | set_remove_single a e _ ih =>
    exact storeStep_map_length (set_difference_storeStep _ a _)
      (storeStep_map_length (register_set_storeStep _ [e]) ih)
  | set_filter i f cache _ ih =>
    exact storeStep_map_length (set_filter_storeStep _ i f cache) ih

/-! ## Runs of registrations -/

theorem seventeenForest_reachable : Reachable seventeenForest :=
  Reachable.register_set _ Reachable.new

theorem coldIndices_cons_true (i : Index) (rest : List (Index × Bool)) :
    coldIndices ((i, true) :: rest) = i :: coldIndices rest := rfl

theorem coldIndices_cons_false (i : Index) (rest : List (Index × Bool)) :
    coldIndices ((i, false) :: rest) = coldIndices rest := rfl

/-- The misses of a run of registrations receive the next free indices in
order. -/
theorem coldIndices_registerAll : ∀ (cs : List (List α)) (s : LatticeHashForest α), Inv s →
    coldIndices (registerAll s cs).1 =
      List.range' s.property_sets.length (coldIndices (registerAll s cs).1).length
  | [], s, _ => rfl
  | c :: cs, s, hs => by
    have hnext := (register_set_spec hs c).1
    have ih := coldIndices_registerAll cs (register_set s c).2.2 hnext
    show coldIndices (((register_set s c).1, (register_set s c).2.1) ::
        (registerAll (register_set s c).2.2 cs).1) = List.range' s.property_sets.length
      (coldIndices (((register_set s c).1, (register_set s c).2.1) ::
        (registerAll (register_set s c).2.2 cs).1)).length
    cases hf : mapFind SetEqual s.property_set_map c with
    | some i =>
      rw [register_set_of_some s c i hf] at ih ⊢
      rw [coldIndices_cons_false]
      exact ih
    | none =>
      rw [register_set_of_none s c hf] at ih ⊢
      rw [coldIndices_cons_true, List.length_cons, List.range'_succ]
      simp only [List.length_append, List.length_singleton] at ih
      rw [← ih]

/-! ## The index check at the head of the operations -/

theorem indexInvalid_of_length_le (s : LatticeHashForest α) (i : Nat)
    (hpos : 0 < s.property_sets.length) (hi : s.property_sets.length ≤ i) :
    indexInvalid s i = true := by
  have hne : ¬ s.property_sets.length = 0 := by omega
  unfold indexInvalid lastIndex
  rw [if_neg hne]
  simp only [gt_iff_lt, decide_eq_true_eq]
  exact Nat.lt_of_lt_of_le (Nat.sub_lt hpos Nat.one_pos) hi

/-- With a set in the store, the operations that check their index arguments
first reject an index at or past the store length and leave the state as it
was. -/
theorem invalid_index_rejected (s : LatticeHashForest α) (i j : Nat)
    (hpos : 0 < s.property_sets.length) (hi : s.property_sets.length ≤ i)
    (f : α → Bool) (cache : List (Index × Index)) :
    get_value s i = .error .invalidIndex ∧
    is_subset s i j = .error .invalidIndex ∧ is_subset s j i = .error .invalidIndex ∧
    set_union s i j = (.error .invalidIndex, s) ∧
    set_union s j i = (.error .invalidIndex, s) ∧
    set_intersection s i j = (.error .invalidIndex, s) ∧
    set_intersection s j i = (.error .invalidIndex, s) ∧
    set_difference s i j = (.error .invalidIndex, s) ∧
    set_difference s j i = (.error .invalidIndex, s) ∧
    set_filter s i f cache = (.error .invalidIndex, s, cache) := by
  have hinv := indexInvalid_of_length_le s i hpos hi
  have h1 : pairInvalid s i j = true := by
    unfold pairInvalid
    rw [hinv]
    rfl
  have h2 : pairInvalid s j i = true := by
    rw [pairInvalid_comm]
    exact h1
  refine ⟨?_, ?_, ?_, ?_, ?_, ?_, ?_, ?_, ?_, ?_⟩
  · unfold get_value
    rw [if_pos hinv]
  · unfold is_subset
    rw [if_pos h1]
  · unfold is_subset
    rw [if_pos h2]
  · unfold set_union
    rw [if_pos h1]
  · unfold set_union
    rw [if_pos h2]
  · unfold set_intersection
    rw [if_pos h1]
  · unfold set_intersection
    rw [if_pos h2]
  · unfold set_difference
    rw [if_pos h1]
  · unfold set_difference
    rw [if_pos h2]
  · unfold set_filter
    rw [if_pos hinv]

/-! ## The binary search below the first element -/

theorem binarySearch_step (v : List α) (prop : α) (fuel low high : Nat) :
    binarySearch v prop (fuel + 1) low high =
      if low ≤ high then
        match v[low + (high - low) / 2]? with
        | none => .readOutside (low + (high - low) / 2)
        | some x =>
          if equal x prop then .returned true
          else if less x prop then binarySearch v prop fuel (low + (high - low) / 2 + 1) high
          else binarySearch v prop fuel low ((low + (high - low) / 2 + 2 ^ 64 - 1) % 2 ^ 64)
      else .returned false := rfl

/-- Searching for an element below every element of a vector that is shorter
than `2^63`: the upper cursor wraps and the next read is at `2^63 - 1`. -/
theorem binarySearch_below (v : List α) (prop : α) (hlen : v.length < 2 ^ 63)
    (hall : ∀ x ∈ v, prop < x) :
    ∀ (fuel h : Nat), h < v.length → h + 2 ≤ fuel →
      binarySearch v prop fuel 0 h = .readOutside (2 ^ 63 - 1)
  | 0, h, _, hf => by omega
  | fuel + 1, h, hh, hf => by
    have hmid : h / 2 < v.length := by omega
    have hx : v[0 + (h - 0) / 2]? = some v[h / 2] := by
      simp only [Nat.zero_add, Nat.sub_zero]
      exact List.getElem?_eq_getElem hmid
    have hlt : prop < v[h / 2] := hall _ (List.getElem_mem hmid)
    have he : equal v[h / 2] prop = false := by
      unfold equal
      exact decide_eq_false (ne_of_gt hlt)
    have hl : less v[h / 2] prop = false := by
      unfold less
      exact decide_eq_false (not_lt_of_lt hlt)
    rw [binarySearch_step, if_pos (Nat.zero_le h), hx]
    simp only [he, hl, Bool.false_eq_true, if_false, Nat.zero_add, Nat.sub_zero]
    rcases Nat.eq_zero_or_pos (h / 2) with h0 | hpos
    · rw [h0]
      obtain ⟨f, rfl⟩ : ∃ f, fuel = f + 1 := ⟨fuel - 1, by omega⟩
      rw [binarySearch_step]
      have hnone : v[0 + ((0 + 2 ^ 64 - 1) % 2 ^ 64 - 0) / 2]? = none := by
        apply List.getElem?_eq_none
        norm_num
        omega
      rw [if_pos (Nat.zero_le _), hnone]
      norm_num
    · have hhigh : (h / 2 + 2 ^ 64 - 1) % 2 ^ 64 = h / 2 - 1 := by
        have : h / 2 + 2 ^ 64 - 1 = (h / 2 - 1) + 2 ^ 64 := by omega
        rw [this, Nat.add_mod_right]
        apply Nat.mod_eq_of_lt
        omega
      rw [hhigh]
      exact binarySearch_below v prop hlen hall fuel (h / 2 - 1) (by omega) (by omega)

/-- With more elements than the threshold, fewer than `2^63`, all of them above
the element asked for, `contains` reads outside the vector. -/
theorem contains_below (threshold : Nat) (s : LatticeHashForest α) (i : Index) (prop : α)
    (v : List α) (hv : get_value s i = .ok v) (hi : i ≠ EMPTY_SET)
    (ht : threshold < v.length) (hlen : v.length < 2 ^ 63) (hall : ∀ x ∈ v, prop < x) :
    contains threshold s i prop = .readOutside (2 ^ 63 - 1) := by
  unfold contains
  rw [if_neg hi, hv]
  simp only
  rw [if_neg (Nat.not_le.mpr ht)]
  exact binarySearch_below v prop hlen hall (v.length + 1) (v.length - 1) (by omega) (by omega)

/-- The linear scan finds exactly the elements of the vector. -/
theorem linearScan_iff (prop : α) : ∀ (v : List α), linearScan prop v = true ↔ prop ∈ v
  | [] => by simp [linearScan]
  | x :: rest => by
    have ih := linearScan_iff prop rest
    unfold linearScan
    by_cases hx : x = prop
    · simp [hx]
    · have hx2 : ¬ prop = x := fun h => hx h.symm
      simp [hx, hx2, ih]

/-- At or below the threshold `contains` returns whether the element is in the
stored set, sorted or not. -/
theorem contains_small (threshold : Nat) (s : LatticeHashForest α) (i : Index) (prop : α)
    (v : List α) (hv : get_value s i = .ok v) (hi : i ≠ EMPTY_SET)
    (ht : v.length ≤ threshold) :
    contains threshold s i prop = .returned (decide (prop ∈ v)) := by
  unfold contains
  rw [if_neg hi, hv]
  simp only
  rw [if_pos ht]
  congr 1
  rw [Bool.eq_iff_iff, linearScan_iff]
  simp

/-- The iteration budget is never the reason for the outcome: on a vector
shorter than `2^63`, with the cursors inside it, a budget of two more than the
distance of the cursors lets the loop come to its end. -/
theorem binarySearch_finishes (v : List α) (prop : α) (hlen : v.length < 2 ^ 63) :
    ∀ (fuel low high : Nat), high < v.length → 1 ≤ fuel → high + 2 ≤ fuel + low →
      binarySearch v prop fuel low high ≠ .unfinished
  | 0, _, _, _, h1, _ => absurd h1 (by decide)
  | fuel + 1, low, high, hh, _, hf => by
    rw [binarySearch_step]
    by_cases hle : low ≤ high
    · rw [if_pos hle]
      have hmid : low + (high - low) / 2 < v.length := by omega
      rw [List.getElem?_eq_getElem hmid]
      simp only
      split_ifs with h1 h2
      · simp
      · exact binarySearch_finishes v prop hlen fuel _ high hh (by omega) (by omega)
      · rcases Nat.eq_zero_or_pos (low + (high - low) / 2) with h0 | hpos
        · rw [h0]
          have hlow0 : low = 0 := by omega
          subst hlow0
          obtain ⟨f, rfl⟩ : ∃ f, fuel = f + 1 := ⟨fuel - 1, by omega⟩
          rw [binarySearch_step]
          have hnone : v[0 + ((0 + 2 ^ 64 - 1) % 2 ^ 64 - 0) / 2]? = none := by
            apply List.getElem?_eq_none
            norm_num
            omega
          rw [if_pos (Nat.zero_le _), hnone]
          simp
        · have hhigh : (low + (high - low) / 2 + 2 ^ 64 - 1) % 2 ^ 64 =
              low + (high - low) / 2 - 1 := by
            have : low + (high - low) / 2 + 2 ^ 64 - 1 =
                (low + (high - low) / 2 - 1) + 2 ^ 64 := by omega
            rw [this, Nat.add_mod_right]
            apply Nat.mod_eq_of_lt
            omega
          rw [hhigh]
          exact binarySearch_finishes v prop hlen fuel low _ (by omega) (by omega) (by omega)
    · rw [if_neg hle]
      simp

/-- On a strictly ascending vector shorter than `2^63` whose first element is
not above the probe, the loop never leaves the vector and answers
membership. The cursors keep everything left of `low` below the probe and
everything right of `high` above it. -/
theorem binarySearch_sorted (v : List α) (prop : α) (hlen : v.length < 2 ^ 63)
    (hs : v.Pairwise (· < ·)) (hfirst : ∀ x, v[0]? = some x → x ≤ prop) :
    ∀ (fuel low high : Nat), high < v.length → low ≤ high + 1 → 1 ≤ fuel →
      high + 2 ≤ fuel + low →
      (∀ j x, v[j]? = some x → j < low → x < prop) →
      (∀ j x, v[j]? = some x → high < j → prop < x) →
      binarySearch v prop fuel low high = .returned (decide (prop ∈ v))
  | 0, _, _, _, _, h1, _, _, _ => absurd h1 (by decide)
  | fuel + 1, low, high, hh, hlh, _, hf, hlo, hhi => by
    rw [binarySearch_step]
    by_cases hle : low ≤ high
    · rw [if_pos hle]
      have hmid : low + (high - low) / 2 < v.length := by omega
      have hget : v[low + (high - low) / 2]? = some (v[low + (high - low) / 2]) :=
        List.getElem?_eq_getElem hmid
      rw [hget]
      simp only
      split_ifs with h1 h2
      · have hx : v[low + (high - low) / 2] = prop := of_decide_eq_true h1
        have hmem : prop ∈ v := hx ▸ List.getElem_mem hmid
        simp [hmem]
      · have hx : v[low + (high - low) / 2] < prop := of_decide_eq_true h2
        refine binarySearch_sorted v prop hlen hs hfirst fuel _ high hh (by omega)
          (by omega) (by omega) ?_ hhi
        intro j x hj hjm
        obtain ⟨hjl, rfl⟩ := List.getElem?_eq_some.mp hj
        rcases Nat.lt_or_ge j (low + (high - low) / 2) with hlt | hge
        · exact lt_trans (List.pairwise_iff_getElem.mp hs j _ hjl hmid hlt) hx
        · have hjeq : j = low + (high - low) / 2 := by omega
          subst hjeq
          exact hx
      · have hne : ¬ v[low + (high - low) / 2] = prop := fun h => h1 (decide_eq_true h)
        have hnl : ¬ v[low + (high - low) / 2] < prop := fun h => h2 (decide_eq_true h)
        have hx : prop < v[low + (high - low) / 2] :=
          lt_of_le_of_ne (not_lt.mp hnl) (fun h => hne h.symm)
        rcases Nat.eq_zero_or_pos (low + (high - low) / 2) with h0 | hpos
        · exact absurd (hfirst _ (h0 ▸ hget)) (not_le.mpr hx)
        · have hhigh : (low + (high - low) / 2 + 2 ^ 64 - 1) % 2 ^ 64 =
              low + (high - low) / 2 - 1 := by
            have : low + (high - low) / 2 + 2 ^ 64 - 1 =
                (low + (high - low) / 2 - 1) + 2 ^ 64 := by omega
            rw [this, Nat.add_mod_right]
            apply Nat.mod_eq_of_lt
            omega
          rw [hhigh]
          refine binarySearch_sorted v prop hlen hs hfirst fuel low _ (by omega) (by omega)
            (by omega) (by omega) hlo ?_
          intro j x hj hjm
          obtain ⟨hjl, rfl⟩ := List.getElem?_eq_some.mp hj
          rcases Nat.lt_or_ge (low + (high - low) / 2) j with hlt | hge
          · exact lt_trans hx (List.pairwise_iff_getElem.mp hs _ j hmid hjl hlt)
          · have hjeq : j = low + (high - low) / 2 := by omega
            subst hjeq
            exact hx
    · rw [if_neg hle]
      have hnot : prop ∉ v := by
        intro hmem
        obtain ⟨j, hjl, hj⟩ := List.getElem_of_mem hmem
        have hj2 : v[j]? = some prop := by rw [List.getElem?_eq_getElem hjl, hj]
        rcases Nat.lt_or_ge j low with hlt | hge
        · exact lt_irrefl _ (hlo j prop hj2 hlt)
        · exact lt_irrefl _ (hhi j prop hj2 (by omega))
      simp [hnot]

/-- Membership test on a large, strictly ascending stored set whose first
element is not above the probe: `contains` returns whether the probe is an
element. -/
theorem contains_sorted (threshold : Nat) (s : LatticeHashForest α) (i : Index) (prop : α)
    (v : List α) (hv : get_value s i = .ok v) (hi : i ≠ EMPTY_SET)
    (ht : threshold < v.length) (hlen : v.length < 2 ^ 63)
    (hs : v.Pairwise (· < ·)) (hfirst : ∀ x, v[0]? = some x → x ≤ prop) :
    contains threshold s i prop = .returned (decide (prop ∈ v)) := by
  have hpos : 0 < v.length := Nat.lt_of_le_of_lt (Nat.zero_le _) ht
  unfold contains
  rw [if_neg hi, hv]
  simp only
  rw [if_neg (Nat.not_le.mpr ht)]
  exact binarySearch_sorted v prop hlen hs hfirst (v.length + 1) 0 (v.length - 1)
    (by omega) (by omega) (by omega) (by omega)
    (fun j x _ hj => absurd hj (Nat.not_lt_zero j))
    (fun j x hj hjm => by
      obtain ⟨hjl, _⟩ := List.getElem?_eq_some.mp hj
      omega)

/-! ## The single-element wrappers at an invalid index -/

/-- The wrappers `set_insert_single` and `set_remove_single` at an index at or
past the store length, for an element whose singleton is not stored yet: the
singleton is appended before the index is checked. Past the old store length
the call raises with the singleton left in the store; at the old store length
the index has become valid, it is the singleton's own, and the call returns. -/
theorem single_wrappers_cold (s : LatticeHashForest α) (i : Nat) (e : α)
    (hpos : 0 < s.property_sets.length) (hi : s.property_sets.length ≤ i)
    (hf : mapFind SetEqual s.property_set_map [e] = none) :
    (set_insert_single s i e).2.property_sets = s.property_sets ++ [[e]] ∧
    (set_remove_single s i e).2.property_sets = s.property_sets ++ [[e]] ∧
    (s.property_sets.length < i →
      (set_insert_single s i e).1 = .error .invalidIndex ∧
      (set_remove_single s i e).1 = .error .invalidIndex) ∧
    (i = s.property_sets.length →
      (set_insert_single s i e).1 = .ok i ∧ (set_remove_single s i e).1 = .ok EMPTY_SET) := by
  rw [set_insert_single_eq, set_remove_single_eq, register_set_of_none s [e] hf]
  simp only
  generalize hs1 : ({ LHF_PERF_INC s "property_sets" .cold_misses with
        property_sets := s.property_sets ++ [[e]]
        property_set_map := ([e], s.property_sets.length) :: s.property_set_map } :
      LatticeHashForest α) = s1
  have hstore : s1.property_sets = s.property_sets ++ [[e]] := by rw [← hs1]
  have hlen : s1.property_sets.length = s.property_sets.length + 1 := by
    rw [hstore, List.length_append]
    rfl
  rcases Nat.eq_or_lt_of_le hi with heq | hlt
  · subst heq
    have hvalid : indexInvalid s1 s.property_sets.length = false := by
      unfold indexInvalid lastIndex
      rw [hlen, if_neg (Nat.succ_ne_zero _)]
      simp
    rw [set_union_self s1 _ hvalid, set_difference_self s1 _ hvalid]
    exact ⟨hstore, hstore, fun h => absurd h (Nat.lt_irrefl _), fun _ => ⟨rfl, rfl⟩⟩
  · have hinv : indexInvalid s1 i = true :=
      indexInvalid_of_length_le s1 i (by omega) (by omega)
    have hpair : pairInvalid s1 i s.property_sets.length = true := by
      unfold pairInvalid
      rw [hinv]
      rfl
    have hu : set_union s1 i s.property_sets.length = (.error .invalidIndex, s1) := by
      unfold set_union
      rw [if_pos hpair]
    have hd : set_difference s1 i s.property_sets.length = (.error .invalidIndex, s1) := by
      unfold set_difference
      rw [if_pos hpair]
    rw [hu, hd]
    exact ⟨hstore, hstore, fun _ => ⟨rfl, rfl⟩, fun h => absurd h (Nat.ne_of_gt hlt)⟩

/-- The wrappers at an index at or past the store length, for an element whose
singleton is stored already: the call raises and changes nothing of the forest
but a counter. -/
theorem single_wrappers_hit (s : LatticeHashForest α) (i : Nat) (e : α) (k : Index)
    (hpos : 0 < s.property_sets.length) (hi : s.property_sets.length ≤ i)
    (hf : mapFind SetEqual s.property_set_map [e] = some k) :
    (set_insert_single s i e).1 = .error .invalidIndex ∧
    SameForest s (set_insert_single s i e).2 ∧
    (set_remove_single s i e).1 = .error .invalidIndex ∧
    SameForest s (set_remove_single s i e).2 := by
  rw [set_insert_single_eq, set_remove_single_eq, register_set_of_some s [e] k hf]
  simp only
  have hinv : indexInvalid (LHF_PERF_INC s "property_sets" .hits) i = true :=
    indexInvalid_of_length_le _ i hpos hi
  have hpair : pairInvalid (LHF_PERF_INC s "property_sets" .hits) i k = true := by
    unfold pairInvalid
    rw [hinv]
    rfl
  have hu : set_union (LHF_PERF_INC s "property_sets" .hits) i k =
      (.error .invalidIndex, LHF_PERF_INC s "property_sets" .hits) := by
    unfold set_union
    rw [if_pos hpair]
  have hd : set_difference (LHF_PERF_INC s "property_sets" .hits) i k =
      (.error .invalidIndex, LHF_PERF_INC s "property_sets" .hits) := by
    unfold set_difference
    rw [if_pos hpair]
  rw [hu, hd]
  exact ⟨rfl, SameForest.of_perf_inc _ _ _, rfl, SameForest.of_perf_inc _ _ _⟩

/-! ## Reading the counters -/

theorem perfGet_perfIncr_same : ∀ (m : List (String × OperationPerf)) (key : String)
    (c : PerfCategory), perfGet (perfIncr m key c) key = (perfGet m key).incr c
  | [], key, c => by simp [perfIncr, perfGet, mapFind]
  | (k, p) :: m, key, c => by
    have ih := perfGet_perfIncr_same m key c
    unfold perfGet at ih ⊢
    unfold perfIncr
    by_cases hk : k = key
    · simp [mapFind, hk]
    · simp only [if_neg hk, mapFind, decide_eq_true_eq]
      exact ih

theorem perfGet_perfIncr_other : ∀ (m : List (String × OperationPerf)) (key : String)
    (c : PerfCategory) (k2 : String), key ≠ k2 → perfGet (perfIncr m key c) k2 = perfGet m k2
  | [], key, c, k2, h => by simp [perfIncr, perfGet, mapFind, h]
  | (k, p) :: m, key, c, k2, h => by
    have ih := perfGet_perfIncr_other m key c k2 h
    unfold perfGet at ih ⊢
    unfold perfIncr
    by_cases hk : k = key
    · have hk2 : ¬ k = k2 := fun h2 => h (hk.symm.trans h2)
      simp [mapFind, hk, hk2, h]
    · simp only [if_neg hk, mapFind, decide_eq_true_eq]
      by_cases hk2 : k = k2
      · simp [hk2]
      · simp only [if_neg hk2]
        exact ih

theorem perfGet_LHF_PERF_INC_same (s : LatticeHashForest α) (k : String) (c : PerfCategory) :
    perfGet (LHF_PERF_INC s k c).perf k = (perfGet s.perf k).incr c :=
  perfGet_perfIncr_same s.perf k c

theorem perfGet_LHF_PERF_INC_other (s : LatticeHashForest α) (k : String) (c : PerfCategory)
    (k2 : String) (h : k ≠ k2) : perfGet (LHF_PERF_INC s k c).perf k2 = perfGet s.perf k2 :=
  perfGet_perfIncr_other s.perf k c k2 h

/-- Registration counts in the group `property_sets` only. -/
theorem register_set_perf (s : LatticeHashForest α) (c : List α) (k : String)
    (hk : "property_sets" ≠ k) : perfGet (register_set s c).2.2.perf k = perfGet s.perf k := by
  cases hf : mapFind SetEqual s.property_set_map c with
  | some i =>
    rw [register_set_of_some s c i hf]
    exact perfGet_perfIncr_other s.perf _ _ k hk
  | none =>
    rw [register_set_of_none s c hf]
    exact perfGet_perfIncr_other s.perf _ _ k hk

/-- Registration leaves the store as it was or appends the candidate. -/
theorem register_set_store (s : LatticeHashForest α) (c : List α) :
    (register_set s c).2.2.property_sets = s.property_sets ∨
      (register_set s c).2.2.property_sets = s.property_sets ++ [c] := by
  cases hf : mapFind SetEqual s.property_set_map c with
  | some i =>
    rw [register_set_of_some s c i hf]
    exact Or.inl rfl
  | none =>
    rw [register_set_of_none s c hf]
    exact Or.inr rfl

/-! ## What a call of a binary operation comes to -/

theorem SameForest.refl (s : LatticeHashForest α) : SameForest s s :=
  ⟨rfl, rfl, rfl, rfl, rfl, rfl⟩

/-- Two distinct non-empty stored sets, taken in index order. -/
theorem exists_ordered_pair {s : LatticeHashForest α} (a b : Nat) (A B : List α)
    (hA : s.property_sets[a]? = some A) (hB : s.property_sets[b]? = some B)
    (hab : a ≠ b) (ha : a ≠ 0) (hb : b ≠ 0) :
    ∃ (x y : Nat) (X Y : List α), x < y ∧ x ≠ 0 ∧ y ≠ 0 ∧ min a b = x ∧ max a b = y ∧
      s.property_sets[x]? = some X ∧ s.property_sets[y]? = some Y := by
  rcases Nat.lt_or_gt_of_ne hab with hlt | hgt
  · exact ⟨a, b, A, B, hlt, ha, hb, min_eq_left (Nat.le_of_lt hlt),
      max_eq_right (Nat.le_of_lt hlt), hA, hB⟩
  · exact ⟨b, a, B, A, hgt, hb, ha, min_eq_right (Nat.le_of_lt hgt),
      max_eq_left (Nat.le_of_lt hgt), hB, hA⟩

/-- A call of `set_union` in a state with the invariant either leaves the
forest as it was (an error, a short-circuit or a cache hit), or it is a miss on
an ordered pair of stored sets without an entry in either cache, and the state
it leaves is the one written out. -/
theorem set_union_outcome {s : LatticeHashForest α} (hs : Inv s) (a b : Index) :
    SameForest s (set_union s a b).2 ∨
    ∃ (x y : Nat) (X Y : List α) (ret : Index) (cold : Bool) (s0 : LatticeHashForest α),
      x < y ∧ x ≠ 0 ∧ min a b = x ∧ max a b = y ∧
      s.property_sets[x]? = some X ∧ s.property_sets[y]? = some Y ∧
      mapFind OperationNode.eq s.subsets ⟨x, y⟩ = none ∧
      mapFind OperationNode.eq s.unions ⟨x, y⟩ = none ∧
      register_set s (unionMerge X Y) = (ret, cold, s0) ∧
      set_union s a b =
        (.ok ret, LHF_PERF_INC
          { s0 with
            unions := mapInsert OperationNode.eq s0.unions ⟨x, y⟩ ret
            subsets := unionRecord s0.subsets x y ret }
          "unions" (if cold then .cold_misses else .edge_misses)) := by
  by_cases hv : pairInvalid s a b = true
  · left
    unfold set_union
    rw [if_pos hv]
    exact SameForest.refl s
  · have hv1 : pairInvalid s a b = false := by simpa using hv
    obtain ⟨h1, h2⟩ := (pairInvalid_eq_false_iff s a b).mp hv1
    obtain ⟨A, hA⟩ := exists_getElem?_of_valid hs a h1
    obtain ⟨B, hB⟩ := exists_getElem?_of_valid hs b h2
    by_cases hab : a = b
    · subst hab
      left
      rw [set_union_self s a h1]
      exact SameForest.of_perf_inc _ _ _
    · by_cases ha : a = 0
      · subst ha
        left
        obtain ⟨c, hc⟩ := set_union_zero_left s b h2
        rw [hc]
        exact SameForest.of_perf_inc _ _ _
      · by_cases hb : b = 0
        · subst hb
          left
          obtain ⟨c, hc⟩ := set_union_zero_right s a h1
          rw [hc]
          exact SameForest.of_perf_inc _ _ _
        · obtain ⟨x, y, X, Y, hxy, hx0, _, hmin, hmax, hX, hY⟩ :=
            exists_ordered_pair a b A B hA hB hab ha hb
          rw [set_union_normal s a b hv1 hab ha hb, hmin, hmax]
          cases hsub : mapFind OperationNode.eq s.subsets ⟨x, y⟩ with
          | some rel =>
            obtain ⟨hu, _⟩ := hs.subsets_sound x y rel hsub
            cases rel with
            | UNKNOWN => exact absurd rfl hu
            | SUBSET => exact Or.inl (SameForest.of_perf_inc _ _ _)
            | SUPERSET => exact Or.inl (SameForest.of_perf_inc _ _ _)
          | none =>
            cases hun : mapFind OperationNode.eq s.unions ⟨x, y⟩ with
            | some r => exact Or.inl (SameForest.of_perf_inc _ _ _)
            | none =>
              right
              rcases hreg : register_set s (unionMerge X Y) with ⟨ret, cold, s0⟩
              exact ⟨x, y, X, Y, ret, cold, s0, hxy, hx0, rfl, rfl, hX, hY, hsub, hun, hreg,
                set_union_miss_eq hs x y X Y hX hY (Nat.ne_of_lt hxy) ret cold s0 hreg⟩

/-- The same for `set_intersection`. -/
theorem set_intersection_outcome {s : LatticeHashForest α} (hs : Inv s) (a b : Index) :
    SameForest s (set_intersection s a b).2 ∨
    ∃ (x y : Nat) (X Y : List α) (ret : Index) (cold : Bool) (s0 : LatticeHashForest α),
      x < y ∧ x ≠ 0 ∧ min a b = x ∧ max a b = y ∧
      s.property_sets[x]? = some X ∧ s.property_sets[y]? = some Y ∧
      mapFind OperationNode.eq s.subsets ⟨x, y⟩ = none ∧
      mapFind OperationNode.eq s.intersections ⟨x, y⟩ = none ∧
      register_set s (interMerge X Y) = (ret, cold, s0) ∧
      set_intersection s a b =
        (.ok ret, LHF_PERF_INC
          { s0 with
            intersections := mapInsert OperationNode.eq s0.intersections ⟨x, y⟩ ret
            subsets := interRecord s0.subsets x y ret }
          "intersections" (if cold then .cold_misses else .edge_misses)) := by
  by_cases hv : pairInvalid s a b = true
  · left
    unfold set_intersection
    rw [if_pos hv]
    exact SameForest.refl s
  · have hv1 : pairInvalid s a b = false := by simpa using hv
    obtain ⟨h1, h2⟩ := (pairInvalid_eq_false_iff s a b).mp hv1
    obtain ⟨A, hA⟩ := exists_getElem?_of_valid hs a h1
    obtain ⟨B, hB⟩ := exists_getElem?_of_valid hs b h2
    by_cases hab : a = b
    · subst hab
      left
      rw [set_intersection_self s a h1]
      exact SameForest.of_perf_inc _ _ _
    · by_cases ha : a = 0
      · subst ha
        left
        obtain ⟨c, hc⟩ := set_intersection_zero_left s b h2
        rw [hc]
        exact SameForest.of_perf_inc _ _ _
      · by_cases hb : b = 0
        · subst hb
          left
          obtain ⟨c, hc⟩ := set_intersection_zero_right s a h1
          rw [hc]
          exact SameForest.of_perf_inc _ _ _
        · obtain ⟨x, y, X, Y, hxy, hx0, _, hmin, hmax, hX, hY⟩ :=
            exists_ordered_pair a b A B hA hB hab ha hb
          rw [set_intersection_normal s a b hv1 hab ha hb, hmin, hmax]
          cases hsub : mapFind OperationNode.eq s.subsets ⟨x, y⟩ with
          | some rel =>
            obtain ⟨hu, _⟩ := hs.subsets_sound x y rel hsub
            cases rel with
            | UNKNOWN => exact absurd rfl hu
            | SUBSET => exact Or.inl (SameForest.of_perf_inc _ _ _)
            | SUPERSET => exact Or.inl (SameForest.of_perf_inc _ _ _)
          | none =>
            cases hun : mapFind OperationNode.eq s.intersections ⟨x, y⟩ with
            | some r => exact Or.inl (SameForest.of_perf_inc _ _ _)
            | none =>
              right
              rcases hreg : register_set s (interMerge X Y) with ⟨ret, cold, s0⟩
              exact ⟨x, y, X, Y, ret, cold, s0, hxy, hx0, rfl, rfl, hX, hY, hsub, hun, hreg,
                set_intersection_miss_eq hs x y X Y hX hY (Nat.ne_of_lt hxy) ret cold s0 hreg⟩

/-- The same for `set_difference`, whose key is the pair as given. -/
theorem set_difference_outcome {s : LatticeHashForest α} (hs : Inv s) (a b : Index) :
    SameForest s (set_difference s a b).2 ∨
    ∃ (A B : List α) (ret : Index) (cold : Bool) (s0 : LatticeHashForest α),
      a ≠ b ∧ a ≠ 0 ∧ b ≠ 0 ∧
      s.property_sets[a]? = some A ∧ s.property_sets[b]? = some B ∧
      mapFind OperationNode.eq s.differences ⟨a, b⟩ = none ∧
      register_set s (diffMerge A B) = (ret, cold, s0) ∧
      set_difference s a b =
        (.ok ret, LHF_PERF_INC
          { s0 with
            differences := mapInsert OperationNode.eq s0.differences ⟨a, b⟩ ret
            intersections :=
              if ret ≠ a then s0.intersections
              else mapInsert OperationNode.eq s0.intersections ⟨min a b, max a b⟩ EMPTY_SET
            subsets := if ret ≠ a then recordSubset s0.subsets ret a else s0.subsets }
          "differences" (if cold then .cold_misses else .edge_misses)) := by
  by_cases hv : pairInvalid s a b = true
  · left
    unfold set_difference
    rw [if_pos hv]
    exact SameForest.refl s
  · have hv1 : pairInvalid s a b = false := by simpa using hv
    obtain ⟨h1, h2⟩ := (pairInvalid_eq_false_iff s a b).mp hv1
    obtain ⟨A, hA⟩ := exists_getElem?_of_valid hs a h1
    obtain ⟨B, hB⟩ := exists_getElem?_of_valid hs b h2
    by_cases hab : a = b
    · subst hab
      left
      rw [set_difference_self s a h1]
      exact SameForest.of_perf_inc _ _ _
    · by_cases ha : a = 0
      · subst ha
        left
        obtain ⟨c, hc⟩ := set_difference_zero_left s b h2
        rw [hc]
        exact SameForest.of_perf_inc _ _ _
      · by_cases hb : b = 0
        · subst hb
          left
          obtain ⟨c, hc⟩ := set_difference_zero_right s a h1
          rw [hc]
          exact SameForest.of_perf_inc _ _ _
        · rw [set_difference_normal s a b hv1 hab ha hb]
          cases hun : mapFind OperationNode.eq s.differences ⟨a, b⟩ with
          | some r => exact Or.inl (SameForest.of_perf_inc _ _ _)
          | none =>
            right
            rcases hreg : register_set s (diffMerge A B) with ⟨ret, cold, s0⟩
            exact ⟨A, B, ret, cold, s0, hab, ha, hb, hA, hB, rfl, hreg,
              set_difference_miss_eq hs a b A B hA hB ret cold s0 hreg⟩

/-- What registering a candidate gives: the invariant, the candidate under the
returned index, a store that is the old one or the old one with the candidate
appended, and the caches as they were. -/
theorem register_set_facts {s : LatticeHashForest α} (hs : Inv s) (c : List α) (ret : Index)
    (cold : Bool) (s0 : LatticeHashForest α) (hreg : register_set s c = (ret, cold, s0)) :
    Inv s0 ∧ s0.property_sets[ret]? = some c ∧
      (s0.property_sets = s.property_sets ∨ s0.property_sets = s.property_sets ++ [c]) ∧
      s0.unions = s.unions ∧ s0.intersections = s.intersections ∧
      s0.differences = s.differences ∧ s0.subsets = s.subsets := by
  have h1 := register_set_spec hs c
  have h2 := register_set_store s c
  rw [hreg] at h1 h2
  exact ⟨h1.1, h1.2.1, h2, register_set_fields s c ret cold s0 hreg⟩

/-! ## The subset cache only relates a set to a subsequence of it -/

theorem SublistSubsets.grow {sets : List (List α)}
    {m : List (OperationNode × SubsetRelation)} (h : SublistSubsets sets m)
    (t : List (List α)) : SublistSubsets (sets ++ t) m := by
  intro x y rel hr
  obtain ⟨X, Y, hX, hY, h1, h2⟩ := h x y rel hr
  exact ⟨X, Y, getElem?_append_some _ _ _ _ hX, getElem?_append_some _ _ _ _ hY, h1, h2⟩

theorem SublistSubsets.after_register {sets sets2 : List (List α)}
    {m : List (OperationNode × SubsetRelation)} (h : SublistSubsets sets m) (c : List α)
    (h2 : sets2 = sets ∨ sets2 = sets ++ [c]) : SublistSubsets sets2 m := by
  rcases h2 with h2 | h2
  · rw [h2]
    exact h
  · rw [h2]
    exact h.grow [c]

theorem SublistSubsets.recordSublist {sets : List (List α)}
    {m : List (OperationNode × SubsetRelation)} (h : SublistSubsets sets m) (a b : Index)
    (X Y : List α) (hX : sets[a]? = some X) (hY : sets[b]? = some Y) (hsub : X.Sublist Y) :
    SublistSubsets sets (recordSubset m a b) := by
  unfold recordSubset
  split_ifs with hab
  · intro x2 y2 rel2 hr
    rcases (mapFind_insert_iff _ OperationNode.eq_iff m _ _ _ _).mp hr with h3 | ⟨_, h4, h5⟩
    · exact h x2 y2 rel2 h3
    · cases h4
      subst h5
      exact ⟨Y, X, hY, hX, by simp, fun _ => hsub⟩
  · intro x2 y2 rel2 hr
    rcases (mapFind_insert_iff _ OperationNode.eq_iff m _ _ _ _).mp hr with h3 | ⟨_, h4, h5⟩
    · exact h x2 y2 rel2 h3
    · cases h4
      subst h5
      exact ⟨X, Y, hX, hY, fun _ => hsub, by simp⟩

theorem SublistSubsets.same_forest {s t : LatticeHashForest α} (h : SameForest s t)
    (hs : SublistSubsets s.property_sets s.subsets) :
    SublistSubsets t.property_sets t.subsets := by
  rw [h.1, h.2.2.2.2.2]
  exact hs

theorem register_set_sublistSubsets {s : LatticeHashForest α} (c : List α)
    (ht : SublistSubsets s.property_sets s.subsets) :
    SublistSubsets (register_set s c).2.2.property_sets (register_set s c).2.2.subsets := by
  rw [register_set_subsets]
  exact ht.after_register c (register_set_store s c)

theorem set_union_sublistSubsets {s : LatticeHashForest α} (hs : Inv s) (a b : Index)
    (ht : SublistSubsets s.property_sets s.subsets) :
    SublistSubsets (set_union s a b).2.property_sets (set_union s a b).2.subsets := by
  rcases set_union_outcome hs a b with h | ⟨x, y, X, Y, ret, cold, s0, _, _, _, _, hX, hY, _, _,
    hreg, heq⟩
  · exact SublistSubsets.same_forest h ht
  · obtain ⟨_, hret, hstore, _, _, _, hsub0⟩ := register_set_facts hs _ ret cold s0 hreg
    have hext : Extends s s0 := by
      rcases hstore with h | h
      · exact ⟨[], by rw [h, List.append_nil]⟩
      · exact ⟨_, h⟩
    have hX0 := hext.getElem? x X hX
    have hY0 := hext.getElem? y Y hY
    have ht0 : SublistSubsets s0.property_sets s0.subsets := by
      rw [hsub0]
      exact ht.after_register _ hstore
    rw [heq]
    show SublistSubsets s0.property_sets (unionRecord s0.subsets x y ret)
    unfold unionRecord
    split_ifs
    · exact ht0.recordSublist y ret Y _ hY0 hret (sublist_unionMerge_right X Y)
    · exact ht0.recordSublist x ret X _ hX0 hret (sublist_unionMerge_left X Y)
    · exact (ht0.recordSublist x ret X _ hX0 hret (sublist_unionMerge_left X Y)).recordSublist
        y ret Y _ hY0 hret (sublist_unionMerge_right X Y)

theorem set_intersection_sublistSubsets {s : LatticeHashForest α} (hs : Inv s) (a b : Index)
    (ht : SublistSubsets s.property_sets s.subsets) :
    SublistSubsets (set_intersection s a b).2.property_sets
      (set_intersection s a b).2.subsets := by
  rcases set_intersection_outcome hs a b with h | ⟨x, y, X, Y, ret, cold, s0, _, _, _, _, hX,
    hY, _, _, hreg, heq⟩
  · exact SublistSubsets.same_forest h ht
  · obtain ⟨_, hret, hstore, _, _, _, hsub0⟩ := register_set_facts hs _ ret cold s0 hreg
    have hext : Extends s s0 := by
      rcases hstore with h | h
      · exact ⟨[], by rw [h, List.append_nil]⟩
      · exact ⟨_, h⟩
    have hX0 := hext.getElem? x X hX
    have hY0 := hext.getElem? y Y hY
    have ht0 : SublistSubsets s0.property_sets s0.subsets := by
      rw [hsub0]
      exact ht.after_register _ hstore
    rw [heq]
    show SublistSubsets s0.property_sets (interRecord s0.subsets x y ret)
    unfold interRecord
    split_ifs
    · exact ht0.recordSublist ret x _ X hret hX0 (interMerge_sublist_left X Y)
    · exact ht0.recordSublist ret y _ Y hret hY0 (interMerge_sublist_right X Y)

theorem set_difference_sublistSubsets {s : LatticeHashForest α} (hs : Inv s) (a b : Index)
    (ht : SublistSubsets s.property_sets s.subsets) :
    SublistSubsets (set_difference s a b).2.property_sets
      (set_difference s a b).2.subsets := by
  rcases set_difference_outcome hs a b with h | ⟨A, B, ret, cold, s0, _, _, _, hA, hB, _,
    hreg, heq⟩
  · exact SublistSubsets.same_forest h ht
  · obtain ⟨_, hret, hstore, _, _, _, hsub0⟩ := register_set_facts hs _ ret cold s0 hreg
    have hext : Extends s s0 := by
      rcases hstore with h | h
      · exact ⟨[], by rw [h, List.append_nil]⟩
      · exact ⟨_, h⟩
    have hA0 := hext.getElem? a A hA
    have ht0 : SublistSubsets s0.property_sets s0.subsets := by
      rw [hsub0]
      exact ht.after_register _ hstore
    rw [heq]
    show SublistSubsets s0.property_sets
      (if ret ≠ a then recordSubset s0.subsets ret a else s0.subsets)
    split_ifs
    · exact ht0.recordSublist ret a _ A hret hA0 (diffMerge_sublist A B)
    · exact ht0

/-- In every reachable state an entry of the subset cache relates a stored set
to a subsequence of it. -/
theorem reachable_sublistSubsets {s : LatticeHashForest α} (h : Reachable s) :
    SublistSubsets s.property_sets s.subsets := by
  induction h with
  | new =>
    intro x y rel hf
    cases hf
  | register_set c _ ih => exact register_set_sublistSubsets c ih
  | register_set_single c _ ih => exact register_set_sublistSubsets [c] ih
  | @set_union s1 a b h1 ih => exact set_union_sublistSubsets h1.inv a b ih
  | @set_intersection s1 a b h1 ih => exact set_intersection_sublistSubsets h1.inv a b ih
  | @set_difference s1 a b h1 ih => exact set_difference_sublistSubsets h1.inv a b ih
  | @set_insert_single s1 a e h1 ih =>
    exact set_union_sublistSubsets (register_set_spec h1.inv [e]).1 a _
      (register_set_sublistSubsets [e] ih)
  | @set_remove_single s1 a e h1 ih =>
    exact set_difference_sublistSubsets (register_set_spec h1.inv [e]).1 a _
      (register_set_sublistSubsets [e] ih)
  | @set_filter s1 i f cache h1 ih =>
    unfold set_filter
    split_ifs
    · exact ih
    · exact ih
    · split
      · split
        · exact register_set_sublistSubsets _ ih
        · exact ih
      · exact ih

/-! ## Strictly ascending stores -/

theorem AscendingStore.unchanged {s t : LatticeHashForest α} (h : SameForest s t)
    (hs : AscendingStore s) : AscendingStore t := by
  intro c hc
  rw [h.1] at hc
  exact hs c hc

theorem AscendingStore.after_append {s t : LatticeHashForest α} (hs : AscendingStore s)
    (c : List α) (hc : c.Pairwise (· < ·))
    (h : t.property_sets = s.property_sets ∨ t.property_sets = s.property_sets ++ [c]) :
    AscendingStore t := by
  intro d hd
  rcases h with h | h
  · rw [h] at hd
    exact hs d hd
  · rw [h, List.mem_append, List.mem_singleton] at hd
    rcases hd with hd | hd
    · exact hs d hd
    · rw [hd]
      exact hc

theorem AscendingStore.pairwise_at {s : LatticeHashForest α} (hs : AscendingStore s) (i : Nat)
    (c : List α) (h : s.property_sets[i]? = some c) : c.Pairwise (· < ·) :=
  hs c (List.mem_iff_getElem?.mpr ⟨i, h⟩)

theorem register_set_ascending {s : LatticeHashForest α} (hs : AscendingStore s) (c : List α)
    (hc : c.Pairwise (· < ·)) : AscendingStore (register_set s c).2.2 :=
  hs.after_append c hc (register_set_store s c)

theorem set_union_ascending {s : LatticeHashForest α} (hs : Inv s) (ha : AscendingStore s)
    (a b : Index) : AscendingStore (set_union s a b).2 := by
  rcases set_union_outcome hs a b with h | ⟨x, y, X, Y, ret, cold, s0, _, _, _, _, hX, hY, _, _,
    hreg, heq⟩
  · exact AscendingStore.unchanged h ha
  · obtain ⟨_, _, hstore, _⟩ := register_set_facts hs _ ret cold s0 hreg
    rw [heq]
    exact ha.after_append _ (unionMerge_pairwise X Y (ha.pairwise_at x X hX) (ha.pairwise_at y Y hY))
      hstore

theorem set_intersection_ascending {s : LatticeHashForest α} (hs : Inv s)
    (ha : AscendingStore s) (a b : Index) : AscendingStore (set_intersection s a b).2 := by
  rcases set_intersection_outcome hs a b with h | ⟨x, y, X, Y, ret, cold, s0, _, _, _, _, hX,
    hY, _, _, hreg, heq⟩
  · exact AscendingStore.unchanged h ha
  · obtain ⟨_, _, hstore, _⟩ := register_set_facts hs _ ret cold s0 hreg
    rw [heq]
    exact ha.after_append _ ((ha.pairwise_at x X hX).sublist (interMerge_sublist_left X Y)) hstore

theorem set_difference_ascending {s : LatticeHashForest α} (hs : Inv s)
    (ha : AscendingStore s) (a b : Index) : AscendingStore (set_difference s a b).2 := by
  rcases set_difference_outcome hs a b with h | ⟨A, B, ret, cold, s0, _, _, _, hA, hB, _,
    hreg, heq⟩
  · exact AscendingStore.unchanged h ha
  · obtain ⟨_, _, hstore, _⟩ := register_set_facts hs _ ret cold s0 hreg
    rw [heq]
    exact ha.after_append _ ((ha.pairwise_at a A hA).sublist (diffMerge_sublist A B)) hstore

/-! ## The call after a miss -/

theorem set_union_min_max (s : LatticeHashForest α) (a b : Nat) :
    set_union s a b = set_union s (min a b) (max a b) := by
  rcases Nat.le_total a b with h | h
  · rw [min_eq_left h, max_eq_right h]
  · rw [min_eq_right h, max_eq_left h, set_union_swap]

theorem set_intersection_min_max (s : LatticeHashForest α) (a b : Nat) :
    set_intersection s a b = set_intersection s (min a b) (max a b) := by
  rcases Nat.le_total a b with h | h
  · rw [min_eq_left h, max_eq_right h]
  · rw [min_eq_right h, max_eq_left h, set_intersection_swap]

/-- After a miss of `set_union` on the ordered pair `(x, y)`, the same call is
answered by the subset cache when the result was one of the operands, and by
the union cache otherwise; the forest stays as the miss left it. -/
theorem set_union_after_miss {s : LatticeHashForest α} (hs : Inv s) (x y : Nat)
    (X Y : List α) (hX : s.property_sets[x]? = some X) (hY : s.property_sets[y]? = some Y)
    (hxy : x < y) (hx0 : x ≠ 0)
    (hsub : mapFind OperationNode.eq s.subsets ⟨x, y⟩ = none)
    (hun : mapFind OperationNode.eq s.unions ⟨x, y⟩ = none)
    (ret : Index) (cold : Bool) (s0 : LatticeHashForest α)
    (hreg : register_set s (unionMerge X Y) = (ret, cold, s0)) (c0 : PerfCategory) :
    set_union
        (LHF_PERF_INC
          { s0 with
            unions := mapInsert OperationNode.eq s0.unions ⟨x, y⟩ ret
            subsets := unionRecord s0.subsets x y ret } "unions" c0) x y =
      (.ok ret, LHF_PERF_INC
        (LHF_PERF_INC
          { s0 with
            unions := mapInsert OperationNode.eq s0.unions ⟨x, y⟩ ret
            subsets := unionRecord s0.subsets x y ret } "unions" c0)
        "unions" (if ret = x ∨ ret = y then .subset_hits else .hits)) := by
  obtain ⟨_, _, hstore, hu0, _, _, hsub0⟩ := register_set_facts hs _ ret cold s0 hreg
  have hext : Extends s s0 := by
    rcases hstore with h | h
    · exact ⟨[], by rw [h, List.append_nil]⟩
    · exact ⟨_, h⟩
  have hy0 : y ≠ 0 := by omega
  have hv : pairInvalid (LHF_PERF_INC
      { s0 with
        unions := mapInsert OperationNode.eq s0.unions ⟨x, y⟩ ret
        subsets := unionRecord s0.subsets x y ret } "unions" c0) x y = false :=
    pairInvalid_of_getElem? (s := s0) x y X Y (hext.getElem? x X hX) (hext.getElem? y Y hY)
  rw [set_union_normal _ x y hv (Nat.ne_of_lt hxy) hx0 hy0, min_eq_left (Nat.le_of_lt hxy),
    max_eq_right (Nat.le_of_lt hxy)]
  simp only [LHF_PERF_INC_subsets, LHF_PERF_INC_unions]
  rw [hsub0, hu0, mapFind_unionRecord s.subsets x y ret hxy hsub]
  by_cases h1 : ret = x
  · rw [if_pos h1, if_pos (Or.inl h1), h1]
  · rw [if_neg h1]
    by_cases h2 : ret = y
    · rw [if_pos h2, if_pos (Or.inr h2), h2]
    · rw [if_neg h2, if_neg (not_or.mpr ⟨h1, h2⟩),
        mapFind_insert_of_none _ OperationNode.eq_iff _ _ _ hun]

/-- The same for `set_intersection`. -/
theorem set_intersection_after_miss {s : LatticeHashForest α} (hs : Inv s) (x y : Nat)
    (X Y : List α) (hX : s.property_sets[x]? = some X) (hY : s.property_sets[y]? = some Y)
    (hxy : x < y) (hx0 : x ≠ 0)
    (hsub : mapFind OperationNode.eq s.subsets ⟨x, y⟩ = none)
    (hun : mapFind OperationNode.eq s.intersections ⟨x, y⟩ = none)
    (ret : Index) (cold : Bool) (s0 : LatticeHashForest α)
    (hreg : register_set s (interMerge X Y) = (ret, cold, s0)) (c0 : PerfCategory) :
    set_intersection
        (LHF_PERF_INC
          { s0 with
            intersections := mapInsert OperationNode.eq s0.intersections ⟨x, y⟩ ret
            subsets := interRecord s0.subsets x y ret } "intersections" c0) x y =
      (.ok ret, LHF_PERF_INC
        (LHF_PERF_INC
          { s0 with
            intersections := mapInsert OperationNode.eq s0.intersections ⟨x, y⟩ ret
            subsets := interRecord s0.subsets x y ret } "intersections" c0)
        "intersections" (if ret = x ∨ ret = y then .subset_hits else .hits)) := by
  obtain ⟨_, _, hstore, _, hi0, _, hsub0⟩ := register_set_facts hs _ ret cold s0 hreg
  have hext : Extends s s0 := by
    rcases hstore with h | h
    · exact ⟨[], by rw [h, List.append_nil]⟩
    · exact ⟨_, h⟩
  have hy0 : y ≠ 0 := by omega
  have hv : pairInvalid (LHF_PERF_INC
      { s0 with
        intersections := mapInsert OperationNode.eq s0.intersections ⟨x, y⟩ ret
        subsets := interRecord s0.subsets x y ret } "intersections" c0) x y = false :=
    pairInvalid_of_getElem? (s := s0) x y X Y (hext.getElem? x X hX) (hext.getElem? y Y hY)
  rw [set_intersection_normal _ x y hv (Nat.ne_of_lt hxy) hx0 hy0,
    min_eq_left (Nat.le_of_lt hxy), max_eq_right (Nat.le_of_lt hxy)]
  simp only [LHF_PERF_INC_subsets, LHF_PERF_INC_intersections]
  rw [hsub0, hi0, mapFind_interRecord s.subsets x y ret hxy hsub]
  by_cases h1 : ret = x
  · rw [if_pos h1, if_pos (Or.inl h1), h1]
  · rw [if_neg h1]
    by_cases h2 : ret = y
    · rw [if_pos h2, if_pos (Or.inr h2), h2]
    · rw [if_neg h2, if_neg (not_or.mpr ⟨h1, h2⟩),
        mapFind_insert_of_none _ OperationNode.eq_iff _ _ _ hun]

/-- After a miss of `set_difference` the same call is a hit of the difference
cache. -/
theorem set_difference_after_miss {s : LatticeHashForest α} (hs : Inv s) (a b : Nat)
    (A B : List α) (hA : s.property_sets[a]? = some A) (hB : s.property_sets[b]? = some B)
    (hab : a ≠ b) (ha0 : a ≠ 0) (hb0 : b ≠ 0)
    (hun : mapFind OperationNode.eq s.differences ⟨a, b⟩ = none)
    (ret : Index) (cold : Bool) (s0 : LatticeHashForest α)
    (hreg : register_set s (diffMerge A B) = (ret, cold, s0)) (c0 : PerfCategory) :
    set_difference
        (LHF_PERF_INC
          { s0 with
            differences := mapInsert OperationNode.eq s0.differences ⟨a, b⟩ ret
            intersections :=
              if ret ≠ a then s0.intersections
              else mapInsert OperationNode.eq s0.intersections ⟨min a b, max a b⟩ EMPTY_SET
            subsets := if ret ≠ a then recordSubset s0.subsets ret a else s0.subsets }
          "differences" c0) a b =
      (.ok ret, LHF_PERF_INC
        (LHF_PERF_INC
          { s0 with
            differences := mapInsert OperationNode.eq s0.differences ⟨a, b⟩ ret
            intersections :=
              if ret ≠ a then s0.intersections
              else mapInsert OperationNode.eq s0.intersections ⟨min a b, max a b⟩ EMPTY_SET
            subsets := if ret ≠ a then recordSubset s0.subsets ret a else s0.subsets }
          "differences" c0)
        "differences" .hits) := by
  obtain ⟨_, _, hstore, _, _, hd0, _⟩ := register_set_facts hs _ ret cold s0 hreg
  have hext : Extends s s0 := by
    rcases hstore with h | h
    · exact ⟨[], by rw [h, List.append_nil]⟩
    · exact ⟨_, h⟩
  have hv : pairInvalid (LHF_PERF_INC
      { s0 with
        differences := mapInsert OperationNode.eq s0.differences ⟨a, b⟩ ret
        intersections :=
          if ret ≠ a then s0.intersections
          else mapInsert OperationNode.eq s0.intersections ⟨min a b, max a b⟩ EMPTY_SET
        subsets := if ret ≠ a then recordSubset s0.subsets ret a else s0.subsets }
      "differences" c0) a b = false :=
    pairInvalid_of_getElem? (s := s0) a b A B (hext.getElem? a A hA) (hext.getElem? b B hB)
  rw [set_difference_normal _ a b hv hab ha0 hb0]
  simp only [LHF_PERF_INC_differences]
  rw [hd0, mapFind_insert_of_none _ OperationNode.eq_iff _ _ _ hun]

/-! ## Asking again leaves the forest alone -/

theorem set_union_again_lt {s : LatticeHashForest α} (hs : Inv s) (x y : Nat)
    (X Y : List α) (hX : s.property_sets[x]? = some X) (hY : s.property_sets[y]? = some Y)
    (hxy : x < y) (hx0 : x ≠ 0) :
    ∃ r s1 c, set_union s x y = (.ok r, s1) ∧
      set_union s1 x y = (.ok r, LHF_PERF_INC s1 "unions" c) := by
  have hv := pairInvalid_of_getElem? x y X Y hX hY
  have hy0 : y ≠ 0 := by omega
  have hne : x ≠ y := Nat.ne_of_lt hxy
  have hmin : min x y = x := min_eq_left (Nat.le_of_lt hxy)
  have hmax : max x y = y := max_eq_right (Nat.le_of_lt hxy)
  have hnorm := set_union_normal s x y hv hne hx0 hy0
  rw [hmin, hmax] at hnorm
  cases hsub : mapFind OperationNode.eq s.subsets ⟨x, y⟩ with
  | some rel =>
    obtain ⟨hu, _⟩ := hs.subsets_sound x y rel hsub
    rw [hsub] at hnorm
    cases rel with
    | UNKNOWN => exact absurd rfl hu
    | SUBSET =>
      refine ⟨y, _, .subset_hits, hnorm, ?_⟩
      rw [set_union_normal (LHF_PERF_INC s "unions" .subset_hits) x y hv hne hx0 hy0, hmin,
        hmax, LHF_PERF_INC_subsets, hsub]
    | SUPERSET =>
      refine ⟨x, _, .subset_hits, hnorm, ?_⟩
      rw [set_union_normal (LHF_PERF_INC s "unions" .subset_hits) x y hv hne hx0 hy0, hmin,
        hmax, LHF_PERF_INC_subsets, hsub]
  | none =>
    rw [hsub] at hnorm
    cases hun : mapFind OperationNode.eq s.unions ⟨x, y⟩ with
    | some r =>
      rw [hun] at hnorm
      refine ⟨r, _, .hits, hnorm, ?_⟩
      rw [set_union_normal (LHF_PERF_INC s "unions" .hits) x y hv hne hx0 hy0, hmin, hmax,
        LHF_PERF_INC_subsets, hsub, LHF_PERF_INC_unions, hun]
    | none =>
      rw [hun] at hnorm
      rcases hreg : register_set s (unionMerge X Y) with ⟨ret, cold, s0⟩
      have heq := set_union_miss_eq hs x y X Y hX hY hne ret cold s0 hreg
      exact ⟨ret, _, _, hnorm.trans heq,
        set_union_after_miss hs x y X Y hX hY hxy hx0 hsub hun ret cold s0 hreg _⟩

theorem set_intersection_again_lt {s : LatticeHashForest α} (hs : Inv s) (x y : Nat)
    (X Y : List α) (hX : s.property_sets[x]? = some X) (hY : s.property_sets[y]? = some Y)
    (hxy : x < y) (hx0 : x ≠ 0) :
    ∃ r s1 c, set_intersection s x y = (.ok r, s1) ∧
      set_intersection s1 x y = (.ok r, LHF_PERF_INC s1 "intersections" c) := by
  have hv := pairInvalid_of_getElem? x y X Y hX hY
  have hy0 : y ≠ 0 := by omega
  have hne : x ≠ y := Nat.ne_of_lt hxy
  have hmin : min x y = x := min_eq_left (Nat.le_of_lt hxy)
  have hmax : max x y = y := max_eq_right (Nat.le_of_lt hxy)
  have hnorm := set_intersection_normal s x y hv hne hx0 hy0
  rw [hmin, hmax] at hnorm
  cases hsub : mapFind OperationNode.eq s.subsets ⟨x, y⟩ with
  | some rel =>
    obtain ⟨hu, _⟩ := hs.subsets_sound x y rel hsub
    rw [hsub] at hnorm
    cases rel with
    | UNKNOWN => exact absurd rfl hu
    | SUBSET =>
      refine ⟨x, _, .subset_hits, hnorm, ?_⟩
      rw [set_intersection_normal (LHF_PERF_INC s "intersections" .subset_hits) x y hv hne
        hx0 hy0, hmin, hmax, LHF_PERF_INC_subsets, hsub]
    | SUPERSET =>
      refine ⟨y, _, .subset_hits, hnorm, ?_⟩
      rw [set_intersection_normal (LHF_PERF_INC s "intersections" .subset_hits) x y hv hne
        hx0 hy0, hmin, hmax, LHF_PERF_INC_subsets, hsub]
  | none =>
    rw [hsub] at hnorm
    cases hun : mapFind OperationNode.eq s.intersections ⟨x, y⟩ with
    | some r =>
      rw [hun] at hnorm
      refine ⟨r, _, .hits, hnorm, ?_⟩
      rw [set_intersection_normal (LHF_PERF_INC s "intersections" .hits) x y hv hne hx0 hy0,
        hmin, hmax, LHF_PERF_INC_subsets, hsub, LHF_PERF_INC_intersections, hun]
    | none =>
      rw [hun] at hnorm
      rcases hreg : register_set s (interMerge X Y) with ⟨ret, cold, s0⟩
      have heq := set_intersection_miss_eq hs x y X Y hX hY hne ret cold s0 hreg
      exact ⟨ret, _, _, hnorm.trans heq,
        set_intersection_after_miss hs x y X Y hX hY hxy hx0 hsub hun ret cold s0 hreg _⟩

/-- Asking `set_union` again right after a call on valid operands returns the
same index and changes nothing but a counter. -/
theorem set_union_again {s : LatticeHashForest α} (hs : Inv s) (a b : Nat)
    (ha : indexInvalid s a = false) (hb : indexInvalid s b = false) :
    ∃ r s1 c, set_union s a b = (.ok r, s1) ∧
      set_union s1 a b = (.ok r, LHF_PERF_INC s1 "unions" c) := by
  obtain ⟨A, hA⟩ := exists_getElem?_of_valid hs a ha
  obtain ⟨B, hB⟩ := exists_getElem?_of_valid hs b hb
  by_cases hab : a = b
  · subst hab
    exact ⟨a, _, _, set_union_self s a ha,
      set_union_self _ a (by rw [indexInvalid_perf_inc]; exact ha)⟩
  · by_cases ha0 : a = 0
    · subst ha0
      obtain ⟨c, hc⟩ := set_union_zero_left s b hb
      obtain ⟨c2, hc2⟩ := set_union_zero_left (LHF_PERF_INC s "unions" c) b
        (by rw [indexInvalid_perf_inc]; exact hb)
      exact ⟨b, _, c2, hc, hc2⟩
    · by_cases hb0 : b = 0
      · subst hb0
        obtain ⟨c, hc⟩ := set_union_zero_right s a ha
        obtain ⟨c2, hc2⟩ := set_union_zero_right (LHF_PERF_INC s "unions" c) a
          (by rw [indexInvalid_perf_inc]; exact ha)
        exact ⟨a, _, c2, hc, hc2⟩
      · obtain ⟨x, y, X, Y, hxy, hx0, _, hmin, hmax, hX, hY⟩ :=
          exists_ordered_pair a b A B hA hB hab ha0 hb0
        obtain ⟨r, s1, c, h1, h2⟩ := set_union_again_lt hs x y X Y hX hY hxy hx0
        refine ⟨r, s1, c, ?_, ?_⟩
        · rw [set_union_min_max, hmin, hmax]
          exact h1
        · rw [set_union_min_max, hmin, hmax]
          exact h2

/-- The same for `set_intersection`. -/
theorem set_intersection_again {s : LatticeHashForest α} (hs : Inv s) (a b : Nat)
    (ha : indexInvalid s a = false) (hb : indexInvalid s b = false) :
    ∃ r s1 c, set_intersection s a b = (.ok r, s1) ∧
      set_intersection s1 a b = (.ok r, LHF_PERF_INC s1 "intersections" c) := by
  obtain ⟨A, hA⟩ := exists_getElem?_of_valid hs a ha
  obtain ⟨B, hB⟩ := exists_getElem?_of_valid hs b hb
  by_cases hab : a = b
  · subst hab
    exact ⟨a, _, _, set_intersection_self s a ha,
      set_intersection_self _ a (by rw [indexInvalid_perf_inc]; exact ha)⟩
  · by_cases ha0 : a = 0
    · subst ha0
      obtain ⟨c, hc⟩ := set_intersection_zero_left s b hb
      obtain ⟨c2, hc2⟩ := set_intersection_zero_left (LHF_PERF_INC s "intersections" c) b
        (by rw [indexInvalid_perf_inc]; exact hb)
      exact ⟨EMPTY_SET, _, c2, hc, hc2⟩
    · by_cases hb0 : b = 0
      · subst hb0
        obtain ⟨c, hc⟩ := set_intersection_zero_right s a ha
        obtain ⟨c2, hc2⟩ := set_intersection_zero_right (LHF_PERF_INC s "intersections" c) a
          (by rw [indexInvalid_perf_inc]; exact ha)
        exact ⟨EMPTY_SET, _, c2, hc, hc2⟩
      · obtain ⟨x, y, X, Y, hxy, hx0, _, hmin, hmax, hX, hY⟩ :=
          exists_ordered_pair a b A B hA hB hab ha0 hb0
        obtain ⟨r, s1, c, h1, h2⟩ := set_intersection_again_lt hs x y X Y hX hY hxy hx0
        refine ⟨r, s1, c, ?_, ?_⟩
        · rw [set_intersection_min_max, hmin, hmax]
          exact h1
        · rw [set_intersection_min_max, hmin, hmax]
          exact h2

/-- The same for `set_difference`. -/
theorem set_difference_again {s : LatticeHashForest α} (hs : Inv s) (a b : Nat)
    (ha : indexInvalid s a = false) (hb : indexInvalid s b = false) :
    ∃ r s1 c, set_difference s a b = (.ok r, s1) ∧
      set_difference s1 a b = (.ok r, LHF_PERF_INC s1 "differences" c) := by
  obtain ⟨A, hA⟩ := exists_getElem?_of_valid hs a ha
  obtain ⟨B, hB⟩ := exists_getElem?_of_valid hs b hb
  have hv := pairInvalid_of_getElem? a b A B hA hB
  by_cases hab : a = b
  · subst hab
    exact ⟨EMPTY_SET, _, _, set_difference_self s a ha,
      set_difference_self _ a (by rw [indexInvalid_perf_inc]; exact ha)⟩
  · by_cases ha0 : a = 0
    · subst ha0
      obtain ⟨c, hc⟩ := set_difference_zero_left s b hb
      obtain ⟨c2, hc2⟩ := set_difference_zero_left (LHF_PERF_INC s "differences" c) b
        (by rw [indexInvalid_perf_inc]; exact hb)
      exact ⟨EMPTY_SET, _, c2, hc, hc2⟩
    · by_cases hb0 : b = 0
      · subst hb0
        obtain ⟨c, hc⟩ := set_difference_zero_right s a ha
        obtain ⟨c2, hc2⟩ := set_difference_zero_right (LHF_PERF_INC s "differences" c) a
          (by rw [indexInvalid_perf_inc]; exact ha)
        exact ⟨a, _, c2, hc, hc2⟩
      · have hnorm := set_difference_normal s a b hv hab ha0 hb0
        cases hun : mapFind OperationNode.eq s.differences ⟨a, b⟩ with
        | some r =>
          rw [hun] at hnorm
          refine ⟨r, _, .hits, hnorm, ?_⟩
          rw [set_difference_normal (LHF_PERF_INC s "differences" .hits) a b hv hab ha0 hb0,
            LHF_PERF_INC_differences, hun]
        | none =>
          rw [hun] at hnorm
          rcases hreg : register_set s (diffMerge A B) with ⟨ret, cold, s0⟩
          have heq := set_difference_miss_eq hs a b A B hA hB ret cold s0 hreg
          exact ⟨ret, _, _, hnorm.trans heq,
            set_difference_after_miss hs a b A B hA hB hab ha0 hb0 hun ret cold s0 hreg _⟩

/-! ## `set_difference` and the subset cache -/

theorem register_set_with_subsets (s : LatticeHashForest α)
    (m : List (OperationNode × SubsetRelation)) (c : List α) :
    register_set { s with subsets := m } c =
      ((register_set s c).1, (register_set s c).2.1,
        { (register_set s c).2.2 with subsets := m }) := by
  unfold register_set
  dsimp only
  cases mapFind SetEqual s.property_set_map c <;> rfl

/-- The result of `set_difference` and everything it leaves behind except the
subset cache are the same whatever the subset cache holds when it is called. -/
theorem set_difference_with_subsets (s : LatticeHashForest α)
    (m : List (OperationNode × SubsetRelation)) (a b : Index) :
    ∃ m2, set_difference { s with subsets := m } a b =
      ((set_difference s a b).1, { (set_difference s a b).2 with subsets := m2 }) := by
  have hp : pairInvalid { s with subsets := m } a b = pairInvalid s a b := rfl
  have hg : ∀ i, get_value { s with subsets := m } i = get_value s i := fun _ => rfl
  unfold set_difference
  rw [hp]
  split_ifs with h1 h2 h3 h4
  · exact ⟨m, rfl⟩
  · exact ⟨m, rfl⟩
  · exact ⟨m, rfl⟩
  · exact ⟨m, rfl⟩
  · dsimp only
    cases mapFind OperationNode.eq s.differences ⟨a, b⟩ with
    | some r => exact ⟨m, rfl⟩
    | none =>
      dsimp only
      unfold set_difference_miss
      rw [hg a, hg b]
      cases get_value s a with
      | error e => cases get_value s b <;> exact ⟨m, rfl⟩
      | ok first =>
        cases get_value s b with
        | error e => exact ⟨m, rfl⟩
        | ok second =>
          dsimp only
          rw [register_set_with_subsets]
          rcases hreg : register_set s (diffMerge first second) with ⟨ret, cold, s0⟩
          dsimp only
          by_cases hra : ret = a
          · rw [if_neg (not_not.mpr hra), if_neg (not_not.mpr hra)]
            exact ⟨m, rfl⟩
          · rw [if_pos hra, if_pos hra]
            unfold store_subset
            have hp2 : pairInvalid
                { s0 with
                  subsets := m
                  differences := mapInsert OperationNode.eq s0.differences ⟨a, b⟩ ret }
                ret a =
              pairInvalid
                { s0 with
                  differences := mapInsert OperationNode.eq s0.differences ⟨a, b⟩ ret }
                ret a := rfl
            dsimp only at hp2 ⊢
            rw [hp2]
            split_ifs <;> exact ⟨_, rfl⟩

/-! ## More example forests -/

theorem overlapForest_reachable : Reachable overlapForest :=
  Reachable.register_set _ (Reachable.register_set _ Reachable.new)

theorem disjointForest_reachable : Reachable disjointForest :=
  Reachable.register_set _ (Reachable.register_set _ Reachable.new)

theorem tangledForest_reachable : Reachable tangledForest :=
  Reachable.set_difference 1 2 (Reachable.register_set _ (Reachable.register_set _ Reachable.new))

/-! ## The tag of a recorded containment -/

theorem subsetTag_of_lt (x y : Nat) (h : x < y) : subsetTag x y = .SUBSET := by
  unfold subsetTag
  rw [if_neg (Nat.not_lt.mpr (Nat.le_of_lt h))]

theorem subsetTag_of_gt (x y : Nat) (h : y < x) : subsetTag x y = .SUPERSET := by
  unfold subsetTag
  rw [if_pos h]

/-- Recording that `x` is contained in `y` leaves that fact under the ordered
key, unless the key held something else already. -/
theorem mapFind_recordSubset_self (m : List (OperationNode × SubsetRelation)) (x y : Nat)
    (hm : mapFind OperationNode.eq m ⟨min x y, max x y⟩ = none ∨
      mapFind OperationNode.eq m ⟨min x y, max x y⟩ = some (subsetTag x y)) :
    mapFind OperationNode.eq (recordSubset m x y) ⟨min x y, max x y⟩ =
      some (subsetTag x y) := by
  unfold recordSubset
  by_cases hxy : x > y
  · have hlt : y < x := hxy
    rw [if_pos hxy, subsetTag_of_gt x y hlt, min_eq_right (Nat.le_of_lt hlt),
      max_eq_left (Nat.le_of_lt hlt)]
    rw [subsetTag_of_gt x y hlt, min_eq_right (Nat.le_of_lt hlt),
      max_eq_left (Nat.le_of_lt hlt)] at hm
    rcases hm with h | h
    · exact mapFind_insert_of_none _ OperationNode.eq_iff m _ _ h
    · exact mapFind_insert_of_some _ OperationNode.eq_iff m _ _ _ _ h
  · have hle : x ≤ y := Nat.le_of_not_lt hxy
    have htag : subsetTag x y = .SUBSET := by
      unfold subsetTag
      rw [if_neg hxy]
    rw [if_neg hxy, htag, min_eq_left hle, max_eq_right hle]
    rw [htag, min_eq_left hle, max_eq_right hle] at hm
    rcases hm with h | h
    · exact mapFind_insert_of_none _ OperationNode.eq_iff m _ _ h
    · exact mapFind_insert_of_some _ OperationNode.eq_iff m _ _ _ _ h

/-- With the invariant and a tight subset cache, two different stored sets the
first of which is a subsequence of the second have no entry, or the entry that
says so. -/
theorem entry_of_sublist {s : LatticeHashForest α} (hs : Inv s)
    (ht : SublistSubsets s.property_sets s.subsets) (x y : Nat) (X Y : List α)
    (hX : s.property_sets[x]? = some X) (hY : s.property_sets[y]? = some Y) (hxy : x ≠ y)
    (hsub : X.Sublist Y) :
    mapFind OperationNode.eq s.subsets ⟨min x y, max x y⟩ = none ∨
      mapFind OperationNode.eq s.subsets ⟨min x y, max x y⟩ = some (subsetTag x y) := by
  have hne : ¬ Y.Sublist X := by
    intro h
    have hXY : X = Y := List.Sublist.antisymm hsub h
    rw [← hXY] at hY
    exact hxy (getElem?_inj_of_nodup _ hs.nodup x y X hX hY)
  cases hf : mapFind OperationNode.eq s.subsets ⟨min x y, max x y⟩ with
  | none => exact Or.inl rfl
  | some rel =>
    right
    obtain ⟨hu, _⟩ := hs.subsets_sound _ _ rel hf
    obtain ⟨X2, Y2, hX2, hY2, h1, h2⟩ := ht _ _ rel hf
    rcases Nat.lt_or_gt_of_ne hxy with hlt | hgt
    · rw [subsetTag_of_lt x y hlt]
      rw [min_eq_left (Nat.le_of_lt hlt)] at hX2
      rw [max_eq_right (Nat.le_of_lt hlt)] at hY2
      have e1 : X2 = X := Option.some.inj (hX2.symm.trans hX)
      have e2 : Y2 = Y := Option.some.inj (hY2.symm.trans hY)
      subst e1 e2
      cases rel with
      | UNKNOWN => exact absurd rfl hu
      | SUBSET => rfl
      | SUPERSET => exact absurd (h2 rfl) hne
    · rw [subsetTag_of_gt x y hgt]
      rw [min_eq_right (Nat.le_of_lt hgt)] at hX2
      rw [max_eq_left (Nat.le_of_lt hgt)] at hY2
      have e1 : X2 = Y := Option.some.inj (hX2.symm.trans hY)
      have e2 : Y2 = X := Option.some.inj (hY2.symm.trans hX)
      subst e1 e2
      cases rel with
      | UNKNOWN => exact absurd rfl hu
      | SUBSET => exact absurd (h1 rfl) hne
      | SUPERSET => rfl

/-- The subset cache has no entry for an index that is not in the store. -/
theorem no_entry_of_new {s : LatticeHashForest α} (hs : Inv s) (x y : Nat)
    (h : s.property_sets.length ≤ x ∨ s.property_sets.length ≤ y) :
    mapFind OperationNode.eq s.subsets ⟨x, y⟩ = none := by
  cases hf : mapFind OperationNode.eq s.subsets ⟨x, y⟩ with
  | none => rfl
  | some rel =>
    obtain ⟨_, X, Y, hX, hY, _⟩ := hs.subsets_sound x y rel hf
    have h1 := lt_length_of_getElem? _ _ _ hX
    have h2 := lt_length_of_getElem? _ _ _ hY
    omega

/-- Inserting under a key leaves an entry under that key. -/
theorem mapFind_insert_self {κ ν : Type} (eq : κ → κ → Bool)
    (heq : ∀ a b, eq a b = true ↔ a = b) (m : List (κ × ν)) (k : κ) (v : ν) :
    ∃ w, mapFind eq (mapInsert eq m k v) k = some w := by
  cases h : mapFind eq m k with
  | none => exact ⟨v, mapFind_insert_of_none eq heq m k v h⟩
  | some w => exact ⟨w, mapFind_insert_of_some eq heq m k v k w h⟩

/-! ## A miss and the call after it -/

/-- On distinct non-empty valid operands without an entry in the subset cache
or the union cache, `set_union` registers the merge of the two stored sets and
leaves the state written out; the same call right after it is answered by the
subset cache when the result is an operand, by the union cache otherwise. -/
theorem set_union_miss_run {s : LatticeHashForest α} (hs : Inv s) (a b : Nat)
    (hv : pairInvalid s a b = false) (hab : a ≠ b) (ha : a ≠ 0) (hb : b ≠ 0)
    (hsub : mapFind OperationNode.eq s.subsets ⟨min a b, max a b⟩ = none)
    (hun : mapFind OperationNode.eq s.unions ⟨min a b, max a b⟩ = none) :
    ∃ (X Y : List α) (ret : Index) (cold : Bool) (s0 s1 : LatticeHashForest α),
      min a b < max a b ∧
      s.property_sets[min a b]? = some X ∧ s.property_sets[max a b]? = some Y ∧
      register_set s (unionMerge X Y) = (ret, cold, s0) ∧
      s1 = LHF_PERF_INC
        { s0 with
          unions := mapInsert OperationNode.eq s0.unions ⟨min a b, max a b⟩ ret
          subsets := unionRecord s0.subsets (min a b) (max a b) ret }
        "unions" (if cold then .cold_misses else .edge_misses) ∧
      set_union s a b = (.ok ret, s1) ∧
      set_union s1 a b = (.ok ret, LHF_PERF_INC s1 "unions"
        (if ret = min a b ∨ ret = max a b then .subset_hits else .hits)) := by
  obtain ⟨h1, h2⟩ := (pairInvalid_eq_false_iff s a b).mp hv
  obtain ⟨A, hA⟩ := exists_getElem?_of_valid hs a h1
  obtain ⟨B, hB⟩ := exists_getElem?_of_valid hs b h2
  obtain ⟨x, y, X, Y, hxy, hx0, hy0, hmin, hmax, hX, hY⟩ :=
    exists_ordered_pair a b A B hA hB hab ha hb
  rw [hmin, hmax] at hsub hun ⊢
  have hvx := pairInvalid_of_getElem? x y X Y hX hY
  have hnorm := set_union_normal s x y hvx (Nat.ne_of_lt hxy) hx0 hy0
  rw [min_eq_left (Nat.le_of_lt hxy), max_eq_right (Nat.le_of_lt hxy), hsub, hun] at hnorm
  rcases hreg : register_set s (unionMerge X Y) with ⟨ret, cold, s0⟩
  have heq := set_union_miss_eq hs x y X Y hX hY (Nat.ne_of_lt hxy) ret cold s0 hreg
  refine ⟨X, Y, ret, cold, s0, _, hxy, hX, hY, hreg, rfl, ?_, ?_⟩
  · rw [set_union_min_max, hmin, hmax]
    exact hnorm.trans heq
  · rw [set_union_min_max, hmin, hmax]
    exact set_union_after_miss hs x y X Y hX hY hxy hx0 hsub hun ret cold s0 hreg _

/-- The same for `set_intersection`. -/
theorem set_intersection_miss_run {s : LatticeHashForest α} (hs : Inv s) (a b : Nat)
    (hv : pairInvalid s a b = false) (hab : a ≠ b) (ha : a ≠ 0) (hb : b ≠ 0)
    (hsub : mapFind OperationNode.eq s.subsets ⟨min a b, max a b⟩ = none)
    (hun : mapFind OperationNode.eq s.intersections ⟨min a b, max a b⟩ = none) :
    ∃ (X Y : List α) (ret : Index) (cold : Bool) (s0 s1 : LatticeHashForest α),
      min a b < max a b ∧
      s.property_sets[min a b]? = some X ∧ s.property_sets[max a b]? = some Y ∧
      register_set s (interMerge X Y) = (ret, cold, s0) ∧
      s1 = LHF_PERF_INC
        { s0 with
          intersections :=
            mapInsert OperationNode.eq s0.intersections ⟨min a b, max a b⟩ ret
          subsets := interRecord s0.subsets (min a b) (max a b) ret }
        "intersections" (if cold then .cold_misses else .edge_misses) ∧
      set_intersection s a b = (.ok ret, s1) ∧
      set_intersection s1 a b = (.ok ret, LHF_PERF_INC s1 "intersections"
        (if ret = min a b ∨ ret = max a b then .subset_hits else .hits)) := by
  obtain ⟨h1, h2⟩ := (pairInvalid_eq_false_iff s a b).mp hv
  obtain ⟨A, hA⟩ := exists_getElem?_of_valid hs a h1
  obtain ⟨B, hB⟩ := exists_getElem?_of_valid hs b h2
  obtain ⟨x, y, X, Y, hxy, hx0, hy0, hmin, hmax, hX, hY⟩ :=
    exists_ordered_pair a b A B hA hB hab ha hb
  rw [hmin, hmax] at hsub hun ⊢
  have hvx := pairInvalid_of_getElem? x y X Y hX hY
  have hnorm := set_intersection_normal s x y hvx (Nat.ne_of_lt hxy) hx0 hy0
  rw [min_eq_left (Nat.le_of_lt hxy), max_eq_right (Nat.le_of_lt hxy), hsub, hun] at hnorm
  rcases hreg : register_set s (interMerge X Y) with ⟨ret, cold, s0⟩
  have heq := set_intersection_miss_eq hs x y X Y hX hY (Nat.ne_of_lt hxy) ret cold s0 hreg
  refine ⟨X, Y, ret, cold, s0, _, hxy, hX, hY, hreg, rfl, ?_, ?_⟩
  · rw [set_intersection_min_max, hmin, hmax]
    exact hnorm.trans heq
  · rw [set_intersection_min_max, hmin, hmax]
    exact set_intersection_after_miss hs x y X Y hX hY hxy hx0 hsub hun ret cold s0 hreg _

/-! ## Operations end with an index or with the invalid index error -/

theorem set_union_ok_or_invalid {s : LatticeHashForest α} (hs : Inv s) (a b : Index) :
    ((∃ r R, (set_union s a b).1 = .ok r ∧ (set_union s a b).2.property_sets[r]? = some R) ∧
        pairInvalid s a b = false) ∨
      ((set_union s a b).1 = .error .invalidIndex ∧ pairInvalid s a b = true) := by
  by_cases hv : pairInvalid s a b = true
  · right
    unfold set_union
    rw [if_pos hv]
    exact ⟨rfl, hv⟩
  · have hv1 : pairInvalid s a b = false := by simpa using hv
    obtain ⟨h1, h2⟩ := (pairInvalid_eq_false_iff s a b).mp hv1
    obtain ⟨A, hA⟩ := exists_getElem?_of_valid hs a h1
    obtain ⟨B, hB⟩ := exists_getElem?_of_valid hs b h2
    obtain ⟨r, s1, R, heq, _, _, hR, _⟩ := set_union_struct hs a b A B hA hB
    left
    rw [heq]
    exact ⟨⟨r, R, rfl, hR⟩, hv1⟩

theorem set_intersection_ok_or_invalid {s : LatticeHashForest α} (hs : Inv s) (a b : Index) :
    ((∃ r R, (set_intersection s a b).1 = .ok r ∧
          (set_intersection s a b).2.property_sets[r]? = some R) ∧
        pairInvalid s a b = false) ∨
      ((set_intersection s a b).1 = .error .invalidIndex ∧ pairInvalid s a b = true) := by
  by_cases hv : pairInvalid s a b = true
  · right
    unfold set_intersection
    rw [if_pos hv]
    exact ⟨rfl, hv⟩
  · have hv1 : pairInvalid s a b = false := by simpa using hv
    obtain ⟨h1, h2⟩ := (pairInvalid_eq_false_iff s a b).mp hv1
    obtain ⟨A, hA⟩ := exists_getElem?_of_valid hs a h1
    obtain ⟨B, hB⟩ := exists_getElem?_of_valid hs b h2
    obtain ⟨r, s1, R, heq, _, _, hR, _⟩ := set_intersection_struct hs a b A B hA hB
    left
    rw [heq]
    exact ⟨⟨r, R, rfl, hR⟩, hv1⟩

theorem set_difference_ok_or_invalid {s : LatticeHashForest α} (hs : Inv s) (a b : Index) :
    ((∃ r R, (set_difference s a b).1 = .ok r ∧
          (set_difference s a b).2.property_sets[r]? = some R) ∧
        pairInvalid s a b = false) ∨
      ((set_difference s a b).1 = .error .invalidIndex ∧ pairInvalid s a b = true) := by
  by_cases hv : pairInvalid s a b = true
  · right
    unfold set_difference
    rw [if_pos hv]
    exact ⟨rfl, hv⟩
  · have hv1 : pairInvalid s a b = false := by simpa using hv
    obtain ⟨h1, h2⟩ := (pairInvalid_eq_false_iff s a b).mp hv1
    obtain ⟨A, hA⟩ := exists_getElem?_of_valid hs a h1
    obtain ⟨B, hB⟩ := exists_getElem?_of_valid hs b h2
    obtain ⟨r, s1, heq, _, _, hR⟩ := set_difference_struct hs a b A B hA hB
    left
    rw [heq]
    exact ⟨⟨r, _, rfl, hR⟩, hv1⟩

/-- An index that is valid before a registration is valid after it. -/
theorem indexInvalid_register_set {s : LatticeHashForest α} (hs : Inv s) (c : List α)
    (a : Index) (ha : indexInvalid s a = false) :
    indexInvalid (register_set s c).2.2 a = false := by
  obtain ⟨A, hA⟩ := exists_getElem?_of_valid hs a ha
  obtain ⟨_, _, hext⟩ := register_set_spec hs c
  have hext2 : Extends s (register_set s c).2.2 := hext
  exact indexInvalid_of_getElem? a A (hext2.getElem? a A hA)

theorem pairInvalid_register_set {s : LatticeHashForest α} (hs : Inv s) (c : List α)
    (a : Index) (ha : indexInvalid s a = false) :
    pairInvalid (register_set s c).2.2 a (register_set s c).1 = false := by
  obtain ⟨_, hret, _⟩ := register_set_spec hs c
  unfold pairInvalid
  rw [indexInvalid_register_set hs c a ha, indexInvalid_of_getElem? _ c hret]
  rfl

/-! ## Filtering keeps a store strictly ascending -/

theorem set_filter_ascending {s : LatticeHashForest α} (hs : Inv s) (ha : AscendingStore s)
    (i : Index) (f : α → Bool) (cache : List (Index × Index)) :
    AscendingStore (set_filter s i f cache).2.1 := by
  unfold set_filter
  split_ifs
  · exact ha
  · exact ha
  · split
    · cases hg : get_value s i with
      | error e => exact ha
      | ok v =>
        have hv := ha.pairwise_at i v (getElem?_of_get_value hs i v hg)
        exact AscendingStore.unchanged (SameForest.of_perf_inc _ _ _)
          (register_set_ascending ha (v.filter f) (hv.sublist (List.filter_sublist v)))
    · exact AscendingStore.unchanged (SameForest.of_perf_inc _ _ _) ha

/-! ## Indices handed out by `set_filter` -/

/-- With a caller cache whose values are indices of stored sets, `set_filter`
on a valid index returns the index of a stored set and leaves the cache with
values that are indices of stored sets. -/
theorem set_filter_closed {s : LatticeHashForest α} (hs : Inv s) (i : Index) (f : α → Bool)
    (cache : List (Index × Index)) (hv : indexInvalid s i = false)
    (hcache : ∀ k r, mapFind (fun x y => decide (x = y)) cache k = some r →
      r < s.property_sets.length) :
    ∃ r R, (set_filter s i f cache).1 = .ok r ∧
      (set_filter s i f cache).2.1.property_sets[r]? = some R ∧
      ∀ k v, mapFind (fun x y => decide (x = y)) (set_filter s i f cache).2.2 k = some v →
        v < (set_filter s i f cache).2.1.property_sets.length := by
  by_cases hi : i = EMPTY_SET
  · have h0 : set_filter s i f cache = (.ok i, s, cache) := by
      unfold set_filter
      rw [hv, hi]
      rfl
    rw [h0]
    refine ⟨i, [], rfl, ?_, hcache⟩
    rw [hi]
    exact hs.empty_first
  · cases hc : mapFind (fun x y => decide (x = y)) cache i with
    | some r =>
      have h0 : set_filter s i f cache = (.ok r, LHF_PERF_INC s "filter" .hits, cache) := by
        unfold set_filter
        rw [hv, is_empty_eq_false i hi, hc]
        rfl
      rw [h0]
      have hr := hcache i r hc
      exact ⟨r, s.property_sets[r], rfl, List.getElem?_eq_getElem hr, hcache⟩
    | none =>
      obtain ⟨V, hV1⟩ := exists_getElem?_of_valid hs i hv
      have hV := get_value_of_getElem? i V hV1
      obtain ⟨_, h2, added, h3⟩ := register_set_spec hs (V.filter f)
      have h0 : set_filter s i f cache =
          (.ok (register_set s (V.filter f)).1,
            LHF_PERF_INC (register_set s (V.filter f)).2.2 "filter"
              (if (register_set s (V.filter f)).2.1 then .cold_misses else .edge_misses),
            (i, (register_set s (V.filter f)).1) :: cache) := by
        unfold set_filter
        rw [hv, is_empty_eq_false i hi, hc, hV]
        simp only [Bool.false_eq_true, if_false, mapInsert, hc]
      rw [h0]
      refine ⟨_, V.filter f, rfl, h2, ?_⟩
      intro k v hk
      simp only [LHF_PERF_INC_property_sets]
      unfold mapFind at hk
      split_ifs at hk with hik
      · cases hk
        exact lt_length_of_getElem? _ _ _ h2
      · have := hcache k v hk
        rw [h3, List.length_append]
        exact Nat.lt_of_lt_of_le this (Nat.le_add_right _ _)

/-! ## The keys of the caches -/

theorem mem_mapInsert {κ ν : Type} (eq : κ → κ → Bool) (m : List (κ × ν)) (k : κ) (v : ν)
    (e : κ × ν) (h : e ∈ mapInsert eq m k v) : e ∈ m ∨ e = (k, v) := by
  unfold mapInsert at h
  split at h
  · exact Or.inl h
  · rcases List.mem_cons.mp h with h1 | h1
    · exact Or.inr h1
    · exact Or.inl h1

theorem OrderedKeys.with_key {ν : Type} {m : List (OperationNode × ν)} (hm : OrderedKeys m)
    (x y : Nat) (v : ν) (hxy : x < y) : OrderedKeys (mapInsert OperationNode.eq m ⟨x, y⟩ v) := by
  intro e he
  rcases mem_mapInsert _ _ _ _ e he with h | h
  · exact hm e h
  · rw [h]
    exact hxy

theorem DistinctKeys.with_pair {ν : Type} {m : List (OperationNode × ν)} (hm : DistinctKeys m)
    (x y : Nat) (v : ν) (hxy : x ≠ y) (hx : x ≠ 0) (hy : y ≠ 0) :
    DistinctKeys (mapInsert OperationNode.eq m ⟨x, y⟩ v) := by
  intro e he
  rcases mem_mapInsert _ _ _ _ e he with h | h
  · exact hm e h
  · rw [h]
    exact ⟨hxy, hx, hy⟩

theorem store_subset_orderedKeys (t : LatticeHashForest α) (x y : Nat)
    (h : OrderedKeys t.subsets) : OrderedKeys (store_subset t x y).2.subsets := by
  unfold store_subset
  split_ifs with h1 h2 h3
  · exact h
  · exact h
  · exact h.with_key y x _ h3
  · exact h.with_key x y _ (Nat.lt_of_le_of_ne (Nat.le_of_not_lt h3) h2)

theorem store_subset_cacheKeys (t : LatticeHashForest α) (x y : Nat) (h : CacheKeys t) :
    CacheKeys (store_subset t x y).2 := by
  have h3 := store_subset_orderedKeys t x y h.2.2.1
  unfold store_subset at h3 ⊢
  split_ifs at h3 ⊢
  · exact h
  · exact h
  · exact ⟨h.1, h.2.1, h3, h.2.2.2⟩
  · exact ⟨h.1, h.2.1, h3, h.2.2.2⟩

theorem register_set_cacheKeys (t : LatticeHashForest α) (c : List α) (h : CacheKeys t) :
    CacheKeys (register_set t c).2.2 := by
  unfold CacheKeys
  rw [register_set_unions, register_set_intersections, register_set_subsets,
    register_set_differences]
  exact h

theorem min_lt_max_of_ne (a b : Nat) (h : a ≠ b) : min a b < max a b := by
  rcases Nat.lt_or_gt_of_ne h with hlt | hgt
  · rw [min_eq_left (Nat.le_of_lt hlt), max_eq_right (Nat.le_of_lt hlt)]
    exact hlt
  · rw [min_eq_right (Nat.le_of_lt hgt), max_eq_left (Nat.le_of_lt hgt)]
    exact hgt

theorem set_union_cacheKeys (t : LatticeHashForest α) (a b : Index) (ht : CacheKeys t) :
    CacheKeys (set_union t a b).2 := by
  have hperf : ∀ (u : LatticeHashForest α) (k : String) (c : PerfCategory),
      CacheKeys u → CacheKeys (LHF_PERF_INC u k c) := fun _ _ _ hu => hu
  apply set_union_post CacheKeys t a b ht hperf
  intro x y hxy
  apply set_union_miss_post CacheKeys t x y ht _ store_subset_cacheKeys hperf
  intro c
  have h := register_set_cacheKeys t c ht
  exact ⟨h.1.with_key x y _ hxy, h.2.1, h.2.2.1, h.2.2.2⟩

theorem set_intersection_cacheKeys (t : LatticeHashForest α) (a b : Index)
    (ht : CacheKeys t) : CacheKeys (set_intersection t a b).2 := by
  have hperf : ∀ (u : LatticeHashForest α) (k : String) (c : PerfCategory),
      CacheKeys u → CacheKeys (LHF_PERF_INC u k c) := fun _ _ _ hu => hu
  apply set_intersection_post CacheKeys t a b ht hperf
  intro x y hxy
  apply set_intersection_miss_post CacheKeys t x y ht _ store_subset_cacheKeys hperf
  intro c
  have h := register_set_cacheKeys t c ht
  exact ⟨h.1, h.2.1.with_key x y _ hxy, h.2.2.1, h.2.2.2⟩

theorem set_difference_cacheKeys (t : LatticeHashForest α) (a b : Index)
    (ht : CacheKeys t) : CacheKeys (set_difference t a b).2 := by
  have hperf : ∀ (u : LatticeHashForest α) (k : String) (c : PerfCategory),
      CacheKeys u → CacheKeys (LHF_PERF_INC u k c) := fun _ _ _ hu => hu
  apply set_difference_post CacheKeys t a b ht hperf
  intro hab ha hb
  apply set_difference_miss_post CacheKeys t a b ht _ store_subset_cacheKeys _ hperf
  · intro c
    have h := register_set_cacheKeys t c ht
    exact ⟨h.1, h.2.1, h.2.2.1, h.2.2.2.with_pair a b _ hab ha hb⟩
  · intro u hu
    exact ⟨hu.1, hu.2.1.with_key _ _ _ (min_lt_max_of_ne a b hab), hu.2.2.1, hu.2.2.2⟩

/-- In every reachable state the keys of the union, intersection and subset
caches are ordered pairs and the keys of the difference cache pair different
non-empty indices. -/
theorem reachable_cacheKeys {s : LatticeHashForest α} (h : Reachable s) : CacheKeys s := by
  induction h with
  | new =>
    refine ⟨?_, ?_, ?_, ?_⟩ <;> intro e he <;> cases he
  | register_set c _ ih => exact register_set_cacheKeys _ c ih
  | register_set_single c _ ih => exact register_set_cacheKeys _ [c] ih
  | set_union a b _ ih => exact set_union_cacheKeys _ a b ih
  | set_intersection a b _ ih => exact set_intersection_cacheKeys _ a b ih
  | set_difference a b _ ih => exact set_difference_cacheKeys _ a b ih
  | set_insert_single a e _ ih =>
    exact set_union_cacheKeys _ a _ (register_set_cacheKeys _ [e] ih)
  | set_remove_single a e _ ih =>
    exact set_difference_cacheKeys _ a _ (register_set_cacheKeys _ [e] ih)
  | set_filter i f cache _ ih =>
    exact set_filter_post CacheKeys _ i f cache ih (fun _ _ _ hu => hu)
      (fun c => register_set_cacheKeys _ c ih)

theorem mapInsert_eq_or {κ ν : Type} (eq : κ → κ → Bool) (m : List (κ × ν)) (k : κ) (v : ν) :
    mapInsert eq m k v = m ∨ mapInsert eq m k v = (k, v) :: m := by
  unfold mapInsert
  split
  · exact Or.inl rfl
  · exact Or.inr rfl

theorem mapInsert_of_none {κ ν : Type} (eq : κ → κ → Bool) (m : List (κ × ν)) (k : κ) (v : ν)
    (h : mapFind eq m k = none) : mapInsert eq m k v = (k, v) :: m := by
  unfold mapInsert
  rw [h]

/-- What `set_union` does to its cache: nothing, or one new entry under the
ordered pair of the operands. -/
theorem set_union_new_key {s : LatticeHashForest α} (hs : Inv s) (a b : Index) :
    (set_union s a b).2.unions = s.unions ∨
      ∃ r, (set_union s a b).1 = .ok r ∧ min a b < max a b ∧
        (set_union s a b).2.unions = (⟨min a b, max a b⟩, r) :: s.unions := by
  rcases set_union_outcome hs a b with h | ⟨x, y, X, Y, ret, cold, s0, hxy, _, hmin, hmax, _, _,
    _, hun, hreg, heq⟩
  · exact Or.inl h.2.2.1
  · right
    obtain ⟨_, _, _, hu, _⟩ := register_set_facts hs _ ret cold s0 hreg
    rw [heq, hmin, hmax]
    refine ⟨ret, rfl, hxy, ?_⟩
    simp only [LHF_PERF_INC_unions]
    rw [hu, mapInsert_of_none _ _ _ _ hun]

/-- The same for `set_intersection`. -/
theorem set_intersection_new_key {s : LatticeHashForest α} (hs : Inv s) (a b : Index) :
    (set_intersection s a b).2.intersections = s.intersections ∨
      ∃ r, (set_intersection s a b).1 = .ok r ∧ min a b < max a b ∧
        (set_intersection s a b).2.intersections =
          (⟨min a b, max a b⟩, r) :: s.intersections := by
  rcases set_intersection_outcome hs a b with h | ⟨x, y, X, Y, ret, cold, s0, hxy, _, hmin, hmax,
    _, _, _, hun, hreg, heq⟩
  · exact Or.inl h.2.2.2.1
  · right
    obtain ⟨_, _, _, _, hi, _⟩ := register_set_facts hs _ ret cold s0 hreg
    rw [heq, hmin, hmax]
    refine ⟨ret, rfl, hxy, ?_⟩
    simp only [LHF_PERF_INC_intersections]
    rw [hi, mapInsert_of_none _ _ _ _ hun]

/-- What `set_difference` does to the caches: nothing, or one new entry of the
difference cache under the pair of operands as given, and at most one new
entry of the intersection cache, under the ordered pair and with the empty
set as value. -/
theorem set_difference_new_key {s : LatticeHashForest α} (hs : Inv s) (a b : Index) :
    ((set_difference s a b).2.differences = s.differences ∧
        (set_difference s a b).2.intersections = s.intersections) ∨
      ∃ r, (set_difference s a b).1 = .ok r ∧ a ≠ b ∧ a ≠ 0 ∧ b ≠ 0 ∧
        (set_difference s a b).2.differences = (⟨a, b⟩, r) :: s.differences ∧
        ((set_difference s a b).2.intersections = s.intersections ∨
          (set_difference s a b).2.intersections =
            (⟨min a b, max a b⟩, EMPTY_SET) :: s.intersections) := by
  rcases set_difference_outcome hs a b with h | ⟨A, B, ret, cold, s0, hab, ha, hb, _, _, hun,
    hreg, heq⟩
  · exact Or.inl ⟨h.2.2.2.2.1, h.2.2.2.1⟩
  · right
    obtain ⟨_, _, _, _, hi, hd, _⟩ := register_set_facts hs _ ret cold s0 hreg
    rw [heq]
    refine ⟨ret, rfl, hab, ha, hb, ?_, ?_⟩
    · simp only [LHF_PERF_INC_differences]
      rw [hd, mapInsert_of_none _ _ _ _ hun]
    · simp only [LHF_PERF_INC_intersections]
      rw [hi]
      split_ifs
      · exact Or.inl rfl
      · exact mapInsert_eq_or _ _ _ _

/-! ## Entries of the caches stay -/

theorem MapKept.rfl_map {κ ν : Type} (eq : κ → κ → Bool) (m : List (κ × ν)) : MapKept eq m m :=
  fun _ _ h => h

theorem MapKept.then_map {κ ν : Type} {eq : κ → κ → Bool} {m1 m2 m3 : List (κ × ν)}
    (h1 : MapKept eq m1 m2) (h2 : MapKept eq m2 m3) : MapKept eq m1 m3 :=
  fun k v h => h2 k v (h1 k v h)

theorem MapKept.after_insert {ν : Type} {m1 m2 : List (OperationNode × ν)}
    (h : MapKept OperationNode.eq m1 m2) (k : OperationNode) (v : ν) :
    MapKept OperationNode.eq m1 (mapInsert OperationNode.eq m2 k v) :=
  fun k2 w hf => mapFind_insert_of_some _ OperationNode.eq_iff m2 k v k2 w (h k2 w hf)

theorem CachesKept.rfl_state (s : LatticeHashForest α) : CachesKept s s :=
  ⟨MapKept.rfl_map _ _, MapKept.rfl_map _ _, MapKept.rfl_map _ _, MapKept.rfl_map _ _⟩

theorem CachesKept.then_state {s t u : LatticeHashForest α} (h1 : CachesKept s t)
    (h2 : CachesKept t u) : CachesKept s u :=
  ⟨h1.1.then_map h2.1, h1.2.1.then_map h2.2.1, h1.2.2.1.then_map h2.2.2.1, h1.2.2.2.then_map h2.2.2.2⟩

theorem store_subset_cachesKept (s t : LatticeHashForest α) (x y : Index)
    (h : CachesKept s t) : CachesKept s (store_subset t x y).2 := by
  unfold store_subset
  split_ifs
  · exact h
  · exact h
  · exact ⟨h.1, h.2.1, h.2.2.1, h.2.2.2.after_insert _ _⟩
  · exact ⟨h.1, h.2.1, h.2.2.1, h.2.2.2.after_insert _ _⟩

theorem register_set_cachesKept (s t : LatticeHashForest α) (c : List α)
    (h : CachesKept s t) : CachesKept s (register_set t c).2.2 := by
  unfold CachesKept
  rw [register_set_unions, register_set_intersections, register_set_subsets,
    register_set_differences]
  exact h

theorem set_union_cachesKept (s t : LatticeHashForest α) (a b : Index)
    (ht : CachesKept s t) : CachesKept s (set_union t a b).2 := by
  have hperf : ∀ (u : LatticeHashForest α) (k : String) (c : PerfCategory),
      CachesKept s u → CachesKept s (LHF_PERF_INC u k c) := fun _ _ _ hu => hu
  apply set_union_post (CachesKept s) t a b ht hperf
  intro x y _
  apply set_union_miss_post (CachesKept s) t x y ht _ (store_subset_cachesKept s) hperf
  intro c
  have h := register_set_cachesKept s t c ht
  exact ⟨h.1.after_insert _ _, h.2.1, h.2.2.1, h.2.2.2⟩

theorem set_intersection_cachesKept (s t : LatticeHashForest α) (a b : Index)
    (ht : CachesKept s t) : CachesKept s (set_intersection t a b).2 := by
  have hperf : ∀ (u : LatticeHashForest α) (k : String) (c : PerfCategory),
      CachesKept s u → CachesKept s (LHF_PERF_INC u k c) := fun _ _ _ hu => hu
  apply set_intersection_post (CachesKept s) t a b ht hperf
  intro x y _
  apply set_intersection_miss_post (CachesKept s) t x y ht _ (store_subset_cachesKept s) hperf
  intro c
  have h := register_set_cachesKept s t c ht
  exact ⟨h.1, h.2.1.after_insert _ _, h.2.2.1, h.2.2.2⟩

theorem set_difference_cachesKept (s t : LatticeHashForest α) (a b : Index)
    (ht : CachesKept s t) : CachesKept s (set_difference t a b).2 := by
  have hperf : ∀ (u : LatticeHashForest α) (k : String) (c : PerfCategory),
      CachesKept s u → CachesKept s (LHF_PERF_INC u k c) := fun _ _ _ hu => hu
  apply set_difference_post (CachesKept s) t a b ht hperf
  intro _ _ _
  apply set_difference_miss_post (CachesKept s) t a b ht _ (store_subset_cachesKept s) _ hperf
  · intro c
    have h := register_set_cachesKept s t c ht
    exact ⟨h.1, h.2.1, h.2.2.1.after_insert _ _, h.2.2.2⟩
  · intro u hu
    exact ⟨hu.1, hu.2.1.after_insert _ _, hu.2.2.1, hu.2.2.2⟩

theorem set_filter_cachesKept (s t : LatticeHashForest α) (i : Index) (f : α → Bool)
    (cache : List (Index × Index)) (ht : CachesKept s t) :
    CachesKept s (set_filter t i f cache).2.1 :=
  set_filter_post (CachesKept s) t i f cache ht (fun _ _ _ hu => hu)
    (fun c => register_set_cachesKept s t c ht)

end StoreFacts

/-! ## Packing an edge and unpacking it -/

section EdgeFacts

/-- The packed value of an edge of 32-bit node ids is `src * 2^32 + dst`. -/
theorem pack_eq (src dst : Nat) (hs : src < 2 ^ 32) (hd : dst < 2 ^ 32) :
    ((src <<< 32) % 2 ^ 64) ||| dst = src * 2 ^ 32 + dst := by
  have h1 : src <<< 32 = 2 ^ 32 * src := by rw [Nat.shiftLeft_eq, Nat.mul_comm]
  have h2 : 2 ^ 32 * src < 2 ^ 64 := by omega
  rw [h1, Nat.mod_eq_of_lt h2, ← Nat.mul_add_lt_is_or hd, Nat.mul_comm]

theorem getEdgeProperty_of_mem (graph : List EdgeT) (src dst : Nat) (hs : src < 2 ^ 32)
    (hd : dst < 2 ^ 32) (hmem : (src, dst) ∈ graph) :
    getEdgeProperty graph (src, dst) = .ok (src * 2 ^ 32 + dst) := by
  unfold getEdgeProperty
  rw [if_neg (not_not.mpr hmem)]
  show Except.ok (((src <<< 32) % 2 ^ 64) ||| dst) = _
  rw [pack_eq src dst hs hd]

theorem getEdgeProperty_of_not_mem (graph : List EdgeT) (edge : EdgeT) (h : edge ∉ graph) :
    getEdgeProperty graph edge = .error .invalidEdge := by
  unfold getEdgeProperty
  rw [if_pos h]

theorem getEdge_pack (src dst : Nat) (hs : src < 2 ^ 32) (hd : dst < 2 ^ 32) :
    getEdge (src * 2 ^ 32 + dst) = (src, dst) := by
  have hdiv : (src * 2 ^ 32 + dst) >>> 32 = src := by
    rw [Nat.shiftRight_eq_div_pow]
    omega
  have hmask : (0xFFFFFFFF : Nat) = 2 ^ 32 - 1 := by norm_num
  have hfill : (0xFFFFFFFF00000000 : Nat) = 2 ^ 32 * (2 ^ 32 - 1) := by norm_num
  have hlow : ((src * 2 ^ 32 + dst) &&& 0xFFFFFFFF) % 2 ^ 32 = dst := by
    rw [hmask, Nat.and_pow_two_sub_one_eq_mod]
    omega
  have hhigh : shiftRightArith32 (src * 2 ^ 32 + dst) % 2 ^ 32 = src := by
    unfold shiftRightArith32
    split_ifs with h
    · rw [hdiv]
      exact Nat.mod_eq_of_lt hs
    · rw [hdiv, hfill, Nat.lor_comm, ← Nat.mul_add_lt_is_or hs, Nat.mul_add_mod]
      exact Nat.mod_eq_of_lt hs
  unfold getEdge
  rw [hlow, hhigh]

/-- For one source node the packed values, compared as `long long`, are in the
order of the target nodes. -/
theorem signedValue_pack_lt (src d1 d2 : Nat) (hs : src < 2 ^ 32) (h1 : d1 < 2 ^ 32)
    (h2 : d2 < 2 ^ 32) :
    signedValue (src * 2 ^ 32 + d1) < signedValue (src * 2 ^ 32 + d2) ↔ d1 < d2 := by
  unfold signedValue
  by_cases hneg : src < 2 ^ 31
  · have ha : src * 2 ^ 32 + d1 < 2 ^ 63 := by omega
    have hb : src * 2 ^ 32 + d2 < 2 ^ 63 := by omega
    rw [if_pos ha, if_pos hb]
    omega
  · have ha : ¬ src * 2 ^ 32 + d1 < 2 ^ 63 := by omega
    have hb : ¬ src * 2 ^ 32 + d2 < 2 ^ 63 := by omega
    rw [if_neg ha, if_neg hb]
    omega

/-- The packed value as a `long long`: negative from source `2^31` on. -/
theorem signedValue_pack (src dst : Nat) (hs : src < 2 ^ 32) (hd : dst < 2 ^ 32) :
    signedValue (src * 2 ^ 32 + dst) =
      if src < 2 ^ 31 then (src : Int) * 2 ^ 32 + dst else (src : Int) * 2 ^ 32 + dst - 2 ^ 64 := by
  unfold signedValue
  by_cases hneg : src < 2 ^ 31
  · have ha : src * 2 ^ 32 + dst < 2 ^ 63 := by omega
    rw [if_pos ha, if_pos hneg]
    push_cast
    rfl
  · have ha : ¬ src * 2 ^ 32 + dst < 2 ^ 63 := by omega
    rw [if_neg ha, if_neg hneg]
    push_cast
    rfl

end EdgeFacts

/-! ## Facts about the points-to queries -/

section GraphFacts

theorem toPattern_lt (v : Int) : toPattern v < 2 ^ 64 := by
  have e : (2 : Int) ^ 64 = 18446744073709551616 := by norm_num
  show (v % 2 ^ 64).toNat < (2 ^ 64 : Nat)
  rw [e]
  omega

theorem signedValue_toPattern (v : Int) (h1 : -2 ^ 63 ≤ v) (h2 : v < 2 ^ 63) :
    signedValue (toPattern v) = v := by
  have e : (2 : Int) ^ 64 = 18446744073709551616 := by norm_num
  have e2 : (2 : Int) ^ 63 = 9223372036854775808 := by norm_num
  unfold signedValue toPattern
  generalize hq : (v % 2 ^ 64).toNat = q
  show (if q < (2 ^ 63 : Nat) then (q : Int) else (q : Int) - 2 ^ 64) = v
  rw [e2] at h1 h2
  rw [e] at hq ⊢
  split_ifs <;> omega

theorem toPattern_signedValue (p : Nat) (hp : p < 2 ^ 64) : toPattern (signedValue p) = p := by
  have e : (2 : Int) ^ 64 = 18446744073709551616 := by norm_num
  show ((if p < (2 ^ 63 : Nat) then (p : Int) else (p : Int) - 2 ^ 64) % 2 ^ 64).toNat = p
  rw [e]
  split_ifs <;> omega

/-- The edge a 64-bit pattern unpacks to: the upper and the lower half. -/
theorem getEdge_eq (p : Nat) (hp : p < 2 ^ 64) : getEdge p = (p / 2 ^ 32, p % 2 ^ 32) := by
  have h : p = p / 2 ^ 32 * 2 ^ 32 + p % 2 ^ 32 := by omega
  conv_lhs => rw [h]
  exact getEdge_pack _ _ (by omega) (by omega)

/-- A `long long` number unpacks to the edge from `x` to `y` exactly when it is
the packed value of that edge. -/
theorem getEdge_toPattern_iff (v : Int) (h1 : -2 ^ 63 ≤ v) (h2 : v < 2 ^ 63) (x y : Nat) :
    getEdge (toPattern v) = (x, y) ↔
      x < 2 ^ 32 ∧ y < 2 ^ 32 ∧ signedValue (x * 2 ^ 32 + y) = v := by
  have hp := toPattern_lt v
  have hsv := signedValue_toPattern v h1 h2
  obtain ⟨q, hq⟩ : ∃ q : Nat, q = toPattern v := ⟨_, rfl⟩
  rw [← hq] at hp hsv ⊢
  have hp2 : q < (2 ^ 64 : Nat) := hp
  rw [getEdge_eq q hp]
  constructor
  · intro h
    have hx : q / 2 ^ 32 = x := congrArg Prod.fst h
    have hy : q % 2 ^ 32 = y := congrArg Prod.snd h
    have hxy : x * 2 ^ 32 + y = q := by omega
    refine ⟨by omega, by omega, ?_⟩
    rw [hxy]
    exact hsv
  · rintro ⟨hx, hy, hv⟩
    have hlt : x * 2 ^ 32 + y < 2 ^ 64 := by omega
    have hpat : q = x * 2 ^ 32 + y := by
      rw [hq, ← hv]
      exact toPattern_signedValue _ hlt
    have h3 : q / 2 ^ 32 = x := by omega
    have h4 : q % 2 ^ 32 = y := by omega
    exact Prod.ext h3 h4

/-- The targets the loop collects for the node `n`. -/
theorem mem_pointsToLoop (n d : Nat) :
    ∀ E : List Int, d ∈ pointsToLoop n E ↔ ∃ v ∈ E, getEdge (toPattern v) = (n, d)
  | [] => by simp [pointsToLoop]
  | v :: rest => by
    unfold pointsToLoop
    have ih := mem_pointsToLoop n d rest
    by_cases h : (getEdge (toPattern v)).1 = n
    · rw [if_pos h, List.mem_cons, ih]
      constructor
      · rintro (hd | ⟨w, hw, hwe⟩)
        · exact ⟨v, List.mem_cons_self _ _, Prod.ext h hd.symm⟩
        · exact ⟨w, List.mem_cons_of_mem _ hw, hwe⟩
      · rintro ⟨w, hw, hwe⟩
        rcases List.mem_cons.mp hw with hwv | hw
        · left
          rw [← hwv, hwe]
        · exact Or.inr ⟨w, hw, hwe⟩
    · rw [if_neg h, ih]
      constructor
      · rintro ⟨w, hw, hwe⟩
        exact ⟨w, List.mem_cons_of_mem _ hw, hwe⟩
      · rintro ⟨w, hw, hwe⟩
        rcases List.mem_cons.mp hw with hwv | hw
        · rw [← hwv, hwe] at h
          exact absurd rfl h
        · exact ⟨w, hw, hwe⟩

/-- For an edge set of `long long` numbers the loop collects the targets of
the edges from `n`. -/
theorem mem_pointsToLoop_iff (E : List Int) (hrange : ∀ v ∈ E, -2 ^ 63 ≤ v ∧ v < 2 ^ 63)
    (n d : Nat) : d ∈ pointsToLoop n E ↔ hasEdge E n d := by
  rw [mem_pointsToLoop]
  unfold hasEdge
  constructor
  · rintro ⟨v, hv, he⟩
    obtain ⟨hx, hy, hval⟩ := (getEdge_toPattern_iff v (hrange v hv).1 (hrange v hv).2 n d).mp he
    exact ⟨hx, hy, hval ▸ hv⟩
  · rintro ⟨hx, hy, hv⟩
    exact ⟨_, hv, (getEdge_toPattern_iff _ (hrange _ hv).1 (hrange _ hv).2 n d).mpr
      ⟨hx, hy, rfl⟩⟩

/-- From a strictly ascending edge set the loop collects a strictly ascending
sequence of targets. -/
theorem pointsToLoop_pairwise (n : Nat) :
    ∀ E : List Int, (∀ v ∈ E, -2 ^ 63 ≤ v ∧ v < 2 ^ 63) → E.Pairwise (· < ·) →
      (pointsToLoop n E).Pairwise (· < ·)
  | [], _, _ => by simp [pointsToLoop]
  | v :: rest, hrange, hasc => by
    have hrest : ∀ w ∈ rest, -2 ^ 63 ≤ w ∧ w < 2 ^ 63 :=
      fun w hw => hrange w (List.mem_cons_of_mem _ hw)
    have ih := pointsToLoop_pairwise n rest hrest (List.Pairwise.of_cons hasc)
    unfold pointsToLoop
    by_cases h : (getEdge (toPattern v)).1 = n
    · rw [if_pos h]
      refine List.Pairwise.cons ?_ ih
      intro d hd
      obtain ⟨w, hw, hwe⟩ := (mem_pointsToLoop n d rest).mp hd
      have hv := hrange v (List.mem_cons_self _ _)
      obtain ⟨hx, hy1, hval1⟩ := (getEdge_toPattern_iff v hv.1 hv.2 n
        (getEdge (toPattern v)).2).mp (Prod.ext h rfl)
      obtain ⟨_, hy2, hval2⟩ := (getEdge_toPattern_iff w (hrest w hw).1 (hrest w hw).2 n d).mp hwe
      have hlt : v < w := List.rel_of_pairwise_cons hasc hw
      rw [← hval1, ← hval2] at hlt
      exact (signedValue_pack_lt n _ d hx hy1 hy2).mp hlt
    · rw [if_neg h]
      exact ih

/-- The direct query on a valid edge index: the node forest registers the
sequence the loop collects and returns its index; the edge forest is not
touched. -/
theorem get_points_to_set_spec (g : BaseGraphAPI) (hn : Inv g.nodeForest) (a : Index)
    (E : List Int) (hE : get_value g.edgeForest a = .ok E) (n : Nat) :
    ∃ r g1, get_points_to_set g a n = (.ok r, g1) ∧ g1.edgeForest = g.edgeForest ∧
      Inv g1.nodeForest ∧ Extends g.nodeForest g1.nodeForest ∧
      g1.nodeForest.property_sets[r]? = some (pointsToLoop n E) ∧
      g1.nodeForest = (register_set g.nodeForest (pointsToLoop n E)).2.2 := by
  obtain ⟨h1, h2, h3⟩ := register_set_spec hn (pointsToLoop n E)
  unfold get_points_to_set
  rw [hE]
  exact ⟨_, _, rfl, rfl, h1, h3, h2, rfl⟩

/-- The loop over a vector of node ids: it ends with the index of a set that
holds what the set at `result` held and the targets of the edges from the ids,
strictly ascending when the edge set and the set at `result` are. -/
theorem pointsToUnion_spec (a : Index) (E : List Int) :
    ∀ (ids : List Nat) (result : Index) (g : BaseGraphAPI) (W : List Nat),
      Inv g.nodeForest → get_value g.edgeForest a = .ok E →
      g.nodeForest.property_sets[result]? = some W →
      ∃ r g1 R, pointsToUnion a ids result g = (.ok r, g1) ∧
        g1.edgeForest = g.edgeForest ∧ Inv g1.nodeForest ∧
        Extends g.nodeForest g1.nodeForest ∧
        g1.nodeForest.property_sets[r]? = some R ∧
        (∀ d, d ∈ R ↔ d ∈ W ∨ ∃ m ∈ ids, d ∈ pointsToLoop m E) ∧
        ((∀ v ∈ E, -2 ^ 63 ≤ v ∧ v < 2 ^ 63) → E.Pairwise (· < ·) → W.Pairwise (· < ·) →
          R.Pairwise (· < ·))
  | [], result, g, W, hn, _, hW => by
    refine ⟨result, g, W, rfl, rfl, hn, ⟨[], by simp⟩, hW, ?_, fun _ _ h => h⟩
    intro d
    simp
  | nid :: rest, result, g, W, hn, hE, hW => by
    obtain ⟨i1, g1, heq1, hef1, hn1, hext1, hP, _⟩ := get_points_to_set_spec g hn a E hE nid
    have hW1 := hext1.getElem? result W hW
    obtain ⟨r2, nf2, R2, heq2, hn2, hext2, hR2, hcase⟩ :=
      set_union_struct hn1 result i1 W (pointsToLoop nid E) hW1 hP
    have hE2 : get_value ({ g1 with nodeForest := nf2 } : BaseGraphAPI).edgeForest a = .ok E := by
      show get_value g1.edgeForest a = .ok E
      rw [hef1]
      exact hE
    obtain ⟨r, g3, R, heq3, hef3, hn3, hext3, hR, hmem, hsorted⟩ :=
      pointsToUnion_spec a E rest r2 { g1 with nodeForest := nf2 } R2 hn2 hE2 hR2
    have hmem2 : ∀ d, d ∈ R2 ↔ d ∈ W ∨ d ∈ pointsToLoop nid E := by
      intro d
      rcases hcase with h | ⟨h, hsub⟩ | ⟨h, hsub⟩
      · rw [h]
        exact mem_unionMerge W _ d
      · rw [h]
        exact ⟨fun hd => Or.inl hd, fun hd => hd.elim (fun hw => hw) (fun hp => hsub hp)⟩
      · rw [h]
        exact ⟨fun hd => Or.inr hd, fun hd => hd.elim (fun hw => hsub hw) (fun hp => hp)⟩
    refine ⟨r, g3, R, ?_, hef3.trans hef1, hn3, (hext1.trans hext2).trans hext3, hR, ?_, ?_⟩
    · unfold pointsToUnion
      rw [heq1]
      simp only
      rw [heq2]
      exact heq3
    · intro d
      rw [hmem d, hmem2 d]
      constructor
      · rintro ((hw | hp) | ⟨m, hm, hd⟩)
        · exact Or.inl hw
        · exact Or.inr ⟨nid, List.mem_cons_self _ _, hp⟩
        · exact Or.inr ⟨m, List.mem_cons_of_mem _ hm, hd⟩
      · rintro (hw | ⟨m, hm, hd⟩)
        · exact Or.inl (Or.inl hw)
        · rcases List.mem_cons.mp hm with h | h
          · rw [h] at hd
            exact Or.inl (Or.inr hd)
          · exact Or.inr ⟨m, h, hd⟩
    · intro hrange hasc hWs
      apply hsorted hrange hasc
      have hPs := pointsToLoop_pairwise nid E hrange hasc
      rcases hcase with h | ⟨h, _⟩ | ⟨h, _⟩
      · rw [h]
        exact unionMerge_pairwise W _ hWs hPs
      · rw [h]
        exact hWs
      · rw [h]
        exact hPs

/-- The query on an index of the node forest: it ends with the index of a set
that holds the targets of the edges from the nodes of the set at `idx`. -/
theorem get_points_to_set_index_spec (g : BaseGraphAPI) (hn : Inv g.nodeForest) (a : Index)
    (E : List Int) (hE : get_value g.edgeForest a = .ok E) (idx : Index) (S : List Nat)
    (hS : g.nodeForest.property_sets[idx]? = some S) :
    ∃ r g1 R, get_points_to_set_index g a idx = (.ok r, g1) ∧
      g1.edgeForest = g.edgeForest ∧ Inv g1.nodeForest ∧
      Extends g.nodeForest g1.nodeForest ∧
      g1.nodeForest.property_sets[r]? = some R ∧
      (∀ d, d ∈ R ↔ ∃ m ∈ S, d ∈ pointsToLoop m E) ∧
      ((∀ v ∈ E, -2 ^ 63 ≤ v ∧ v < 2 ^ 63) → E.Pairwise (· < ·) → R.Pairwise (· < ·)) := by
  obtain ⟨r, g1, R, heq, hef, hn1, hext, hR, hmem, hsorted⟩ :=
    pointsToUnion_spec a E S EMPTY_SET g [] hn hE hn.empty_first
  refine ⟨r, g1, R, ?_, hef, hn1, hext, hR, ?_, fun h1 h2 => hsorted h1 h2 List.Pairwise.nil⟩
  · unfold get_points_to_set_index get_points_to_set_ids
    rw [get_value_of_getElem? idx S hS]
    exact heq
  · intro d
    rw [hmem d]
    simp

/-- No path of a length has an end: none of a greater length has one. -/
theorem reachExactly_none (E : List Int) (n j : Nat) (h : ∀ d, ¬ reachExactly E n j d) :
    ∀ k, j ≤ k → ∀ d, ¬ reachExactly E n k d := by
  intro k hk
  induction k with
  | zero =>
    have : j = 0 := by omega
    rw [this] at h
    exact h
  | succ k ih =>
    by_cases hj : j = k + 1
    · rw [hj] at h
      exact h
    · intro d hd
      obtain ⟨m, hm, _⟩ := hd
      exact ih (by omega) m hm

/-- The step from the nodes at the end of the paths of length `i` to those at
the end of the paths of length `i + 1`. -/
theorem reachExactly_step (E : List Int) (hrange : ∀ v ∈ E, -2 ^ 63 ≤ v ∧ v < 2 ^ 63)
    (n i : Nat) (S R : List Nat) (hS : ∀ d, d ∈ S ↔ reachExactly E n i d)
    (hR : ∀ d, d ∈ R ↔ ∃ m ∈ S, d ∈ pointsToLoop m E) :
    ∀ d, d ∈ R ↔ reachExactly E n (i + 1) d := by
  intro d
  rw [hR d]
  constructor
  · rintro ⟨m, hm, hd⟩
    exact ⟨m, (hS m).mp hm, (mem_pointsToLoop_iff E hrange m d).mp hd⟩
  · rintro ⟨m, hm, hd⟩
    exact ⟨m, (hS m).mpr hm, (mem_pointsToLoop_iff E hrange m d).mpr hd⟩

/-- The loop of the query with a recursion depth, entered with the counter at
`i` and `result` holding the ends of the paths of length `i`: it returns the
index of the ends of the paths of length `recursion_depth`, unless the depth
is `2^31` or more and every length from `i + 1` to `2^31` has a path, in which
case the counter overflows. -/
theorem depthLoop_spec (a : Index) (E : List Int)
    (hrange : ∀ v ∈ E, -2 ^ 63 ≤ v ∧ v < 2 ^ 63) (n k : Nat) :
    ∀ (fuel i : Nat) (result : Index) (g : BaseGraphAPI) (S : List Nat),
      Inv g.nodeForest → get_value g.edgeForest a = .ok E →
      g.nodeForest.property_sets[result]? = some S →
      (∀ d, d ∈ S ↔ reachExactly E n i d) → 1 ≤ i → i ≤ k → k < fuel + i → i < 2 ^ 31 →
      (E.Pairwise (· < ·) → S.Pairwise (· < ·)) →
      ∃ out g1, depthLoop a k fuel i result g = (out, g1) ∧
        g1.edgeForest = g.edgeForest ∧ Inv g1.nodeForest ∧
        Extends g.nodeForest g1.nodeForest ∧
        ((∃ r R, out = .returned r ∧ g1.nodeForest.property_sets[r]? = some R ∧
            (∀ d, d ∈ R ↔ reachExactly E n k d) ∧
            (E.Pairwise (· < ·) → R.Pairwise (· < ·)) ∧
            (k < 2 ^ 31 ∨ ∃ j, i < j ∧ j ≤ 2 ^ 31 ∧ j ≤ k ∧ ∀ d, ¬ reachExactly E n j d)) ∨
          (out = .intOverflow ∧ 2 ^ 31 ≤ k ∧
            ∀ j, i < j → j ≤ 2 ^ 31 → ∃ d, reachExactly E n j d))
  | 0, i, _, _, _, _, _, _, _, _, hik, hfuel, _, _ => by omega
  | fuel + 1, i, result, g, S, hn, hE, hS, hlevel, hi1, hik, hfuel, hi31, hSs => by
    unfold depthLoop
    by_cases hlt : i < k
    · rw [if_pos hlt]
      obtain ⟨r, g1, R, heq, hef, hn1, hext, hR, hmem, hsorted⟩ :=
        get_points_to_set_index_spec g hn a E hE result S hS
      have hlevel1 := reachExactly_step E hrange n i S R hlevel hmem
      rw [heq]
      simp only
      by_cases hr : r = EMPTY_SET
      · have hemp : is_empty r = true := by
          rw [hr]
          rfl
        rw [if_pos hemp]
        have hnil : R = [] := by
          rw [hr] at hR
          exact Option.some.inj (hR.symm.trans hn1.empty_first)
        have hnone : ∀ d, ¬ reachExactly E n (i + 1) d := by
          intro d hd
          have := (hlevel1 d).mpr hd
          rw [hnil] at this
          cases this
        refine ⟨_, _, rfl, hef, hn1, hext, Or.inl ⟨r, R, rfl, hR, ?_, fun h => hsorted hrange h,
          Or.inr ⟨i + 1, by omega, by omega, by omega, hnone⟩⟩⟩
        intro d
        rw [hnil]
        exact ⟨fun h => absurd h (List.not_mem_nil d),
          fun h => absurd h (reachExactly_none E n (i + 1) hnone k (by omega) d)⟩
      · rw [if_neg (by rw [is_empty_eq_false r hr]; exact Bool.false_ne_true)]
        have hne : R ≠ [] := by
          intro h
          rw [h] at hR
          exact hr (hn1.eq_zero_of_nil r hR)
        obtain ⟨d0, hd0⟩ := List.exists_mem_of_ne_nil R hne
        have hsome : ∃ d, reachExactly E n (i + 1) d := ⟨d0, (hlevel1 d0).mp hd0⟩
        by_cases hov : i + 1 < 2 ^ 31
        · rw [if_pos hov]
          have hE1 : get_value g1.edgeForest a = .ok E := by
            rw [hef]
            exact hE
          obtain ⟨out, g2, heq2, hef2, hn2, hext2, hout⟩ :=
            depthLoop_spec a E hrange n k fuel (i + 1) r g1 R hn1 hE1 hR hlevel1 (by omega)
              (by omega) (by omega) hov (fun h => hsorted hrange h)
          refine ⟨out, g2, heq2, hef2.trans hef, hn2, hext.trans hext2, ?_⟩
          rcases hout with ⟨r2, R2, h1, h2, h3, h4, h5⟩ | ⟨h1, h2, h3⟩
          · left
            refine ⟨r2, R2, h1, h2, h3, h4, ?_⟩
            rcases h5 with h5 | ⟨j, hj1, hj2, hj3, hj4⟩
            · exact Or.inl h5
            · exact Or.inr ⟨j, by omega, hj2, hj3, hj4⟩
          · right
            refine ⟨h1, h2, ?_⟩
            intro j hj1 hj2
            by_cases hj : j = i + 1
            · rw [hj]
              exact hsome
            · exact h3 j (by omega) hj2
        · rw [if_neg hov]
          refine ⟨_, _, rfl, hef, hn1, hext, Or.inr ⟨rfl, by omega, ?_⟩⟩
          intro j hj1 hj2
          have hj : j = i + 1 := by omega
          rw [hj]
          exact hsome
    · rw [if_neg hlt]
      have hki : i = k := by omega
      rw [← hki]
      exact ⟨_, _, rfl, rfl, hn, ⟨[], by simp⟩,
        Or.inl ⟨result, S, rfl, hS, hlevel, hSs, Or.inl hi31⟩⟩

/-- A node with a loop is at the end of a path of every length from itself. -/
theorem reachExactly_self_loop (E : List Int) (n : Nat) (h : hasEdge E n n) :
    ∀ j, reachExactly E n j n
  | 0 => rfl
  | j + 1 => ⟨n, reachExactly_self_loop E n h j, h⟩

/-- The query with a recursion depth of at least one, on a valid edge index
with a node forest that has the invariant: whether it returns, and what. -/
theorem get_points_to_set_depth_spec (g : BaseGraphAPI) (hn : Inv g.nodeForest) (a : Index)
    (E : List Int) (hE : get_value g.edgeForest a = .ok E)
    (hrange : ∀ v ∈ E, -2 ^ 63 ≤ v ∧ v < 2 ^ 63) (n k : Nat) (hk : 1 ≤ k) :
    ∃ out g1, get_points_to_set_depth g a n k = (out, g1) ∧
      g1.edgeForest = g.edgeForest ∧ Inv g1.nodeForest ∧
      Extends g.nodeForest g1.nodeForest ∧
      ((∃ r R, out = .returned r ∧ g1.nodeForest.property_sets[r]? = some R ∧
          (∀ d, d ∈ R ↔ reachExactly E n k d) ∧
          (E.Pairwise (· < ·) → R.Pairwise (· < ·)) ∧
          (k < 2 ^ 31 ∨ ∃ j, 1 < j ∧ j ≤ 2 ^ 31 ∧ j ≤ k ∧ ∀ d, ¬ reachExactly E n j d)) ∨
        (out = .intOverflow ∧ 2 ^ 31 ≤ k ∧
          ∀ j, 1 < j → j ≤ 2 ^ 31 → ∃ d, reachExactly E n j d)) := by
  obtain ⟨r1, g1, heq1, hef1, hn1, hext1, hR1, _⟩ := get_points_to_set_spec g hn a E hE n
  have hE1 : get_value g1.edgeForest a = .ok E := by
    rw [hef1]
    exact hE
  have hlevel : ∀ d, d ∈ pointsToLoop n E ↔ reachExactly E n 1 d := by
    intro d
    rw [mem_pointsToLoop_iff E hrange n d]
    constructor
    · intro h
      exact ⟨n, rfl, h⟩
    · rintro ⟨m, hm, h⟩
      have hmn : m = n := hm
      rw [hmn] at h
      exact h
  obtain ⟨out, g2, heq2, hef2, hn2, hext2, hout⟩ :=
    depthLoop_spec a E hrange n k k 1 r1 g1 (pointsToLoop n E) hn1 hE1 hR1 hlevel
      (Nat.le_refl 1) hk (by omega) (by norm_num)
      (fun h => pointsToLoop_pairwise n E hrange h)
  refine ⟨out, g2, ?_, hef2.trans hef1, hn2, hext1.trans hext2, hout⟩
  unfold get_points_to_set_depth
  rw [if_neg (by omega), heq1]
  exact heq2

end GraphFacts

/-! ## The claims -/

section Claims

variable {α : Type} [LinearOrder α]

/-- C1, as stated, fails: on a fresh forest the vectors `1, 2, 3` and `3, 2, 1`
have the same elements but are registered under the different indices `1` and
`2`; so are `1` and `1, 1`. -/
theorem C1_counterexample :
    (∀ x : Nat, x ∈ [1, 2, 3] ↔ x ∈ [3, 2, 1]) ∧
    (register_set fresh [1, 2, 3]).1 = 1 ∧
    (register_set (register_set fresh [1, 2, 3]).2.2 [3, 2, 1]).1 = 2 ∧
    (∀ x : Nat, x ∈ [1] ↔ x ∈ [1, 1]) ∧
    (register_set fresh [1]).1 = 1 ∧
    (register_set (register_set fresh [1]).2.2 [1, 1]).1 = 2 := by
  refine ⟨?_, by decide, by decide, by simp, by decide, by decide⟩
  intro x
  simp only [List.mem_cons, List.mem_singleton, List.not_mem_nil, or_false]
  tauto

/-- C1, amended: in every reachable state, two strictly ascending sequences
with the same elements are registered under one index, and the sequence is the
value stored at that index. -/
theorem C1_register_set_canonical (s : LatticeHashForest α) (hs : Reachable s)
    (S T : List α) (hS : S.Pairwise (· < ·)) (hT : T.Pairwise (· < ·))
    (hST : ∀ x, x ∈ S ↔ x ∈ T) :
    (register_set (register_set s S).2.2 T).1 = (register_set s S).1 ∧
    get_value (register_set (register_set s S).2.2 T).2.2 (register_set s S).1 = .ok S := by
  have hEq : S = T := strictAsc_ext hS hT hST
  subst hEq
  obtain ⟨h1, h2, _⟩ := register_set_spec hs.inv S
  have hf := (find_eq_some_iff h1.nodup h1.map_matches S _).mpr h2
  rw [register_set_of_some _ S _ hf]
  exact ⟨rfl, get_value_of_getElem? _ _ h2⟩

/-- C1 witness: the fresh forest and the sequence `1, 2, 3` registered twice. -/
theorem C1_register_set_canonical_witness :
    Reachable fresh ∧ [1, 2, 3].Pairwise (· < ·) ∧
    (register_set (register_set fresh [1, 2, 3]).2.2 [1, 2, 3]).1 =
      (register_set fresh [1, 2, 3]).1 ∧
    get_value (register_set (register_set fresh [1, 2, 3]).2.2 [1, 2, 3]).2.2
      (register_set fresh [1, 2, 3]).1 = .ok [1, 2, 3] :=
  ⟨fresh_reachable, by decide,
    C1_register_set_canonical fresh fresh_reachable [1, 2, 3] [1, 2, 3] (by decide)
      (by decide) (fun _ => Iff.rfl)⟩

/-- C2, as stated, fails: registering the vector `2, 1, 1` on a fresh forest
stores exactly `2, 1, 1`, which is not ascending, and `size_of` reports `3`
although the vector has `2` distinct elements. -/
theorem C2_counterexample :
    get_value (register_set fresh [2, 1, 1]).2.2 (register_set fresh [2, 1, 1]).1 =
      .ok [2, 1, 1] ∧
    ¬ [2, 1, 1].Pairwise (· < ·) ∧
    size_of (register_set fresh [2, 1, 1]).2.2 (register_set fresh [2, 1, 1]).1 = .ok 3 ∧
    [2, 1, 1].dedup.length = 2 := by
  refine ⟨by decide, by decide, by decide, by decide⟩

/-- C2, amended: in every reachable state `register_set` stores a strictly
ascending argument as it is, so the stored set is strictly ascending, has
exactly the elements of the argument, and `size_of` is the number of its
(distinct) elements. -/
theorem C2_register_set_stores (s : LatticeHashForest α) (hs : Reachable s)
    (S : List α) (hS : S.Pairwise (· < ·)) :
    ∃ V, get_value (register_set s S).2.2 (register_set s S).1 = .ok V ∧
      V = S ∧ V.Pairwise (· < ·) ∧ (∀ x, x ∈ V ↔ x ∈ S) ∧
      size_of (register_set s S).2.2 (register_set s S).1 = .ok S.dedup.length := by
  obtain ⟨h1, h2, _⟩ := register_set_spec hs.inv S
  have hn : S.Nodup := hS.imp (fun h => ne_of_lt h)
  refine ⟨S, get_value_of_getElem? _ _ h2, rfl, hS, fun _ => Iff.rfl, ?_⟩
  rw [List.Nodup.dedup hn]
  unfold size_of
  by_cases h0 : (register_set s S).1 = EMPTY_SET
  · rw [if_pos h0]
    rw [h0] at h2
    have : S = [] := Option.some.inj (h2.symm.trans h1.empty_first)
    rw [this]
    rfl
  · rw [if_neg h0, get_value_of_getElem? _ _ h2]

/-- C2 witness: the fresh forest and the sequence `1, 2, 3`. -/
theorem C2_register_set_stores_witness :
    Reachable fresh ∧ [1, 2, 3].Pairwise (· < ·) ∧
    ∃ V, get_value (register_set fresh [1, 2, 3]).2.2 (register_set fresh [1, 2, 3]).1 = .ok V ∧
      V = [1, 2, 3] ∧ V.Pairwise (· < ·) ∧ (∀ x, x ∈ V ↔ x ∈ [1, 2, 3]) ∧
      size_of (register_set fresh [1, 2, 3]).2.2 (register_set fresh [1, 2, 3]).1 =
        .ok [1, 2, 3].dedup.length :=
  ⟨fresh_reachable, by decide,
    C2_register_set_stores fresh fresh_reachable [1, 2, 3] (by decide)⟩

/-- C3: in every reachable state and for all valid indices `a`, `b`,
`set_union(a, b)` returns an index whose stored set has exactly the elements
of `value(a)` and `value(b)`, whichever path produced it; the operands keep
their values. -/
theorem C3_set_union_value (s : LatticeHashForest α) (hs : Reachable s) (a b : Index)
    (ha : indexInvalid s a = false) (hb : indexInvalid s b = false) :
    ∃ r A B R, (set_union s a b).1 = .ok r ∧
      get_value s a = .ok A ∧ get_value s b = .ok B ∧
      get_value (set_union s a b).2 a = .ok A ∧ get_value (set_union s a b).2 b = .ok B ∧
      get_value (set_union s a b).2 r = .ok R ∧
      ∀ x, x ∈ R ↔ x ∈ A ∨ x ∈ B := by
  obtain ⟨A, hA⟩ := exists_getElem?_of_valid hs.inv a ha
  obtain ⟨B, hB⟩ := exists_getElem?_of_valid hs.inv b hb
  obtain ⟨r, s1, R, heq, hs1, hext, hR, hcase⟩ := set_union_struct hs.inv a b A B hA hB
  have hext1 : Extends s s1 := hext
  rw [heq]
  refine ⟨r, A, B, R, rfl, get_value_of_getElem? _ _ hA, get_value_of_getElem? _ _ hB,
    get_value_of_getElem? _ _ (hext1.getElem? a A hA),
    get_value_of_getElem? _ _ (hext1.getElem? b B hB), get_value_of_getElem? _ _ hR, ?_⟩
  intro x
  rcases hcase with h | ⟨h, hsub⟩ | ⟨h, hsub⟩
  · rw [h]
    exact mem_unionMerge A B x
  · rw [h]
    exact ⟨fun hx => Or.inl hx, fun hx => hx.elim id (fun hx => hsub hx)⟩
  · rw [h]
    exact ⟨fun hx => Or.inr hx, fun hx => hx.elim (fun hx => hsub hx) id⟩

/-- C3 witness: the union of the sets at indices `1` and `2` of the forest
holding the unsorted vector `3, 1` and the vector `1`. -/
theorem C3_set_union_value_witness :
    Reachable unsortedForest ∧ indexInvalid unsortedForest 1 = false ∧
    indexInvalid unsortedForest 2 = false ∧
    ∃ r A B R, (set_union unsortedForest 1 2).1 = .ok r ∧
      get_value unsortedForest 1 = .ok A ∧ get_value unsortedForest 2 = .ok B ∧
      get_value (set_union unsortedForest 1 2).2 1 = .ok A ∧
      get_value (set_union unsortedForest 1 2).2 2 = .ok B ∧
      get_value (set_union unsortedForest 1 2).2 r = .ok R ∧
      ∀ x, x ∈ R ↔ x ∈ A ∨ x ∈ B :=
  ⟨unsortedForest_reachable, by decide, by decide,
    C3_set_union_value unsortedForest unsortedForest_reachable 1 2 (by decide) (by decide)⟩

/-- C4, as stated, fails: in the reachable forest holding the unsorted vector
`3, 1` at index `1` and the vector `1` at index `2`, `set_intersection(1, 2)`
returns index `0`, the empty set, although `1` is in both operands. -/
theorem C4_counterexample :
    Reachable unsortedForest ∧
    get_value unsortedForest 1 = .ok [3, 1] ∧ get_value unsortedForest 2 = .ok [1] ∧
    (set_intersection unsortedForest 1 2).1 = .ok 0 ∧
    get_value (set_intersection unsortedForest 1 2).2 0 = .ok [] ∧
    get_value (set_intersection unsortedForest 1 2).2 1 = .ok [3, 1] ∧
    get_value (set_intersection unsortedForest 1 2).2 2 = .ok [1] ∧
    (1 ∈ [3, 1] ∧ 1 ∈ [1] ∧ 1 ∉ ([] : List Nat)) := by
  refine ⟨unsortedForest_reachable, by decide, by decide, by decide, by decide, by decide,
    by decide, by decide⟩

/-- C4, amended: in every reachable state, for valid indices `a`, `b` whose
stored sets are strictly ascending, `set_intersection(a, b)` returns an index
whose stored set has exactly the elements common to `value(a)` and `value(b)`,
whichever path produced it. -/
theorem C4_set_intersection_value (s : LatticeHashForest α) (hs : Reachable s)
    (a b : Index) (A B : List α) (hA : get_value s a = .ok A) (hB : get_value s b = .ok B)
    (hAs : A.Pairwise (· < ·)) (hBs : B.Pairwise (· < ·)) :
    ∃ r R, (set_intersection s a b).1 = .ok r ∧
      get_value (set_intersection s a b).2 a = .ok A ∧
      get_value (set_intersection s a b).2 b = .ok B ∧
      get_value (set_intersection s a b).2 r = .ok R ∧
      ∀ x, x ∈ R ↔ x ∈ A ∧ x ∈ B := by
  have hA1 := getElem?_of_get_value hs.inv a A hA
  have hB1 := getElem?_of_get_value hs.inv b B hB
  obtain ⟨r, s1, R, heq, hs1, hext, hR, hcase⟩ :=
    set_intersection_struct hs.inv a b A B hA1 hB1
  have hext1 : Extends s s1 := hext
  rw [heq]
  refine ⟨r, R, rfl, get_value_of_getElem? _ _ (hext1.getElem? a A hA1),
    get_value_of_getElem? _ _ (hext1.getElem? b B hB1), get_value_of_getElem? _ _ hR, ?_⟩
  intro x
  rcases hcase with h | ⟨h, hsub⟩ | ⟨h, hsub⟩
  · rw [h]
    exact mem_interMerge_iff A B hAs hBs x
  · rw [h]
    exact ⟨fun hx => ⟨hx, hsub hx⟩, fun hx => hx.1⟩
  · rw [h]
    exact ⟨fun hx => ⟨hsub hx, hx⟩, fun hx => hx.2⟩

/-- C4 witness: the sets `1, 2, 3` and `2` at indices `1` and `2`. -/
theorem C4_set_intersection_value_witness :
    Reachable sortedForest ∧
    get_value sortedForest 1 = .ok [1, 2, 3] ∧ get_value sortedForest 2 = .ok [2] ∧
    [1, 2, 3].Pairwise (· < ·) ∧ [2].Pairwise (· < ·) ∧
    ∃ r R, (set_intersection sortedForest 1 2).1 = .ok r ∧
      get_value (set_intersection sortedForest 1 2).2 1 = .ok [1, 2, 3] ∧
      get_value (set_intersection sortedForest 1 2).2 2 = .ok [2] ∧
      get_value (set_intersection sortedForest 1 2).2 r = .ok R ∧
      ∀ x, x ∈ R ↔ x ∈ [1, 2, 3] ∧ x ∈ [2] :=
  ⟨sortedForest_reachable, by decide, by decide, by decide, by decide,
    C4_set_intersection_value sortedForest sortedForest_reachable 1 2 [1, 2, 3] [2]
      (by decide) (by decide) (by decide) (by decide)⟩

/-- C5, as stated, fails: in the reachable forest holding the unsorted vector
`3, 1` at index `1` and the vector `1` at index `2`, `set_difference(1, 2)`
returns index `1`, whose set still contains the element `1` of the second
operand. -/
theorem C5_counterexample :
    Reachable unsortedForest ∧
    get_value unsortedForest 1 = .ok [3, 1] ∧ get_value unsortedForest 2 = .ok [1] ∧
    (set_difference unsortedForest 1 2).1 = .ok 1 ∧
    get_value (set_difference unsortedForest 1 2).2 1 = .ok [3, 1] ∧
    get_value (set_difference unsortedForest 1 2).2 2 = .ok [1] ∧
    (1 ∈ [3, 1] ∧ 1 ∈ [1]) := by
  refine ⟨unsortedForest_reachable, by decide, by decide, by decide, by decide, by decide,
    by decide⟩

/-- C5, amended: in every reachable state, for valid indices `a`, `b` whose
stored sets are strictly ascending, `set_difference(a, b)` returns an index
whose stored set has exactly the elements of `value(a)` that are not in
`value(b)`, whichever path produced it. -/
theorem C5_set_difference_value (s : LatticeHashForest α) (hs : Reachable s)
    (a b : Index) (A B : List α) (hA : get_value s a = .ok A) (hB : get_value s b = .ok B)
    (hAs : A.Pairwise (· < ·)) (hBs : B.Pairwise (· < ·)) :
    ∃ r R, (set_difference s a b).1 = .ok r ∧
      get_value (set_difference s a b).2 a = .ok A ∧
      get_value (set_difference s a b).2 b = .ok B ∧
      get_value (set_difference s a b).2 r = .ok R ∧
      ∀ x, x ∈ R ↔ x ∈ A ∧ x ∉ B := by
  have hA1 := getElem?_of_get_value hs.inv a A hA
  have hB1 := getElem?_of_get_value hs.inv b B hB
  obtain ⟨r, s1, heq, hs1, hext, hR⟩ := set_difference_struct hs.inv a b A B hA1 hB1
  have hext1 : Extends s s1 := hext
  rw [heq]
  exact ⟨r, _, rfl, get_value_of_getElem? _ _ (hext1.getElem? a A hA1),
    get_value_of_getElem? _ _ (hext1.getElem? b B hB1), get_value_of_getElem? _ _ hR,
    mem_diffMerge_iff A B hAs hBs⟩

/-- C5 witness: the sets `1, 2, 3` and `2` at indices `1` and `2`. -/
theorem C5_set_difference_value_witness :
    Reachable sortedForest ∧
    get_value sortedForest 1 = .ok [1, 2, 3] ∧ get_value sortedForest 2 = .ok [2] ∧
    [1, 2, 3].Pairwise (· < ·) ∧ [2].Pairwise (· < ·) ∧
    ∃ r R, (set_difference sortedForest 1 2).1 = .ok r ∧
      get_value (set_difference sortedForest 1 2).2 1 = .ok [1, 2, 3] ∧
      get_value (set_difference sortedForest 1 2).2 2 = .ok [2] ∧
      get_value (set_difference sortedForest 1 2).2 r = .ok R ∧
      ∀ x, x ∈ R ↔ x ∈ [1, 2, 3] ∧ x ∉ [2] :=
  ⟨sortedForest_reachable, by decide, by decide, by decide, by decide,
    C5_set_difference_value sortedForest sortedForest_reachable 1 2 [1, 2, 3] [2]
      (by decide) (by decide) (by decide) (by decide)⟩

/-- C6: in every reachable state the subset cache is sound. Whenever
`is_subset(a, b)` returns `SUBSET` every element of `value(a)` is in `value(b)`,
whenever it returns `SUPERSET` every element of `value(b)` is in `value(a)`;
and the same holds of every entry of the cache. -/
theorem C6_subset_cache_sound (s : LatticeHashForest α) (hs : Reachable s) (a b : Index) :
    (is_subset s a b = .ok .SUBSET →
      ∃ A B, get_value s a = .ok A ∧ get_value s b = .ok B ∧ ∀ x, x ∈ A → x ∈ B) ∧
    (is_subset s a b = .ok .SUPERSET →
      ∃ A B, get_value s a = .ok A ∧ get_value s b = .ok B ∧ ∀ x, x ∈ B → x ∈ A) ∧
    (mapFind OperationNode.eq s.subsets ⟨a, b⟩ = some .SUBSET →
      ∃ A B, get_value s a = .ok A ∧ get_value s b = .ok B ∧ ∀ x, x ∈ A → x ∈ B) ∧
    (mapFind OperationNode.eq s.subsets ⟨a, b⟩ = some .SUPERSET →
      ∃ A B, get_value s a = .ok A ∧ get_value s b = .ok B ∧ ∀ x, x ∈ B → x ∈ A) := by
  have hsub : mapFind OperationNode.eq s.subsets ⟨a, b⟩ = some .SUBSET →
      ∃ A B, get_value s a = .ok A ∧ get_value s b = .ok B ∧ ∀ x, x ∈ A → x ∈ B := by
    intro h
    obtain ⟨_, X, Y, hX, hY, h1, _⟩ := hs.inv.subsets_sound a b _ h
    exact ⟨X, Y, get_value_of_getElem? _ _ hX, get_value_of_getElem? _ _ hY,
      fun x hx => h1 rfl hx⟩
  have hsup : mapFind OperationNode.eq s.subsets ⟨a, b⟩ = some .SUPERSET →
      ∃ A B, get_value s a = .ok A ∧ get_value s b = .ok B ∧ ∀ x, x ∈ B → x ∈ A := by
    intro h
    obtain ⟨_, X, Y, hX, hY, _, h2⟩ := hs.inv.subsets_sound a b _ h
    exact ⟨X, Y, get_value_of_getElem? _ _ hX, get_value_of_getElem? _ _ hY,
      fun x hx => h2 rfl hx⟩
  have hfind : ∀ rel, rel ≠ SubsetRelation.UNKNOWN → is_subset s a b = .ok rel →
      mapFind OperationNode.eq s.subsets ⟨a, b⟩ = some rel := by
    intro rel hrel h
    unfold is_subset at h
    split_ifs at h
    cases hf : mapFind OperationNode.eq s.subsets ⟨a, b⟩ with
    | none =>
      rw [hf] at h
      cases h
      exact absurd rfl hrel
    | some r =>
      rw [hf] at h
      cases h
      rfl
  exact ⟨fun h => hsub (hfind _ (by simp) h), fun h => hsup (hfind _ (by simp) h), hsub, hsup⟩

/-- C6 witness: after `set_intersection(1, 2)` on the sets `1, 2, 3` and `2`
the cache says `SUPERSET` for the pair `(1, 2)`. -/
theorem C6_subset_cache_sound_witness :
    Reachable intersectedForest ∧ is_subset intersectedForest 1 2 = .ok .SUPERSET ∧
    ∃ A B, get_value intersectedForest 1 = .ok A ∧ get_value intersectedForest 2 = .ok B ∧
      ∀ x, x ∈ B → x ∈ A :=
  ⟨intersectedForest_reachable, by decide,
    (C6_subset_cache_sound intersectedForest intersectedForest_reachable 1 2).2.1
      (by decide)⟩

/-- C8: in any state and for any valid index `a`, `set_union(a, a)` and
`set_intersection(a, a)` return `a` and `set_difference(a, a)` returns
`EMPTY_SET`; each call leaves the store, the property set map, the three
operation caches and the subset cache as they were; and `set_intersection(a, a)`
still returns `a` after `set_difference(a, a)`. -/
theorem C8_equal_operands (s : LatticeHashForest α) (a : Index)
    (ha : indexInvalid s a = false) :
    (set_union s a a).1 = .ok a ∧ SameForest s (set_union s a a).2 ∧
    (set_intersection s a a).1 = .ok a ∧ SameForest s (set_intersection s a a).2 ∧
    (set_difference s a a).1 = .ok EMPTY_SET ∧ SameForest s (set_difference s a a).2 ∧
    (set_intersection (set_difference s a a).2 a a).1 = .ok a ∧
    SameForest s (set_intersection (set_difference s a a).2 a a).2 := by
  rw [set_union_self s a ha, set_intersection_self s a ha, set_difference_self s a ha]
  refine ⟨rfl, SameForest.of_perf_inc _ _ _, rfl, SameForest.of_perf_inc _ _ _, rfl,
    SameForest.of_perf_inc _ _ _, ?_⟩
  rw [set_intersection_self _ a (by rw [indexInvalid_perf_inc]; exact ha)]
  exact ⟨rfl, rfl, rfl, rfl, rfl, rfl, rfl⟩

/-- C8 witness: index `1` of the forest holding `1, 2, 3` and `2`. -/
theorem C8_equal_operands_witness :
    indexInvalid sortedForest 1 = false ∧
    (set_union sortedForest 1 1).1 = .ok 1 ∧
    SameForest sortedForest (set_union sortedForest 1 1).2 ∧
    (set_intersection sortedForest 1 1).1 = .ok 1 ∧
    SameForest sortedForest (set_intersection sortedForest 1 1).2 ∧
    (set_difference sortedForest 1 1).1 = .ok EMPTY_SET ∧
    SameForest sortedForest (set_difference sortedForest 1 1).2 ∧
    (set_intersection (set_difference sortedForest 1 1).2 1 1).1 = .ok 1 ∧
    SameForest sortedForest (set_intersection (set_difference sortedForest 1 1).2 1 1).2 :=
  ⟨by decide, C8_equal_operands sortedForest 1 (by decide)⟩

/-- C9: in any state and for any valid index `a`, the empty set is absorbed:
`set_union(a, 0) = set_union(0, a) = a`,
`set_intersection(a, 0) = set_intersection(0, a) = 0`, `set_difference(a, 0) = a`
and `set_difference(0, a) = 0`; none of these calls changes the store, the
property set map or any cache. -/
theorem C9_empty_absorption (s : LatticeHashForest α) (a : Index)
    (ha : indexInvalid s a = false) :
    ((set_union s a EMPTY_SET).1 = .ok a ∧ SameForest s (set_union s a EMPTY_SET).2) ∧
    ((set_union s EMPTY_SET a).1 = .ok a ∧ SameForest s (set_union s EMPTY_SET a).2) ∧
    ((set_intersection s a EMPTY_SET).1 = .ok EMPTY_SET ∧
      SameForest s (set_intersection s a EMPTY_SET).2) ∧
    ((set_intersection s EMPTY_SET a).1 = .ok EMPTY_SET ∧
      SameForest s (set_intersection s EMPTY_SET a).2) ∧
    ((set_difference s a EMPTY_SET).1 = .ok a ∧
      SameForest s (set_difference s a EMPTY_SET).2) ∧
    ((set_difference s EMPTY_SET a).1 = .ok EMPTY_SET ∧
      SameForest s (set_difference s EMPTY_SET a).2) := by
  obtain ⟨c1, h1⟩ := set_union_zero_right s a ha
  obtain ⟨c2, h2⟩ := set_union_zero_left s a ha
  obtain ⟨c3, h3⟩ := set_intersection_zero_right s a ha
  obtain ⟨c4, h4⟩ := set_intersection_zero_left s a ha
  obtain ⟨c5, h5⟩ := set_difference_zero_right s a ha
  obtain ⟨c6, h6⟩ := set_difference_zero_left s a ha
  show ((set_union s a 0).1 = .ok a ∧ SameForest s (set_union s a 0).2) ∧
    ((set_union s 0 a).1 = .ok a ∧ SameForest s (set_union s 0 a).2) ∧
    ((set_intersection s a 0).1 = .ok EMPTY_SET ∧ SameForest s (set_intersection s a 0).2) ∧
    ((set_intersection s 0 a).1 = .ok EMPTY_SET ∧ SameForest s (set_intersection s 0 a).2) ∧
    ((set_difference s a 0).1 = .ok a ∧ SameForest s (set_difference s a 0).2) ∧
    ((set_difference s 0 a).1 = .ok EMPTY_SET ∧ SameForest s (set_difference s 0 a).2)
  rw [h1, h2, h3, h4, h5, h6]
  exact ⟨⟨rfl, SameForest.of_perf_inc _ _ _⟩, ⟨rfl, SameForest.of_perf_inc _ _ _⟩,
    ⟨rfl, SameForest.of_perf_inc _ _ _⟩, ⟨rfl, SameForest.of_perf_inc _ _ _⟩,
    ⟨rfl, SameForest.of_perf_inc _ _ _⟩, ⟨rfl, SameForest.of_perf_inc _ _ _⟩⟩

/-- C9 witness: index `1` of the forest holding `1, 2, 3` and `2`. -/
theorem C9_empty_absorption_witness :
    indexInvalid sortedForest 1 = false ∧
    (set_union sortedForest 1 EMPTY_SET).1 = .ok 1 ∧
    (set_union sortedForest EMPTY_SET 1).1 = .ok 1 ∧
    (set_intersection sortedForest 1 EMPTY_SET).1 = .ok EMPTY_SET ∧
    (set_intersection sortedForest EMPTY_SET 1).1 = .ok EMPTY_SET ∧
    (set_difference sortedForest 1 EMPTY_SET).1 = .ok 1 ∧
    (set_difference sortedForest EMPTY_SET 1).1 = .ok EMPTY_SET :=
  have h := C9_empty_absorption sortedForest 1 (by decide)
  ⟨by decide, h.1.1, h.2.1.1, h.2.2.1.1, h.2.2.2.1.1, h.2.2.2.2.1.1, h.2.2.2.2.2.1⟩

/-- C7: in every reachable state and for all valid indices `a`, `b`,
`set_union(a, b)` and `set_union(b, a)` evaluated from that state return the
same index, and so does `set_union(b, a)` called right after `set_union(a, b)`;
the same holds of `set_intersection`. -/
theorem C7_commutativity (s : LatticeHashForest α) (hs : Reachable s) (a b : Index)
    (ha : indexInvalid s a = false) (hb : indexInvalid s b = false) :
    (∃ u, (set_union s a b).1 = .ok u ∧ (set_union s b a).1 = .ok u ∧
      (set_union (set_union s a b).2 b a).1 = .ok u) ∧
    (∃ v, (set_intersection s a b).1 = .ok v ∧ (set_intersection s b a).1 = .ok v ∧
      (set_intersection (set_intersection s a b).2 b a).1 = .ok v) := by
  constructor
  · obtain ⟨r, s1, h1, h2⟩ := set_union_repeat hs.inv a b ha hb
    refine ⟨r, ?_, ?_, ?_⟩
    · rw [h1]
    · rw [set_union_swap, h1]
    · rw [h1, set_union_swap]
      exact h2
  · obtain ⟨r, s1, h1, h2⟩ := set_intersection_repeat hs.inv a b ha hb
    refine ⟨r, ?_, ?_, ?_⟩
    · rw [h1]
    · rw [set_intersection_swap, h1]
    · rw [h1, set_intersection_swap]
      exact h2

/-- C7 witness: the sets `1, 2, 3` and `2` at indices `1` and `2`. -/
theorem C7_commutativity_witness :
    Reachable sortedForest ∧ indexInvalid sortedForest 1 = false ∧
    indexInvalid sortedForest 2 = false ∧
    (∃ u, (set_union sortedForest 1 2).1 = .ok u ∧ (set_union sortedForest 2 1).1 = .ok u ∧
      (set_union (set_union sortedForest 1 2).2 2 1).1 = .ok u) ∧
    (∃ v, (set_intersection sortedForest 1 2).1 = .ok v ∧
      (set_intersection sortedForest 2 1).1 = .ok v ∧
      (set_intersection (set_intersection sortedForest 1 2).2 2 1).1 = .ok v) :=
  ⟨sortedForest_reachable, by decide, by decide,
    C7_commutativity sortedForest sortedForest_reachable 1 2 (by decide) (by decide)⟩

/-- C10: in every reachable state, for every valid index `a` and every element
`e` that is not in `value(a)`, `set_insert_single(a, e)` returns an index `b`
whose set has the elements of `value(a)` and `e` (the singleton of `e` when
`value(a)` is empty, as for `a = EMPTY_SET`), and `set_remove_single(b, e)`,
called next, returns exactly `a`. -/
theorem C10_insert_remove_round_trip (s : LatticeHashForest α) (hs : Reachable s)
    (a : Index) (e : α) (A : List α) (hA : get_value s a = .ok A) (he : e ∉ A) :
    ∃ b Vb, (set_insert_single s a e).1 = .ok b ∧
      get_value (set_insert_single s a e).2 b = .ok Vb ∧
      (∀ x, x ∈ Vb ↔ x ∈ A ∨ x = e) ∧ (A = [] → Vb = [e]) ∧
      (set_remove_single (set_insert_single s a e).2 b e).1 = .ok a := by
  have hA1 := getElem?_of_get_value hs.inv a A hA
  obtain ⟨b, s1, heq1, hs1, hext1, hb⟩ := set_insert_single_struct hs.inv a e A hA1 he
  obtain ⟨r, s2, heq2, hs2, hext2, hr⟩ :=
    set_remove_single_struct hs1 b e (unionMerge A [e]) hb
  rw [diffMerge_unionMerge_single A e he] at hr
  have ha2 : s2.property_sets[a]? = some A := (hext1.trans hext2).getElem? a A hA1
  have hra : r = a := getElem?_inj_of_nodup _ hs2.nodup r a A hr ha2
  rw [heq1]
  refine ⟨b, unionMerge A [e], rfl, get_value_of_getElem? _ _ hb, ?_, ?_, ?_⟩
  · intro x
    rw [mem_unionMerge, List.mem_singleton]
  · intro hnil
    rw [hnil]
    rfl
  · rw [heq2, hra]

/-- C10 witness: inserting `7` into the set `1, 2, 3` at index `1` and removing
it again. -/
theorem C10_insert_remove_round_trip_witness :
    Reachable sortedForest ∧ get_value sortedForest 1 = .ok [1, 2, 3] ∧ 7 ∉ [1, 2, 3] ∧
    ∃ b Vb, (set_insert_single sortedForest 1 7).1 = .ok b ∧
      get_value (set_insert_single sortedForest 1 7).2 b = .ok Vb ∧
      (∀ x, x ∈ Vb ↔ x ∈ [1, 2, 3] ∨ x = 7) ∧ (([1, 2, 3] : List Nat) = [] → Vb = [7]) ∧
      (set_remove_single (set_insert_single sortedForest 1 7).2 b 7).1 = .ok 1 :=
  ⟨sortedForest_reachable, by decide, by decide,
    C10_insert_remove_round_trip sortedForest sortedForest_reachable 1 7 [1, 2, 3]
      (by decide) (by decide)⟩

/-- C11, as stated, fails: in the reachable forest holding the unsorted vector
`3, 1` at index `1`, `set_remove_single(1, 1)` returns index `1`, whose set
still contains the element `1` that was to be removed. -/
theorem C11_counterexample :
    Reachable unsortedForest ∧ get_value unsortedForest 1 = .ok [3, 1] ∧
    (set_remove_single unsortedForest 1 1).1 = .ok 1 ∧
    get_value (set_remove_single unsortedForest 1 1).2 1 = .ok [3, 1] ∧
    1 ∈ [3, 1] := by
  refine ⟨unsortedForest_reachable, by decide, by decide, by decide, by decide⟩

/-- C11, amended: in every reachable state, for a valid index `a` and an
element `e`, `register_set_single(e)` returns an index holding exactly the
sequence `e`; `set_insert_single(a, e)` is `set_union(a, register_set_single(e))`
and its value has exactly the elements of `value(a)` and `e`;
`set_remove_single(a, e)` is `set_difference(a, register_set_single(e))`, it
succeeds, and when `value(a)` is strictly ascending its value has exactly the
elements of `value(a)` other than `e`. -/
theorem C11_single_element_operations (s : LatticeHashForest α) (hs : Reachable s)
    (a : Index) (e : α) (A : List α) (hA : get_value s a = .ok A) :
    get_value (register_set_single s e).2.2 (register_set_single s e).1 = .ok [e] ∧
    set_insert_single s a e =
      set_union (register_set_single s e).2.2 a (register_set_single s e).1 ∧
    (∃ r R, (set_insert_single s a e).1 = .ok r ∧
      get_value (set_insert_single s a e).2 r = .ok R ∧ ∀ x, x ∈ R ↔ x ∈ A ∨ x = e) ∧
    set_remove_single s a e =
      set_difference (register_set_single s e).2.2 a (register_set_single s e).1 ∧
    (∃ r R, (set_remove_single s a e).1 = .ok r ∧
      get_value (set_remove_single s a e).2 r = .ok R ∧
      (A.Pairwise (· < ·) → ∀ x, x ∈ R ↔ x ∈ A ∧ x ≠ e)) := by
  have hA1 := getElem?_of_get_value hs.inv a A hA
  obtain ⟨h1, h2, h3⟩ := register_set_spec hs.inv [e]
  have hext1 : Extends s (register_set s [e]).2.2 := h3
  refine ⟨get_value_of_getElem? _ _ h2, rfl, ?_, rfl, ?_⟩
  · obtain ⟨r, s1, R, heq, _, _, hR, hcase⟩ :=
      set_union_struct h1 a _ A [e] (hext1.getElem? a A hA1) h2
    rw [set_insert_single_eq, heq]
    refine ⟨r, R, rfl, get_value_of_getElem? _ _ hR, ?_⟩
    intro x
    rw [← List.mem_singleton]
    rcases hcase with h | ⟨h, hsub⟩ | ⟨h, hsub⟩
    · rw [h]
      exact mem_unionMerge A [e] x
    · rw [h]
      exact ⟨fun hx => Or.inl hx, fun hx => hx.elim id (fun hx => hsub hx)⟩
    · rw [h]
      exact ⟨fun hx => Or.inr hx, fun hx => hx.elim (fun hx => hsub hx) id⟩
  · obtain ⟨r, s1, heq, _, _, hR⟩ := set_remove_single_struct hs.inv a e A hA1
    rw [heq]
    refine ⟨r, _, rfl, get_value_of_getElem? _ _ hR, ?_⟩
    intro hAs x
    rw [mem_diffMerge_iff A [e] hAs (List.pairwise_singleton _ _) x, List.mem_singleton]

/-- C11 witness: the set `1, 2, 3` at index `1` and the element `2`. -/
theorem C11_single_element_operations_witness :
    Reachable sortedForest ∧ get_value sortedForest 1 = .ok [1, 2, 3] ∧
    (∃ r R, (set_insert_single sortedForest 1 2).1 = .ok r ∧
      get_value (set_insert_single sortedForest 1 2).2 r = .ok R ∧
      ∀ x, x ∈ R ↔ x ∈ [1, 2, 3] ∨ x = 2) ∧
    (∃ r R, (set_remove_single sortedForest 1 2).1 = .ok r ∧
      get_value (set_remove_single sortedForest 1 2).2 r = .ok R ∧
      ([1, 2, 3].Pairwise (· < ·) → ∀ x, x ∈ R ↔ x ∈ [1, 2, 3] ∧ x ≠ 2)) :=
  have h := C11_single_element_operations sortedForest sortedForest_reachable 1 2 [1, 2, 3]
    (by decide)
  ⟨sortedForest_reachable, by decide, h.2.2.1, h.2.2.2.2⟩

/-- C12: a freshly constructed forest holds exactly one set, the empty set, at
index `0`; and in every reachable state `value(0)` is the empty set,
registering an empty collection returns `0` and leaves the forest as it was,
`size_of(0)` is `0` and `contains(0, e)` is false for every element `e`,
whatever the binary search threshold. -/
theorem C12_empty_identity (s : LatticeHashForest α) (hs : Reachable s) :
    (LatticeHashForest.new : LatticeHashForest α).property_sets = [[]] ∧
    get_value (LatticeHashForest.new : LatticeHashForest α) EMPTY_SET = .ok [] ∧
    get_value s EMPTY_SET = .ok [] ∧
    (register_set s []).1 = EMPTY_SET ∧ (register_set s []).2.1 = false ∧
    SameForest s (register_set s []).2.2 ∧
    size_of s EMPTY_SET = .ok 0 ∧
    ∀ (threshold : Nat) (e : α), contains threshold s EMPTY_SET e = .returned false := by
  have h0 := hs.inv.empty_first
  have hf := (find_eq_some_iff hs.inv.nodup hs.inv.map_matches [] 0).mpr h0
  rw [register_set_of_some s [] 0 hf]
  exact ⟨rfl, rfl, get_value_of_getElem? _ _ h0, rfl, rfl, SameForest.of_perf_inc _ _ _, rfl,
    fun _ _ => rfl⟩

/-- C12 witness: the forest holding `1, 2, 3` and `2`. -/
theorem C12_empty_identity_witness :
    Reachable sortedForest ∧
    get_value sortedForest EMPTY_SET = .ok [] ∧
    (register_set sortedForest []).1 = EMPTY_SET ∧
    size_of sortedForest EMPTY_SET = .ok 0 ∧
    contains 16 sortedForest EMPTY_SET 5 = .returned false :=
  have h := C12_empty_identity sortedForest sortedForest_reachable
  ⟨sortedForest_reachable, h.2.2.1, h.2.2.2.1, h.2.2.2.2.2.2.1, h.2.2.2.2.2.2.2 16 5⟩

/-- C13: in every reachable state two different valid indices hold different
element sequences, the property set map sends the set stored at each index
below the store length to that index, every entry of the map is a stored set
with its index, and the map has as many entries as the store has sets. -/
theorem C13_canonical_store (s : LatticeHashForest α) (hs : Reachable s) :
    (∀ i j A B, get_value s i = .ok A → get_value s j = .ok B → i ≠ j → A ≠ B) ∧
    (∀ i, i < s.property_sets.length →
      ∃ A, get_value s i = .ok A ∧ mapFind SetEqual s.property_set_map A = some i) ∧
    (∀ c i, (c, i) ∈ s.property_set_map → get_value s i = .ok c) ∧
    s.property_set_map.length = s.property_sets.length := by
  have hi := hs.inv
  refine ⟨?_, ?_, ?_, reachable_map_length hs⟩
  · intro i j A B hA hB hij hAB
    subst hAB
    exact hij (getElem?_inj_of_nodup _ hi.nodup i j A (getElem?_of_get_value hi i A hA)
      (getElem?_of_get_value hi j A hB))
  · intro i hlt
    have hA : s.property_sets[i]? = some s.property_sets[i] := List.getElem?_eq_getElem hlt
    exact ⟨_, get_value_of_getElem? _ _ hA,
      (find_eq_some_iff hi.nodup hi.map_matches _ i).mpr hA⟩
  · intro c i hmem
    exact get_value_of_getElem? _ _ ((hi.map_matches c i).mp hmem)

/-- C13 witness: the forest holding `1, 2, 3` and `2`. -/
theorem C13_canonical_store_witness :
    Reachable sortedForest ∧
    (∀ i j A B, get_value sortedForest i = .ok A → get_value sortedForest j = .ok B →
      i ≠ j → A ≠ B) ∧
    (∀ i, i < sortedForest.property_sets.length →
      ∃ A, get_value sortedForest i = .ok A ∧
        mapFind SetEqual sortedForest.property_set_map A = some i) ∧
    (∀ c i, (c, i) ∈ sortedForest.property_set_map → get_value sortedForest i = .ok c) ∧
    sortedForest.property_set_map.length = sortedForest.property_sets.length :=
  ⟨sortedForest_reachable, C13_canonical_store sortedForest sortedForest_reachable⟩

/-- C14: from any state, each of `register_set`, `register_set_single`,
`set_union`, `set_intersection`, `set_difference`, `set_insert_single`,
`set_remove_single` and `set_filter` leaves a store that is the store before
the call with sets appended, so every index of a stored set keeps its value. -/
theorem C14_stable_indices (s : LatticeHashForest α) (c : List α) (e : α) (a b : Index)
    (f : α → Bool) (cache : List (Index × Index)) :
    Stable s (register_set s c).2.2 ∧ Stable s (register_set_single s e).2.2 ∧
    Stable s (set_union s a b).2 ∧ Stable s (set_intersection s a b).2 ∧
    Stable s (set_difference s a b).2 ∧ Stable s (set_insert_single s a e).2 ∧
    Stable s (set_remove_single s a e).2 ∧ Stable s (set_filter s a f cache).2.1 := by
  have hreg : Extends s (register_set s [e]).2.2 :=
    storeStep_extends (register_set_storeStep s [e])
  refine ⟨extends_stable (storeStep_extends (register_set_storeStep s c)),
    extends_stable hreg,
    extends_stable (storeStep_extends (set_union_storeStep s a b)),
    extends_stable (storeStep_extends (set_intersection_storeStep s a b)),
    extends_stable (storeStep_extends (set_difference_storeStep s a b)),
    extends_stable (hreg.trans (storeStep_extends (set_union_storeStep _ a _))),
    extends_stable (hreg.trans (storeStep_extends (set_difference_storeStep _ a _))),
    extends_stable (storeStep_extends (set_filter_storeStep s a f cache))⟩

/-- C15: in every reachable state with `n` stored sets, `register_set` of a
candidate stored at index `i` returns `i` with `cold = false` and leaves the
forest as it was; of a candidate stored nowhere it returns `n` with
`cold = true`, appends the candidate to the store and adds the map entry from
the candidate to `n`. Hence the misses of a run of registrations receive the
indices `n, n + 1, ...` in order, and a fresh forest has `n = 1`. -/
theorem C15_registration (s : LatticeHashForest α) (hs : Reachable s) (C : List α) :
    (∀ i, get_value s i = .ok C →
      (register_set s C).1 = i ∧ (register_set s C).2.1 = false ∧
      SameForest s (register_set s C).2.2) ∧
    ((∀ i, get_value s i ≠ .ok C) →
      (register_set s C).1 = s.property_sets.length ∧ (register_set s C).2.1 = true ∧
      (register_set s C).2.2.property_sets = s.property_sets ++ [C] ∧
      (register_set s C).2.2.property_set_map =
        (C, s.property_sets.length) :: s.property_set_map ∧
      mapFind SetEqual (register_set s C).2.2.property_set_map C =
        some s.property_sets.length) ∧
    (∀ cs : List (List α), coldIndices (registerAll s cs).1 =
      List.range' s.property_sets.length (coldIndices (registerAll s cs).1).length) ∧
    (LatticeHashForest.new : LatticeHashForest α).property_sets.length = 1 := by
  have hi := hs.inv
  refine ⟨?_, ?_, fun cs => coldIndices_registerAll cs s hi, rfl⟩
  · intro i hC
    have hf := (find_eq_some_iff hi.nodup hi.map_matches C i).mpr
      (getElem?_of_get_value hi i C hC)
    rw [register_set_of_some s C i hf]
    exact ⟨rfl, rfl, SameForest.of_perf_inc _ _ _⟩
  · intro hC
    have hf : mapFind SetEqual s.property_set_map C = none := by
      cases hf : mapFind SetEqual s.property_set_map C with
      | none => rfl
      | some i =>
        exact absurd (get_value_of_getElem? _ _
          ((find_eq_some_iff hi.nodup hi.map_matches C i).mp hf)) (hC i)
    rw [register_set_of_none s C hf]
    refine ⟨rfl, rfl, rfl, rfl, ?_⟩
    show mapFind SetEqual ((C, s.property_sets.length) :: s.property_set_map) C = _
    simp only [mapFind, (SetEqual_iff C C).mpr rfl, if_true]

/-- C15 witness: on a fresh forest the run `1`, empty, `2`, `1`, `3 4` misses
three times and hands out the indices `1`, `2`, `3`. -/
theorem C15_registration_witness :
    Reachable fresh ∧
    coldIndices (registerAll fresh [[1], [], [2], [1], [3, 4]]).1 = List.range' 1 3 ∧
    coldIndices (registerAll fresh [[1], [], [2], [1], [3, 4]]).1 = [1, 2, 3] :=
  ⟨fresh_reachable,
    (C15_registration fresh fresh_reachable []).2.2.1 [[1], [], [2], [1], [3, 4]],
    by decide⟩

/-- C16, what the code does: for a valid non-empty index whose stored set `v`
is strictly ascending (and shorter than `2^63`) and an element `e`, `contains`
returns whether `e` is an element of `v` when `v` is no longer than the
threshold, and also when `v` is longer and its first element is not above `e`;
when `v` is longer than the threshold and `e` is below its first element, `e`
is not an element, but the call does not return `false`: the binary search
takes `high = mid - 1` at `mid = 0`, wraps to `2^64 - 1` and reads
`s[2^63 - 1]`, outside the stored sequence. -/
theorem C16_contains_outcome (threshold : Nat) (s : LatticeHashForest α) (i : Index) (e : α)
    (v : List α) (hv : get_value s i = .ok v) (hi : i ≠ EMPTY_SET)
    (hs : v.Pairwise (· < ·)) (hlen : v.length < 2 ^ 63) :
    (v.length ≤ threshold → contains threshold s i e = .returned (decide (e ∈ v))) ∧
    (threshold < v.length → (∀ x, v[0]? = some x → x ≤ e) →
      contains threshold s i e = .returned (decide (e ∈ v))) ∧
    (threshold < v.length → (∀ x, v[0]? = some x → e < x) →
      e ∉ v ∧ contains threshold s i e = .readOutside (2 ^ 63 - 1)) := by
  refine ⟨fun ht => contains_small threshold s i e v hv hi ht,
    fun ht hfirst => contains_sorted threshold s i e v hv hi ht hlen hs hfirst, ?_⟩
  intro ht hfirst
  have hall : ∀ x ∈ v, e < x := by
    cases v with
    | nil => intro x hx; cases hx
    | cons a rest =>
      have ha : e < a := hfirst a (List.getElem?_cons_zero)
      intro x hx
      rcases List.mem_cons.mp hx with rfl | hx
      · exact ha
      · exact lt_trans ha ((List.pairwise_cons.mp hs).1 x hx)
  exact ⟨fun hmem => lt_irrefl e (hall e hmem),
    contains_below threshold s i e v hv hi ht hlen hall⟩

/-- C16 witness, the failing input: with threshold `16`, in the reachable
forest holding the strictly ascending set `1, ..., 17` at index `1`,
`contains(1, 0)` reads `s[2^63 - 1]`, far outside the seventeen stored
elements, where `false` is due; the elements `9` (stored) and `18` (above the
last) are answered. -/
theorem C16_contains_outcome_witness :
    Reachable seventeenForest ∧
    get_value seventeenForest 1 =
      .ok [1, 2, 3, 4, 5, 6, 7, 8, 9, 10, 11, 12, 13, 14, 15, 16, 17] ∧
    [1, 2, 3, 4, 5, 6, 7, 8, 9, 10, 11, 12, 13, 14, 15, 16, 17].Pairwise (· < ·) ∧
    (0 ∉ [1, 2, 3, 4, 5, 6, 7, 8, 9, 10, 11, 12, 13, 14, 15, 16, 17] ∧
      contains 16 seventeenForest 1 0 = .readOutside (2 ^ 63 - 1)) ∧
    contains 16 seventeenForest 1 9 = .returned true ∧
    contains 16 seventeenForest 1 18 = .returned false :=
  ⟨seventeenForest_reachable, by decide, by decide,
    (C16_contains_outcome 16 seventeenForest 1 0
      [1, 2, 3, 4, 5, 6, 7, 8, 9, 10, 11, 12, 13, 14, 15, 16, 17]
      (by decide) (by decide) (by decide) (by decide)).2.2 (by decide)
      (fun x h => Option.some.inj h ▸ (by decide)),
    by decide, by decide⟩

/-- C17, as stated, fails: after `register_set({1,2,3})` (index `1`),
`register_set({2})` (index `2`) and `set_intersection(1, 2)` the subset cache
holds `SUPERSET` under the ordered key `(1, 2)`, and `is_subset(1, 2)` returns
it, but `is_subset(2, 1)` returns `UNKNOWN`. -/
theorem C17_counterexample :
    Reachable intersectedForest ∧ pairInvalid intersectedForest 2 1 = false ∧
    mapFind OperationNode.eq intersectedForest.subsets ⟨min 2 1, max 2 1⟩ = some .SUPERSET ∧
    is_subset intersectedForest 2 1 = .ok .UNKNOWN ∧
    is_subset intersectedForest 1 2 = .ok .SUPERSET := by
  refine ⟨intersectedForest_reachable, by decide, by decide, by decide, by decide⟩

/-- C17, amended: `is_subset` looks the pair up as given. In any state and for
valid indices `a`, `b` it returns the relation stored under the key `(a, b)`,
`UNKNOWN` if there is none; for `a < b` that key is the ordered key
`(min(a,b), max(a,b))`; for `b < a` it returns `UNKNOWN` in every reachable
state, whatever is stored under the ordered key. -/
theorem C17_is_subset_as_given (s : LatticeHashForest α) (a b : Index)
    (hv : pairInvalid s a b = false) :
    is_subset s a b = .ok ((mapFind OperationNode.eq s.subsets ⟨a, b⟩).getD .UNKNOWN) ∧
    (a < b → is_subset s a b =
      .ok ((mapFind OperationNode.eq s.subsets ⟨min a b, max a b⟩).getD .UNKNOWN)) ∧
    (Reachable s → b < a → is_subset s a b = .ok .UNKNOWN) := by
  have h1 : is_subset s a b =
      .ok ((mapFind OperationNode.eq s.subsets ⟨a, b⟩).getD .UNKNOWN) := by
    unfold is_subset
    rw [hv]
    cases mapFind OperationNode.eq s.subsets ⟨a, b⟩ <;> rfl
  refine ⟨h1, ?_, ?_⟩
  · intro hab
    rw [h1, min_eq_left (Nat.le_of_lt hab), max_eq_right (Nat.le_of_lt hab)]
  · intro hs hba
    rw [h1]
    cases hf : mapFind OperationNode.eq s.subsets ⟨a, b⟩ with
    | none => rfl
    | some rel =>
      exact absurd (reachable_orderedSubsets hs a b rel hf) (Nat.lt_asymm hba)

/-- C17 witness: the pair `(1, 2)` of the forest after `set_intersection(1, 2)`,
asked in both orders. -/
theorem C17_is_subset_as_given_witness :
    Reachable intersectedForest ∧ pairInvalid intersectedForest 1 2 = false ∧
    pairInvalid intersectedForest 2 1 = false ∧
    is_subset intersectedForest 1 2 =
      .ok ((mapFind OperationNode.eq intersectedForest.subsets ⟨min 1 2, max 1 2⟩).getD
        .UNKNOWN) ∧
    is_subset intersectedForest 2 1 = .ok .UNKNOWN :=
  ⟨intersectedForest_reachable, by decide, by decide,
    (C17_is_subset_as_given intersectedForest 1 2 (by decide)).2.1 (by decide),
    (C17_is_subset_as_given intersectedForest 2 1 (by decide)).2.2
      intersectedForest_reachable (by decide)⟩

/-- C18: in every reachable state, for a valid non-empty index `i`, any
predicate and a caller cache without an entry for `i`, `set_filter` returns an
index whose stored set is the subsequence of `value(i)` of the elements that
satisfy the predicate, and hands back the old cache with the one entry from
`i` to that index added. -/
theorem C18_filter_miss (s : LatticeHashForest α) (hs : Reachable s) (i : Index)
    (pred : α → Bool) (cache : List (Index × Index)) (V : List α)
    (hV : get_value s i = .ok V) (hi : i ≠ EMPTY_SET)
    (hc : mapFind (fun x y => decide (x = y)) cache i = none) :
    ∃ r, (set_filter s i pred cache).1 = .ok r ∧
      get_value (set_filter s i pred cache).2.1 r = .ok (V.filter pred) ∧
      get_value (set_filter s i pred cache).2.1 i = .ok V ∧
      (set_filter s i pred cache).2.2 = (i, r) :: cache ∧
      ∀ k, mapFind (fun x y => decide (x = y)) (set_filter s i pred cache).2.2 k =
        if i = k then some r else mapFind (fun x y => decide (x = y)) cache k := by
  have hV1 := getElem?_of_get_value hs.inv i V hV
  have hvalid := indexInvalid_of_getElem? i V hV1
  obtain ⟨h1, h2, h3⟩ := register_set_spec hs.inv (V.filter pred)
  have hext : Extends s (register_set s (V.filter pred)).2.2 := h3
  have heq : set_filter s i pred cache =
      (.ok (register_set s (V.filter pred)).1,
        LHF_PERF_INC (register_set s (V.filter pred)).2.2 "filter"
          (if (register_set s (V.filter pred)).2.1 then .cold_misses else .edge_misses),
        (i, (register_set s (V.filter pred)).1) :: cache) := by
    unfold set_filter
    rw [hvalid, is_empty_eq_false i hi, hc, hV]
    simp only [Bool.false_eq_true, if_false, mapInsert, hc]
  rw [heq]
  refine ⟨_, rfl, get_value_of_getElem? _ _ h2,
    get_value_of_getElem? _ _ (hext.getElem? i V hV1), rfl, ?_⟩
  intro k
  by_cases hik : i = k
  · simp [mapFind, hik]
  · simp [mapFind, hik]

/-- C18 witness: keeping the odd elements of the set `1, 2, 3` at index `1`,
with an empty caller cache. -/
theorem C18_filter_miss_witness :
    Reachable sortedForest ∧ get_value sortedForest 1 = .ok [1, 2, 3] ∧
    ∃ r, (set_filter sortedForest 1 (fun x => decide (x % 2 = 1)) []).1 = .ok r ∧
      get_value (set_filter sortedForest 1 (fun x => decide (x % 2 = 1)) []).2.1 r =
        .ok ([1, 2, 3].filter (fun x => decide (x % 2 = 1))) ∧
      (set_filter sortedForest 1 (fun x => decide (x % 2 = 1)) []).2.2 = [(1, r)] :=
  have h := C18_filter_miss sortedForest sortedForest_reachable 1
    (fun x => decide (x % 2 = 1)) [] [1, 2, 3] (by decide) (by decide) (by decide)
  ⟨sortedForest_reachable, by decide, h.choose, h.choose_spec.1, h.choose_spec.2.1,
    h.choose_spec.2.2.2.1⟩

/-- C19: in any state, for any predicate and any caller cache, empty or not,
`set_filter(EMPTY_SET, pred, cache)` returns `EMPTY_SET` and leaves the state
and the caller cache exactly as they were, whatever the cache holds for index
`0`; and for every valid non-empty index `i` for which the cache holds `r`,
`set_filter` returns `r` whatever the predicate is, leaves the caller cache as
it was and changes nothing of the forest but a counter. -/
theorem C19_filter_short_circuits (s : LatticeHashForest α) (pred : α → Bool)
    (cache : List (Index × Index)) :
    set_filter s EMPTY_SET pred cache = (.ok EMPTY_SET, s, cache) ∧
    ∀ (i r : Index), indexInvalid s i = false → i ≠ EMPTY_SET →
      mapFind (fun x y => decide (x = y)) cache i = some r →
      (set_filter s i pred cache).1 = .ok r ∧
      SameForest s (set_filter s i pred cache).2.1 ∧
      (set_filter s i pred cache).2.2 = cache ∧
      ∀ other : α → Bool, set_filter s i other cache = set_filter s i pred cache := by
  have h0 : set_filter s EMPTY_SET pred cache = (.ok EMPTY_SET, s, cache) := by
    unfold set_filter
    rw [show indexInvalid s EMPTY_SET = false from indexInvalid_zero s]
    rfl
  refine ⟨h0, ?_⟩
  intro i r hv hi hc
  have h1 : ∀ g : α → Bool, set_filter s i g cache =
      (.ok r, LHF_PERF_INC s "filter" .hits, cache) := by
    intro g
    unfold set_filter
    rw [hv, is_empty_eq_false i hi, hc]
    rfl
  rw [h1 pred]
  exact ⟨rfl, SameForest.of_perf_inc _ _ _, rfl, fun g => h1 g⟩

/-- C19 witness: the fresh forest with an empty caller cache, the forest
holding `1, 2, 3` and `2` with a caller cache that holds only an entry for
index `0`, and index `1` of that forest with a caller cache that maps `1` to
`2` and `0` to `1`. -/
theorem C19_filter_short_circuits_witness :
    set_filter fresh EMPTY_SET (fun _ => true) [] = (.ok EMPTY_SET, fresh, []) ∧
    set_filter sortedForest EMPTY_SET (fun _ => true) [(0, 1)] =
      (.ok EMPTY_SET, sortedForest, [(0, 1)]) ∧
    indexInvalid sortedForest 1 = false ∧
    mapFind (fun x y => decide (x = y)) [(1, 2), (0, 1)] 1 = some 2 ∧
    set_filter sortedForest EMPTY_SET (fun _ => true) [(1, 2), (0, 1)] =
      (.ok EMPTY_SET, sortedForest, [(1, 2), (0, 1)]) ∧
    (set_filter sortedForest 1 (fun _ => true) [(1, 2), (0, 1)]).1 = .ok 2 ∧
    (set_filter sortedForest 1 (fun _ => true) [(1, 2), (0, 1)]).2.2 = [(1, 2), (0, 1)] :=
  have h := C19_filter_short_circuits sortedForest (fun _ => true) [(1, 2), (0, 1)]
  have h1 := h.2 1 2 (by decide) (by decide) (by decide)
  ⟨(C19_filter_short_circuits fresh (fun _ => true) []).1,
    (C19_filter_short_circuits sortedForest (fun _ => true) [(0, 1)]).1,
    by decide, by decide, h.1, h1.1, h1.2.2.1⟩

/-- C20, what the code does: in a state with `n > 0` stored sets and for an
index `i ≥ n`, the operations `get_value`, `is_subset`, `set_union`,
`set_intersection`, `set_difference` and `set_filter` raise the invalid index
error and leave the state as it was, whichever operand `i` is. The wrappers
`set_insert_single(i, e)` and `set_remove_single(i, e)` register the singleton
of `e` before the index is checked: when that singleton is stored already they
raise and change nothing of the forest but a counter; when it is not, the
store after the call has the singleton appended, the call raises for `i > n`,
and for `i = n` it raises nothing and returns `n`, respectively `EMPTY_SET`. -/
theorem C20_invalid_index (s : LatticeHashForest α) (i j : Nat) (e : α)
    (f : α → Bool) (cache : List (Index × Index))
    (hpos : 0 < s.property_sets.length) (hi : s.property_sets.length ≤ i) :
    (get_value s i = .error .invalidIndex ∧
      is_subset s i j = .error .invalidIndex ∧ is_subset s j i = .error .invalidIndex ∧
      set_union s i j = (.error .invalidIndex, s) ∧
      set_union s j i = (.error .invalidIndex, s) ∧
      set_intersection s i j = (.error .invalidIndex, s) ∧
      set_intersection s j i = (.error .invalidIndex, s) ∧
      set_difference s i j = (.error .invalidIndex, s) ∧
      set_difference s j i = (.error .invalidIndex, s) ∧
      set_filter s i f cache = (.error .invalidIndex, s, cache)) ∧
    (∀ k, mapFind SetEqual s.property_set_map [e] = some k →
      (set_insert_single s i e).1 = .error .invalidIndex ∧
      SameForest s (set_insert_single s i e).2 ∧
      (set_remove_single s i e).1 = .error .invalidIndex ∧
      SameForest s (set_remove_single s i e).2) ∧
    (mapFind SetEqual s.property_set_map [e] = none →
      (set_insert_single s i e).2.property_sets = s.property_sets ++ [[e]] ∧
      (set_remove_single s i e).2.property_sets = s.property_sets ++ [[e]] ∧
      (s.property_sets.length < i →
        (set_insert_single s i e).1 = .error .invalidIndex ∧
        (set_remove_single s i e).1 = .error .invalidIndex) ∧
      (i = s.property_sets.length →
        (set_insert_single s i e).1 = .ok i ∧
        (set_remove_single s i e).1 = .ok EMPTY_SET)) :=
  ⟨invalid_index_rejected s i j hpos hi f cache,
    fun k hf => single_wrappers_hit s i e k hpos hi hf,
    fun hf => single_wrappers_cold s i e hpos hi hf⟩

/-- C20 witness, the failing inputs: a fresh forest stores `n = 1` set, so the
indices `1` and `5` are invalid. `set_insert_single(5, 7)` and
`set_remove_single(5, 7)` raise the invalid index error but leave the singleton
of `7` in the store and in the property set map; `set_insert_single(1, 7)` and
`set_remove_single(1, 7)` raise nothing, because the singleton registered first
has made index `1` valid. -/
theorem C20_invalid_index_witness :
    fresh.property_sets = [[]] ∧ indexInvalid fresh 1 = true ∧ indexInvalid fresh 5 = true ∧
    set_union fresh 5 0 = (.error .invalidIndex, fresh) ∧
    ((set_insert_single fresh 5 7).1 = .error .invalidIndex ∧
      (set_remove_single fresh 5 7).1 = .error .invalidIndex) ∧
    (set_insert_single fresh 5 7).2.property_sets = fresh.property_sets ++ [[7]] ∧
    (set_insert_single fresh 5 7).2.property_sets = [[], [7]] ∧
    (set_insert_single fresh 5 7).2.property_set_map = [([7], 1), ([], 0)] ∧
    (set_remove_single fresh 5 7).2.property_sets = [[], [7]] ∧
    ((set_insert_single fresh 1 7).1 = .ok 1 ∧
      (set_remove_single fresh 1 7).1 = .ok EMPTY_SET) :=
  have h5 := C20_invalid_index fresh 5 0 7 (fun _ => true) [] (by decide) (by decide)
  have h1 := C20_invalid_index fresh 1 0 7 (fun _ => true) [] (by decide) (by decide)
  ⟨by decide, by decide, by decide, h5.1.2.2.2.1, (h5.2.2 (by decide)).2.2.1 (by decide),
    (h5.2.2 (by decide)).1, by decide, by decide, by decide,
    (h1.2.2 (by decide)).2.2.2 (by decide)⟩

/-- C21, as stated, fails: in the reachable forest that holds `1, 2, 3` at index
`1` and `2` at index `2`, no union has been requested and the subset cache is
empty. The first `set_union(1, 2)` is an edge miss, its result being the operand
`1`; the second is answered by the subset cache: `hits` stays `0` and
`subset_hits` becomes `1`. -/
theorem C21_counterexample :
    Reachable sortedForest ∧ sortedForest.unions = [] ∧ sortedForest.subsets = [] ∧
    pairInvalid sortedForest 1 2 = false ∧
    (set_union sortedForest 1 2).1 = .ok 1 ∧
    (set_union (set_union sortedForest 1 2).2 1 2).1 = .ok 1 ∧
    perfGet sortedForest.perf "unions" = {} ∧
    perfGet (set_union sortedForest 1 2).2.perf "unions" = { edge_misses := 1 } ∧
    perfGet (set_union (set_union sortedForest 1 2).2 1 2).2.perf "unions" =
      { subset_hits := 1, edge_misses := 1 } := by
  refine ⟨sortedForest_reachable, by decide, by decide, by decide, by decide, by decide,
    by decide, by decide, by decide⟩

/-- C21, amended: in every reachable state, for distinct non-empty valid indices
`a`, `b` whose ordered pair has no entry in the subset cache and none in the
union cache, two calls of `set_union(a, b)` in a row return the same index and
raise `cold_misses + edge_misses` of the group `unions` by exactly one, in the
first call; `equal_hits` and `empty_hits` stay. The second call raises `hits`
by one when the result is neither operand, and `subset_hits` by one, with
`hits` unchanged, when the result is one of the operands. -/
theorem C21_union_counters (s : LatticeHashForest α) (hs : Reachable s) (a b : Index)
    (hv : pairInvalid s a b = false) (hab : a ≠ b) (ha : a ≠ EMPTY_SET) (hb : b ≠ EMPTY_SET)
    (hsub : mapFind OperationNode.eq s.subsets ⟨min a b, max a b⟩ = none)
    (hun : mapFind OperationNode.eq s.unions ⟨min a b, max a b⟩ = none) :
    ∃ r s1 s2, set_union s a b = (.ok r, s1) ∧ set_union s1 a b = (.ok r, s2) ∧
      (perfGet s1.perf "unions").cold_misses + (perfGet s1.perf "unions").edge_misses =
        (perfGet s.perf "unions").cold_misses + (perfGet s.perf "unions").edge_misses + 1 ∧
      (perfGet s2.perf "unions").cold_misses + (perfGet s2.perf "unions").edge_misses =
        (perfGet s.perf "unions").cold_misses + (perfGet s.perf "unions").edge_misses + 1 ∧
      (perfGet s2.perf "unions").equal_hits = (perfGet s.perf "unions").equal_hits ∧
      (perfGet s2.perf "unions").empty_hits = (perfGet s.perf "unions").empty_hits ∧
      (r ≠ min a b → r ≠ max a b →
        (perfGet s2.perf "unions").hits = (perfGet s.perf "unions").hits + 1 ∧
        (perfGet s2.perf "unions").subset_hits = (perfGet s.perf "unions").subset_hits) ∧
      (r = min a b ∨ r = max a b →
        (perfGet s2.perf "unions").hits = (perfGet s.perf "unions").hits ∧
        (perfGet s2.perf "unions").subset_hits =
          (perfGet s.perf "unions").subset_hits + 1) := by
  obtain ⟨X, Y, ret, cold, s0, s1, _, _, _, hreg, hs1, h1, h2⟩ :=
    set_union_miss_run hs.inv a b hv hab ha hb hsub hun
  have hp0 : perfGet s0.perf "unions" = perfGet s.perf "unions" := by
    have h := register_set_perf s (unionMerge X Y) "unions" (by decide)
    rw [hreg] at h
    exact h
  have hp1 : perfGet s1.perf "unions" =
      (perfGet s.perf "unions").incr (if cold then .cold_misses else .edge_misses) := by
    rw [hs1, perfGet_LHF_PERF_INC_same, ← hp0]
  have hp2 : ∀ c, perfGet (LHF_PERF_INC s1 "unions" c).perf "unions" =
      ((perfGet s.perf "unions").incr (if cold then .cold_misses else .edge_misses)).incr c := by
    intro c
    rw [perfGet_LHF_PERF_INC_same, hp1]
  refine ⟨ret, s1, _, h1, h2, ?_, ?_, ?_, ?_, ?_, ?_⟩
  · rw [hp1]
    cases cold <;> simp [OperationPerf.incr] <;> omega
  · rw [hp2]
    cases cold <;> split_ifs <;> simp [OperationPerf.incr] <;> omega
  · rw [hp2]
    cases cold <;> split_ifs <;> simp [OperationPerf.incr]
  · rw [hp2]
    cases cold <;> split_ifs <;> simp [OperationPerf.incr]
  · intro hr1 hr2
    rw [hp2, if_neg (not_or.mpr ⟨hr1, hr2⟩)]
    cases cold <;> simp [OperationPerf.incr]
  · intro hr
    rw [hp2, if_pos hr]
    cases cold <;> simp [OperationPerf.incr]

/-- C21 witness: two calls of `set_union(1, 2)` on the forest holding `1, 2, 3`
and `2, 3, 4`, whose union is a new set, and on the forest holding `1, 2, 3`
and `2`, whose union is the first operand. -/
theorem C21_union_counters_witness :
    (Reachable overlapForest ∧
      (set_union overlapForest 1 2).1 = .ok 3 ∧
      perfGet (set_union (set_union overlapForest 1 2).2 1 2).2.perf "unions" =
        { hits := 1, cold_misses := 1 }) ∧
    ∃ r s1 s2, set_union sortedForest 1 2 = (.ok r, s1) ∧ set_union s1 1 2 = (.ok r, s2) ∧
      (perfGet s2.perf "unions").cold_misses + (perfGet s2.perf "unions").edge_misses =
        (perfGet sortedForest.perf "unions").cold_misses +
          (perfGet sortedForest.perf "unions").edge_misses + 1 ∧
      (r = min 1 2 ∨ r = max 1 2 →
        (perfGet s2.perf "unions").hits = (perfGet sortedForest.perf "unions").hits ∧
        (perfGet s2.perf "unions").subset_hits =
          (perfGet sortedForest.perf "unions").subset_hits + 1) :=
  have h := C21_union_counters sortedForest sortedForest_reachable 1 2 (by decide) (by decide)
    (by decide) (by decide) (by decide) (by decide)
  ⟨⟨overlapForest_reachable, by decide, by decide⟩,
    h.choose, h.choose_spec.choose, h.choose_spec.choose_spec.choose,
    h.choose_spec.choose_spec.choose_spec.1, h.choose_spec.choose_spec.choose_spec.2.1,
    h.choose_spec.choose_spec.choose_spec.2.2.2.1,
    h.choose_spec.choose_spec.choose_spec.2.2.2.2.2.2.2⟩

/-- C22, as stated, fails: in the reachable forest that holds the unsorted
vector `2, 1` at index `1` and `1` at index `3` (the result of
`set_difference(1, 2)`, recorded as a subset of index `1`), the call
`set_difference(1, 3)` misses the cache and returns its first operand `1`; the
intersection cache then holds `(1, 3) -> EMPTY_SET`, but the next
`set_intersection(1, 3)` and `set_intersection(3, 1)` are answered by the
subset cache and return index `3`. -/
theorem C22_counterexample :
    Reachable tangledForest ∧
    get_value tangledForest 1 = .ok [2, 1] ∧ get_value tangledForest 3 = .ok [1] ∧
    mapFind OperationNode.eq tangledForest.differences ⟨1, 3⟩ = none ∧
    (set_difference tangledForest 1 3).1 = .ok 1 ∧
    mapFind OperationNode.eq (set_difference tangledForest 1 3).2.intersections ⟨1, 3⟩ =
      some EMPTY_SET ∧
    (set_intersection (set_difference tangledForest 1 3).2 1 3).1 = .ok 3 ∧
    (set_intersection (set_difference tangledForest 1 3).2 3 1).1 = .ok 3 := by
  refine ⟨tangledForest_reachable, by decide, by decide, by decide, by decide, by decide,
    by decide, by decide⟩

/-- C22, amended: in every reachable state, for distinct non-empty valid indices
`a`, `b`, when `set_difference(a, b)` misses the difference cache and returns
`a`, the intersection cache afterwards holds `EMPTY_SET` under the ordered key
and the subset cache is as before. If the subset cache has no entry under the
ordered key, the next `set_intersection(a, b)` and `set_intersection(b, a)`
return `EMPTY_SET` and change nothing of the forest but a counter; and it has no
such entry whenever the two stored sets are strictly ascending. -/
theorem C22_difference_primes_intersection (s : LatticeHashForest α) (hs : Reachable s)
    (a b : Index) (A B : List α) (hA : get_value s a = .ok A) (hB : get_value s b = .ok B)
    (hab : a ≠ b) (ha : a ≠ EMPTY_SET) (hb : b ≠ EMPTY_SET)
    (hmiss : mapFind OperationNode.eq s.differences ⟨a, b⟩ = none)
    (hres : (set_difference s a b).1 = .ok a) :
    mapFind OperationNode.eq (set_difference s a b).2.intersections ⟨min a b, max a b⟩ =
      some EMPTY_SET ∧
    (set_difference s a b).2.subsets = s.subsets ∧
    (mapFind OperationNode.eq s.subsets ⟨min a b, max a b⟩ = none →
      set_intersection (set_difference s a b).2 a b =
        (.ok EMPTY_SET, LHF_PERF_INC (set_difference s a b).2 "intersections" .hits) ∧
      set_intersection (set_difference s a b).2 b a =
        (.ok EMPTY_SET, LHF_PERF_INC (set_difference s a b).2 "intersections" .hits) ∧
      SameForest (set_difference s a b).2
        (set_intersection (set_difference s a b).2 a b).2) ∧
    (A.Pairwise (· < ·) → B.Pairwise (· < ·) →
      mapFind OperationNode.eq s.subsets ⟨min a b, max a b⟩ = none) := by
  have hi := hs.inv
  have hA1 := getElem?_of_get_value hi a A hA
  have hB1 := getElem?_of_get_value hi b B hB
  have hv := pairInvalid_of_getElem? a b A B hA1 hB1
  have hnorm := set_difference_normal s a b hv hab ha hb
  rw [hmiss] at hnorm
  rcases hreg : register_set s (diffMerge A B) with ⟨ret, cold, s0⟩
  have heq := hnorm.trans (set_difference_miss_eq hi a b A B hA1 hB1 ret cold s0 hreg)
  obtain ⟨hi0, hret, hstore, _, hint0, _, hsub0⟩ := register_set_facts hi _ ret cold s0 hreg
  have hext : Extends s s0 := by
    rcases hstore with h | h
    · exact ⟨[], by rw [h, List.append_nil]⟩
    · exact ⟨_, h⟩
  have hra : ret = a := by
    rw [heq] at hres
    exact Except.ok.inj hres
  have hD : diffMerge A B = A := by
    rw [hra, hext.getElem? a A hA1] at hret
    exact (Option.some.inj hret).symm
  have hI : interMerge A B = [] := interMerge_nil_of_diffMerge_eq A B hD
  have hpost := set_difference_inv hi a b
  have hv2 : pairInvalid (set_difference s a b).2 a b = false := by
    rw [heq]
    exact pairInvalid_of_getElem? (s := s0) a b A B (hext.getElem? a A hA1)
      (hext.getElem? b B hB1)
  have hA2 : (set_difference s a b).2.property_sets[a]? = some A := by
    rw [heq]
    exact hext.getElem? a A hA1
  have hB2 : (set_difference s a b).2.property_sets[b]? = some B := by
    rw [heq]
    exact hext.getElem? b B hB1
  have hsubs : (set_difference s a b).2.subsets = s.subsets := by
    rw [heq]
    show (if ret ≠ a then recordSubset s0.subsets ret a else s0.subsets) = _
    rw [if_neg (not_not.mpr hra), hsub0]
  have hentry : mapFind OperationNode.eq (set_difference s a b).2.intersections
      ⟨min a b, max a b⟩ = some EMPTY_SET := by
    have hex : ∃ w, mapFind OperationNode.eq (set_difference s a b).2.intersections
        ⟨min a b, max a b⟩ = some w := by
      rw [heq]
      show ∃ w, mapFind OperationNode.eq
        (if ret ≠ a then s0.intersections
          else mapInsert OperationNode.eq s0.intersections ⟨min a b, max a b⟩ EMPTY_SET)
        ⟨min a b, max a b⟩ = some w
      rw [if_neg (not_not.mpr hra)]
      exact mapFind_insert_self _ OperationNode.eq_iff _ _ _
    obtain ⟨w, hw⟩ := hex
    obtain ⟨X, Y, hX, hY, hW⟩ := hpost.intersections_exact _ _ w hw
    have hnil : interMerge X Y = [] := by
      rcases Nat.le_total a b with hle | hle
      · rw [min_eq_left hle] at hX
        rw [max_eq_right hle] at hY
        rw [Option.some.inj (hX.symm.trans hA2), Option.some.inj (hY.symm.trans hB2)]
        exact hI
      · rw [min_eq_right hle] at hX
        rw [max_eq_left hle] at hY
        rw [Option.some.inj (hX.symm.trans hB2), Option.some.inj (hY.symm.trans hA2),
          interMerge_comm]
        exact hI
    rw [hnil] at hW
    rw [hw, hpost.eq_zero_of_nil w hW]
    rfl
  refine ⟨hentry, hsubs, ?_, ?_⟩
  · intro hnone
    have h1 : set_intersection (set_difference s a b).2 a b =
        (.ok EMPTY_SET, LHF_PERF_INC (set_difference s a b).2 "intersections" .hits) := by
      rw [set_intersection_normal _ a b hv2 hab ha hb, hsubs, hnone, hentry]
    refine ⟨h1, ?_, ?_⟩
    · rw [set_intersection_swap]
      exact h1
    · rw [h1]
      exact SameForest.of_perf_inc _ _ _
  · intro hAs hBs
    have hdisj : ∀ x, x ∈ A → x ∉ B := by
      intro x hx
      rw [← hD] at hx
      exact ((mem_diffMerge_iff A B hAs hBs x).mp hx).2
    have hAne : A ≠ [] := fun h => ha (hi.eq_zero_of_nil a (h ▸ hA1))
    have hBne : B ≠ [] := fun h => hb (hi.eq_zero_of_nil b (h ▸ hB1))
    obtain ⟨x, hx⟩ := List.exists_mem_of_ne_nil A hAne
    obtain ⟨y, hy⟩ := List.exists_mem_of_ne_nil B hBne
    have hnAB : ¬ A ⊆ B := fun h => hdisj x hx (h hx)
    have hnBA : ¬ B ⊆ A := fun h => hdisj y (h hy) hy
    cases hf : mapFind OperationNode.eq s.subsets ⟨min a b, max a b⟩ with
    | none => rfl
    | some rel =>
      exfalso
      obtain ⟨hu, X, Y, hX, hY, h1, h2⟩ := hi.subsets_sound _ _ rel hf
      rcases Nat.le_total a b with hle | hle
      · rw [min_eq_left hle] at hX
        rw [max_eq_right hle] at hY
        have e1 : X = A := Option.some.inj (hX.symm.trans hA1)
        have e2 : Y = B := Option.some.inj (hY.symm.trans hB1)
        subst e1 e2
        cases rel with
        | UNKNOWN => exact hu rfl
        | SUBSET => exact hnAB (h1 rfl)
        | SUPERSET => exact hnBA (h2 rfl)
      · rw [min_eq_right hle] at hX
        rw [max_eq_left hle] at hY
        have e1 : X = B := Option.some.inj (hX.symm.trans hB1)
        have e2 : Y = A := Option.some.inj (hY.symm.trans hA1)
        subst e1 e2
        cases rel with
        | UNKNOWN => exact hu rfl
        | SUBSET => exact hnBA (h1 rfl)
        | SUPERSET => exact hnAB (h2 rfl)

/-- C22 witness: the disjoint sets `1, 2, 3` (index `1`) and `4, 5` (index `2`). -/
theorem C22_difference_primes_intersection_witness :
    Reachable disjointForest ∧
    (set_difference disjointForest 1 2).1 = .ok 1 ∧
    mapFind OperationNode.eq (set_difference disjointForest 1 2).2.intersections
      ⟨min 1 2, max 1 2⟩ = some EMPTY_SET ∧
    (set_intersection (set_difference disjointForest 1 2).2 1 2).1 = .ok EMPTY_SET ∧
    (set_intersection (set_difference disjointForest 1 2).2 2 1).1 = .ok EMPTY_SET :=
  have h := C22_difference_primes_intersection disjointForest disjointForest_reachable 1 2
    [1, 2, 3] [4, 5] (by decide) (by decide) (by decide) (by decide) (by decide) (by decide)
    (by decide)
  ⟨disjointForest_reachable, by decide, h.1,
    congrArg Prod.fst (h.2.2.1 (h.2.2.2 (by decide) (by decide))).1,
    congrArg Prod.fst (h.2.2.1 (h.2.2.2 (by decide) (by decide))).2.1⟩

/-- C23: for an edge `(src, dst)` of 32-bit node ids that is in the graph,
`getEdgeProperty` returns the 64-bit pattern `src * 2^32 + dst`, that is
`(src << 32) | dst`, and `getEdge` gives the edge back; two edges of the graph
with the same packed value are the same edge; and for one source the packed
values, compared as `long long`, are in the order of the targets. An edge that
is not in the graph is rejected. -/
theorem C23_edge_packing (graph : List EdgeT) (src dst : Nat)
    (hs : src < 2 ^ 32) (hd : dst < 2 ^ 32) (hmem : (src, dst) ∈ graph) :
    getEdgeProperty graph (src, dst) = .ok (src * 2 ^ 32 + dst) ∧
    src * 2 ^ 32 + dst < 2 ^ 64 ∧
    getEdge (src * 2 ^ 32 + dst) = (src, dst) ∧
    (∀ p, getEdgeProperty graph (src, dst) = .ok p → getEdge p = (src, dst)) ∧
    (∀ src2 dst2 p, src2 < 2 ^ 32 → dst2 < 2 ^ 32 →
      getEdgeProperty graph (src2, dst2) = .ok p →
      getEdgeProperty graph (src, dst) = .ok p → (src2, dst2) = (src, dst)) ∧
    (∀ dst2 p q, dst2 < 2 ^ 32 →
      getEdgeProperty graph (src, dst) = .ok p →
      getEdgeProperty graph (src, dst2) = .ok q →
      (signedValue p < signedValue q ↔ dst < dst2)) ∧
    (∀ edge, edge ∉ graph → getEdgeProperty graph edge = .error .invalidEdge) := by
  have hp := getEdgeProperty_of_mem graph src dst hs hd hmem
  have hg := getEdge_pack src dst hs hd
  refine ⟨hp, by omega, hg, ?_, ?_, ?_, fun e he => getEdgeProperty_of_not_mem graph e he⟩
  · intro p h
    rw [hp] at h
    rw [← Except.ok.inj h]
    exact hg
  · intro src2 dst2 p hs2 hd2 h2 h1
    have hmem2 : (src2, dst2) ∈ graph := by
      by_contra hn
      rw [getEdgeProperty_of_not_mem graph _ hn] at h2
      cases h2
    rw [getEdgeProperty_of_mem graph src2 dst2 hs2 hd2 hmem2] at h2
    rw [hp] at h1
    have e1 := Except.ok.inj h1
    have e2 := Except.ok.inj h2
    have e3 : src2 * 2 ^ 32 + dst2 = src * 2 ^ 32 + dst := e2.trans e1.symm
    rw [← getEdge_pack src2 dst2 hs2 hd2, e3, hg]
  · intro dst2 p q hd2 h1 h2
    have hmem2 : (src, dst2) ∈ graph := by
      by_contra hn
      rw [getEdgeProperty_of_not_mem graph _ hn] at h2
      cases h2
    rw [getEdgeProperty_of_mem graph src dst2 hs hd2 hmem2] at h2
    rw [hp] at h1
    rw [← Except.ok.inj h1, ← Except.ok.inj h2]
    exact signedValue_pack_lt src dst dst2 hs hd hd2

/-- C23 witness: the edge from node `2^31 + 1` to node `7`, whose packed value
has the sign bit set, in a graph of three edges. -/
theorem C23_edge_packing_witness :
    getEdgeProperty [(1, 2), (2147483649, 7), (2147483649, 9)] (2147483649, 7) =
      .ok (2147483649 * 2 ^ 32 + 7) ∧
    getEdge (2147483649 * 2 ^ 32 + 7) = (2147483649, 7) ∧
    signedValue (2147483649 * 2 ^ 32 + 7) = -9223372032559808505 ∧
    getEdgeProperty [(1, 2), (2147483649, 7), (2147483649, 9)] (3, 4) = .error .invalidEdge :=
  have h := C23_edge_packing [(1, 2), (2147483649, 7), (2147483649, 9)] 2147483649 7
    (by decide) (by decide) (by decide)
  ⟨h.1, h.2.2.1, by decide, h.2.2.2.2.2.2 (3, 4) (by decide)⟩

/-- C24: in every reachable state all of whose stored sets are strictly
ascending, for valid indices `a`, `b` the call `set_intersection(a, b)` returns
an index whose stored set is strictly ascending and holds exactly the elements
common to `value(a)` and `value(b)`, whichever path answers the call; the store
it leaves is strictly ascending again. -/
theorem C24_intersection_sorted (s : LatticeHashForest α) (hs : Reachable s)
    (hasc : AscendingStore s) (a b : Index) (hv : pairInvalid s a b = false) :
    ∃ r A B R, get_value s a = .ok A ∧ get_value s b = .ok B ∧
      (set_intersection s a b).1 = .ok r ∧
      get_value (set_intersection s a b).2 r = .ok R ∧
      R.Pairwise (· < ·) ∧ (∀ x, x ∈ R ↔ x ∈ A ∧ x ∈ B) ∧
      AscendingStore (set_intersection s a b).2 := by
  have hi := hs.inv
  obtain ⟨h1, h2⟩ := (pairInvalid_eq_false_iff s a b).mp hv
  obtain ⟨A, hA⟩ := exists_getElem?_of_valid hi a h1
  obtain ⟨B, hB⟩ := exists_getElem?_of_valid hi b h2
  have hAs := hasc.pairwise_at a A hA
  have hBs := hasc.pairwise_at b B hB
  have hpost := set_intersection_ascending hi hasc a b
  obtain ⟨r, s1, R, heq, _, _, hR, hcase⟩ := set_intersection_struct hi a b A B hA hB
  rw [heq] at hpost ⊢
  refine ⟨r, A, B, R, get_value_of_getElem? a A hA, get_value_of_getElem? b B hB, rfl,
    get_value_of_getElem? r R hR, hpost.pairwise_at r R hR, ?_, hpost⟩
  intro x
  rcases hcase with h | ⟨h, hsub⟩ | ⟨h, hsub⟩
  · rw [h]
    exact mem_interMerge_iff A B hAs hBs x
  · rw [h]
    exact ⟨fun hx => ⟨hx, hsub hx⟩, fun hx => hx.1⟩
  · rw [h]
    exact ⟨fun hx => ⟨hsub hx, hx⟩, fun hx => hx.2⟩

/-- C24 witness: the sets `1, 2, 3` and `2, 3, 4`, intersected by the merge, and
the disjoint sets `1, 2, 3` and `4, 5` after `set_difference(1, 2)` has primed
the intersection cache. -/
theorem C24_intersection_sorted_witness :
    (AscendingStore overlapForest ∧
      ∃ r A B R, get_value overlapForest 1 = .ok A ∧ get_value overlapForest 2 = .ok B ∧
        (set_intersection overlapForest 1 2).1 = .ok r ∧
        get_value (set_intersection overlapForest 1 2).2 r = .ok R ∧
        R.Pairwise (· < ·) ∧ (∀ x, x ∈ R ↔ x ∈ A ∧ x ∈ B) ∧
        AscendingStore (set_intersection overlapForest 1 2).2) ∧
    get_value (set_intersection overlapForest 1 2).2 3 = .ok [2, 3] ∧
    mapFind OperationNode.eq (set_difference disjointForest 1 2).2.intersections ⟨1, 2⟩ =
      some EMPTY_SET ∧
    ∃ r A B R, get_value (set_difference disjointForest 1 2).2 1 = .ok A ∧
      get_value (set_difference disjointForest 1 2).2 2 = .ok B ∧
      (set_intersection (set_difference disjointForest 1 2).2 1 2).1 = .ok r ∧
      get_value (set_intersection (set_difference disjointForest 1 2).2 1 2).2 r = .ok R ∧
      R.Pairwise (· < ·) ∧ (∀ x, x ∈ R ↔ x ∈ A ∧ x ∈ B) ∧
      AscendingStore (set_intersection (set_difference disjointForest 1 2).2 1 2).2 :=
  ⟨⟨by decide,
      C24_intersection_sorted overlapForest overlapForest_reachable (by decide) 1 2
        (by decide)⟩,
    by decide, by decide,
    C24_intersection_sorted (set_difference disjointForest 1 2).2
      (Reachable.set_difference 1 2 disjointForest_reachable) (by decide) 1 2 (by decide)⟩

/-- C25: in every reachable state all of whose stored sets are strictly
ascending, for valid indices `a`, `b` the call `set_difference(a, b)` returns an
index whose stored set is strictly ascending and holds exactly the elements of
`value(a)` that are not in `value(b)`, whichever path answers the call; the
store it leaves is strictly ascending again. -/
theorem C25_difference_sorted (s : LatticeHashForest α) (hs : Reachable s)
    (hasc : AscendingStore s) (a b : Index) (hv : pairInvalid s a b = false) :
    ∃ r A B R, get_value s a = .ok A ∧ get_value s b = .ok B ∧
      (set_difference s a b).1 = .ok r ∧
      get_value (set_difference s a b).2 r = .ok R ∧
      R.Pairwise (· < ·) ∧ (∀ x, x ∈ R ↔ x ∈ A ∧ x ∉ B) ∧
      AscendingStore (set_difference s a b).2 := by
  have hi := hs.inv
  obtain ⟨h1, h2⟩ := (pairInvalid_eq_false_iff s a b).mp hv
  obtain ⟨A, hA⟩ := exists_getElem?_of_valid hi a h1
  obtain ⟨B, hB⟩ := exists_getElem?_of_valid hi b h2
  have hAs := hasc.pairwise_at a A hA
  have hBs := hasc.pairwise_at b B hB
  have hpost := set_difference_ascending hi hasc a b
  obtain ⟨r, s1, heq, _, _, hR⟩ := set_difference_struct hi a b A B hA hB
  rw [heq] at hpost ⊢
  exact ⟨r, A, B, _, get_value_of_getElem? a A hA, get_value_of_getElem? b B hB, rfl,
    get_value_of_getElem? r _ hR, hpost.pairwise_at r _ hR, mem_diffMerge_iff A B hAs hBs, hpost⟩

/-- C25 witness: `1, 2, 3` without `2, 3, 4` is the new set `1`; asked again, the
cache answers. -/
theorem C25_difference_sorted_witness :
    (AscendingStore overlapForest ∧
      ∃ r A B R, get_value overlapForest 1 = .ok A ∧ get_value overlapForest 2 = .ok B ∧
        (set_difference overlapForest 1 2).1 = .ok r ∧
        get_value (set_difference overlapForest 1 2).2 r = .ok R ∧
        R.Pairwise (· < ·) ∧ (∀ x, x ∈ R ↔ x ∈ A ∧ x ∉ B) ∧
        AscendingStore (set_difference overlapForest 1 2).2) ∧
    get_value (set_difference overlapForest 1 2).2 3 = .ok [1] ∧
    ∃ r A B R, get_value (set_difference overlapForest 1 2).2 1 = .ok A ∧
      get_value (set_difference overlapForest 1 2).2 2 = .ok B ∧
      (set_difference (set_difference overlapForest 1 2).2 1 2).1 = .ok r ∧
      get_value (set_difference (set_difference overlapForest 1 2).2 1 2).2 r = .ok R ∧
      R.Pairwise (· < ·) ∧ (∀ x, x ∈ R ↔ x ∈ A ∧ x ∉ B) ∧
      AscendingStore (set_difference (set_difference overlapForest 1 2).2 1 2).2 :=
  ⟨⟨by decide,
      C25_difference_sorted overlapForest overlapForest_reachable (by decide) 1 2 (by decide)⟩,
    by decide,
    C25_difference_sorted (set_difference overlapForest 1 2).2
      (Reachable.set_difference 1 2 overlapForest_reachable) (by decide) 1 2 (by decide)⟩

/-- C26: in every reachable state, for distinct non-empty valid indices with
ordered pair `(a', b')` that has no entry in the subset cache and none in the
union cache, `set_union` registers a result `r` and afterwards the subset cache
holds `SUPERSET` under `(a', b')` if `r = a'`, `SUBSET` under `(a', b')` if
`r = b'`, and otherwise both the containment of `a'` in `r` and that of `b'` in
`r`, each under its ordered key with the tag of its direction; what the cache
says is true of the stored sets. -/
theorem C26_union_records (s : LatticeHashForest α) (hs : Reachable s) (a b : Index)
    (hv : pairInvalid s a b = false) (hab : a ≠ b) (ha : a ≠ EMPTY_SET) (hb : b ≠ EMPTY_SET)
    (hsub : mapFind OperationNode.eq s.subsets ⟨min a b, max a b⟩ = none)
    (hun : mapFind OperationNode.eq s.unions ⟨min a b, max a b⟩ = none) :
    ∃ r s1 A B R, set_union s a b = (.ok r, s1) ∧
      get_value s1 (min a b) = .ok A ∧ get_value s1 (max a b) = .ok B ∧
      get_value s1 r = .ok R ∧ A ⊆ R ∧ B ⊆ R ∧
      (r = min a b →
        mapFind OperationNode.eq s1.subsets ⟨min a b, max a b⟩ = some .SUPERSET) ∧
      (r = max a b →
        mapFind OperationNode.eq s1.subsets ⟨min a b, max a b⟩ = some .SUBSET) ∧
      (r ≠ min a b → r ≠ max a b →
        mapFind OperationNode.eq s1.subsets ⟨min (min a b) r, max (min a b) r⟩ =
          some (subsetTag (min a b) r) ∧
        mapFind OperationNode.eq s1.subsets ⟨min (max a b) r, max (max a b) r⟩ =
          some (subsetTag (max a b) r)) := by
  have hi := hs.inv
  obtain ⟨X, Y, ret, cold, s0, s1, hlt, hX, hY, hreg, hs1, h1, _⟩ :=
    set_union_miss_run hi a b hv hab ha hb hsub hun
  obtain ⟨hi0, hret, hstore, _, _, _, hsub0⟩ := register_set_facts hi _ ret cold s0 hreg
  have hext : Extends s s0 := by
    rcases hstore with h | h
    · exact ⟨[], by rw [h, List.append_nil]⟩
    · exact ⟨_, h⟩
  have hX0 := hext.getElem? _ X hX
  have hY0 := hext.getElem? _ Y hY
  have ht0 : SublistSubsets s0.property_sets s0.subsets := by
    rw [hsub0]
    exact (reachable_sublistSubsets hs).after_register _ hstore
  have hsubs : s1.subsets = unionRecord s0.subsets (min a b) (max a b) ret := by
    rw [hs1]
    rfl
  have hsets : s1.property_sets = s0.property_sets := by
    rw [hs1]
    rfl
  have hne : min a b ≠ max a b := Nat.ne_of_lt hlt
  refine ⟨ret, s1, X, Y, unionMerge X Y, h1, ?_, ?_, ?_,
    fun x hx => (mem_unionMerge X Y x).mpr (Or.inl hx),
    fun x hx => (mem_unionMerge X Y x).mpr (Or.inr hx), ?_, ?_, ?_⟩
  · exact get_value_of_getElem? _ X (by rw [hsets]; exact hX0)
  · exact get_value_of_getElem? _ Y (by rw [hsets]; exact hY0)
  · exact get_value_of_getElem? _ _ (by rw [hsets]; exact hret)
  · intro hr
    rw [hsubs, hsub0, mapFind_unionRecord s.subsets _ _ ret hlt hsub, if_pos hr]
  · intro hr
    have hr2 : ret ≠ min a b := fun h => hne (h.symm.trans hr)
    rw [hsubs, hsub0, mapFind_unionRecord s.subsets _ _ ret hlt hsub, if_neg hr2, if_pos hr]
  · intro hr1 hr2
    have e1 := entry_of_sublist hi0 ht0 (min a b) ret X _ hX0 hret (Ne.symm hr1)
      (sublist_unionMerge_left X Y)
    have e2 := entry_of_sublist hi0 ht0 (max a b) ret Y _ hY0 hret (Ne.symm hr2)
      (sublist_unionMerge_right X Y)
    have hkeys : ¬ (min (min a b) ret = min (max a b) ret ∧
        max (min a b) ret = max (max a b) ret) := by
      rintro ⟨k1, k2⟩
      apply hne
      rcases Nat.le_total (min a b) ret with c1 | c1 <;>
        rcases Nat.le_total (max a b) ret with c2 | c2
      · rw [min_eq_left c1, min_eq_left c2] at k1
        exact k1
      · rw [min_eq_left c1, min_eq_right c2] at k1
        exact absurd k1 (Ne.symm hr1)
      · rw [min_eq_right c1, min_eq_left c2] at k1
        exact absurd k1.symm (Ne.symm hr2)
      · rw [max_eq_left c1, max_eq_left c2] at k2
        exact k2
    have hkeys2 : ¬ (min (max a b) ret = min (min a b) ret ∧
        max (max a b) ret = max (min a b) ret) := fun h => hkeys ⟨h.1.symm, h.2.symm⟩
    rw [hsubs]
    unfold unionRecord
    rw [if_neg hr1, if_neg hr2]
    constructor
    · rw [mapFind_recordSubset_ne _ _ _ _ _ hkeys2]
      exact mapFind_recordSubset_self _ _ _ e1
    · apply mapFind_recordSubset_self
      rw [mapFind_recordSubset_ne _ _ _ _ _ hkeys]
      exact e2

/-- C26 witness: the union of `1, 2, 3` and `2` is the first operand, recorded
as `SUPERSET` under `(1, 2)`; the union of `1, 2, 3` and `2, 3, 4` is the new
set at index `3`, recorded as containing both operands. -/
theorem C26_union_records_witness :
    (∃ r s1 A B R, set_union sortedForest 1 2 = (.ok r, s1) ∧
      get_value s1 (min 1 2) = .ok A ∧ get_value s1 (max 1 2) = .ok B ∧
      get_value s1 r = .ok R ∧ A ⊆ R ∧ B ⊆ R ∧
      (r = min 1 2 →
        mapFind OperationNode.eq s1.subsets ⟨min 1 2, max 1 2⟩ = some .SUPERSET) ∧
      (r = max 1 2 →
        mapFind OperationNode.eq s1.subsets ⟨min 1 2, max 1 2⟩ = some .SUBSET) ∧
      (r ≠ min 1 2 → r ≠ max 1 2 →
        mapFind OperationNode.eq s1.subsets ⟨min (min 1 2) r, max (min 1 2) r⟩ =
          some (subsetTag (min 1 2) r) ∧
        mapFind OperationNode.eq s1.subsets ⟨min (max 1 2) r, max (max 1 2) r⟩ =
          some (subsetTag (max 1 2) r))) ∧
    (set_union sortedForest 1 2).1 = .ok 1 ∧
    (set_union sortedForest 1 2).2.subsets = [(⟨1, 2⟩, .SUPERSET)] ∧
    (set_union overlapForest 1 2).1 = .ok 3 ∧
    (set_union overlapForest 1 2).2.subsets = [(⟨2, 3⟩, .SUBSET), (⟨1, 3⟩, .SUBSET)] :=
  ⟨C26_union_records sortedForest sortedForest_reachable 1 2 (by decide) (by decide)
      (by decide) (by decide) (by decide) (by decide),
    by decide, by decide, by decide, by decide⟩

/-- C27: in every reachable state, for distinct non-empty valid indices with
ordered pair `(a', b')` that has no entry in the subset cache and none in the
intersection cache, when `set_intersection` returns one of the operands the
subset cache afterwards holds `SUBSET` under `(a', b')` if the result is `a'`
and `SUPERSET` if it is `b'`, truly so of the stored sets, and the same call
repeated at once is answered by the subset cache with the same index. -/
theorem C27_intersection_records_operand (s : LatticeHashForest α) (hs : Reachable s)
    (a b : Index) (hv : pairInvalid s a b = false) (hab : a ≠ b) (ha : a ≠ EMPTY_SET)
    (hb : b ≠ EMPTY_SET)
    (hsub : mapFind OperationNode.eq s.subsets ⟨min a b, max a b⟩ = none)
    (hint : mapFind OperationNode.eq s.intersections ⟨min a b, max a b⟩ = none) :
    ∃ r s1 A B, set_intersection s a b = (.ok r, s1) ∧
      get_value s1 (min a b) = .ok A ∧ get_value s1 (max a b) = .ok B ∧
      (r = min a b →
        mapFind OperationNode.eq s1.subsets ⟨min a b, max a b⟩ = some .SUBSET ∧ A ⊆ B) ∧
      (r = max a b →
        mapFind OperationNode.eq s1.subsets ⟨min a b, max a b⟩ = some .SUPERSET ∧ B ⊆ A) ∧
      (r = min a b ∨ r = max a b →
        set_intersection s1 a b = (.ok r, LHF_PERF_INC s1 "intersections" .subset_hits) ∧
        set_intersection s1 b a = (.ok r, LHF_PERF_INC s1 "intersections" .subset_hits)) := by
  have hi := hs.inv
  obtain ⟨X, Y, ret, cold, s0, s1, hlt, hX, hY, hreg, hs1, h1, h2⟩ :=
    set_intersection_miss_run hi a b hv hab ha hb hsub hint
  obtain ⟨hi0, hret, hstore, _, _, _, hsub0⟩ := register_set_facts hi _ ret cold s0 hreg
  have hext : Extends s s0 := by
    rcases hstore with h | h
    · exact ⟨[], by rw [h, List.append_nil]⟩
    · exact ⟨_, h⟩
  have hX0 := hext.getElem? _ X hX
  have hY0 := hext.getElem? _ Y hY
  have hsubs : s1.subsets = interRecord s0.subsets (min a b) (max a b) ret := by
    rw [hs1]
    rfl
  have hsets : s1.property_sets = s0.property_sets := by
    rw [hs1]
    rfl
  have hne : min a b ≠ max a b := Nat.ne_of_lt hlt
  refine ⟨ret, s1, X, Y, h1, ?_, ?_, ?_, ?_, ?_⟩
  · exact get_value_of_getElem? _ X (by rw [hsets]; exact hX0)
  · exact get_value_of_getElem? _ Y (by rw [hsets]; exact hY0)
  · intro hr
    refine ⟨?_, ?_⟩
    · rw [hsubs, hsub0, mapFind_interRecord s.subsets _ _ ret hlt hsub, if_pos hr]
    · have hXI : X = interMerge X Y := by
        rw [hr, hX0] at hret
        exact Option.some.inj hret
      intro x hx
      rw [hXI] at hx
      exact (mem_interMerge_imp X Y x hx).2
  · intro hr
    have hr2 : ret ≠ min a b := fun h => hne (h.symm.trans hr)
    refine ⟨?_, ?_⟩
    · rw [hsubs, hsub0, mapFind_interRecord s.subsets _ _ ret hlt hsub, if_neg hr2, if_pos hr]
    · have hYI : Y = interMerge X Y := by
        rw [hr, hY0] at hret
        exact Option.some.inj hret
      intro x hx
      rw [hYI] at hx
      exact (mem_interMerge_imp X Y x hx).1
  · intro hr
    rw [if_pos hr] at h2
    refine ⟨h2, ?_⟩
    rw [set_intersection_swap]
    exact h2

/-- C27 witness: the intersection of `1, 2, 3` (index `1`) and `2` (index `2`)
is the second operand. -/
theorem C27_intersection_records_operand_witness :
    (∃ r s1 A B, set_intersection sortedForest 1 2 = (.ok r, s1) ∧
      get_value s1 (min 1 2) = .ok A ∧ get_value s1 (max 1 2) = .ok B ∧
      (r = min 1 2 →
        mapFind OperationNode.eq s1.subsets ⟨min 1 2, max 1 2⟩ = some .SUBSET ∧ A ⊆ B) ∧
      (r = max 1 2 →
        mapFind OperationNode.eq s1.subsets ⟨min 1 2, max 1 2⟩ = some .SUPERSET ∧ B ⊆ A) ∧
      (r = min 1 2 ∨ r = max 1 2 →
        set_intersection s1 1 2 = (.ok r, LHF_PERF_INC s1 "intersections" .subset_hits) ∧
        set_intersection s1 2 1 =
          (.ok r, LHF_PERF_INC s1 "intersections" .subset_hits))) ∧
    (set_intersection sortedForest 1 2).1 = .ok 2 ∧
    (set_intersection sortedForest 1 2).2.subsets = [(⟨1, 2⟩, .SUPERSET)] ∧
    (set_intersection (set_intersection sortedForest 1 2).2 1 2).1 = .ok 2 :=
  ⟨C27_intersection_records_operand sortedForest sortedForest_reachable 1 2 (by decide)
      (by decide) (by decide) (by decide) (by decide) (by decide),
    by decide, by decide, by decide⟩

/-- C28, what the code does: in every reachable state, for distinct non-empty
valid indices with ordered pair `(a', b')` that has no entry in the subset cache
and none in the intersection cache, when `set_intersection` returns an index `r`
other than `a'` and `b'`, the only call made is `store_subset(r, a')`: the
subset cache afterwards holds the containment of `r` in `a'` under its ordered
key, and under the ordered key of `r` and `b'` it holds what it held before the
call, which is nothing when `r` is a newly registered set. -/
theorem C28_intersection_records_one (s : LatticeHashForest α) (hs : Reachable s)
    (a b : Index) (hv : pairInvalid s a b = false) (hab : a ≠ b) (ha : a ≠ EMPTY_SET)
    (hb : b ≠ EMPTY_SET)
    (hsub : mapFind OperationNode.eq s.subsets ⟨min a b, max a b⟩ = none)
    (hint : mapFind OperationNode.eq s.intersections ⟨min a b, max a b⟩ = none) :
    ∃ r s1, set_intersection s a b = (.ok r, s1) ∧
      (r ≠ min a b → r ≠ max a b →
        s1.subsets = recordSubset s.subsets r (min a b) ∧
        mapFind OperationNode.eq s1.subsets ⟨min r (min a b), max r (min a b)⟩ =
          some (subsetTag r (min a b)) ∧
        mapFind OperationNode.eq s1.subsets ⟨min r (max a b), max r (max a b)⟩ =
          mapFind OperationNode.eq s.subsets ⟨min r (max a b), max r (max a b)⟩ ∧
        (s.property_sets.length ≤ r →
          mapFind OperationNode.eq s1.subsets ⟨min r (max a b), max r (max a b)⟩ = none)) := by
  have hi := hs.inv
  obtain ⟨X, Y, ret, cold, s0, s1, hlt, hX, hY, hreg, hs1, h1, _⟩ :=
    set_intersection_miss_run hi a b hv hab ha hb hsub hint
  obtain ⟨hi0, hret, hstore, _, _, _, hsub0⟩ := register_set_facts hi _ ret cold s0 hreg
  have hext : Extends s s0 := by
    rcases hstore with h | h
    · exact ⟨[], by rw [h, List.append_nil]⟩
    · exact ⟨_, h⟩
  have hX0 := hext.getElem? _ X hX
  have ht0 : SublistSubsets s0.property_sets s0.subsets := by
    rw [hsub0]
    exact (reachable_sublistSubsets hs).after_register _ hstore
  have hne : min a b ≠ max a b := Nat.ne_of_lt hlt
  refine ⟨ret, s1, h1, ?_⟩
  intro hr1 hr2
  have hsubs : s1.subsets = recordSubset s.subsets ret (min a b) := by
    rw [hs1]
    show interRecord s0.subsets (min a b) (max a b) ret = _
    unfold interRecord
    rw [if_pos hr1, hsub0]
  have e1 := entry_of_sublist hi0 ht0 ret (min a b) _ X hret hX0 hr1
    (interMerge_sublist_left X Y)
  rw [hsub0] at e1
  have hkeys : ¬ (min ret (min a b) = min ret (max a b) ∧
      max ret (min a b) = max ret (max a b)) := by
    rintro ⟨k1, k2⟩
    apply hne
    rcases Nat.le_total ret (min a b) with c1 | c1 <;>
      rcases Nat.le_total ret (max a b) with c2 | c2
    · rw [max_eq_right c1, max_eq_right c2] at k2
      exact k2
    · rw [max_eq_right c1, max_eq_left c2] at k2
      exact absurd k2.symm hr1
    · rw [max_eq_left c1, max_eq_right c2] at k2
      exact absurd k2 hr2
    · rw [min_eq_right c1, min_eq_right c2] at k1
      exact k1
  have hsame : mapFind OperationNode.eq s1.subsets ⟨min ret (max a b), max ret (max a b)⟩ =
      mapFind OperationNode.eq s.subsets ⟨min ret (max a b), max ret (max a b)⟩ := by
    rw [hsubs]
    exact mapFind_recordSubset_ne _ _ _ _ _ hkeys
  refine ⟨hsubs, ?_, hsame, ?_⟩
  · rw [hsubs]
    exact mapFind_recordSubset_self _ _ _ e1
  · intro hnew
    rw [hsame]
    apply no_entry_of_new hi
    rcases Nat.le_total ret (max a b) with c | c
    · rw [min_eq_left c]
      exact Or.inl hnew
    · rw [max_eq_left c]
      exact Or.inr hnew

/-- C28 witness, the failing input: on the forest holding `1, 2, 3` (index `1`)
and `2, 3, 4` (index `2`), `set_intersection(1, 2)` registers `2, 3` as index
`3` and records it as contained in index `1` only; the subset cache has no
entry for the pair `(2, 3)` afterwards. -/
theorem C28_intersection_records_one_witness :
    (∃ r s1, set_intersection overlapForest 1 2 = (.ok r, s1) ∧
      (r ≠ min 1 2 → r ≠ max 1 2 →
        s1.subsets = recordSubset overlapForest.subsets r (min 1 2) ∧
        mapFind OperationNode.eq s1.subsets ⟨min r (min 1 2), max r (min 1 2)⟩ =
          some (subsetTag r (min 1 2)) ∧
        mapFind OperationNode.eq s1.subsets ⟨min r (max 1 2), max r (max 1 2)⟩ =
          mapFind OperationNode.eq overlapForest.subsets
            ⟨min r (max 1 2), max r (max 1 2)⟩ ∧
        (overlapForest.property_sets.length ≤ r →
          mapFind OperationNode.eq s1.subsets ⟨min r (max 1 2), max r (max 1 2)⟩ =
            none))) ∧
    Reachable overlapForest ∧
    (set_intersection overlapForest 1 2).1 = .ok 3 ∧
    get_value (set_intersection overlapForest 1 2).2 3 = .ok [2, 3] ∧
    (set_intersection overlapForest 1 2).2.subsets = [(⟨1, 3⟩, .SUPERSET)] ∧
    mapFind OperationNode.eq (set_intersection overlapForest 1 2).2.subsets ⟨2, 3⟩ = none ∧
    is_subset (set_intersection overlapForest 1 2).2 2 3 = .ok .UNKNOWN :=
  ⟨C28_intersection_records_one overlapForest overlapForest_reachable 1 2 (by decide)
      (by decide) (by decide) (by decide) (by decide) (by decide),
    overlapForest_reachable, by decide, by decide, by decide, by decide, by decide⟩

/-- C29: in any state, for distinct non-empty valid indices with ordered pair
`(a', b')`: if the subset cache holds `SUBSET` under `(a', b')`, `set_union`
returns `b'` and `set_intersection` returns `a'`; if it holds `SUPERSET`,
`set_union` returns `a'` and `set_intersection` returns `b'`. In all four cases
nothing of the forest changes but a counter, and the answer is the same
whatever the operation cache holds. What `set_difference` returns and leaves
behind, the subset cache apart, is the same whatever the subset cache holds. -/
theorem C29_subset_short_circuit (s : LatticeHashForest α) (a b : Index)
    (hv : pairInvalid s a b = false) (hab : a ≠ b) (ha : a ≠ EMPTY_SET)
    (hb : b ≠ EMPTY_SET) :
    (mapFind OperationNode.eq s.subsets ⟨min a b, max a b⟩ = some .SUBSET →
      set_union s a b = (.ok (max a b), LHF_PERF_INC s "unions" .subset_hits) ∧
      set_intersection s a b =
        (.ok (min a b), LHF_PERF_INC s "intersections" .subset_hits) ∧
      SameForest s (set_union s a b).2 ∧ SameForest s (set_intersection s a b).2 ∧
      (∀ u, (set_union { s with unions := u } a b).1 = .ok (max a b)) ∧
      (∀ u, (set_intersection { s with intersections := u } a b).1 = .ok (min a b))) ∧
    (mapFind OperationNode.eq s.subsets ⟨min a b, max a b⟩ = some .SUPERSET →
      set_union s a b = (.ok (min a b), LHF_PERF_INC s "unions" .subset_hits) ∧
      set_intersection s a b =
        (.ok (max a b), LHF_PERF_INC s "intersections" .subset_hits) ∧
      SameForest s (set_union s a b).2 ∧ SameForest s (set_intersection s a b).2 ∧
      (∀ u, (set_union { s with unions := u } a b).1 = .ok (min a b)) ∧
      (∀ u, (set_intersection { s with intersections := u } a b).1 = .ok (max a b))) ∧
    (∀ m, ∃ m2, set_difference { s with subsets := m } a b =
      ((set_difference s a b).1, { (set_difference s a b).2 with subsets := m2 })) := by
  have hu := set_union_normal s a b hv hab ha hb
  have hn := set_intersection_normal s a b hv hab ha hb
  have hu2 : ∀ u, set_union { s with unions := u } a b = _ :=
    fun u => set_union_normal { s with unions := u } a b hv hab ha hb
  have hn2 : ∀ u, set_intersection { s with intersections := u } a b = _ :=
    fun u => set_intersection_normal { s with intersections := u } a b hv hab ha hb
  refine ⟨?_, ?_, fun m => set_difference_with_subsets s m a b⟩
  · intro h
    rw [h] at hu hn
    refine ⟨hu, hn, ?_, ?_, ?_, ?_⟩
    · rw [hu]
      exact SameForest.of_perf_inc _ _ _
    · rw [hn]
      exact SameForest.of_perf_inc _ _ _
    · intro u
      have h3 := hu2 u
      dsimp only at h3
      rw [h] at h3
      rw [h3]
    · intro u
      have h3 := hn2 u
      dsimp only at h3
      rw [h] at h3
      rw [h3]
  · intro h
    rw [h] at hu hn
    refine ⟨hu, hn, ?_, ?_, ?_, ?_⟩
    · rw [hu]
      exact SameForest.of_perf_inc _ _ _
    · rw [hn]
      exact SameForest.of_perf_inc _ _ _
    · intro u
      have h3 := hu2 u
      dsimp only at h3
      rw [h] at h3
      rw [h3]
    · intro u
      have h3 := hn2 u
      dsimp only at h3
      rw [h] at h3
      rw [h3]

/-- C29 witness: after `set_intersection(1, 2)` on the sets `1, 2, 3` and `2` the
subset cache holds `SUPERSET` under `(1, 2)`; `set_union(2, 1)` returns `1` and
`set_intersection(2, 1)` returns `2`, also with a union cache that names another
index for the pair. -/
theorem C29_subset_short_circuit_witness :
    mapFind OperationNode.eq intersectedForest.subsets ⟨min 2 1, max 2 1⟩ = some .SUPERSET ∧
    (set_union intersectedForest 2 1 =
        (.ok (min 2 1), LHF_PERF_INC intersectedForest "unions" .subset_hits) ∧
      set_intersection intersectedForest 2 1 =
        (.ok (max 2 1), LHF_PERF_INC intersectedForest "intersections" .subset_hits) ∧
      SameForest intersectedForest (set_union intersectedForest 2 1).2 ∧
      SameForest intersectedForest (set_intersection intersectedForest 2 1).2 ∧
      (∀ u, (set_union { intersectedForest with unions := u } 2 1).1 = .ok (min 2 1)) ∧
      (∀ u, (set_intersection { intersectedForest with intersections := u } 2 1).1 =
        .ok (max 2 1))) ∧
    (set_union { intersectedForest with unions := [(⟨1, 2⟩, 0)] } 2 1).1 = .ok 1 ∧
    (set_difference { intersectedForest with subsets := [] } 1 2).1 =
      (set_difference intersectedForest 1 2).1 :=
  have h := C29_subset_short_circuit intersectedForest 2 1 (by decide) (by decide) (by decide)
    (by decide)
  ⟨by decide, h.2.1 (by decide), by decide, by decide⟩

/-- C30: in every reachable state, for valid indices `a`, `b`, each of
`set_union`, `set_intersection` and `set_difference` called a second time right
after the first call returns the index the first call returned and leaves the
store, the property set map, the three operation caches and the subset cache as
the first call left them; only a counter changes. -/
theorem C30_memoization (s : LatticeHashForest α) (hs : Reachable s) (a b : Index)
    (hv : pairInvalid s a b = false) :
    (∃ r s1, set_union s a b = (.ok r, s1) ∧ (set_union s1 a b).1 = .ok r ∧
      SameForest s1 (set_union s1 a b).2) ∧
    (∃ r s1, set_intersection s a b = (.ok r, s1) ∧ (set_intersection s1 a b).1 = .ok r ∧
      SameForest s1 (set_intersection s1 a b).2) ∧
    (∃ r s1, set_difference s a b = (.ok r, s1) ∧ (set_difference s1 a b).1 = .ok r ∧
      SameForest s1 (set_difference s1 a b).2) := by
  have hi := hs.inv
  obtain ⟨h1, h2⟩ := (pairInvalid_eq_false_iff s a b).mp hv
  refine ⟨?_, ?_, ?_⟩
  · obtain ⟨r, s1, c, e1, e2⟩ := set_union_again hi a b h1 h2
    refine ⟨r, s1, e1, ?_, ?_⟩
    · rw [e2]
    · rw [e2]
      exact SameForest.of_perf_inc _ _ _
  · obtain ⟨r, s1, c, e1, e2⟩ := set_intersection_again hi a b h1 h2
    refine ⟨r, s1, e1, ?_, ?_⟩
    · rw [e2]
    · rw [e2]
      exact SameForest.of_perf_inc _ _ _
  · obtain ⟨r, s1, c, e1, e2⟩ := set_difference_again hi a b h1 h2
    refine ⟨r, s1, e1, ?_, ?_⟩
    · rw [e2]
    · rw [e2]
      exact SameForest.of_perf_inc _ _ _

/-- C30 witness: the three operations on the sets `1, 2, 3` and `2, 3, 4`, each
of which registers a new set at its first call. -/
theorem C30_memoization_witness :
    Reachable overlapForest ∧
    ((∃ r s1, set_union overlapForest 1 2 = (.ok r, s1) ∧ (set_union s1 1 2).1 = .ok r ∧
        SameForest s1 (set_union s1 1 2).2) ∧
      (∃ r s1, set_intersection overlapForest 1 2 = (.ok r, s1) ∧
        (set_intersection s1 1 2).1 = .ok r ∧ SameForest s1 (set_intersection s1 1 2).2) ∧
      (∃ r s1, set_difference overlapForest 1 2 = (.ok r, s1) ∧
        (set_difference s1 1 2).1 = .ok r ∧ SameForest s1 (set_difference s1 1 2).2)) ∧
    (set_union overlapForest 1 2).1 = .ok 3 ∧
    (set_union (set_union overlapForest 1 2).2 1 2).1 = .ok 3 ∧
    (set_union (set_union overlapForest 1 2).2 1 2).2.property_sets =
      [[], [1, 2, 3], [2, 3, 4], [1, 2, 3, 4]] :=
  ⟨overlapForest_reachable,
    C30_memoization overlapForest overlapForest_reachable 1 2 (by decide),
    by decide, by decide, by decide⟩

/-- C31: from any state, every entry of the union, intersection, difference and
subset caches is an entry of the same cache, with the same value, after a call
of `register_set`, `register_set_single`, `set_union`, `set_intersection`,
`set_difference`, `set_insert_single`, `set_remove_single`, `set_filter` or
`store_subset`, whatever the arguments; `set_filter` also keeps every entry of
the caller cache. A subset cache entry for the pair `(x, y)` keeps its value
when `store_subset` is called for the pair in either direction: in the state
after `set_union(1, 2)` on the forest holding `1, 2, 3` and `2, 3, 4`, the
entry `SUBSET` for `(1, 3)` is still `SUBSET` after `store_subset(3, 1)`. -/
theorem C31_caches_only_grow (s : LatticeHashForest α) (a b : Index) (e : α) (c : List α)
    (pred : α → Bool) (cache : List (Index × Index)) :
    CachesKept s (register_set s c).2.2 ∧
    CachesKept s (register_set_single s e).2.2 ∧
    CachesKept s (set_union s a b).2 ∧
    CachesKept s (set_intersection s a b).2 ∧
    CachesKept s (set_difference s a b).2 ∧
    CachesKept s (set_insert_single s a e).2 ∧
    CachesKept s (set_remove_single s a e).2 ∧
    CachesKept s (set_filter s a pred cache).2.1 ∧
    MapKept (fun x y => decide (x = y)) cache (set_filter s a pred cache).2.2 ∧
    CachesKept s (store_subset s a b).2 ∧
    (∀ x y rel, mapFind OperationNode.eq s.subsets ⟨x, y⟩ = some rel →
      mapFind OperationNode.eq (store_subset s x y).2.subsets ⟨x, y⟩ = some rel ∧
      mapFind OperationNode.eq (store_subset s y x).2.subsets ⟨x, y⟩ = some rel) ∧
    (mapFind OperationNode.eq (set_union overlapForest 1 2).2.subsets ⟨1, 3⟩ = some .SUBSET ∧
      (store_subset (set_union overlapForest 1 2).2 3 1).1 = .ok () ∧
      mapFind OperationNode.eq
        (store_subset (set_union overlapForest 1 2).2 3 1).2.subsets ⟨1, 3⟩ = some .SUBSET) := by
  have h0 := CachesKept.rfl_state s
  have hreg := register_set_cachesKept s s [e] h0
  refine ⟨register_set_cachesKept s s c h0, hreg, set_union_cachesKept s s a b h0,
    set_intersection_cachesKept s s a b h0, set_difference_cachesKept s s a b h0, ?_, ?_,
    set_filter_cachesKept s s a pred cache h0, ?_, store_subset_cachesKept s s a b h0, ?_,
    by decide, by decide, by decide⟩
  · rw [set_insert_single_eq]
    exact set_union_cachesKept s _ a _ hreg
  · rw [set_remove_single_eq]
    exact set_difference_cachesKept s _ a _ hreg
  · intro k v hk
    unfold set_filter
    split_ifs
    · exact hk
    · exact hk
    · split
      · split
        · exact mapFind_insert_of_some _ natEq_iff cache _ _ k v hk
        · exact hk
      · exact hk
  · intro x y rel h
    exact ⟨(store_subset_cachesKept s s x y h0).2.2.2 _ _ h,
      (store_subset_cachesKept s s y x h0).2.2.2 _ _ h⟩

/-- C32: in every state reachable from a fresh forest, every key `(x, y)` of
the union cache, of the intersection cache and of the subset cache has
`x < y`, and every key `(a, b)` of the difference cache has `a ≠ b` with
neither index the empty set. A call of `set_union` or `set_intersection` adds
no key or the ordered pair of its operands; a call of `set_difference(a, b)`
adds no key, or the pair `(a, b)` as given to the difference cache and at most
the ordered pair, with the empty set as value, to the intersection cache. For
valid, different, non-empty operands the difference cache holds the result
under the pair as given after the call. -/
theorem C32_ordered_cache_keys (s : LatticeHashForest α) (hs : Reachable s) :
    OrderedKeys s.unions ∧ OrderedKeys s.intersections ∧ OrderedKeys s.subsets ∧
    DistinctKeys s.differences ∧
    (∀ a b, (set_union s a b).2.unions = s.unions ∨
      ∃ r, (set_union s a b).1 = .ok r ∧ min a b < max a b ∧
        (set_union s a b).2.unions = (⟨min a b, max a b⟩, r) :: s.unions) ∧
    (∀ a b, (set_intersection s a b).2.intersections = s.intersections ∨
      ∃ r, (set_intersection s a b).1 = .ok r ∧ min a b < max a b ∧
        (set_intersection s a b).2.intersections =
          (⟨min a b, max a b⟩, r) :: s.intersections) ∧
    (∀ a b, ((set_difference s a b).2.differences = s.differences ∧
        (set_difference s a b).2.intersections = s.intersections) ∨
      ∃ r, (set_difference s a b).1 = .ok r ∧ a ≠ b ∧ a ≠ 0 ∧ b ≠ 0 ∧
        (set_difference s a b).2.differences = (⟨a, b⟩, r) :: s.differences ∧
        ((set_difference s a b).2.intersections = s.intersections ∨
          (set_difference s a b).2.intersections =
            (⟨min a b, max a b⟩, EMPTY_SET) :: s.intersections)) ∧
    (∀ a b, pairInvalid s a b = false → a ≠ b → a ≠ EMPTY_SET → b ≠ EMPTY_SET →
      ∃ r, (set_difference s a b).1 = .ok r ∧
        mapFind OperationNode.eq (set_difference s a b).2.differences ⟨a, b⟩ = some r) := by
  have hinv := hs.inv
  obtain ⟨h1, h2, h3, h4⟩ := reachable_cacheKeys hs
  refine ⟨h1, h2, h3, h4, fun a b => set_union_new_key hinv a b,
    fun a b => set_intersection_new_key hinv a b,
    fun a b => set_difference_new_key hinv a b, ?_⟩
  intro a b hv hab ha hb
  cases hc : mapFind OperationNode.eq s.differences ⟨a, b⟩ with
  | some r =>
    have heq := set_difference_normal s a b hv hab ha hb
    rw [hc] at heq
    rw [heq]
    exact ⟨r, rfl, hc⟩
  | none =>
    rcases set_difference_new_key hinv a b with ⟨_, _⟩ | ⟨r, hr, _, _, _, hd, _⟩
    · obtain ⟨h5, h6⟩ := (pairInvalid_eq_false_iff s a b).mp hv
      obtain ⟨A, hA⟩ := exists_getElem?_of_valid hinv a h5
      obtain ⟨B, hB⟩ := exists_getElem?_of_valid hinv b h6
      obtain ⟨ret, s1, hmiss, _, _, _, _, _, hdiff, _⟩ :=
        set_difference_miss_spec hinv a b A B hA hB
      have heq := set_difference_normal s a b hv hab ha hb
      rw [hc] at heq
      simp only at heq
      rw [heq, hmiss]
      refine ⟨ret, rfl, ?_⟩
      simp only
      rw [hdiff]
      exact mapFind_insert_of_none _ OperationNode.eq_iff _ _ _ hc
    · refine ⟨r, hr, ?_⟩
      rw [hd]
      simp [mapFind, OperationNode.eq]

/-- C32 witness: the state after `set_difference(2, 1)` on the forest holding
`1, 2, 3` and `2, 3, 4`, followed by `set_union(2, 1)`: the difference cache is
keyed by `(2, 1)` as given, the union cache by `(1, 2)`. On the forest holding
the disjoint sets `1, 2, 3` and `4, 5`, `set_difference(2, 1)` primes the
intersection cache under `(1, 2)`. -/
theorem C32_ordered_cache_keys_witness :
    Reachable (set_union (set_difference overlapForest 2 1).2 2 1).2 ∧
    (set_union (set_difference overlapForest 2 1).2 2 1).2.differences = [(⟨2, 1⟩, 3)] ∧
    (set_union (set_difference overlapForest 2 1).2 2 1).2.unions = [(⟨1, 2⟩, 4)] ∧
    OrderedKeys (set_union (set_difference overlapForest 2 1).2 2 1).2.unions ∧
    OrderedKeys (set_union (set_difference overlapForest 2 1).2 2 1).2.subsets ∧
    DistinctKeys (set_union (set_difference overlapForest 2 1).2 2 1).2.differences ∧
    (set_difference disjointForest 2 1).2.intersections = [(⟨1, 2⟩, EMPTY_SET)] :=
  have hr : Reachable (set_union (set_difference overlapForest 2 1).2 2 1).2 :=
    Reachable.set_union 2 1 (Reachable.set_difference 2 1 overlapForest_reachable)
  have h := C32_ordered_cache_keys (set_union (set_difference overlapForest 2 1).2 2 1).2 hr
  ⟨hr, by decide, by decide, h.1, h.2.2.1, h.2.2.2.1, by decide⟩

/-- C33: in a state reachable from a fresh forest, `set_union`,
`set_intersection`, `set_difference`, `set_insert_single` and
`set_remove_single` return an index for all valid operands, and for no
operands at all do they end with the equal set error. A call of `store_subset`
with two equal indices would end the operation with that error, since the
operations pass on what `store_subset` raises. Called directly on a valid
index paired with itself, `store_subset` raises the equal set error and leaves
the state as it was. -/
theorem C33_equal_set_unreachable (s : LatticeHashForest α) (hs : Reachable s)
    (a b : Index) (e : α) :
    ((set_union s a b).1 ≠ .error .equalSet ∧
      (set_intersection s a b).1 ≠ .error .equalSet ∧
      (set_difference s a b).1 ≠ .error .equalSet ∧
      (set_insert_single s a e).1 ≠ .error .equalSet ∧
      (set_remove_single s a e).1 ≠ .error .equalSet) ∧
    (pairInvalid s a b = false →
      (∃ r, (set_union s a b).1 = .ok r) ∧ (∃ r, (set_intersection s a b).1 = .ok r) ∧
      (∃ r, (set_difference s a b).1 = .ok r)) ∧
    (indexInvalid s a = false →
      (∃ r, (set_insert_single s a e).1 = .ok r) ∧
      (∃ r, (set_remove_single s a e).1 = .ok r) ∧
      store_subset s a a = (.error .equalSet, s)) := by
  have hinv := hs.inv
  have hinv1 : Inv (register_set s [e]).2.2 := (register_set_spec hinv [e]).1
  have hU := set_union_ok_or_invalid hinv a b
  have hI := set_intersection_ok_or_invalid hinv a b
  have hD := set_difference_ok_or_invalid hinv a b
  have hS := set_union_ok_or_invalid hinv1 a (register_set s [e]).1
  have hR := set_difference_ok_or_invalid hinv1 a (register_set s [e]).1
  rw [← set_insert_single_eq] at hS
  rw [← set_remove_single_eq] at hR
  refine ⟨⟨?_, ?_, ?_, ?_, ?_⟩, ?_, ?_⟩
  · rcases hU with ⟨⟨r, _, h, _⟩, _⟩ | ⟨h, _⟩ <;> rw [h] <;> simp
  · rcases hI with ⟨⟨r, _, h, _⟩, _⟩ | ⟨h, _⟩ <;> rw [h] <;> simp
  · rcases hD with ⟨⟨r, _, h, _⟩, _⟩ | ⟨h, _⟩ <;> rw [h] <;> simp
  · rcases hS with ⟨⟨r, _, h, _⟩, _⟩ | ⟨h, _⟩ <;> rw [h] <;> simp
  · rcases hR with ⟨⟨r, _, h, _⟩, _⟩ | ⟨h, _⟩ <;> rw [h] <;> simp
  · intro hv
    refine ⟨?_, ?_, ?_⟩
    · rcases hU with ⟨⟨r, _, h, _⟩, _⟩ | ⟨_, h⟩
      · exact ⟨r, h⟩
      · rw [hv] at h
        cases h
    · rcases hI with ⟨⟨r, _, h, _⟩, _⟩ | ⟨_, h⟩
      · exact ⟨r, h⟩
      · rw [hv] at h
        cases h
    · rcases hD with ⟨⟨r, _, h, _⟩, _⟩ | ⟨_, h⟩
      · exact ⟨r, h⟩
      · rw [hv] at h
        cases h
  · intro hv
    have hv1 := pairInvalid_register_set hinv [e] a hv
    refine ⟨?_, ?_, ?_⟩
    · rcases hS with ⟨⟨r, _, h, _⟩, _⟩ | ⟨_, h⟩
      · exact ⟨r, h⟩
      · rw [hv1] at h
        cases h
    · rcases hR with ⟨⟨r, _, h, _⟩, _⟩ | ⟨_, h⟩
      · exact ⟨r, h⟩
      · rw [hv1] at h
        cases h
    · unfold store_subset pairInvalid
      rw [hv]
      simp

/-- C33 witness: the forest holding `1, 2, 3` and `2, 3, 4`; the union of the
two sets is a cache miss whose result is a third set, so that `store_subset`
runs twice, and no error is raised. -/
theorem C33_equal_set_unreachable_witness :
    Reachable overlapForest ∧ pairInvalid overlapForest 1 2 = false ∧
    (set_union overlapForest 1 2).1 = .ok 3 ∧
    (set_union overlapForest 1 2).1 ≠ .error .equalSet ∧
    store_subset overlapForest 1 1 = (.error .equalSet, overlapForest) :=
  have h := C33_equal_set_unreachable overlapForest overlapForest_reachable 1 2 7
  ⟨overlapForest_reachable, by decide, by decide, h.1.1, (h.2.2 (by decide)).2.2⟩

/-- C34: with a node forest reachable from a fresh one and an edge index `a`
whose stored edge set `E` is a strictly ascending sequence of `long long`
numbers, `get_points_to_set(a, n)` returns a node forest index whose stored
set is the sequence of targets its loop collects. That sequence holds exactly
the ids `d` for which the edge from `n` to `d` is in `E`, that is, for 32-bit
ids, for which the packed value of `(n, d)` is an element of `E`; it is
strictly ascending, so that a strictly ascending node store stays so; and the
edge forest is left as it was. -/
theorem C34_direct_points_to (g : BaseGraphAPI) (hn : Reachable g.nodeForest) (a : Index)
    (E : List Int) (hE : get_value g.edgeForest a = .ok E) (hasc : E.Pairwise (· < ·))
    (hrange : ∀ v ∈ E, -2 ^ 63 ≤ v ∧ v < 2 ^ 63) (n : Nat) :
    ∃ r R, (get_points_to_set g a n).1 = .ok r ∧
      get_value (get_points_to_set g a n).2.nodeForest r = .ok R ∧
      R = pointsToLoop n E ∧
      (∀ d, d ∈ R ↔ hasEdge E n d) ∧
      (∀ d, n < 2 ^ 32 → d < 2 ^ 32 → (d ∈ R ↔ signedValue (n * 2 ^ 32 + d) ∈ E)) ∧
      (∀ graph d p, n < 2 ^ 32 → d < 2 ^ 32 → getEdgeProperty graph (n, d) = .ok p →
        (d ∈ R ↔ signedValue p ∈ E)) ∧
      R.Pairwise (· < ·) ∧
      (get_points_to_set g a n).2.edgeForest = g.edgeForest ∧
      (AscendingStore g.nodeForest →
        AscendingStore (get_points_to_set g a n).2.nodeForest) := by
  obtain ⟨r, g1, heq, hef, _, _, hR, hnf⟩ := get_points_to_set_spec g hn.inv a E hE n
  have hmem := mem_pointsToLoop_iff E hrange n
  have hsorted := pointsToLoop_pairwise n E hrange hasc
  have hpack : ∀ d, n < 2 ^ 32 → d < 2 ^ 32 →
      (d ∈ pointsToLoop n E ↔ signedValue (n * 2 ^ 32 + d) ∈ E) := by
    intro d h1 h2
    rw [hmem d]
    exact ⟨fun h => h.2.2, fun h => ⟨h1, h2, h⟩⟩
  rw [heq]
  refine ⟨r, pointsToLoop n E, rfl, get_value_of_getElem? r _ hR, rfl, hmem, hpack, ?_, hsorted,
    hef, ?_⟩
  · intro graph d p h1 h2 hp
    have hmemg : (n, d) ∈ graph := by
      by_contra hno
      rw [getEdgeProperty_of_not_mem graph _ hno] at hp
      cases hp
    rw [getEdgeProperty_of_mem graph n d h1 h2 hmemg] at hp
    rw [← Except.ok.inj hp]
    exact hpack d h1 h2
  · intro hstore
    show AscendingStore g1.nodeForest
    rw [hnf]
    exact register_set_ascending hstore _ hsorted

/-- C34 witness: the edges `(1, 2)`, `(2, 3)`, `(2, 4)` at edge index `5` and
the node `2`: the query returns node index `1`, which holds `3, 4`. -/
theorem C34_direct_points_to_witness :
    Reachable chainGraph.nodeForest ∧
    get_value chainGraph.edgeForest 5 = .ok [4294967298, 8589934595, 8589934596] ∧
    (get_points_to_set chainGraph 5 2).1 = .ok 1 ∧
    get_value (get_points_to_set chainGraph 5 2).2.nodeForest 1 = .ok [3, 4] ∧
    ∃ r R, (get_points_to_set chainGraph 5 2).1 = .ok r ∧
      get_value (get_points_to_set chainGraph 5 2).2.nodeForest r = .ok R ∧
      R = pointsToLoop 2 [4294967298, 8589934595, 8589934596] ∧
      (∀ d, d ∈ R ↔ hasEdge [4294967298, 8589934595, 8589934596] 2 d) ∧
      R.Pairwise (· < ·) :=
  have h := C34_direct_points_to chainGraph Reachable.new 5
    [4294967298, 8589934595, 8589934596] (by decide) (by decide) (by decide) 2
  ⟨Reachable.new, by decide, by decide, by decide, h.choose, h.choose_spec.choose,
    h.choose_spec.choose_spec.1, h.choose_spec.choose_spec.2.1,
    h.choose_spec.choose_spec.2.2.1, h.choose_spec.choose_spec.2.2.2.1,
    h.choose_spec.choose_spec.2.2.2.2.2.2.1⟩

/-- C35, what the code does: with a node forest reachable from a fresh one and
an edge index `a` whose stored edge set `E` is a strictly ascending sequence
of `long long` numbers, `get_points_to_set(a, n, k)` returns `EMPTY_SET` for
`k = 0` and leaves everything as it was, and for `k = 1` it does what
`get_points_to_set(a, n)` does. For `k ≥ 1` it returns an index whose stored
set, strictly ascending, holds exactly the nodes at the end of a path of `k`
edges of `E` from `n`, provided that `k < 2^31` or that some length from `1` to
`2^31` has no path from `n`, whether the loop ends early or not. For `k ≥ 2^31`
with a path from `n` of every length from `1` to `2^31`, the `int` counter of
the loop is incremented at `2^31 - 1`, which overflows, and nothing is
returned. -/
theorem C35_points_to_depth (g : BaseGraphAPI) (hn : Reachable g.nodeForest) (a : Index)
    (E : List Int) (hE : get_value g.edgeForest a = .ok E) (hasc : E.Pairwise (· < ·))
    (hrange : ∀ v ∈ E, -2 ^ 63 ≤ v ∧ v < 2 ^ 63) (n : Nat) :
    get_points_to_set_depth g a n 0 = (.returned EMPTY_SET, g) ∧
    (∃ r, (get_points_to_set g a n).1 = .ok r ∧
      get_points_to_set_depth g a n 1 = (.returned r, (get_points_to_set g a n).2)) ∧
    (∀ k, 1 ≤ k →
      (k < 2 ^ 31 ∨ ∃ j, 1 ≤ j ∧ j ≤ 2 ^ 31 ∧ ∀ d, ¬ reachExactly E n j d) →
      ∃ r R, (get_points_to_set_depth g a n k).1 = .returned r ∧
        get_value (get_points_to_set_depth g a n k).2.nodeForest r = .ok R ∧
        R.Pairwise (· < ·) ∧ ∀ d, d ∈ R ↔ reachExactly E n k d) ∧
    (∀ k, 2 ^ 31 ≤ k → (∀ j, 1 ≤ j → j ≤ 2 ^ 31 → ∃ d, reachExactly E n j d) →
      (get_points_to_set_depth g a n k).1 = .intOverflow) := by
  have hinv := hn.inv
  refine ⟨rfl, ?_, ?_, ?_⟩
  · obtain ⟨r, g1, heq, _⟩ := get_points_to_set_spec g hinv a E hE n
    refine ⟨r, by rw [heq], ?_⟩
    unfold get_points_to_set_depth
    rw [if_neg (by omega), heq]
    unfold depthLoop
    rw [if_neg (by omega)]
  · intro k hk hcond
    obtain ⟨out, g1, heq, _, _, _, hout⟩ :=
      get_points_to_set_depth_spec g hinv a E hE hrange n k hk
    rw [heq]
    rcases hout with ⟨r, R, h1, h2, h3, h4, _⟩ | ⟨_, h2, h3⟩
    · exact ⟨r, R, h1, get_value_of_getElem? r R h2, h4 hasc, h3⟩
    · exfalso
      rcases hcond with hlt | ⟨j, hj1, hj2, hj3⟩
      · omega
      · by_cases hj : j = 1
        · obtain ⟨d, hd⟩ := h3 2 (by omega) (by omega)
          exact reachExactly_none E n j hj3 2 (by omega) d hd
        · obtain ⟨d, hd⟩ := h3 j (by omega) hj2
          exact hj3 d hd
  · intro k hk hall
    obtain ⟨out, g1, heq, _, _, _, hout⟩ :=
      get_points_to_set_depth_spec g hinv a E hE hrange n k (by omega)
    rw [heq]
    rcases hout with ⟨_, _, _, _, _, _, h5⟩ | ⟨h1, _, _⟩
    · exfalso
      rcases h5 with h5 | ⟨j, hj1, hj2, _, hj4⟩
      · omega
      · obtain ⟨d, hd⟩ := hall j (by omega) hj2
        exact hj4 d hd
    · exact h1

/-- C35 witness: with the edges `(1, 2)`, `(2, 3)`, `(2, 4)` at edge index `5`,
the query from node `1` at depth `2` returns node index `2`, which holds `3, 4`.
With the loop `(1, 1)` at edge index `1`, the query from node `1` at depth
`2^31` overflows the counter. -/
theorem C35_points_to_depth_witness :
    (Reachable chainGraph.nodeForest ∧
      get_value chainGraph.edgeForest 5 = .ok [4294967298, 8589934595, 8589934596] ∧
      get_points_to_set_depth chainGraph 5 1 0 = (.returned EMPTY_SET, chainGraph) ∧
      (get_points_to_set_depth chainGraph 5 1 2).1 = .returned 2 ∧
      get_value (get_points_to_set_depth chainGraph 5 1 2).2.nodeForest 2 = .ok [3, 4] ∧
      ∃ r R, (get_points_to_set_depth chainGraph 5 1 2).1 = .returned r ∧
        get_value (get_points_to_set_depth chainGraph 5 1 2).2.nodeForest r = .ok R ∧
        R.Pairwise (· < ·) ∧
        ∀ d, d ∈ R ↔ reachExactly [4294967298, 8589934595, 8589934596] 1 2 d) ∧
    (Reachable loopGraph.nodeForest ∧ get_value loopGraph.edgeForest 1 = .ok [4294967297] ∧
      (get_points_to_set loopGraph 1 1).1 = .ok 1 ∧
      (get_points_to_set_depth loopGraph 1 1 3).1 = .returned 1 ∧
      (get_points_to_set_depth loopGraph 1 1 (2 ^ 31)).1 = .intOverflow) := by
  have h := C35_points_to_depth chainGraph Reachable.new 5
    [4294967298, 8589934595, 8589934596] (by decide) (by decide) (by decide) 1
  have h2 := C35_points_to_depth loopGraph Reachable.new 1 [4294967297] (by decide)
    (by decide) (by decide) 1
  have h3 := h.2.2.1 2 (by decide) (Or.inl (by simp))
  have h4 := h2.2.2.2 (2 ^ 31) (Nat.le_refl _)
    (fun j _ _ => ⟨1, reachExactly_self_loop [4294967297] 1 (by decide) j⟩)
  refine ⟨⟨Reachable.new, by decide, h.1, by decide, by decide, ?_⟩,
    ⟨Reachable.new, by decide, by decide, by decide, ?_⟩⟩
  · exact h3
  · exact h4

/-- C36: in a state reachable from a fresh forest in which every stored set is
strictly ascending, every stored set is strictly ascending again after a call
of `register_set_single`, `set_union`, `set_intersection`, `set_difference`,
`set_insert_single`, `set_remove_single` or `set_filter`, whatever the
arguments are, and after a call of `register_set` with a strictly ascending
sequence. -/
theorem C36_sortedness_preserved (s : LatticeHashForest α) (hs : Reachable s)
    (hasc : AscendingStore s) (a b : Index) (e : α) (pred : α → Bool)
    (cache : List (Index × Index)) :
    AscendingStore (register_set_single s e).2.2 ∧
    AscendingStore (set_union s a b).2 ∧
    AscendingStore (set_intersection s a b).2 ∧
    AscendingStore (set_difference s a b).2 ∧
    AscendingStore (set_insert_single s a e).2 ∧
    AscendingStore (set_remove_single s a e).2 ∧
    AscendingStore (set_filter s a pred cache).2.1 ∧
    ∀ c : List α, c.Pairwise (· < ·) → AscendingStore (register_set s c).2.2 := by
  have hinv := hs.inv
  have hsingle : AscendingStore (register_set s [e]).2.2 :=
    register_set_ascending hasc [e] (List.pairwise_singleton _ e)
  have hinv1 : Inv (register_set s [e]).2.2 := (register_set_spec hinv [e]).1
  refine ⟨hsingle, set_union_ascending hinv hasc a b, set_intersection_ascending hinv hasc a b,
    set_difference_ascending hinv hasc a b, ?_, ?_, set_filter_ascending hinv hasc a pred cache,
    fun c hc => register_set_ascending hasc c hc⟩
  · rw [set_insert_single_eq]
    exact set_union_ascending hinv1 hsingle a _
  · rw [set_remove_single_eq]
    exact set_difference_ascending hinv1 hsingle a _

/-- C36 witness: the forest holding `1, 2, 3` and `2`, with the operands `1`
and `2`, the element `5` and the filter that keeps the odd elements. -/
theorem C36_sortedness_preserved_witness :
    Reachable sortedForest ∧ AscendingStore sortedForest ∧
    AscendingStore (set_union sortedForest 1 2).2 ∧
    AscendingStore (set_insert_single sortedForest 1 5).2 ∧
    AscendingStore (set_filter sortedForest 1 (fun x => decide (x % 2 = 1)) []).2.1 :=
  have h := C36_sortedness_preserved sortedForest sortedForest_reachable (by decide) 1 2 5
    (fun x => decide (x % 2 = 1)) []
  ⟨sortedForest_reachable, by decide, h.2.1, h.2.2.2.2.1, h.2.2.2.2.2.2.1⟩

/-- C37 counterexample: the forest after `register_set` of the vectors `3, 1`
and `1, 3` is reachable and stores them at the indices `1` and `2`. Every
element of the first is in the second, so their difference has no elements,
but `set_difference(1, 2)` returns the new index `3`, which holds `1`, and
`is_empty(3)` is false. With a caller cache that maps `1` to `2`, the filter
that rejects everything returns index `2` for index `1`. -/
theorem C37_counterexample :
    Reachable swappedForest ∧
    get_value swappedForest 1 = .ok [3, 1] ∧ get_value swappedForest 2 = .ok [1, 3] ∧
    (∀ x : Nat, x ∈ [3, 1] → x ∈ [1, 3]) ∧
    (set_difference swappedForest 1 2).1 = .ok 3 ∧
    get_value (set_difference swappedForest 1 2).2 3 = .ok [1] ∧
    is_empty 3 = false ∧
    (set_filter swappedForest 1 (fun _ => false) [(1, 2)]).1 = .ok 2 :=
  ⟨Reachable.register_set [1, 3] (Reachable.register_set [3, 1] fresh_reachable),
    by decide, by decide, by decide, by decide, by decide, by decide, by decide⟩

/-- C37, amended: in a state reachable from a fresh forest and for a valid
index `i` holding the set `V`, `is_empty(i)` is true exactly when `i = 0`, and
`i = 0` exactly when `V` has no elements. These operations, whose result has
no elements, return index `0`: the intersection of two stored sets without a
common element, in either order; the difference of two strictly ascending
stored sets the first of which lies within the second; and a filter whose
predicate rejects every element of `V`, run with a caller cache that holds
nothing for `i`. -/
theorem C37_is_empty_agrees (s : LatticeHashForest α) (hs : Reachable s) (i : Index)
    (V : List α) (hV : get_value s i = .ok V) :
    (is_empty i = true ↔ i = EMPTY_SET) ∧ (i = EMPTY_SET ↔ V = []) ∧
    (is_empty i = true ↔ V.length = 0) ∧
    (∀ (b : Index) (B : List α), get_value s b = .ok B → (∀ x, x ∈ V → x ∉ B) →
      (set_intersection s i b).1 = .ok EMPTY_SET ∧
      (set_intersection s b i).1 = .ok EMPTY_SET) ∧
    (∀ (b : Index) (B : List α), get_value s b = .ok B → V.Pairwise (· < ·) →
      B.Pairwise (· < ·) → (∀ x, x ∈ V → x ∈ B) →
      (set_difference s i b).1 = .ok EMPTY_SET) ∧
    (∀ (pred : α → Bool) (cache : List (Index × Index)),
      mapFind (fun x y => decide (x = y)) cache i = none → (∀ x, x ∈ V → pred x = false) →
      (set_filter s i pred cache).1 = .ok EMPTY_SET) := by
  have hinv := hs.inv
  have hV1 := getElem?_of_get_value hinv i V hV
  have h0 : i = EMPTY_SET ↔ V = [] := by
    constructor
    · intro h
      rw [h] at hV1
      have := hinv.empty_first
      change s.property_sets[0]? = some V at hV1
      rw [this] at hV1
      cases hV1
      rfl
    · intro h
      rw [h] at hV1
      exact hinv.eq_zero_of_nil i hV1
  have hemp : is_empty i = true ↔ i = EMPTY_SET := by
    unfold is_empty
    exact decide_eq_true_iff
  refine ⟨hemp, h0, ?_, ?_, ?_, ?_⟩
  · rw [hemp, h0]
    exact List.length_eq_zero.symm
  · intro b B hB hdisj
    have hB1 := getElem?_of_get_value hinv b B hB
    constructor
    · obtain ⟨r, s1, R, heq, hs1, _, hR, hcase⟩ := set_intersection_struct hinv i b V B hV1 hB1
      have hnil : R = [] := by
        rcases hcase with h | ⟨h, hsub⟩ | ⟨h, hsub⟩
        · rw [h]
          apply List.eq_nil_iff_forall_not_mem.mpr
          intro x hx
          obtain ⟨hx1, hx2⟩ := mem_interMerge_imp V B x hx
          exact hdisj x hx1 hx2
        · rw [h]
          apply List.eq_nil_iff_forall_not_mem.mpr
          intro x hx
          exact hdisj x hx (hsub hx)
        · rw [h]
          apply List.eq_nil_iff_forall_not_mem.mpr
          intro x hx
          exact hdisj x (hsub hx) hx
      rw [hnil] at hR
      rw [heq]
      exact congrArg Except.ok (hs1.eq_zero_of_nil r hR)
    · obtain ⟨r, s1, R, heq, hs1, _, hR, hcase⟩ := set_intersection_struct hinv b i B V hB1 hV1
      have hnil : R = [] := by
        rcases hcase with h | ⟨h, hsub⟩ | ⟨h, hsub⟩
        · rw [h]
          apply List.eq_nil_iff_forall_not_mem.mpr
          intro x hx
          obtain ⟨hx1, hx2⟩ := mem_interMerge_imp B V x hx
          exact hdisj x hx2 hx1
        · rw [h]
          apply List.eq_nil_iff_forall_not_mem.mpr
          intro x hx
          exact hdisj x (hsub hx) hx
        · rw [h]
          apply List.eq_nil_iff_forall_not_mem.mpr
          intro x hx
          exact hdisj x hx (hsub hx)
      rw [hnil] at hR
      rw [heq]
      exact congrArg Except.ok (hs1.eq_zero_of_nil r hR)
  · intro b B hB hVs hBs hsub
    have hB1 := getElem?_of_get_value hinv b B hB
    obtain ⟨r, s1, heq, hs1, _, hR⟩ := set_difference_struct hinv i b V B hV1 hB1
    have hnil : diffMerge V B = [] := by
      apply List.eq_nil_iff_forall_not_mem.mpr
      intro x hx
      exact ((mem_diffMerge_iff V B hVs hBs x).mp hx).2 (hsub x ((mem_diffMerge_iff V B hVs hBs x).mp hx).1)
    rw [hnil] at hR
    rw [heq]
    exact congrArg Except.ok (hs1.eq_zero_of_nil r hR)
  · intro pred cache hc hrej
    by_cases hi : i = EMPTY_SET
    · rw [hi]
      unfold set_filter
      rw [show indexInvalid s EMPTY_SET = false from indexInvalid_zero s]
      rfl
    · have hvalid := indexInvalid_of_getElem? i V hV1
      have hfil : V.filter pred = [] := by
        apply List.filter_eq_nil_iff.mpr
        intro x hx
        rw [hrej x hx]
        exact Bool.false_ne_true
      have hfind : mapFind SetEqual s.property_set_map [] = some 0 :=
        (find_eq_some_iff hinv.nodup hinv.map_matches [] 0).mpr hinv.empty_first
      unfold set_filter
      rw [hvalid, is_empty_eq_false i hi, hc, hV]
      simp only [Bool.false_eq_true, if_false]
      rw [hfil, register_set_of_some s [] 0 hfind]
      rfl

/-- C37 witness: index `1` of the forest holding `1, 2, 3` and `4, 5`. The
intersection with the set at index `2` and the filter that rejects everything
return index `0`. -/
theorem C37_is_empty_agrees_witness :
    Reachable disjointForest ∧ get_value disjointForest 1 = .ok [1, 2, 3] ∧
    is_empty 1 = false ∧
    (set_intersection disjointForest 1 2).1 = .ok EMPTY_SET ∧
    (set_filter disjointForest 1 (fun _ => false) []).1 = .ok EMPTY_SET :=
  have h := C37_is_empty_agrees disjointForest disjointForest_reachable 1 [1, 2, 3] (by decide)
  ⟨disjointForest_reachable, by decide, by decide,
    (h.2.2.2.1 2 [4, 5] (by decide) (by decide)).1,
    h.2.2.2.2.2 (fun _ => false) [] (by decide) (fun _ _ => rfl)⟩

/-- C38 counterexample: the forest holding `1, 2, 3` and `2` stores three sets
and index `1` is valid; with a caller cache that maps `1` to `999`,
`set_filter` returns `999`, which is not smaller than the number of sets stored
after the call, and `get_value` raises the invalid index error on it. -/
theorem C38_counterexample :
    Reachable sortedForest ∧ indexInvalid sortedForest 1 = false ∧
    (set_filter sortedForest 1 (fun _ => true) [(1, 999)]).1 = .ok 999 ∧
    (set_filter sortedForest 1 (fun _ => true) [(1, 999)]).2.1.property_sets.length = 3 ∧
    get_value (set_filter sortedForest 1 (fun _ => true) [(1, 999)]).2.1 999 =
      .error .invalidIndex :=
  ⟨sortedForest_reachable, by decide, by decide, by decide, by decide⟩

/-- C38, amended: in a state reachable from a fresh forest, every index stored
as a key component or value of the union, intersection and difference caches,
as a key component of the subset cache or as a value of the property set map
is smaller than the number of stored sets. `set_union`, `set_intersection` and
`set_difference` on valid indices, `set_insert_single` and `set_remove_single`
on a valid index and `register_set_single` return an index smaller than the
number of sets stored after the call, on which `get_value` succeeds there.
`set_filter` on a valid index does so when every value of the caller cache is
smaller than the number of stored sets, and the cache it hands back has that
property for the store after the call. -/
theorem C38_index_closure (s : LatticeHashForest α) (hs : Reachable s) :
    (∀ a b r, mapFind OperationNode.eq s.unions ⟨a, b⟩ = some r →
      a < s.property_sets.length ∧ b < s.property_sets.length ∧ r < s.property_sets.length) ∧
    (∀ a b r, mapFind OperationNode.eq s.intersections ⟨a, b⟩ = some r →
      a < s.property_sets.length ∧ b < s.property_sets.length ∧ r < s.property_sets.length) ∧
    (∀ a b r, mapFind OperationNode.eq s.differences ⟨a, b⟩ = some r →
      a < s.property_sets.length ∧ b < s.property_sets.length ∧ r < s.property_sets.length) ∧
    (∀ x y rel, mapFind OperationNode.eq s.subsets ⟨x, y⟩ = some rel →
      x < s.property_sets.length ∧ y < s.property_sets.length) ∧
    (∀ c i, (c, i) ∈ s.property_set_map → i < s.property_sets.length) ∧
    (∀ a b, pairInvalid s a b = false →
      (∃ r R, (set_union s a b).1 = .ok r ∧ r < (set_union s a b).2.property_sets.length ∧
        get_value (set_union s a b).2 r = .ok R) ∧
      (∃ r R, (set_intersection s a b).1 = .ok r ∧
        r < (set_intersection s a b).2.property_sets.length ∧
        get_value (set_intersection s a b).2 r = .ok R) ∧
      (∃ r R, (set_difference s a b).1 = .ok r ∧
        r < (set_difference s a b).2.property_sets.length ∧
        get_value (set_difference s a b).2 r = .ok R)) ∧
    (∀ a e, indexInvalid s a = false →
      (∃ r R, (set_insert_single s a e).1 = .ok r ∧
        r < (set_insert_single s a e).2.property_sets.length ∧
        get_value (set_insert_single s a e).2 r = .ok R) ∧
      (∃ r R, (set_remove_single s a e).1 = .ok r ∧
        r < (set_remove_single s a e).2.property_sets.length ∧
        get_value (set_remove_single s a e).2 r = .ok R)) ∧
    (∀ e, (register_set_single s e).1 < (register_set_single s e).2.2.property_sets.length ∧
      get_value (register_set_single s e).2.2 (register_set_single s e).1 = .ok [e]) ∧
    (∀ i pred cache, indexInvalid s i = false →
      (∀ k r, mapFind (fun x y => decide (x = y)) cache k = some r →
        r < s.property_sets.length) →
      ∃ r R, (set_filter s i pred cache).1 = .ok r ∧
        r < (set_filter s i pred cache).2.1.property_sets.length ∧
        get_value (set_filter s i pred cache).2.1 r = .ok R ∧
        ∀ k v, mapFind (fun x y => decide (x = y)) (set_filter s i pred cache).2.2 k = some v →
          v < (set_filter s i pred cache).2.1.property_sets.length) := by
  have hinv := hs.inv
  have hexact : ∀ (f : List α → List α → List α) (m : List (OperationNode × Index)),
      ExactCache f s.property_sets m → ∀ a b r, mapFind OperationNode.eq m ⟨a, b⟩ = some r →
      a < s.property_sets.length ∧ b < s.property_sets.length ∧ r < s.property_sets.length := by
    intro f m hm a b r h
    obtain ⟨A, B, hA, hB, hR⟩ := hm a b r h
    exact ⟨lt_length_of_getElem? _ _ _ hA, lt_length_of_getElem? _ _ _ hB,
      lt_length_of_getElem? _ _ _ hR⟩
  refine ⟨hexact _ _ hinv.unions_exact, hexact _ _ hinv.intersections_exact,
    hexact _ _ hinv.differences_exact, ?_, ?_, ?_, ?_, ?_, ?_⟩
  · intro x y rel h
    obtain ⟨_, X, Y, hX, hY, _⟩ := hinv.subsets_sound x y rel h
    exact ⟨lt_length_of_getElem? _ _ _ hX, lt_length_of_getElem? _ _ _ hY⟩
  · intro c i h
    exact lt_length_of_getElem? _ _ _ ((hinv.map_matches c i).mp h)
  · intro a b hv
    refine ⟨?_, ?_, ?_⟩
    · rcases set_union_ok_or_invalid hinv a b with ⟨⟨r, R, h, hR⟩, _⟩ | ⟨_, h⟩
      · exact ⟨r, R, h, lt_length_of_getElem? _ _ _ hR, get_value_of_getElem? r R hR⟩
      · rw [hv] at h
        cases h
    · rcases set_intersection_ok_or_invalid hinv a b with ⟨⟨r, R, h, hR⟩, _⟩ | ⟨_, h⟩
      · exact ⟨r, R, h, lt_length_of_getElem? _ _ _ hR, get_value_of_getElem? r R hR⟩
      · rw [hv] at h
        cases h
    · rcases set_difference_ok_or_invalid hinv a b with ⟨⟨r, R, h, hR⟩, _⟩ | ⟨_, h⟩
      · exact ⟨r, R, h, lt_length_of_getElem? _ _ _ hR, get_value_of_getElem? r R hR⟩
      · rw [hv] at h
        cases h
  · intro a e hv
    have hinv1 : Inv (register_set s [e]).2.2 := (register_set_spec hinv [e]).1
    have hv1 := pairInvalid_register_set hinv [e] a hv
    have hS := set_union_ok_or_invalid hinv1 a (register_set s [e]).1
    have hR := set_difference_ok_or_invalid hinv1 a (register_set s [e]).1
    rw [← set_insert_single_eq] at hS
    rw [← set_remove_single_eq] at hR
    refine ⟨?_, ?_⟩
    · rcases hS with ⟨⟨r, R, h, hR⟩, _⟩ | ⟨_, h⟩
      · exact ⟨r, R, h, lt_length_of_getElem? _ _ _ hR, get_value_of_getElem? r R hR⟩
      · rw [hv1] at h
        cases h
    · rcases hR with ⟨⟨r, R, h, hR⟩, _⟩ | ⟨_, h⟩
      · exact ⟨r, R, h, lt_length_of_getElem? _ _ _ hR, get_value_of_getElem? r R hR⟩
      · rw [hv1] at h
        cases h
  · intro e
    obtain ⟨_, h2, _⟩ := register_set_spec hinv [e]
    rw [register_set_single_eq]
    exact ⟨lt_length_of_getElem? _ _ _ h2, get_value_of_getElem? _ _ h2⟩
  · intro i pred cache hv hcache
    obtain ⟨r, R, h, hR, hc⟩ := set_filter_closed hinv i pred cache hv hcache
    exact ⟨r, R, h, lt_length_of_getElem? _ _ _ hR, get_value_of_getElem? r R hR, hc⟩

/-- C38 witness: the forest holding `1, 2, 3` and `2, 3, 4`; the union of the
two sets returns the new index `3` of a store of four sets, and the filter
that keeps the odd elements of the set at index `1`, run with an empty cache,
returns an index on which `get_value` succeeds. -/
theorem C38_index_closure_witness :
    Reachable overlapForest ∧ pairInvalid overlapForest 1 2 = false ∧
    (∃ r R, (set_union overlapForest 1 2).1 = .ok r ∧
      r < (set_union overlapForest 1 2).2.property_sets.length ∧
      get_value (set_union overlapForest 1 2).2 r = .ok R) ∧
    (∃ r R, (set_filter overlapForest 1 (fun x => decide (x % 2 = 1)) []).1 = .ok r ∧
      r < (set_filter overlapForest 1 (fun x => decide (x % 2 = 1)) []).2.1.property_sets.length ∧
      get_value (set_filter overlapForest 1 (fun x => decide (x % 2 = 1)) []).2.1 r = .ok R ∧
      ∀ k v, mapFind (fun x y => decide (x = y))
          (set_filter overlapForest 1 (fun x => decide (x % 2 = 1)) []).2.2 k = some v →
        v < (set_filter overlapForest 1 (fun x => decide (x % 2 = 1)) []).2.1.property_sets.length) :=
  have h := C38_index_closure overlapForest overlapForest_reachable
  ⟨overlapForest_reachable, by decide, (h.2.2.2.2.2.1 1 2 (by decide)).1,
    h.2.2.2.2.2.2.2.2 1 (fun x => decide (x % 2 = 1)) [] (by decide)
      (fun k r hk => by simp [mapFind] at hk)⟩

/-- C39, what the code does: `OperationNode::operator<` is irreflexive, and on
pairs with the same left index, or with the same right index, it is the order
of the other index. It is not asymmetric: `(1, 2) < (2, 1)` and
`(2, 1) < (1, 2)` both hold. It is not transitive either: from these two,
`(1, 2) < (1, 2)` would follow. -/
theorem C39_operator_lt_not_strict :
    (∀ p : OperationNode, OperationNode.lt p p = false) ∧
    (∀ l x y : Index, OperationNode.lt ⟨l, x⟩ ⟨l, y⟩ = decide (x < y)) ∧
    (∀ x y r : Index, OperationNode.lt ⟨x, r⟩ ⟨y, r⟩ = decide (x < y)) ∧
    (OperationNode.lt ⟨1, 2⟩ ⟨2, 1⟩ = true ∧ OperationNode.lt ⟨2, 1⟩ ⟨1, 2⟩ = true) ∧
    ¬ (∀ p q : OperationNode, OperationNode.lt p q = true → OperationNode.lt q p = false) ∧
    ¬ (∀ p q r : OperationNode, OperationNode.lt p q = true → OperationNode.lt q r = true →
      OperationNode.lt p r = true) := by
  refine ⟨?_, ?_, ?_, ⟨by decide, by decide⟩, ?_, ?_⟩
  · intro p
    simp [OperationNode.lt]
  · intro l x y
    simp [OperationNode.lt]
  · intro x y r
    simp [OperationNode.lt]
  · intro h
    exact absurd (h ⟨1, 2⟩ ⟨2, 1⟩ (by decide)) (by decide)
  · intro h
    exact absurd (h ⟨1, 2⟩ ⟨2, 1⟩ ⟨1, 2⟩ (by decide) (by decide)) (by decide)

end Claims

end lhf
